import Mathlib

/-!
# liboco: intrusive containers

Shallow embedding of `intrusive_tree.h` and `intrusive_stack.h`.

Elements are identified by their address (a `Nat`); `0` is `NULL`.  The link
fields embedded in the elements are kept in a memory `mem : Nat → Link`.
Assertions of the source are modelled: a failed `assert` yields
`Err.assertion`.  Loops and recursions take a fuel argument and yield
`Err.fuel` when it runs out.
-/

namespace Oco

/-- Ways in which a run does not produce a value. -/
inductive Err where
  | assertion
  | fuel
  deriving DecidableEq, Repr

deriving instance DecidableEq for Except

/-- Result of running a piece of the source. -/
abbrev M := Except Err

/-- The source's `assert(b)`. -/
def check (b : Bool) : M Unit := if b then .ok () else .error Err.assertion

/-- The source's short-circuit `a && b`. -/
def andM (a b : M Bool) : M Bool := do
  if (← a) then b else pure false

/-- The source's short-circuit `a || b`. -/
def orM (a b : M Bool) : M Bool := do
  if (← a) then pure true else b

/-- The three raw pointers `p`, `l`, `r` of an `intrusive_tree_link`; the colour
is the low bit of `p`. -/
structure Link where
  p : Nat
  l : Nat
  r : Nat
  deriving DecidableEq, Repr

namespace Link

/-- `intrusive_tree_link::bound`. -/
def bound (k : Link) : M Bool := do
  check (k.p != 0 || (k.l == 0 && k.r == 0))
  pure (k.p != 0)

/-- `intrusive_tree_link::black`: `intptr_t(p.p) & 0x1`. -/
def black (k : Link) : Bool := k.p &&& 1 != 0

/-- `intrusive_tree_link::red`. -/
def red (k : Link) : Bool := !k.black

/-- `intrusive_tree_link::toggle`: `p.p ^ 0x1`. -/
def toggle (k : Link) : Link := { k with p := k.p ^^^ 1 }

/-- `intrusive_tree_link::up`: `p.p & ~0x1`, the raw pointer with bit 0 cleared. -/
def up (k : Link) : Nat := k.p / 2 * 2

end Link

/-- The container (`root_`) together with the memory holding the link field of
every element. -/
structure intrusive_tree where
  root_ : Nat
  mem : Nat → Link

/-- Memory write at one address. -/
def wr (m : Nat → Link) (n : Nat) (k : Link) : Nat → Link :=
  fun a => if a = n then k else m a

/-- Value of the static counter after `++i` (two's complement, 32 bit). -/
def incr (i : Int) : Int := if i + 1 ≥ 2147483648 then i + 1 - 4294967296 else i + 1

/-- A `T**`: the address of `root_`, of some element's `l.p` or of its `r.p`. -/
inductive Slot where
  | root
  | l (n : Nat)
  | r (n : Nat)

namespace intrusive_tree

/-- The store `(n->*link).p.p = v`. -/
def setp (s : intrusive_tree) (n v : Nat) : intrusive_tree :=
  { s with mem := wr s.mem n { s.mem n with p := v } }

/-- The store `(n->*link).l.p = v`. -/
def setl (s : intrusive_tree) (n v : Nat) : intrusive_tree :=
  { s with mem := wr s.mem n { s.mem n with l := v } }

/-- The store `(n->*link).r.p = v`. -/
def setr (s : intrusive_tree) (n v : Nat) : intrusive_tree :=
  { s with mem := wr s.mem n { s.mem n with r := v } }

/-- Read through a `T**`. -/
def get (s : intrusive_tree) : Slot → Nat
  | .root => s.root_
  | .l n => (s.mem n).l
  | .r n => (s.mem n).r

/-- Write through a `T**`. -/
def set (s : intrusive_tree) : Slot → Nat → intrusive_tree
  | .root, v => { s with root_ := v }
  | .l n, v => s.setl n v
  | .r n, v => s.setr n v

def empty (s : intrusive_tree) : Bool := s.root_ == 0

def is_red (s : intrusive_tree) (n : Nat) : Bool := n != 0 && (s.mem n).red

def is_black (s : intrusive_tree) (n : Nat) : Bool := n == 0 || (s.mem n).black

def is_bound (s : intrusive_tree) (n : Nat) : M Bool := do
  check (n != 0)
  (s.mem n).bound

def toggle (s : intrusive_tree) (n : Nat) : M intrusive_tree := do
  check (n != 0)
  pure { s with mem := wr s.mem n (s.mem n).toggle }

def parent_ (s : intrusive_tree) (n : Nat) : M Nat := do
  check (n != 0)
  pure (s.mem n).up

def left_ (s : intrusive_tree) (n : Nat) : M Nat := do
  check (n != 0)
  pure (s.mem n).l

def right_ (s : intrusive_tree) (n : Nat) : M Nat := do
  check (n != 0)
  pure (s.mem n).r

/-- The `while` loop of `eldest_`. -/
def eldest_loop (s : intrusive_tree) : Nat → Nat → M Nat
  | 0, _ => .error Err.fuel
  | fuel + 1, n => do
    let c ← s.parent_ n
    if c != 0 then eldest_loop s fuel c else pure n

def eldest_ (s : intrusive_tree) (fuel n : Nat) : M Nat := do
  check (n != 0)
  s.eldest_loop fuel n

/-- The `while` loop of `leftest_`. -/
def leftest_loop (s : intrusive_tree) : Nat → Nat → M Nat
  | 0, _ => .error Err.fuel
  | fuel + 1, n => do
    let c ← s.left_ n
    if c != 0 then leftest_loop s fuel c else pure n

def leftest_ (s : intrusive_tree) (fuel n : Nat) : M Nat := do
  check (n != 0)
  s.leftest_loop fuel n

/-- The `while` loop of `rightest_`. -/
def rightest_loop (s : intrusive_tree) : Nat → Nat → M Nat
  | 0, _ => .error Err.fuel
  | fuel + 1, n => do
    let c ← s.right_ n
    if c != 0 then rightest_loop s fuel c else pure n

def rightest_ (s : intrusive_tree) (fuel n : Nat) : M Nat := do
  check (n != 0)
  s.rightest_loop fuel n

def is_root (s : intrusive_tree) (n : Nat) : M Bool := do
  let p ← s.parent_ n
  check (p != 0 || n == s.root_)
  pure (!s.empty && n == s.root_)

def is_left (s : intrusive_tree) (n : Nat) : M Bool := do
  check (!(← s.is_root n))
  let p ← s.parent_ n
  let c ← s.left_ p
  pure (n == c)

def is_right (s : intrusive_tree) (n : Nat) : M Bool := do
  check (!(← s.is_root n))
  let p ← s.parent_ n
  let c ← s.right_ p
  pure (n == c)

def peer (s : intrusive_tree) (n : Nat) : M Nat := do
  check (!(← s.is_root n))
  if (← s.is_left n) then s.right_ (← s.parent_ n) else s.left_ (← s.parent_ n)

def is_member (s : intrusive_tree) (fuel n : Nat) : M Bool := do
  check (n != 0)
  if s.empty then pure false
  else do
    let e ← s.eldest_ fuel n
    pure (e == s.root_)

def link_parent (s : intrusive_tree) (p c : Nat) : M intrusive_tree := do
  check (c != 0)
  let black := s.is_black c
  let s := s.setp c p
  if black then s.toggle c else pure s

def link_root (s : intrusive_tree) (n : Nat) : M intrusive_tree := do
  let s := { s with root_ := n }
  if n != 0 then s.link_parent 0 n else pure s

def link_left (s : intrusive_tree) (p c : Nat) : M intrusive_tree := do
  check (p != 0)
  let s1 ← (do if c != 0 then s.link_parent p c else pure s)
  pure (s1.setl p c)

def link_right (s : intrusive_tree) (p c : Nat) : M intrusive_tree := do
  check (p != 0)
  let s1 ← (do if c != 0 then s.link_parent p c else pure s)
  pure (s1.setr p c)

def unlink (s : intrusive_tree) (fuel n : Nat) : M intrusive_tree := do
  check (n != 0)
  check (← s.is_member fuel n)
  check ((← s.left_ n) == 0)
  check ((← s.right_ n) == 0)
  let s1 ← (do
    if (← s.is_root n) then s.link_root 0
    else if (← s.is_left n) then s.link_left (← s.parent_ n) 0
    else s.link_right (← s.parent_ n) 0)
  let b := s1.is_black n
  let s2 := s1.setp n 0
  if b then s2.toggle n else pure s2

def rotate_left (s : intrusive_tree) (p : Nat) : M intrusive_tree := do
  let g ← s.parent_ p
  let n ← s.right_ p
  let c ← s.left_ n
  let s1 ← (do
    if (← s.is_root p) then s.link_root n
    else if (← s.is_left p) then s.link_left g n
    else s.link_right g n)
  let s2 ← s1.link_left n p
  s2.link_right p c

def rotate_right (s : intrusive_tree) (p : Nat) : M intrusive_tree := do
  let g ← s.parent_ p
  let n ← s.left_ p
  let c ← s.right_ n
  let s1 ← (do
    if (← s.is_root p) then s.link_root n
    else if (← s.is_left p) then s.link_left g n
    else s.link_right g n)
  let s2 ← s1.link_right n p
  s2.link_left p c

def root_swap (s : intrusive_tree) (n : Nat) : M intrusive_tree := do
  check (n != 0)
  let s1 ← (do
    if (← s.is_left n) then s.link_left (← s.parent_ n) s.root_
    else s.link_right (← s.parent_ n) s.root_)
  s1.link_root n

def left_swap (s : intrusive_tree) (foo bar : Nat) : M intrusive_tree := do
  let fc ← s.left_ foo
  let bc ← s.left_ bar
  let s1 ← s.link_left foo bc
  s1.link_left bar fc

def right_swap (s : intrusive_tree) (foo bar : Nat) : M intrusive_tree := do
  let fc ← s.right_ foo
  let bc ← s.right_ bar
  let s1 ← s.link_right foo bc
  s1.link_right bar fc

def parent_swap (s : intrusive_tree) (foo bar : Nat) : M intrusive_tree := do
  check (!(← s.is_root foo))
  check (!(← s.is_root bar))
  let fp ← s.parent_ foo
  let bp ← s.parent_ bar
  let fl ← s.is_left foo
  let bl ← s.is_left bar
  let s1 ← (do if fl then s.link_left fp bar else s.link_right fp bar)
  if bl then s1.link_left bp foo else s1.link_right bp foo

def node_swap (s : intrusive_tree) (foo bar : Nat) : M intrusive_tree := do
  let s1 ← (do
    if (← s.is_root foo) then s.root_swap bar
    else if (← s.is_root bar) then s.root_swap foo
    else s.parent_swap foo bar)
  let s2 ← (do
    if s1.is_black foo != s1.is_black bar then
      let s' ← s1.toggle bar
      s'.toggle foo
    else pure s1)
  let s3 ← s2.left_swap foo bar
  s3.right_swap foo bar

def take_left (s : intrusive_tree) (t : Nat) : M (Nat × intrusive_tree) := do
  let c ← s.left_ t
  check (c != 0)
  let s1 ← s.link_left t 0
  let s2 ← s1.link_parent 0 c
  pure (c, s2)

def take_right (s : intrusive_tree) (t : Nat) : M (Nat × intrusive_tree) := do
  let c ← s.right_ t
  check (c != 0)
  let s1 ← s.link_right t 0
  let s2 ← s1.link_parent 0 c
  pure (c, s2)

def replace (s : intrusive_tree) (fuel o n : Nat) : M intrusive_tree := do
  if (← s.is_root o) then
    let s1 ← s.unlink fuel o
    s1.link_root n
  else if (← s.is_left o) then
    let p ← s.parent_ o
    let s1 ← s.unlink fuel o
    s1.link_left p n
  else
    let p ← s.parent_ o
    let s1 ← s.unlink fuel o
    s1.link_right p n

def depth (s : intrusive_tree) : Nat → Nat → M Nat
  | 0, _ => .error Err.fuel
  | fuel + 1, t =>
    if t == 0 then pure 1
    else do
      let dl ← depth s fuel (← s.left_ t)
      let dr ← depth s fuel (← s.right_ t)
      check (dl == dr)
      pure ((if s.is_black t then 1 else 0) + dl)

/-- The recursive `valid(const T*)`; `lt a b` is `(a->*predicate)(*b)`. -/
def valid_at (lt : Nat → Nat → Bool) (s : intrusive_tree) : Nat → Nat → M Bool
  | 0, _ => .error Err.fuel
  | fuel + 1, t =>
    if t == 0 then pure true
    else do
      let l ← s.left_ t
      let r ← s.right_ t
      if s.is_red t && (l != 0 && !s.is_black l) then pure false
      else if s.is_red t && (r != 0 && !s.is_black r) then pure false
      else if l != 0 && lt t l then pure false
      else if r != 0 && lt r t then pure false
      else if (← valid_at lt s fuel l) then valid_at lt s fuel r
      else pure false

/-- The parameterless `valid()`. -/
def valid (lt : Nat → Nat → Bool) (s : intrusive_tree) (fuel : Nat) : M Bool := do
  if s.empty then pure true
  else if !s.is_black s.root_ then pure false
  else if (← s.depth fuel (← s.left_ s.root_)) != (← s.depth fuel (← s.right_ s.root_)) then
    pure false
  else s.valid_at lt fuel s.root_

/-- First loop of `insert`: the descent through `T** i`, then `*i = t`. -/
def insert_descend (lt : Nat → Nat → Bool) (t : Nat) :
    Nat → intrusive_tree → Slot → M intrusive_tree
  | 0, _, _ => .error Err.fuel
  | fuel + 1, s, i =>
    if s.get i != 0 then
      let s1 := s.setp t (s.get i)
      insert_descend lt t fuel s1 (if lt t (s1.get i) then Slot.l (s1.get i) else Slot.r (s1.get i))
    else pure (s.set i t)

/-- Second loop of `insert`: the bottom-up fixup, `while (true)`. -/
def insert_fixup : Nat → intrusive_tree → Nat → M intrusive_tree
  | 0, _, _ => .error Err.fuel
  | fuel + 1, s, n => do
    check (n != 0)
    let p ← s.parent_ n
    if p == 0 then
      check (s.is_red n)
      if s.is_red n then s.toggle n else pure s
    else if s.is_black p then pure s
    else do
      let g ← s.parent_ p
      if g == 0 then pure s
      else do
        let u ← s.peer p
        if u == 0 || s.is_black u then
          let (s1, n1, p1) ← (do
            if (← andM (s.is_right n) (s.is_left p)) then
              check (s.is_black g); check (s.is_red p); check (s.is_red n)
              let s' ← s.rotate_left p
              check (s'.is_black g); check (s'.is_red p); check (s'.is_red n)
              pure (s', p, n)
            else if (← andM (s.is_left n) (s.is_right p)) then
              check (s.is_black g); check (s.is_red p); check (s.is_red n)
              let s' ← s.rotate_right p
              check (s'.is_black g); check (s'.is_red p); check (s'.is_red n)
              pure (s', p, n)
            else pure (s, n, p))
          check (← orM (do pure (!(← s1.is_left n1))) (s1.is_left p1))
          check (← orM (do pure (!(← s1.is_right n1))) (s1.is_right p1))
          check (s1.is_black g); check (s1.is_red p1); check (s1.is_red n1)
          let s2 ← (do if (← s1.is_left n1) then s1.rotate_right g else s1.rotate_left g)
          let s3 ← s2.toggle g
          let s4 ← s3.toggle p1
          check (s4.is_red g); check (s4.is_black p1); check (s4.is_red n1)
          pure s4
        else do
          check (s.is_black g); check (s.is_red p); check (s.is_red u)
          let s1 ← s.toggle g
          let s2 ← s1.toggle p
          let s3 ← s2.toggle u
          insert_fixup fuel s3 g

def insert (lt : Nat → Nat → Bool) (s : intrusive_tree) (fuel t : Nat) : M intrusive_tree := do
  check (← s.valid lt fuel)
  check (!(← s.is_bound t))
  let s1 ← insert_descend lt t fuel s Slot.root
  check (s1.is_red t)
  let s2 ← insert_fixup fuel s1 t
  check (← s2.is_member fuel t)
  check (← s2.is_bound t)
  check (!s2.empty)
  check (← s2.valid lt fuel)
  pure s2

/-- The block `if (is_red(s)) { … }` of the loop in `remove` (red sibling); yields
the container and the values of `p` and `s` after it. -/
def remove_red_sibling (s : intrusive_tree) (n p0 b0 : Nat) :
    M (intrusive_tree × Nat × Nat) := do
  if s.is_red b0 then
    check (s.is_black p0)
    let sa ← s.toggle p0
    let sb ← sa.toggle b0
    let sc ← (do if (← sb.is_left n) then sb.rotate_left p0 else sb.rotate_right p0)
    let p' ← sc.parent_ n
    let b' ← sc.peer n
    pure (sc, p', b')
  else pure (s, p0, b0)

/-- The first statement of the block `if (is_red(p) || is_red(sl) || is_red(sr))`
of the loop in `remove`: a red near nephew with a black far nephew is rotated
to the far side. -/
def remove_near_nephew (s : intrusive_tree) (n b sl sr : Nat) : M intrusive_tree := do
  if (← andM (s.is_left n) (pure (s.is_black sr))) then
    check (s.is_red sl)
    let sa ← s.toggle b
    let sb ← sa.toggle sl
    sb.rotate_right b
  else if (← andM (s.is_right n) (pure (s.is_black sl))) then
    check (s.is_red sr)
    let sa ← s.toggle b
    let sb ← sa.toggle sr
    sb.rotate_left b
  else pure s

/-- The rest of the block `if (is_red(p) || is_red(sl) || is_red(sr))` of the
loop in `remove`, from `p = parent_(n)` to the `break`. -/
def remove_far_nephew (s : intrusive_tree) (n : Nat) : M intrusive_tree := do
  let p ← s.parent_ n
  let b ← s.peer n
  let sl ← s.left_ b
  let sr ← s.right_ b
  let s3 ← (do
    if s.is_red p then
      let sa ← s.toggle p
      if sa.is_black b then sa.toggle b else pure sa
    else pure s)
  if (← s3.is_left n) then
    let s4 ← (do if s3.is_red sr then s3.toggle sr else pure s3)
    s4.rotate_left p
  else
    let s4 ← (do if s3.is_red sl then s3.toggle sl else pure s3)
    s4.rotate_right p

/-- The loop body of `remove` from `T* sl = s ? left_(s) : NULL` on, with the
values of `p` and `s` at that point; yields the container and either the next
`n` (the loop goes on) or nothing (`break`). -/
def remove_rebalance (s1 : intrusive_tree) (n p b : Nat) :
    M (intrusive_tree × Option Nat) := do
  let sl ← (do if b != 0 then s1.left_ b else pure 0)
  let sr ← (do if b != 0 then s1.right_ b else pure 0)
  if s1.is_red p && s1.is_black b && s1.is_black sl && s1.is_black sr then
    check (b != 0)
    let s2 ← s1.toggle b
    let s3 ← s2.toggle p
    pure (s3, none)
  else if s1.is_red p || s1.is_red sl || s1.is_red sr then
    check (s1.is_black b)
    let s2 ← s1.remove_near_nephew n b sl sr
    let s3 ← s2.remove_far_nephew n
    pure (s3, none)
  else
    check (s1.is_black p)
    check (s1.is_black b)
    check (s1.is_black sl)
    check (s1.is_black sr)
    check (b != 0)
    let s2 ← s1.toggle b
    pure (s2, some p)

/-- One pass through the body of the loop `while (!is_root(n))` of `remove`. -/
def remove_step (s : intrusive_tree) (n : Nat) : M (intrusive_tree × Option Nat) := do
  let p0 ← s.parent_ n
  let b0 ← s.peer n
  let (s1, p, b) ← s.remove_red_sibling n p0 b0
  s1.remove_rebalance n p b

/-- The loop `while (!is_root(n))` of `remove`. -/
def remove_fixup : Nat → intrusive_tree → Nat → M intrusive_tree
  | 0, _, _ => .error Err.fuel
  | fuel + 1, s, n => do
    if (← s.is_root n) then pure s
    else
      let (s1, next) ← s.remove_step n
      match next with
      | none => pure s1
      | some p => remove_fixup fuel s1 p

/-- The body of `remove` from `assert(!left_(t) || !right_(t))` on; the element
returned is always `t`, so only the container is yielded. -/
def remove_tail (lt : Nat → Nat → Bool) (s1 : intrusive_tree) (fuel : Nat) (t : Nat) :
    M intrusive_tree := do
  check ((← s1.left_ t) == 0 || (← s1.right_ t) == 0)
  let (c, s2) ← (do
    if (← s1.left_ t) != 0 then s1.take_left t
    else if (← s1.right_ t) != 0 then s1.take_right t
    else pure (0, s1))
  let s3 ← (do if c != 0 then s2.replace fuel t c else pure s2)
  if s3.is_red t then
    if c == 0 then s3.unlink fuel t else pure s3
  else
    let s4 ← s3.toggle t
    if s4.is_red c then
      check (c != 0)
      s4.toggle c
    else
      let s5 ← remove_fixup fuel s4 (if c != 0 then c else t)
      let s6 ← (do if c == 0 then s5.unlink fuel t else pure s5)
      check (!(← s6.is_bound t))
      check (← s6.valid lt fuel)
      pure s6

/-- `remove`; `i` is the value of the function's `static int i` on entry, and
its value on exit is returned with the element and the container. -/
def remove (lt : Nat → Nat → Bool) (s : intrusive_tree) (fuel : Nat) (i : Int) (t : Nat) :
    M (Nat × Int × intrusive_tree) := do
  check (← s.valid lt fuel)
  check (!s.empty)
  check (← s.is_bound t)
  check (← s.is_member fuel t)
  let (i1, s1) ← (do
    if (← s.left_ t) != 0 && (← s.right_ t) != 0 then
      let bar ← (do
        if incr i % 2 != 0 then s.rightest_ fuel (← s.left_ t)
        else s.leftest_ fuel (← s.right_ t))
      let s' ← s.node_swap t bar
      pure (incr i, s')
    else pure (i, s))
  let s' ← remove_tail lt s1 fuel t
  pure (t, i1, s')

def root (s : intrusive_tree) : M Nat := do
  check (!s.empty)
  pure s.root_

def parent (s : intrusive_tree) (fuel n : Nat) : M Nat := do
  check (← s.is_member fuel n)
  s.parent_ n

def left (s : intrusive_tree) (fuel n : Nat) : M Nat := do
  check (← s.is_member fuel n)
  s.left_ n

def right (s : intrusive_tree) (fuel n : Nat) : M Nat := do
  check (← s.is_member fuel n)
  s.right_ n

def leftest (s : intrusive_tree) (fuel n : Nat) : M Nat := do
  check (← s.is_member fuel n)
  s.leftest_ fuel n

def rightest (s : intrusive_tree) (fuel n : Nat) : M Nat := do
  check (← s.is_member fuel n)
  s.rightest_ fuel n

def min (s : intrusive_tree) (fuel : Nat) : M Nat := do
  s.leftest fuel (← s.root)

def max (s : intrusive_tree) (fuel : Nat) : M Nat := do
  s.rightest fuel (← s.root)

/-- The `do … while (!is_root(n))` loop of `next`. -/
def next_loop (s : intrusive_tree) : Nat → Nat → M Nat
  | 0, _ => .error Err.fuel
  | fuel + 1, n => do
    let p ← s.parent_ n
    if (← s.is_left n) then pure p
    else if !(← s.is_root p) then next_loop s fuel p
    else pure 0

def next (s : intrusive_tree) (fuel n : Nat) : M Nat := do
  check (← s.is_member fuel n)
  let r ← s.right_ n
  if r != 0 then s.leftest_ fuel r else s.next_loop fuel n

/-- The `do … while (!is_root(n))` loop of `prev`. -/
def prev_loop (s : intrusive_tree) : Nat → Nat → M Nat
  | 0, _ => .error Err.fuel
  | fuel + 1, n => do
    let p ← s.parent_ n
    if (← s.is_right n) then pure p
    else if !(← s.is_root p) then prev_loop s fuel p
    else pure 0

def prev (s : intrusive_tree) (fuel n : Nat) : M Nat := do
  check (← s.is_member fuel n)
  let r ← s.left_ n
  if r != 0 then s.rightest_ fuel r else s.prev_loop fuel n

def swap (s that : intrusive_tree) : intrusive_tree × intrusive_tree :=
  ({ s with root_ := that.root_ }, { that with root_ := s.root_ })

end intrusive_tree

/-! ## `intrusive_stack.h` -/

/-- The stack (`head`) together with the memory holding the link pointer
`intrusive_link<X>::p` of every element. -/
structure intrusive_stack where
  head : Nat
  mem : Nat → Nat

/-- Write of one link pointer. -/
def wrp (m : Nat → Nat) (n v : Nat) : Nat → Nat :=
  fun a => if a = n then v else m a

/-- One call on a stack: `push(t)` or `pop()`. -/
inductive StackOp where
  | push (t : Nat)
  | pop
  deriving DecidableEq, Repr

namespace intrusive_stack

/-- The sentinel `reinterpret_cast<T*>(0xbad)`. -/
def bad : Nat := 0xbad

/-- The constructor: an empty stack over the given link memory. -/
def init (mem : Nat → Nat) : intrusive_stack := ⟨bad, mem⟩

/-- `intrusive_stack_link::bound` of the element `t`. -/
def bound (s : intrusive_stack) (t : Nat) : Bool := s.mem t != 0

def empty (s : intrusive_stack) : Bool := s.head == bad

def push (s : intrusive_stack) (t : Nat) : M intrusive_stack := do
  check (!s.bound t)
  let s1 : intrusive_stack := { head := t, mem := wrp s.mem t s.head }
  check (s1.bound t)
  check (!s1.empty)
  pure s1

def peek (s : intrusive_stack) : M Nat := do
  check (!s.empty)
  pure s.head

def pop (s : intrusive_stack) : M (Nat × intrusive_stack) := do
  check (!s.empty)
  let t := s.head
  check (s.bound t)
  let s1 : intrusive_stack := { head := s.mem t, mem := wrp s.mem t 0 }
  check (!s1.bound t)
  pure (t, s1)

/-- A sequence of calls; the elements returned by the `pop`s are collected in
call order. -/
def run : List StackOp → intrusive_stack → M (List Nat × intrusive_stack)
  | [], s => pure ([], s)
  | .push t :: ops, s => do
    let s1 ← s.push t
    run ops s1
  | .pop :: ops, s => do
    let (t, s1) ← s.pop
    let (out, s2) ← run ops s1
    pure (t :: out, s2)

end intrusive_stack

end Oco

namespace Oco

/-! ## Shapes: the tree a memory holds -/

/-- Raw value of a `p` pointer: the parent address with the colour in bit 0
(`c = true` is black). -/
def enc (par : Nat) (c : Bool) : Nat := par + (if c then 1 else 0)

/-- A binary tree of element addresses with a colour per node (`true` is black). -/
inductive RBT where
  | nil
  | node (l : RBT) (a : Nat) (c : Bool) (r : RBT)
  deriving DecidableEq, Repr

namespace RBT

/-- Address of the root node, `0` for the empty tree. -/
def addr : RBT → Nat
  | nil => 0
  | node _ a _ _ => a

/-- In-order traversal. -/
def inorder : RBT → List Nat
  | nil => []
  | node l a _ r => l.inorder ++ a :: r.inorder

/-- Colour of the root; the empty tree counts as black. -/
def isBlack : RBT → Bool
  | nil => true
  | node _ _ c _ => c

/-- Number of nodes. -/
def size : RBT → Nat
  | nil => 0
  | node l _ _ r => l.size + r.size + 1

/-- Number of nodes on the longest path from the root to a leaf. -/
def height : RBT → Nat
  | nil => 0
  | node l _ _ r => max l.height r.height + 1

/-- Black height along the left spine, a null leaf counting 1 (as `depth` does). -/
def bh : RBT → Nat
  | nil => 1
  | node l _ c _ => l.bh + (if c then 1 else 0)

/-- Equal black height on both sides of every node. -/
def balanced : RBT → Prop
  | nil => True
  | node l _ _ r => l.bh = r.bh ∧ l.balanced ∧ r.balanced

/-- No red node has a red child. -/
def noRedRed : RBT → Prop
  | nil => True
  | node l _ c r => (c = false → l.isBlack = true ∧ r.isBlack = true) ∧ l.noRedRed ∧ r.noRedRed

/-- The memory `m` holds the tree `t` below a node `par`: every node's link has
the parent and colour in `p` and the children's addresses in `l` and `r`. -/
def InMem (m : Nat → Link) : Nat → RBT → Prop
  | _, nil => True
  | par, node l a c r => m a = ⟨enc par c, l.addr, r.addr⟩ ∧ InMem m a l ∧ InMem m a r

end RBT

/-- The container `s` holds exactly the tree `t`: `root_` points at its root, the
links spell out `t`, and the nodes are distinct, non-null, even addresses. -/
structure Shape (s : intrusive_tree) (t : RBT) : Prop where
  root : s.root_ = t.addr
  rep : RBT.InMem s.mem 0 t
  nodup : t.inorder.Nodup
  ok : ∀ a ∈ t.inorder, a ≠ 0 ∧ a % 2 = 0

/-- The red-black colour invariants: black root, no red-red edge, equal black height. -/
def RBT.redBlack (t : RBT) : Prop := t.isBlack = true ∧ t.noRedRed ∧ t.balanced

/-- The in-order sequence is ordered by the predicate: no element is before an
earlier one. -/
def RBT.ordered (lt : Nat → Nat → Bool) (t : RBT) : Prop :=
  t.inorder.Pairwise (fun a b => lt b a = false)

/-- The in-order sequence is strictly increasing under the predicate. -/
def RBT.strictOrdered (lt : Nat → Nat → Bool) (t : RBT) : Prop :=
  t.inorder.Pairwise (fun a b => lt a b = true)

/-- The predicate is a strict weak order. -/
structure StrictWeak (lt : Nat → Nat → Bool) : Prop where
  irrefl : ∀ a, lt a a = false
  trans : ∀ a b c, lt a b = true → lt b c = true → lt a c = true
  ntrans : ∀ a b c, lt a b = false → lt b c = false → lt a c = false

/-- An element whose link is all null: unbound, red, no children. -/
def Unbound (s : intrusive_tree) (e : Nat) : Prop := s.mem e = ⟨0, 0, 0⟩

/-! ## Contexts: a tree with a hole -/

/-- One step from a node to its parent: the parent with the other subtree. -/
inductive Frame where
  | L (a : Nat) (c : Bool) (r : RBT)
  | R (l : RBT) (a : Nat) (c : Bool)
  deriving DecidableEq, Repr

namespace Frame

def addr : Frame → Nat
  | L a _ _ => a
  | R _ a _ => a

def color : Frame → Bool
  | L _ c _ => c
  | R _ _ c => c

/-- The subtree beside the hole. -/
def sib : Frame → RBT
  | L _ _ r => r
  | R l _ _ => l

def isL : Frame → Bool
  | L _ _ _ => true
  | R _ _ _ => false

/-- Addresses of the frame: its node and the sibling subtree. -/
def addrs : Frame → List Nat
  | L a _ r => a :: r.inorder
  | R l a _ => a :: l.inorder

/-- Put a tree into the hole of the frame. -/
def fill : Frame → RBT → RBT
  | L a c r, t => .node t a c r
  | R l a c, t => .node l a c t

/-- The frame with another colour. -/
def setColor : Frame → Bool → Frame
  | L a _ r, c => L a c r
  | R l a _, c => R l a c

/-- The frame with another sibling subtree. -/
def setSib : Frame → RBT → Frame
  | L a c _, t => L a c t
  | R _ a c, t => R t a c

/-- The frame seen from the sibling, when the hole holds `t`. -/
def flip : Frame → RBT → Frame
  | L a c _, t => R t a c
  | R _ a c, t => L a c t

end Frame

/-- Path from a hole up to the root, innermost frame first. -/
abbrev Ctx := List Frame

/-- Put a tree into the hole of a context. -/
def plug : RBT → Ctx → RBT
  | t, [] => t
  | t, f :: k => plug (f.fill t) k

namespace Ctx

/-- Address of the hole's parent; `par0` above the outermost frame. -/
def par (par0 : Nat) : Ctx → Nat
  | [] => par0
  | f :: _ => f.addr

/-- Address stored in the outermost slot when the hole holds address `h`. -/
def top : Ctx → Nat → Nat
  | [], h => h
  | f :: k, _ => top k f.addr

/-- All addresses of the context. -/
def addrs : Ctx → List Nat
  | [] => []
  | f :: k => f.addrs ++ addrs k

/-- In-order elements before the hole. -/
def before : Ctx → List Nat
  | [] => []
  | .L _ _ _ :: k => before k
  | .R l a _ :: k => before k ++ (l.inorder ++ [a])

/-- In-order elements after the hole. -/
def after : Ctx → List Nat
  | [] => []
  | .L a _ r :: k => (a :: r.inorder) ++ after k
  | .R _ _ _ :: k => after k

/-- The memory holds the context `k` whose hole contains address `h`. -/
def InMem (m : Nat → Link) (par0 : Nat) : Ctx → Nat → Prop
  | [], _ => True
  | .L a c r :: k, h => m a = ⟨enc (par par0 k) c, h, r.addr⟩ ∧ RBT.InMem m a r ∧ InMem m par0 k a
  | .R l a c :: k, h => m a = ⟨enc (par par0 k) c, l.addr, h⟩ ∧ RBT.InMem m a l ∧ InMem m par0 k a

/-- The slot (`T**`) the hole stands for. -/
def slot : Ctx → Slot
  | [] => Slot.root
  | .L a _ _ :: _ => Slot.l a
  | .R _ a _ :: _ => Slot.r a

/-- The colour invariants of a context around a hole of black height `h` whose
root has colour `c`: with a red-black subtree of that kind in the hole, the
whole tree is red-black. -/
def Inv : Ctx → Nat → Bool → Prop
  | [], _, c => c = true
  | f :: k, h, c =>
    f.sib.bh = h ∧ f.sib.balanced ∧ f.sib.noRedRed ∧
    (f.color = false → c = true ∧ f.sib.isBlack = true) ∧
    Inv k (h + (if f.color then 1 else 0)) f.color

/-- The container after storing `x` into the slot the hole stands for. -/
def setHole (k : Ctx) (s : intrusive_tree) (x : Nat) : intrusive_tree :=
  match k with
  | [] => ⟨x, s.mem⟩
  | .L a _ _ :: _ => ⟨s.root_, wr s.mem a ⟨(s.mem a).p, x, (s.mem a).r⟩⟩
  | .R _ a _ :: _ => ⟨s.root_, wr s.mem a ⟨(s.mem a).p, (s.mem a).l, x⟩⟩

end Ctx

/-- The path the descent of `insert` takes for element `e`. -/
def descend (lt : Nat → Nat → Bool) (e : Nat) : RBT → Ctx → Ctx
  | .nil, k => k
  | .node l a c r, k =>
    if lt e a then descend lt e l (.L a c r :: k) else descend lt e r (.R l a c :: k)

/-- The memory after `link_parent(p, c)` when `c` is not null, unchanged otherwise. -/
def reparent (m : Nat → Link) (p c : Nat) : Nat → Link :=
  if c = 0 then m else wr m c ⟨enc p (m c).black, (m c).l, (m c).r⟩

/-- The container `s` holds the tree `plug t k`, seen from the subtree `t`. -/
structure ShapeAt (s : intrusive_tree) (t : RBT) (k : Ctx) : Prop where
  root : s.root_ = k.top t.addr
  sub : RBT.InMem s.mem (k.par 0) t
  ctx : Ctx.InMem s.mem 0 k t.addr
  nodup : (t.inorder ++ k.addrs).Nodup
  ok : ∀ a ∈ t.inorder ++ k.addrs, a ≠ 0 ∧ a % 2 = 0

/-- What the fixup loop of `insert` achieves from the focus `n` in a container
holding the tree `T`. -/
def InsFixOk (s : intrusive_tree) (fuel : Nat) (n : Nat) (T : RBT) : Prop :=
  ∃ s' T', intrusive_tree.insert_fixup fuel s n = .ok s' ∧ Shape s' T' ∧ T'.redBlack ∧
    T'.inorder = T.inorder ∧ ∀ a, a ∉ T.inorder → s'.mem a = s.mem a

/-! ## Memory after the linking primitives, and renaming of addresses -/

/-- The memory after `link_left(p, c)` for a non-null `p`. -/
def mlinkL (m : Nat → Link) (p c : Nat) : Nat → Link :=
  wr (reparent m p c) p ⟨(reparent m p c p).p, c, (reparent m p c p).r⟩

/-- The memory after `link_right(p, c)` for a non-null `p`. -/
def mlinkR (m : Nat → Link) (p c : Nat) : Nat → Link :=
  wr (reparent m p c) p ⟨(reparent m p c p).p, (reparent m p c p).l, c⟩

/-- The memory after `link_left` or `link_right`, by the side. -/
def mlink (isL : Bool) (m : Nat → Link) (p c : Nat) : Nat → Link :=
  if isL then mlinkL m p c else mlinkR m p c

/-- The memory after `toggle(n)` for a non-null `n`. -/
def mtoggle (m : Nat → Link) (n : Nat) : Nat → Link :=
  wr m n ⟨(m n).p ^^^ 1, (m n).l, (m n).r⟩

/-- The memory after the colour exchange of `node_swap`. -/
def mswapcol (m : Nat → Link) (foo bar : Nat) : Nat → Link :=
  if ((m foo).black != (m bar).black) = true then mtoggle (mtoggle m bar) foo else m

/-- The memory after the first step of `node_swap(t, bar)`: `root_swap(bar)` when
`t` is the root `ρ` (`rt`), `parent_swap(t, bar)` otherwise; `g`, `fl` and `bp`,
`bl` are the parents and sides of `t` and `bar`. -/
def mphase1 (rt fl bl : Bool) (m : Nat → Link) (ρ g bp t bar : Nat) : Nat → Link :=
  if rt then reparent (mlink bl m bp ρ) 0 bar else mlink bl (mlink fl m g bar) bp t

/-- The memory after `left_swap(foo, bar)`. -/
def mswapL (m : Nat → Link) (foo bar : Nat) : Nat → Link :=
  mlinkL (mlinkL m foo (m bar).l) bar (m foo).l

/-- The memory after `right_swap(foo, bar)`. -/
def mswapR (m : Nat → Link) (foo bar : Nat) : Nat → Link :=
  mlinkR (mlinkR m foo (m bar).r) bar (m foo).r

/-- The memory after `node_swap(t, bar)`. -/
def mnode_swap (rt fl bl : Bool) (m : Nat → Link) (ρ g bp t bar : Nat) : Nat → Link :=
  mswapR (mswapL (mswapcol (mphase1 rt fl bl m ρ g bp t bar) t bar) t bar) t bar

/-- Exchange of the two addresses `x` and `y`. -/
def swp (x y a : Nat) : Nat := if a = x then y else if a = y then x else a

/-- A link with its three pointers renamed. -/
def Link.map (σ : Nat → Nat) (k : Link) : Link := ⟨enc (σ k.up) k.black, σ k.l, σ k.r⟩

/-- A tree with its addresses renamed. -/
def RBT.map (σ : Nat → Nat) : RBT → RBT
  | .nil => .nil
  | .node l a c r => .node (RBT.map σ l) (σ a) c (RBT.map σ r)

/-! ## The LIFO discipline -/

/-- What the `pop`s of a call sequence return under the last-in-first-out
discipline, starting from the pending elements `st` (most recent first). -/
def lifo : List StackOp → List Nat → List Nat
  | [], _ => []
  | .push t :: ops, st => lifo ops (t :: st)
  | .pop :: ops, x :: st => x :: lifo ops st
  | .pop :: ops, [] => lifo ops []

/-- Number of `push` calls in a sequence. -/
def pushes (ops : List StackOp) : Nat := ops.countP (fun o => o != StackOp.pop)

/-- Number of `pop` calls in a sequence. -/
def pops (ops : List StackOp) : Nat := ops.countP (fun o => o == StackOp.pop)

/-- The links from `head` run through exactly the elements `xs` and end at the
sentinel; every element on the way is bound and is not the sentinel. -/
def Chain (m : Nat → Nat) : Nat → List Nat → Prop
  | h, [] => h = intrusive_stack.bad
  | h, x :: xs => h = x ∧ x ≠ intrusive_stack.bad ∧ m x ≠ 0 ∧ Chain m (m x) xs

/-! ## Concrete inputs -/

/-- Key of the element at an address: elements are laid out so that the element
with key `k` sits at address `2 * k`. -/
def key (a : Nat) : Nat := a / 2

/-- The ordering predicate of the elements: strictly smaller key. -/
def ltKey (a b : Nat) : Bool := decide (key a < key b)

/-- A memory in which every element is unbound. -/
def mem0 : Nat → Link := fun _ => ⟨0, 0, 0⟩

/-- The empty container over the all-unbound memory. -/
def tree0 : intrusive_tree := ⟨0, mem0⟩

/-- The container holding the single element at address `4`. -/
def tree1 : intrusive_tree := ⟨4, wr mem0 4 ⟨1, 0, 0⟩⟩

/-- The container holding the elements at `4` (root) and `2`, `6` (red children). -/
def tree3 : intrusive_tree :=
  ⟨4, wr (wr (wr mem0 4 ⟨1, 2, 6⟩) 2 ⟨4, 0, 0⟩) 6 ⟨4, 0, 0⟩⟩

/-- The shape of `tree3`. -/
def shape3 : RBT := .node (.node .nil 2 false .nil) 4 true (.node .nil 6 false .nil)

/-- Insertion of a list of elements, in order. -/
def insert_all (lt : Nat → Nat → Bool) (fuel : Nat) :
    List Nat → intrusive_tree → M intrusive_tree
  | [], s => pure s
  | e :: es, s => do
    let s1 ← s.insert lt fuel e
    insert_all lt fuel es s1

/-- Removal of a list of elements, in order, threading the static counter. -/
def remove_all (lt : Nat → Nat → Bool) (fuel : Nat) :
    List Nat → Int → intrusive_tree → M (Int × intrusive_tree)
  | [], i, s => pure (i, s)
  | e :: es, i, s => do
    let (_, i1, s1) ← s.remove lt fuel i e
    remove_all lt fuel es i1 s1

/-- Walk from `n` by `next`, collecting the elements visited, until null. -/
def walk (s : intrusive_tree) (fuel : Nat) : Nat → Nat → M (List Nat)
  | 0, _ => .error Err.fuel
  | steps + 1, n =>
    if n == 0 then pure []
    else do
      let m ← s.next fuel n
      let rest ← walk s fuel steps m
      pure (n :: rest)

end Oco

namespace Oco

open RBT

/-! ## Local order, sequences of calls, further concrete inputs -/

/-- The predicate relates every node to its two children: the node is not before
its left child and its right child is not before the node. This is what
`valid(const T*)` compares. -/
def RBT.localOrdered (lt : Nat → Nat → Bool) : RBT → Prop
  | .nil => True
  | .node l a _ r =>
    (l.addr ≠ 0 → lt a l.addr = false) ∧ (r.addr ≠ 0 → lt r.addr a = false) ∧
      RBT.localOrdered lt l ∧ RBT.localOrdered lt r

/-- One call on the ordered container: `insert(e)` or `remove(e)`. -/
inductive TreeOp where
  | insert (e : Nat)
  | remove (e : Nat)
  deriving DecidableEq, Repr

/-- The element a call is about. -/
def TreeOp.elem : TreeOp → Nat
  | .insert e => e
  | .remove e => e

/-- A sequence of `insert` and `remove` calls, threading the container and the
static counter of `remove`. -/
def run_ops (lt : Nat → Nat → Bool) (fuel : Nat) :
    List TreeOp → Int → intrusive_tree → M (Int × intrusive_tree)
  | [], i, s => pure (i, s)
  | .insert e :: ops, i, s => do
    let s1 ← s.insert lt fuel e
    run_ops lt fuel ops i s1
  | .remove e :: ops, i, s => do
    let (_, i1, s1) ← s.remove lt fuel i e
    run_ops lt fuel ops i1 s1

/-- Stable insertion into a sequence: `e` goes directly behind the longest prefix of
elements that `e` is not before. -/
def stableInsert (lt : Nat → Nat → Bool) (e : Nat) (L : List Nat) : List Nat :=
  L.takeWhile (fun x => !lt e x) ++ e :: L.dropWhile (fun x => !lt e x)

/-- A coarser ordering predicate, under which the elements at addresses below `16`
all tie. -/
def ltCoarse (a b : Nat) : Bool := decide (a / 16 < b / 16)

/-- A heap holding the three elements of `tree3` and one more element at `10`,
which is the black root of a second tree. -/
def heap2 : Nat → Link := wr tree3.mem 10 ⟨1, 0, 0⟩

/-- The container on `heap2` holding `2`, `4`, `6`. -/
def treeA : intrusive_tree := ⟨4, heap2⟩

/-- The container on `heap2` holding `10`. -/
def treeB : intrusive_tree := ⟨10, heap2⟩

/-- The shape of `treeB`. -/
def shapeB : RBT := .node .nil 10 true .nil

/-- A container whose elements have the keys `5` (root, black), `3` (left, black),
`8` (right, black) and `10` (red right child of `3`). -/
def tree4 : intrusive_tree :=
  ⟨10, wr (wr (wr (wr mem0 10 ⟨1, 6, 16⟩) 6 ⟨11, 0, 20⟩) 16 ⟨11, 0, 0⟩) 20 ⟨6, 0, 0⟩⟩

/-- The shape of `tree4`. -/
def shape4 : RBT :=
  .node (.node .nil 6 true (.node .nil 20 false .nil)) 10 true (.node .nil 16 true .nil)

end Oco

namespace Oco

/-! ## `insert` and `remove` with the heap kept at a failure

The functions of `intrusive_tree.h` that write to links, embedded once more so that
a run that does not produce a value also yields the container and the heap as they
are at that point: at the `assert` that fails (or where the fuel runs out).  The
`const` member functions of the source do not write; they are taken from above and
run on the container as it is at the point of the call.
-/

/-- Result of running a piece of the source that writes: a value, or the reason for
not producing one together with the container at that point. -/
abbrev MT := Except (Err × intrusive_tree)

/-- Drops the container kept at a failure. -/
def forget {α : Type} : MT α → M α
  | .ok a => .ok a
  | .error (e, _) => .error e

namespace Traced

/-- A `const` member function run on the container `s`; it leaves `s` as it is. -/
def query {α : Type} (s : intrusive_tree) (q : M α) : MT α :=
  match q with
  | .ok a => .ok a
  | .error e => .error (e, s)

/-- The source's `assert(b)`, reached with the container `s`. -/
def checkAt (s : intrusive_tree) (b : Bool) : MT Unit := query s (check b)

def toggle (s : intrusive_tree) (n : Nat) : MT intrusive_tree := do
  checkAt s (n != 0)
  pure { s with mem := wr s.mem n (s.mem n).toggle }

def link_parent (s : intrusive_tree) (p c : Nat) : MT intrusive_tree := do
  checkAt s (c != 0)
  let black := s.is_black c
  let s := s.setp c p
  if black then toggle s c else pure s

def link_root (s : intrusive_tree) (n : Nat) : MT intrusive_tree := do
  let s := { s with root_ := n }
  if n != 0 then link_parent s 0 n else pure s

def link_left (s : intrusive_tree) (p c : Nat) : MT intrusive_tree := do
  checkAt s (p != 0)
  let s1 ← (do if c != 0 then link_parent s p c else pure s)
  pure (s1.setl p c)

def link_right (s : intrusive_tree) (p c : Nat) : MT intrusive_tree := do
  checkAt s (p != 0)
  let s1 ← (do if c != 0 then link_parent s p c else pure s)
  pure (s1.setr p c)

def unlink (s : intrusive_tree) (fuel n : Nat) : MT intrusive_tree := do
  checkAt s (n != 0)
  checkAt s (← query s (s.is_member fuel n))
  checkAt s ((← query s (s.left_ n)) == 0)
  checkAt s ((← query s (s.right_ n)) == 0)
  let s1 ← (do
    if (← query s (s.is_root n)) then link_root s 0
    else if (← query s (s.is_left n)) then link_left s (← query s (s.parent_ n)) 0
    else link_right s (← query s (s.parent_ n)) 0)
  let b := s1.is_black n
  let s2 := s1.setp n 0
  if b then toggle s2 n else pure s2

def rotate_left (s : intrusive_tree) (p : Nat) : MT intrusive_tree := do
  let g ← query s (s.parent_ p)
  let n ← query s (s.right_ p)
  let c ← query s (s.left_ n)
  let s1 ← (do
    if (← query s (s.is_root p)) then link_root s n
    else if (← query s (s.is_left p)) then link_left s g n
    else link_right s g n)
  let s2 ← link_left s1 n p
  link_right s2 p c

def rotate_right (s : intrusive_tree) (p : Nat) : MT intrusive_tree := do
  let g ← query s (s.parent_ p)
  let n ← query s (s.left_ p)
  let c ← query s (s.right_ n)
  let s1 ← (do
    if (← query s (s.is_root p)) then link_root s n
    else if (← query s (s.is_left p)) then link_left s g n
    else link_right s g n)
  let s2 ← link_right s1 n p
  link_left s2 p c

def root_swap (s : intrusive_tree) (n : Nat) : MT intrusive_tree := do
  checkAt s (n != 0)
  let s1 ← (do
    if (← query s (s.is_left n)) then link_left s (← query s (s.parent_ n)) s.root_
    else link_right s (← query s (s.parent_ n)) s.root_)
  link_root s1 n

def left_swap (s : intrusive_tree) (foo bar : Nat) : MT intrusive_tree := do
  let fc ← query s (s.left_ foo)
  let bc ← query s (s.left_ bar)
  let s1 ← link_left s foo bc
  link_left s1 bar fc

def right_swap (s : intrusive_tree) (foo bar : Nat) : MT intrusive_tree := do
  let fc ← query s (s.right_ foo)
  let bc ← query s (s.right_ bar)
  let s1 ← link_right s foo bc
  link_right s1 bar fc

def parent_swap (s : intrusive_tree) (foo bar : Nat) : MT intrusive_tree := do
  checkAt s (!(← query s (s.is_root foo)))
  checkAt s (!(← query s (s.is_root bar)))
  let fp ← query s (s.parent_ foo)
  let bp ← query s (s.parent_ bar)
  let fl ← query s (s.is_left foo)
  let bl ← query s (s.is_left bar)
  let s1 ← (do if fl then link_left s fp bar else link_right s fp bar)
  if bl then link_left s1 bp foo else link_right s1 bp foo

def node_swap (s : intrusive_tree) (foo bar : Nat) : MT intrusive_tree := do
  let s1 ← (do
    if (← query s (s.is_root foo)) then root_swap s bar
    else if (← query s (s.is_root bar)) then root_swap s foo
    else parent_swap s foo bar)
  let s2 ← (do
    if s1.is_black foo != s1.is_black bar then
      let s' ← toggle s1 bar
      toggle s' foo
    else pure s1)
  let s3 ← left_swap s2 foo bar
  right_swap s3 foo bar

def take_left (s : intrusive_tree) (t : Nat) : MT (Nat × intrusive_tree) := do
  let c ← query s (s.left_ t)
  checkAt s (c != 0)
  let s1 ← link_left s t 0
  let s2 ← link_parent s1 0 c
  pure (c, s2)

def take_right (s : intrusive_tree) (t : Nat) : MT (Nat × intrusive_tree) := do
  let c ← query s (s.right_ t)
  checkAt s (c != 0)
  let s1 ← link_right s t 0
  let s2 ← link_parent s1 0 c
  pure (c, s2)

def replace (s : intrusive_tree) (fuel o n : Nat) : MT intrusive_tree := do
  if (← query s (s.is_root o)) then
    let s1 ← unlink s fuel o
    link_root s1 n
  else if (← query s (s.is_left o)) then
    let p ← query s (s.parent_ o)
    let s1 ← unlink s fuel o
    link_left s1 p n
  else
    let p ← query s (s.parent_ o)
    let s1 ← unlink s fuel o
    link_right s1 p n

/-- First loop of `insert`: the descent through `T** i`, then `*i = t`. -/
def insert_descend (lt : Nat → Nat → Bool) (t : Nat) :
    Nat → intrusive_tree → Slot → MT intrusive_tree
  | 0, s, _ => .error (Err.fuel, s)
  | fuel + 1, s, i =>
    if s.get i != 0 then
      let s1 := s.setp t (s.get i)
      insert_descend lt t fuel s1 (if lt t (s1.get i) then Slot.l (s1.get i) else Slot.r (s1.get i))
    else pure (s.set i t)

/-- Second loop of `insert`: the bottom-up fixup, `while (true)`. -/
def insert_fixup : Nat → intrusive_tree → Nat → MT intrusive_tree
  | 0, s, _ => .error (Err.fuel, s)
  | fuel + 1, s, n => do
    checkAt s (n != 0)
    let p ← query s (s.parent_ n)
    if p == 0 then
      checkAt s (s.is_red n)
      if s.is_red n then toggle s n else pure s
    else if s.is_black p then pure s
    else do
      let g ← query s (s.parent_ p)
      if g == 0 then pure s
      else do
        let u ← query s (s.peer p)
        if u == 0 || s.is_black u then
          let (s1, n1, p1) ← (do
            if (← query s (andM (s.is_right n) (s.is_left p))) then
              checkAt s (s.is_black g); checkAt s (s.is_red p); checkAt s (s.is_red n)
              let s' ← rotate_left s p
              checkAt s' (s'.is_black g); checkAt s' (s'.is_red p); checkAt s' (s'.is_red n)
              pure (s', p, n)
            else if (← query s (andM (s.is_left n) (s.is_right p))) then
              checkAt s (s.is_black g); checkAt s (s.is_red p); checkAt s (s.is_red n)
              let s' ← rotate_right s p
              checkAt s' (s'.is_black g); checkAt s' (s'.is_red p); checkAt s' (s'.is_red n)
              pure (s', p, n)
            else pure (s, n, p))
          checkAt s1 (← query s1 (orM (do pure (!(← s1.is_left n1))) (s1.is_left p1)))
          checkAt s1 (← query s1 (orM (do pure (!(← s1.is_right n1))) (s1.is_right p1)))
          checkAt s1 (s1.is_black g); checkAt s1 (s1.is_red p1); checkAt s1 (s1.is_red n1)
          let s2 ← (do
            if (← query s1 (s1.is_left n1)) then rotate_right s1 g else rotate_left s1 g)
          let s3 ← toggle s2 g
          let s4 ← toggle s3 p1
          checkAt s4 (s4.is_red g); checkAt s4 (s4.is_black p1); checkAt s4 (s4.is_red n1)
          pure s4
        else do
          checkAt s (s.is_black g); checkAt s (s.is_red p); checkAt s (s.is_red u)
          let s1 ← toggle s g
          let s2 ← toggle s1 p
          let s3 ← toggle s2 u
          insert_fixup fuel s3 g

def insert (lt : Nat → Nat → Bool) (s : intrusive_tree) (fuel t : Nat) : MT intrusive_tree := do
  checkAt s (← query s (s.valid lt fuel))
  checkAt s (!(← query s (s.is_bound t)))
  let s1 ← insert_descend lt t fuel s Slot.root
  checkAt s1 (s1.is_red t)
  let s2 ← insert_fixup fuel s1 t
  checkAt s2 (← query s2 (s2.is_member fuel t))
  checkAt s2 (← query s2 (s2.is_bound t))
  checkAt s2 (!s2.empty)
  checkAt s2 (← query s2 (s2.valid lt fuel))
  pure s2

/-- The block `if (is_red(s)) { … }` of the loop in `remove` (red sibling); yields
the container and the values of `p` and `s` after it. -/
def remove_red_sibling (s : intrusive_tree) (n p0 b0 : Nat) :
    MT (intrusive_tree × Nat × Nat) := do
  if s.is_red b0 then
    checkAt s (s.is_black p0)
    let sa ← toggle s p0
    let sb ← toggle sa b0
    let sc ← (do if (← query sb (sb.is_left n)) then rotate_left sb p0 else rotate_right sb p0)
    let p' ← query sc (sc.parent_ n)
    let b' ← query sc (sc.peer n)
    pure (sc, p', b')
  else pure (s, p0, b0)

/-- The first statement of the block `if (is_red(p) || is_red(sl) || is_red(sr))`
of the loop in `remove`. -/
def remove_near_nephew (s : intrusive_tree) (n b sl sr : Nat) : MT intrusive_tree := do
  if (← query s (andM (s.is_left n) (pure (s.is_black sr)))) then
    checkAt s (s.is_red sl)
    let sa ← toggle s b
    let sb ← toggle sa sl
    rotate_right sb b
  else if (← query s (andM (s.is_right n) (pure (s.is_black sl)))) then
    checkAt s (s.is_red sr)
    let sa ← toggle s b
    let sb ← toggle sa sr
    rotate_left sb b
  else pure s

/-- The rest of the block `if (is_red(p) || is_red(sl) || is_red(sr))` of the
loop in `remove`, from `p = parent_(n)` to the `break`. -/
def remove_far_nephew (s : intrusive_tree) (n : Nat) : MT intrusive_tree := do
  let p ← query s (s.parent_ n)
  let b ← query s (s.peer n)
  let sl ← query s (s.left_ b)
  let sr ← query s (s.right_ b)
  let s3 ← (do
    if s.is_red p then
      let sa ← toggle s p
      if sa.is_black b then toggle sa b else pure sa
    else pure s)
  if (← query s3 (s3.is_left n)) then
    let s4 ← (do if s3.is_red sr then toggle s3 sr else pure s3)
    rotate_left s4 p
  else
    let s4 ← (do if s3.is_red sl then toggle s3 sl else pure s3)
    rotate_right s4 p

/-- The loop body of `remove` from `T* sl = s ? left_(s) : NULL` on. -/
def remove_rebalance (s1 : intrusive_tree) (n p b : Nat) :
    MT (intrusive_tree × Option Nat) := do
  let sl ← (do if b != 0 then query s1 (s1.left_ b) else pure 0)
  let sr ← (do if b != 0 then query s1 (s1.right_ b) else pure 0)
  if s1.is_red p && s1.is_black b && s1.is_black sl && s1.is_black sr then
    checkAt s1 (b != 0)
    let s2 ← toggle s1 b
    let s3 ← toggle s2 p
    pure (s3, none)
  else if s1.is_red p || s1.is_red sl || s1.is_red sr then
    checkAt s1 (s1.is_black b)
    let s2 ← remove_near_nephew s1 n b sl sr
    let s3 ← remove_far_nephew s2 n
    pure (s3, none)
  else
    checkAt s1 (s1.is_black p)
    checkAt s1 (s1.is_black b)
    checkAt s1 (s1.is_black sl)
    checkAt s1 (s1.is_black sr)
    checkAt s1 (b != 0)
    let s2 ← toggle s1 b
    pure (s2, some p)

/-- One pass through the body of the loop `while (!is_root(n))` of `remove`. -/
def remove_step (s : intrusive_tree) (n : Nat) : MT (intrusive_tree × Option Nat) := do
  let p0 ← query s (s.parent_ n)
  let b0 ← query s (s.peer n)
  let (s1, p, b) ← remove_red_sibling s n p0 b0
  remove_rebalance s1 n p b

/-- The loop `while (!is_root(n))` of `remove`. -/
def remove_fixup : Nat → intrusive_tree → Nat → MT intrusive_tree
  | 0, s, _ => .error (Err.fuel, s)
  | fuel + 1, s, n => do
    if (← query s (s.is_root n)) then pure s
    else
      let (s1, next) ← remove_step s n
      match next with
      | none => pure s1
      | some p => remove_fixup fuel s1 p

/-- The body of `remove` from `assert(!left_(t) || !right_(t))` on. -/
def remove_tail (lt : Nat → Nat → Bool) (s1 : intrusive_tree) (fuel : Nat) (t : Nat) :
    MT intrusive_tree := do
  checkAt s1 ((← query s1 (s1.left_ t)) == 0 || (← query s1 (s1.right_ t)) == 0)
  let (c, s2) ← (do
    if (← query s1 (s1.left_ t)) != 0 then take_left s1 t
    else if (← query s1 (s1.right_ t)) != 0 then take_right s1 t
    else pure (0, s1))
  let s3 ← (do if c != 0 then replace s2 fuel t c else pure s2)
  if s3.is_red t then
    if c == 0 then unlink s3 fuel t else pure s3
  else
    let s4 ← toggle s3 t
    if s4.is_red c then
      checkAt s4 (c != 0)
      toggle s4 c
    else
      let s5 ← remove_fixup fuel s4 (if c != 0 then c else t)
      let s6 ← (do if c == 0 then unlink s5 fuel t else pure s5)
      checkAt s6 (!(← query s6 (s6.is_bound t)))
      checkAt s6 (← query s6 (s6.valid lt fuel))
      pure s6

/-- `remove`; `i` is the value of the function's `static int i` on entry, and
its value on exit is returned with the element and the container. -/
def remove (lt : Nat → Nat → Bool) (s : intrusive_tree) (fuel : Nat) (i : Int) (t : Nat) :
    MT (Nat × Int × intrusive_tree) := do
  checkAt s (← query s (s.valid lt fuel))
  checkAt s (!s.empty)
  checkAt s (← query s (s.is_bound t))
  checkAt s (← query s (s.is_member fuel t))
  let (i1, s1) ← (do
    if (← query s (s.left_ t)) != 0 && (← query s (s.right_ t)) != 0 then
      let bar ← (do
        if incr i % 2 != 0 then query s (s.rightest_ fuel (← query s (s.left_ t)))
        else query s (s.leftest_ fuel (← query s (s.right_ t))))
      let s' ← node_swap s t bar
      pure (incr i, s')
    else pure (i, s))
  let s' ← remove_tail lt s1 fuel t
  pure (t, i1, s')

end Traced

end Oco

namespace Oco

/-! ## The result monad -/

@[simp] theorem bind_ok {α β : Type} (a : α) (f : α → M β) : (Except.ok a >>= f) = f a := rfl
@[simp] theorem bind_error {α β : Type} (e : Err) (f : α → M β) :
    ((Except.error e : M α) >>= f) = Except.error e := rfl
@[simp] theorem pure_ok {α : Type} (a : α) : (pure a : M α) = Except.ok a := rfl
@[simp] theorem check_true : check true = Except.ok () := rfl
@[simp] theorem check_false : check false = Except.error Err.assertion := rfl

theorem check_of {b : Bool} (h : b = true) : check b = Except.ok () := by subst h; rfl

/-! ## Pointer encoding -/

theorem xor_one_even (n : Nat) (h : n % 2 = 0) : n ^^^ 1 = n + 1 := by
  apply Nat.eq_of_testBit_eq
  intro i
  rw [Nat.testBit_xor]
  cases i with
  | zero => simp [Nat.testBit_zero, h]; omega
  | succ i =>
    simp [Nat.testBit_succ]
    congr 1; omega

theorem xor_one_odd (n : Nat) (h : n % 2 = 1) : n ^^^ 1 = n - 1 := by
  apply Nat.eq_of_testBit_eq
  intro i
  rw [Nat.testBit_xor]
  cases i with
  | zero => simp [Nat.testBit_zero, h]; omega
  | succ i =>
    simp [Nat.testBit_succ]
    congr 1; omega

@[simp] theorem enc_false (par : Nat) : enc par false = par := by simp [enc]
theorem enc_true (par : Nat) : enc par true = par + 1 := by simp [enc]

theorem enc_xor (par : Nat) (c : Bool) (h : par % 2 = 0) : enc par c ^^^ 1 = enc par (!c) := by
  cases c
  · simp [enc, xor_one_even par h]
  · simp only [enc, if_true, Bool.not_true]
    rw [xor_one_odd _ (by omega)]; simp

theorem enc_black (par : Nat) (c : Bool) (l r : Nat) (h : par % 2 = 0) :
    (Link.mk (enc par c) l r).black = c := by
  cases c <;> simp [Link.black, enc, Nat.and_one_is_mod] <;> omega

theorem enc_up (par : Nat) (c : Bool) (l r : Nat) (h : par % 2 = 0) :
    (Link.mk (enc par c) l r).up = par := by
  cases c <;> simp [Link.up, enc] <;> omega

theorem enc_eq_zero (par : Nat) (c : Bool) : enc par c = 0 ↔ par = 0 ∧ c = false := by
  cases c <;> simp [enc]

theorem enc_inj {p q : Nat} {c d : Bool} (hp : p % 2 = 0) (hq : q % 2 = 0)
    (h : enc p c = enc q d) : p = q ∧ c = d := by
  cases c <;> cases d <;> simp [enc] at h ⊢ <;> omega

/-! ## Memory writes -/

@[simp] theorem wr_same (m : Nat → Link) (n : Nat) (k : Link) : wr m n k n = k := by simp [wr]
theorem wr_ne (m : Nat → Link) {n a : Nat} (k : Link) (h : a ≠ n) : wr m n k a = m a := by
  simp [wr, h]

end Oco

namespace Oco

open RBT

theorem addr_node (l r : RBT) (a : Nat) (c : Bool) : (node l a c r).addr = a := rfl

theorem addr_nil : RBT.nil.addr = 0 := rfl

/-! ## Plugging -/

theorem plug_cons (t : RBT) (f : Frame) (k : Ctx) : plug t (f :: k) = plug (f.fill t) k := rfl

theorem plug_append (t : RBT) (k1 k2 : Ctx) : plug t (k1 ++ k2) = plug (plug t k1) k2 := by
  induction k1 generalizing t with
  | nil => rfl
  | cons f k ih => simp [plug, ih]

theorem addr_plug (t : RBT) (k : Ctx) : (plug t k).addr = k.top t.addr := by
  induction k generalizing t with
  | nil => rfl
  | cons f k ih =>
    rw [plug_cons, ih]
    cases f <;> rfl

theorem inorder_plug (t : RBT) (k : Ctx) :
    (plug t k).inorder = k.before ++ t.inorder ++ k.after := by
  induction k generalizing t with
  | nil => simp [plug, Ctx.before, Ctx.after]
  | cons f k ih =>
    rw [plug_cons, ih]
    cases f <;> simp [Frame.fill, inorder, Ctx.before, Ctx.after]

theorem perm_plug (t : RBT) (k : Ctx) : (plug t k).inorder.Perm (t.inorder ++ k.addrs) := by
  induction k generalizing t with
  | nil => simp [plug, Ctx.addrs]
  | cons f k ih =>
    rw [plug_cons]
    refine (ih _).trans ?_
    cases f with
    | L a c r =>
      simp only [Frame.fill, inorder, Ctx.addrs, Frame.addrs, List.append_assoc,
        List.cons_append]
      exact List.Perm.refl _
    | R l a c =>
      simp only [Frame.fill, inorder, Ctx.addrs, Frame.addrs, List.append_assoc,
        List.cons_append]
      have h1 : (l.inorder ++ a :: (t.inorder ++ Ctx.addrs k)).Perm
          (a :: (l.inorder ++ (t.inorder ++ Ctx.addrs k))) := List.perm_middle
      refine h1.trans ?_
      have h2 : (l.inorder ++ (t.inorder ++ Ctx.addrs k)).Perm
          (t.inorder ++ (l.inorder ++ Ctx.addrs k)) := by
        rw [← List.append_assoc, ← List.append_assoc]
        exact List.Perm.append_right _ List.perm_append_comm
      exact (List.Perm.cons a h2).trans List.perm_middle.symm

theorem mem_plug {t : RBT} {k : Ctx} {a : Nat} :
    a ∈ (plug t k).inorder ↔ a ∈ t.inorder ∨ a ∈ k.addrs := by
  rw [(perm_plug t k).mem_iff, List.mem_append]

theorem nodup_plug {t : RBT} {k : Ctx} :
    (plug t k).inorder.Nodup ↔ (t.inorder ++ k.addrs).Nodup :=
  (perm_plug t k).nodup_iff

theorem size_plug_perm {t t' : RBT} (k : Ctx) (h : t.inorder.Perm t'.inorder) :
    (plug t k).inorder.Perm (plug t' k).inorder :=
  (perm_plug t k).trans ((List.Perm.append_right _ h).trans (perm_plug t' k).symm)

/-! ## Frame rules for `Rep` -/

theorem InMem_congr {m m' : Nat → Link} {par : Nat} {t : RBT}
    (h : ∀ a ∈ t.inorder, m' a = m a) (hr : InMem m par t) : InMem m' par t := by
  induction t generalizing par with
  | nil => trivial
  | node l a c r ihl ihr =>
    obtain ⟨h1, h2, h3⟩ := hr
    refine ⟨?_, ihl (fun x hx => h x ?_) h2, ihr (fun x hx => h x ?_) h3⟩
    · rw [h a (by simp [inorder]), h1]
    · simp [inorder, hx]
    · simp [inorder, hx]

theorem InMem_wr {m : Nat → Link} {par : Nat} {t : RBT} {n : Nat} {v : Link}
    (hn : n ∉ t.inorder) (hr : InMem m par t) : InMem (wr m n v) par t :=
  InMem_congr (fun a ha => wr_ne m v (fun e => hn (e ▸ ha))) hr

theorem CInMem_congr {m m' : Nat → Link} {par0 : Nat} {k : Ctx} {h : Nat}
    (hm : ∀ a ∈ k.addrs, m' a = m a) (hr : Ctx.InMem m par0 k h) : Ctx.InMem m' par0 k h := by
  induction k generalizing h with
  | nil => trivial
  | cons f k ih =>
    cases f with
    | L a c r =>
      obtain ⟨h1, h2, h3⟩ := hr
      refine ⟨?_, InMem_congr (fun x hx => hm x ?_) h2, ih (fun x hx => hm x ?_) h3⟩
      · rw [hm a (by simp [Ctx.addrs, Frame.addrs]), h1]
      · simp [Ctx.addrs, Frame.addrs, hx]
      · simp [Ctx.addrs, Frame.addrs, hx]
    | R l a c =>
      obtain ⟨h1, h2, h3⟩ := hr
      refine ⟨?_, InMem_congr (fun x hx => hm x ?_) h2, ih (fun x hx => hm x ?_) h3⟩
      · rw [hm a (by simp [Ctx.addrs, Frame.addrs]), h1]
      · simp [Ctx.addrs, Frame.addrs, hx]
      · simp [Ctx.addrs, Frame.addrs, hx]

theorem CInMem_wr {m : Nat → Link} {par0 : Nat} {k : Ctx} {h n : Nat} {v : Link}
    (hn : n ∉ k.addrs) (hr : Ctx.InMem m par0 k h) : Ctx.InMem (wr m n v) par0 k h :=
  CInMem_congr (fun a ha => wr_ne m v (fun e => hn (e ▸ ha))) hr

/-- Splitting the layout of a plugged tree into subtree and context. -/
theorem InMem_plug {m : Nat → Link} {par0 : Nat} {t : RBT} {k : Ctx} :
    InMem m par0 (plug t k) ↔ InMem m (k.par par0) t ∧ Ctx.InMem m par0 k t.addr := by
  induction k generalizing t with
  | nil => simp [plug, Ctx.par, Ctx.InMem]
  | cons f k ih =>
    rw [plug_cons, ih]
    cases f with
    | L a c r =>
      show (m a = _ ∧ InMem m a t ∧ InMem m a r) ∧ _ ↔ InMem m a t ∧ (m a = _ ∧ InMem m a r ∧ _)
      simp only [RBT.addr]; tauto
    | R l a c =>
      show (m a = _ ∧ InMem m a l ∧ InMem m a t) ∧ _ ↔ InMem m a t ∧ (m a = _ ∧ InMem m a l ∧ _)
      simp only [RBT.addr]; tauto

end Oco

namespace Oco

open RBT intrusive_tree

theorem shapeAt_iff {s : intrusive_tree} {t : RBT} {k : Ctx} :
    Shape s (plug t k) ↔ ShapeAt s t k := by
  constructor
  · intro h
    have hr := InMem_plug.1 h.rep
    exact ⟨by rw [h.root, addr_plug], hr.1, hr.2, nodup_plug.1 h.nodup,
      fun a ha => h.ok a (mem_plug.2 (List.mem_append.1 ha))⟩
  · intro h
    exact ⟨by rw [h.root, addr_plug], InMem_plug.2 ⟨h.sub, h.ctx⟩, nodup_plug.2 h.nodup,
      fun a ha => h.ok a (List.mem_append.2 (mem_plug.1 ha))⟩

theorem Shape.at {s : intrusive_tree} {t : RBT} {k : Ctx} (h : Shape s (plug t k)) :
    ShapeAt s t k := shapeAt_iff.1 h

theorem ShapeAt.shape {s : intrusive_tree} {t : RBT} {k : Ctx} (h : ShapeAt s t k) :
    Shape s (plug t k) := shapeAt_iff.2 h

theorem Ctx.par_mem {k : Ctx} (h : k ≠ []) : k.par 0 ∈ k.addrs := by
  cases k with
  | nil => exact absurd rfl h
  | cons f k => cases f <;> simp [Ctx.par, Ctx.addrs, Frame.addrs, Frame.addr]

theorem Ctx.top_mem {k : Ctx} (h : k ≠ []) (x : Nat) : k.top x ∈ k.addrs := by
  induction k generalizing x with
  | nil => exact absurd rfl h
  | cons f k ih =>
    cases k with
    | nil => cases f <;> simp [Ctx.top, Ctx.addrs, Frame.addrs, Frame.addr]
    | cons g k =>
      have := ih (by simp) f.addr
      simp only [Ctx.top] at this ⊢
      simp only [Ctx.addrs] at this ⊢
      exact List.mem_append_right _ this

theorem Ctx.top_congr {k : Ctx} (h : k ≠ []) (x y : Nat) : k.top x = k.top y := by
  cases k with
  | nil => exact absurd rfl h
  | cons f k => rfl

theorem nodup_node_iff {l r : RBT} {n : Nat} {c : Bool} {ks : List Nat} :
    ((node l n c r).inorder ++ ks).Nodup ↔
      l.inorder.Nodup ∧ r.inorder.Nodup ∧ ks.Nodup ∧ n ∉ l.inorder ∧ n ∉ r.inorder ∧ n ∉ ks ∧
      l.inorder.Disjoint r.inorder ∧ l.inorder.Disjoint ks ∧ r.inorder.Disjoint ks := by
  simp only [inorder, List.nodup_append, List.nodup_cons, List.disjoint_left, List.mem_append,
    List.mem_cons]
  constructor
  · rintro ⟨⟨h1, ⟨h2, h3⟩, h4⟩, h5, h6⟩
    refine ⟨h1, h3, h5, fun x => h4 x (Or.inl rfl), h2, fun x => h6 (Or.inr (Or.inl rfl)) x,
      fun a ha hb => h4 ha (Or.inr hb), fun a ha => h6 (Or.inl ha), fun a ha => h6 (Or.inr (Or.inr ha))⟩
  · rintro ⟨h1, h2, h3, h4, h5, h6, h7, h8, h9⟩
    refine ⟨⟨h1, ⟨h5, h2⟩, ?_⟩, h3, ?_⟩
    · rintro a ha (rfl | hb)
      · exact h4 ha
      · exact h7 ha hb
    · rintro a (ha | rfl | ha)
      · exact h8 ha
      · exact h6
      · exact h9 ha

theorem nodup_frame_iff {f : Frame} {k : Ctx} {xs : List Nat} :
    (xs ++ Ctx.addrs (f :: k)).Nodup ↔
      xs.Nodup ∧ f.sib.inorder.Nodup ∧ k.addrs.Nodup ∧ f.addr ∉ xs ∧ f.addr ∉ f.sib.inorder ∧
      f.addr ∉ k.addrs ∧ xs.Disjoint f.sib.inorder ∧ xs.Disjoint k.addrs ∧
      f.sib.inorder.Disjoint k.addrs := by
  have key : ∀ (a : Nat) (ys : List Nat), (xs ++ (a :: ys ++ k.addrs)).Nodup ↔
      xs.Nodup ∧ ys.Nodup ∧ k.addrs.Nodup ∧ a ∉ xs ∧ a ∉ ys ∧
      a ∉ k.addrs ∧ xs.Disjoint ys ∧ xs.Disjoint k.addrs ∧ ys.Disjoint k.addrs := by
    intro a ys
    simp only [List.nodup_append, List.nodup_cons, List.disjoint_left, List.mem_append,
      List.mem_cons, List.cons_append]
    constructor
    · rintro ⟨h1, ⟨h2, h3, h4, h5⟩, h6⟩
      refine ⟨h1, h3, h4, fun x => h6 x (Or.inl rfl), fun x => h2 (Or.inl x),
        fun x => h2 (Or.inr x), fun a ha hb => h6 ha (Or.inr (Or.inl hb)),
        fun a ha hb => h6 ha (Or.inr (Or.inr hb)), h5⟩
    · rintro ⟨h1, h2, h3, h4, h5, h6, h7, h8, h9⟩
      refine ⟨h1, ⟨?_, h2, h3, h9⟩, ?_⟩
      · rintro (x | x)
        · exact h5 x
        · exact h6 x
      · rintro a ha (rfl | hb | hb)
        · exact h4 ha
        · exact h7 ha hb
        · exact h8 ha hb
  cases f with
  | L a c r => exact key a r.inorder
  | R l a c => exact key a l.inorder

namespace ShapeAt

variable {s : intrusive_tree} {t : RBT} {k : Ctx}

theorem par_even (h : ShapeAt s t k) : k.par 0 % 2 = 0 := by
  cases k with
  | nil => rfl
  | cons f k => exact (h.ok _ (List.mem_append_right _ (Ctx.par_mem (by simp)))).2

theorem node_mem {l r : RBT} {n : Nat} {c : Bool} (_h : ShapeAt s (node l n c r) k) :
    n ∈ (node l n c r).inorder ++ k.addrs := by simp [inorder]

theorem node_ne {l r : RBT} {n : Nat} {c : Bool} (h : ShapeAt s (node l n c r) k) : n ≠ 0 :=
  (h.ok n h.node_mem).1

theorem node_even {l r : RBT} {n : Nat} {c : Bool} (h : ShapeAt s (node l n c r) k) :
    n % 2 = 0 := (h.ok n h.node_mem).2

theorem node_link {l r : RBT} {n : Nat} {c : Bool} (h : ShapeAt s (node l n c r) k) :
    s.mem n = ⟨enc (k.par 0) c, l.addr, r.addr⟩ := h.sub.1

theorem nd {l r : RBT} {n : Nat} {c : Bool} (h : ShapeAt s (node l n c r) k) :
    l.inorder.Nodup ∧ r.inorder.Nodup ∧ k.addrs.Nodup ∧ n ∉ l.inorder ∧ n ∉ r.inorder ∧
      n ∉ k.addrs ∧ l.inorder.Disjoint r.inorder ∧ l.inorder.Disjoint k.addrs ∧
      r.inorder.Disjoint k.addrs := nodup_node_iff.1 h.nodup

theorem ndk {f : Frame} (h : ShapeAt s t (f :: k)) :
    t.inorder.Nodup ∧ f.sib.inorder.Nodup ∧ k.addrs.Nodup ∧ f.addr ∉ t.inorder ∧
      f.addr ∉ f.sib.inorder ∧ f.addr ∉ k.addrs ∧ t.inorder.Disjoint f.sib.inorder ∧
      t.inorder.Disjoint k.addrs ∧ f.sib.inorder.Disjoint k.addrs := nodup_frame_iff.1 h.nodup

/-- Moving the focus to the parent. -/
theorem up {f : Frame} (h : ShapeAt s t (f :: k)) : ShapeAt s (f.fill t) k :=
  (shapeAt_iff (t := f.fill t)).1 (by have := h.shape; rwa [plug_cons] at this)

/-- Moving the focus to a child. -/
theorem down {f : Frame} (h : ShapeAt s (f.fill t) k) : ShapeAt s t (f :: k) :=
  (shapeAt_iff (k := f :: k)).1 (by rw [plug_cons]; exact h.shape)

theorem downL {l r : RBT} {n : Nat} {c : Bool} (h : ShapeAt s (node l n c r) k) :
    ShapeAt s l (.L n c r :: k) := down (f := .L n c r) h

theorem downR {l r : RBT} {n : Nat} {c : Bool} (h : ShapeAt s (node l n c r) k) :
    ShapeAt s r (.R l n c :: k) := down (f := .R l n c) h

theorem root_ne {l r : RBT} {n : Nat} {c : Bool} (h : ShapeAt s (node l n c r) k) :
    s.root_ ≠ 0 := by
  rw [h.root]
  cases k with
  | nil => exact h.node_ne
  | cons f k =>
    exact (h.ok _ (List.mem_append_right _ (Ctx.top_mem (by simp) _))).1

theorem root_eq_iff {l r : RBT} {n : Nat} {c : Bool} (h : ShapeAt s (node l n c r) k) :
    n = s.root_ ↔ k = [] := by
  rw [h.root]
  constructor
  · intro e
    by_contra hk
    have h1 : k.top n ∈ k.addrs := Ctx.top_mem hk _
    have h2 := List.nodup_append.1 h.nodup
    have h3 : n ∈ (node l n c r).inorder := by simp [inorder]
    have e' : n = k.top n := e
    exact h2.2.2 h3 (by rw [← e'] at h1; exact h1)
  · rintro rfl; rfl

end ShapeAt

end Oco

namespace Oco

open RBT intrusive_tree

/-! ## Primitive operations as memory writes -/

theorem wr_wr (m : Nat → Link) (n : Nat) (a b : Link) : wr (wr m n a) n b = wr m n b := by
  funext x; simp only [wr]; split <;> rfl

theorem bne_of_ne {a b : Nat} (h : a ≠ b) : (a != b) = true := by simpa using h

theorem beq_of_ne {a b : Nat} (h : a ≠ b) : (a == b) = false := by simpa using h

section prim

variable (s : intrusive_tree)

theorem parent_eq {n : Nat} (hn : n ≠ 0) : s.parent_ n = .ok (s.mem n).up := by
  simp [parent_, bne_of_ne hn]

theorem left_eq {n : Nat} (hn : n ≠ 0) : s.left_ n = .ok (s.mem n).l := by
  simp [left_, bne_of_ne hn]

theorem right_eq {n : Nat} (hn : n ≠ 0) : s.right_ n = .ok (s.mem n).r := by
  simp [right_, bne_of_ne hn]

theorem toggle_eq {n : Nat} (hn : n ≠ 0) :
    s.toggle n = .ok ⟨s.root_, wr s.mem n ⟨(s.mem n).p ^^^ 1, (s.mem n).l, (s.mem n).r⟩⟩ := by
  simp [toggle, bne_of_ne hn, Link.toggle]

theorem black_cases (k : Link) : (k.black = true ∧ k.p % 2 = 1) ∨ (k.black = false ∧ k.p % 2 = 0) := by
  simp only [Link.black, Nat.and_one_is_mod]
  rcases Nat.mod_two_eq_zero_or_one k.p with h | h <;> simp [h]

theorem link_parent_eq {p c : Nat} (hc : c ≠ 0) (hp : p % 2 = 0) :
    s.link_parent p c = .ok ⟨s.root_, reparent s.mem p c⟩ := by
  simp only [link_parent, bne_of_ne hc, check_true, bind_ok, is_black, beq_of_ne hc,
    Bool.false_or, reparent, hc, if_false, pure_ok, setp]
  cases hb : (s.mem c).black
  · simp [enc]
  · simp only [if_true]
    rw [toggle_eq _ hc]
    simp only [wr_same, wr_wr, xor_one_even p hp, enc_true]

theorem link_root_eq (n : Nat) : s.link_root n = .ok ⟨n, reparent s.mem 0 n⟩ := by
  by_cases hn : n = 0
  · subst hn; simp [link_root, reparent]
  · simp only [link_root, bne_of_ne hn, if_true]
    rw [link_parent_eq _ hn (by rfl)]

theorem link_left_eq {p : Nat} (c : Nat) (hp : p ≠ 0) (he : p % 2 = 0) :
    s.link_left p c = .ok ⟨s.root_, wr (reparent s.mem p c) p
      ⟨(reparent s.mem p c p).p, c, (reparent s.mem p c p).r⟩⟩ := by
  by_cases hc : c = 0
  · subst hc; simp [link_left, bne_of_ne hp, reparent, setl]
  · simp only [link_left, bne_of_ne hp, check_true, bind_ok, bne_of_ne hc, if_true]
    rw [link_parent_eq _ hc he]
    simp [setl]

theorem link_right_eq {p : Nat} (c : Nat) (hp : p ≠ 0) (he : p % 2 = 0) :
    s.link_right p c = .ok ⟨s.root_, wr (reparent s.mem p c) p
      ⟨(reparent s.mem p c p).p, (reparent s.mem p c p).l, c⟩⟩ := by
  by_cases hc : c = 0
  · subst hc; simp [link_right, bne_of_ne hp, reparent, setr]
  · simp only [link_right, bne_of_ne hp, check_true, bind_ok, bne_of_ne hc, if_true]
    rw [link_parent_eq _ hc he]
    simp [setr]

end prim

theorem reparent_zero (m : Nat → Link) (p : Nat) : reparent m p 0 = m := by simp [reparent]

theorem reparent_ne (m : Nat → Link) (p : Nat) {c a : Nat} (h : a ≠ c) : reparent m p c a = m a := by
  unfold reparent; split
  · rfl
  · exact wr_ne _ _ h

theorem reparent_same (m : Nat → Link) (p : Nat) {c : Nat} (h : c ≠ 0) :
    reparent m p c c = ⟨enc p (m c).black, (m c).l, (m c).r⟩ := by
  simp [reparent, h]

/-! ## Reading at the focus -/

theorem RBT.InMem.black_addr {m : Nat → Link} {par : Nat} {t : RBT} (h : InMem m par t)
    (hp : par % 2 = 0) : (m t.addr).black = t.isBlack ∨ t = nil := by
  cases t with
  | nil => right; rfl
  | node l a c r => left; rw [RBT.addr, h.1, enc_black _ _ _ _ hp]; rfl

namespace ShapeAt

variable {s : intrusive_tree} {k : Ctx}

theorem addr_ne {t : RBT} (h : ShapeAt s t k) (ht : t ≠ nil) : t.addr ≠ 0 := by
  cases t with
  | nil => exact absurd rfl ht
  | node l a c r => exact h.node_ne

theorem addr_eq_zero {t : RBT} (h : ShapeAt s t k) : t.addr = 0 ↔ t = nil := by
  cases t with
  | nil => simp [RBT.addr]
  | node l a c r => simp [RBT.addr, h.node_ne]

theorem is_black_addr {t : RBT} (h : ShapeAt s t k) : s.is_black t.addr = t.isBlack := by
  cases t with
  | nil => simp [is_black, RBT.addr, isBlack]
  | node l a c r =>
    simp only [is_black, RBT.addr, h.node_link, enc_black _ _ _ _ h.par_even, isBlack]
    simp [h.node_ne]

theorem is_red_addr {t : RBT} (h : ShapeAt s t k) : s.is_red t.addr = !t.isBlack := by
  cases t with
  | nil => simp [is_red, RBT.addr, isBlack]
  | node l a c r =>
    simp only [is_red, RBT.addr, Link.red, h.node_link, enc_black _ _ _ _ h.par_even, isBlack]
    simp [h.node_ne]

variable {l r : RBT} {n : Nat} {c : Bool}

theorem parent_ (h : ShapeAt s (node l n c r) k) : s.parent_ n = .ok (k.par 0) := by
  rw [parent_eq _ h.node_ne, h.node_link, enc_up _ _ _ _ h.par_even]

theorem left_ (h : ShapeAt s (node l n c r) k) : s.left_ n = .ok l.addr := by
  rw [left_eq _ h.node_ne, h.node_link]

theorem right_ (h : ShapeAt s (node l n c r) k) : s.right_ n = .ok r.addr := by
  rw [right_eq _ h.node_ne, h.node_link]

theorem is_black (h : ShapeAt s (node l n c r) k) : s.is_black n = c := h.is_black_addr

theorem is_red (h : ShapeAt s (node l n c r) k) : s.is_red n = !c := h.is_red_addr

theorem par_ne {f : Frame} (h : ShapeAt s (node l n c r) (f :: k)) : f.addr ≠ 0 :=
  (h.ok _ (List.mem_append_right _ (Ctx.par_mem (k := f :: k) (by simp)))).1

theorem is_root (h : ShapeAt s (node l n c r) k) : s.is_root n = .ok (decide (k = [])) := by
  unfold intrusive_tree.is_root
  rw [h.parent_]
  have hr := h.root_ne
  have he := h.root_eq_iff
  cases k with
  | nil =>
    have : n = s.root_ := he.2 rfl
    simp [Ctx.par, this, intrusive_tree.empty, hr]
  | cons f k =>
    have : n ≠ s.root_ := fun e => by simpa using he.1 e
    simp [Ctx.par, bne_of_ne h.par_ne, beq_of_ne this]

theorem is_root_cons {f : Frame} (h : ShapeAt s (node l n c r) (f :: k)) :
    s.is_root n = .ok false := by
  rw [h.is_root]; simp

theorem is_root_nil (h : ShapeAt s (node l n c r) []) : s.is_root n = .ok true := by
  rw [h.is_root]; simp

theorem is_left_nil (h : ShapeAt s (node l n c r) []) : s.is_left n = .error Err.assertion := by
  simp [intrusive_tree.is_left, h.is_root_nil]

theorem is_right_nil (h : ShapeAt s (node l n c r) []) : s.is_right n = .error Err.assertion := by
  simp [intrusive_tree.is_right, h.is_root_nil]

theorem ne_sib_addr {f : Frame} (h : ShapeAt s (node l n c r) (f :: k)) : n ≠ f.sib.addr := by
  intro e
  have hn := h.node_ne
  have hd := (List.nodup_append.1 h.nodup).2.2
  have h3 : n ∈ (node l n c r).inorder := by simp [inorder]
  cases f with
  | L a c' r' =>
    cases r' with
    | nil => exact hn e
    | node rl ra rc rr =>
      simp only [Frame.sib, RBT.addr] at e
      exact hd h3 (by simp [Ctx.addrs, Frame.addrs, inorder, e])
  | R l' a c' =>
    cases l' with
    | nil => exact hn e
    | node rl ra rc rr =>
      simp only [Frame.sib, RBT.addr] at e
      exact hd h3 (by simp [Ctx.addrs, Frame.addrs, inorder, e])

theorem is_left (f : Frame) (h : ShapeAt s (node l n c r) (f :: k)) :
    s.is_left n = .ok f.isL := by
  have hf := h.up
  have hne := h.ne_sib_addr
  cases f with
  | L a c' r' =>
    simp only [intrusive_tree.is_left, h.is_root_cons, h.parent_, Ctx.par, Frame.addr, bind_ok,
      Bool.not_false, check_true, hf.left_, RBT.addr, pure_ok, Frame.isL, beq_self_eq_true]
  | R l' a c' =>
    simp only [intrusive_tree.is_left, h.is_root_cons, h.parent_, Ctx.par, Frame.addr, bind_ok,
      Bool.not_false, check_true, hf.left_, pure_ok, Frame.isL]
    simp only [Frame.sib] at hne
    simp [hne]

theorem is_right (f : Frame) (h : ShapeAt s (node l n c r) (f :: k)) :
    s.is_right n = .ok (!f.isL) := by
  have hf := h.up
  have hne := h.ne_sib_addr
  cases f with
  | R l' a c' =>
    simp only [intrusive_tree.is_right, h.is_root_cons, h.parent_, Ctx.par, Frame.addr, bind_ok,
      Bool.not_false, check_true, hf.right_, RBT.addr, pure_ok, Frame.isL, beq_self_eq_true,
      Bool.not_false]
  | L a c' r' =>
    simp only [intrusive_tree.is_right, h.is_root_cons, h.parent_, Ctx.par, Frame.addr, bind_ok,
      Bool.not_false, check_true, hf.right_, pure_ok, Frame.isL]
    simp only [Frame.sib] at hne
    simp [hne]

theorem peer (f : Frame) (h : ShapeAt s (node l n c r) (f :: k)) :
    s.peer n = .ok f.sib.addr := by
  have hf := h.up
  cases f with
  | L a c' r' =>
    simp only [intrusive_tree.peer, h.is_root_cons, h.is_left, Frame.isL, h.parent_, Ctx.par,
      Frame.addr, bind_ok, Bool.not_false, check_true, if_true, hf.right_, Frame.sib]
  | R l' a c' =>
    simp only [intrusive_tree.peer, h.is_root_cons, h.is_left, Frame.isL, h.parent_, Ctx.par,
      Frame.addr, bind_ok, Bool.not_false, check_true, hf.left_, Frame.sib]
    simp

end ShapeAt

end Oco

namespace Oco

open RBT intrusive_tree

/-! ## Writing at the focus -/

theorem Ctx.setHole_root {k : Ctx} {s : intrusive_tree} {h x : Nat} (hr : s.root_ = k.top h) :
    (k.setHole s x).root_ = k.top x := by
  cases k with
  | nil => rfl
  | cons f k => cases f <;> exact hr

theorem Ctx.setHole_mem_ne {k : Ctx} {s : intrusive_tree} {x a : Nat} (ha : a ≠ k.par 0 ∨ k = []) :
    (k.setHole s x).mem a = s.mem a := by
  cases k with
  | nil => rfl
  | cons f k =>
    have ha : a ≠ f.addr := by simpa [Ctx.par] using ha
    cases f <;> exact wr_ne _ _ ha

theorem Ctx.setHole_inMem {k : Ctx} {s : intrusive_tree} {h x : Nat}
    (hc : Ctx.InMem s.mem 0 k h) (hnd : k.addrs.Nodup) :
    Ctx.InMem (k.setHole s x).mem 0 k x := by
  cases k with
  | nil => trivial
  | cons f k =>
    cases f with
    | L a c r =>
      simp only [Ctx.addrs, Frame.addrs, List.cons_append, List.nodup_cons, List.mem_append,
        not_or, List.nodup_append] at hnd
      obtain ⟨h1, h2, h3⟩ := hc
      refine ⟨?_, InMem_wr hnd.1.1 h2, CInMem_wr hnd.1.2 h3⟩
      simp [Ctx.setHole, h1]
    | R l a c =>
      simp only [Ctx.addrs, Frame.addrs, List.cons_append, List.nodup_cons, List.mem_append,
        not_or, List.nodup_append] at hnd
      obtain ⟨h1, h2, h3⟩ := hc
      refine ⟨?_, InMem_wr hnd.1.1 h2, CInMem_wr hnd.1.2 h3⟩
      simp [Ctx.setHole, h1]

theorem RBT.InMem.reparent {m : Nat → Link} {par par' : Nat} {t : RBT} (h : InMem m par t)
    (hp : par % 2 = 0) (hnd : t.inorder.Nodup) (hz : ∀ a ∈ t.inorder, a ≠ 0) :
    InMem (reparent m par' t.addr) par' t := by
  cases t with
  | nil => trivial
  | node l a c r =>
    simp only [inorder, List.nodup_append, List.nodup_cons] at hnd
    have hal : a ∉ l.inorder := fun x => hnd.2.2 x (by simp)
    have ha : a ≠ 0 := hz a (by simp [inorder])
    obtain ⟨h1, h2, h3⟩ := h
    simp only [RBT.addr, Oco.reparent, ha, if_false]
    refine ⟨?_, InMem_wr hal h2, InMem_wr hnd.2.1.1 h3⟩
    rw [wr_same, h1, enc_black _ _ _ _ hp]

/-- `toggle` on the focused node flips its colour and nothing else. -/
theorem ShapeAt.toggle {s : intrusive_tree} {k : Ctx} {l r : RBT} {n : Nat} {c : Bool}
    (h : ShapeAt s (node l n c r) k) :
    ∃ s', s.toggle n = .ok s' ∧ ShapeAt s' (node l n (!c) r) k ∧
      ∀ a, a ≠ n → s'.mem a = s.mem a := by
  refine ⟨_, toggle_eq s h.node_ne, ?_, fun a ha => wr_ne _ _ ha⟩
  obtain ⟨-, -, -, hl, hr, hk, -, -, -⟩ := h.nd
  refine ⟨h.root, ⟨?_, InMem_wr hl h.sub.2.1, InMem_wr hr h.sub.2.2⟩,
    CInMem_wr hk h.ctx, h.nodup, h.ok⟩
  show wr s.mem n _ n = _
  rw [wr_same, h.node_link, enc_xor _ _ h.par_even]

theorem reparent_apply (m : Nat → Link) (p c a : Nat) :
    reparent m p c a = if a = c ∧ c ≠ 0 then ⟨enc p (m a).black, (m a).l, (m a).r⟩ else m a := by
  unfold reparent
  by_cases hc : c = 0
  · simp [hc]
  · by_cases ha : a = c
    · subst ha; simp [hc]
    · simp [hc, ha, wr_ne]

/-- The three-way store of a node's new child into the slot of the focus. -/
theorem ShapeAt.relink {s : intrusive_tree} {k : Ctx} {l r : RBT} {p : Nat} {c : Bool}
    (h : ShapeAt s (node l p c r) k) (x : Nat) :
    (do
      if (← s.is_root p) then s.link_root x
      else if (← s.is_left p) then s.link_left (k.par 0) x
      else s.link_right (k.par 0) x) =
    .ok (k.setHole ⟨s.root_, reparent s.mem (k.par 0) x⟩ x) := by
  cases k with
  | nil => simp [h.is_root_nil, link_root_eq, Ctx.setHole, Ctx.par]
  | cons f k =>
    cases f with
    | L a c' r' =>
      have ha : a ≠ 0 := h.par_ne
      have he : a % 2 = 0 := h.par_even
      simp only [h.is_root_cons, h.is_left, bind_ok, Frame.isL, if_true, Ctx.par, Frame.addr,
        Bool.false_eq_true, if_false]
      rw [link_left_eq _ _ ha he]; rfl
    | R l' a c' =>
      have ha : a ≠ 0 := h.par_ne
      have he : a % 2 = 0 := h.par_even
      simp only [h.is_root_cons, h.is_left, bind_ok, Frame.isL, Ctx.par, Frame.addr,
        Bool.false_eq_true, if_false]
      rw [link_right_eq _ _ ha he]; rfl

theorem RBT.ne_addr {t : RBT} {a : Nat} (h0 : a ≠ 0) (h : a ∉ t.inorder) : a ≠ t.addr := by
  cases t with
  | nil => exact h0
  | node l b c r => intro e; exact h (by simp [inorder, e, RBT.addr])

theorem RBT.addr_mem {t : RBT} (h : t.addr ≠ 0) : t.addr ∈ t.inorder := by
  cases t with
  | nil => exact absurd rfl h
  | node l b c r => simp [inorder, RBT.addr]

theorem Ctx.ne_par {k : Ctx} {a : Nat} (h : a ∉ k.addrs) : a ≠ k.par 0 ∨ k = [] := by
  by_cases hk : k = []
  · exact Or.inr hk
  · exact Or.inl (fun e => h (e ▸ Ctx.par_mem hk))

theorem not_mem_node {l r : RBT} {n a : Nat} {c : Bool} (h : a ∉ (node l n c r).inorder) :
    a ∉ l.inorder ∧ a ≠ n ∧ a ∉ r.inorder := by
  simpa [inorder, not_or] using h

theorem disjoint_node_left {l r : RBT} {n : Nat} {c : Bool} {xs : List Nat}
    (h : (node l n c r).inorder.Disjoint xs) :
    l.inorder.Disjoint xs ∧ n ∉ xs ∧ r.inorder.Disjoint xs := by
  simp only [List.disjoint_left, inorder, List.mem_append, List.mem_cons] at h ⊢
  exact ⟨fun a ha => h (Or.inl ha), h (Or.inr (Or.inl rfl)), fun a ha => h (Or.inr (Or.inr ha))⟩

theorem disjoint_node_right {l r : RBT} {n : Nat} {c : Bool} {xs : List Nat}
    (h : xs.Disjoint (node l n c r).inorder) :
    xs.Disjoint l.inorder ∧ n ∉ xs ∧ xs.Disjoint r.inorder := by
  have := disjoint_node_left h.symm
  exact ⟨this.1.symm, this.2.1, this.2.2.symm⟩

theorem ShapeAt.rotate_left {s : intrusive_tree} {k : Ctx} {A B C : RBT} {p n : Nat}
    {cp cn : Bool} (h : ShapeAt s (node A p cp (node B n cn C)) k) :
    ∃ s', s.rotate_left p = .ok s' ∧ ShapeAt s' (node (node A p cp B) n cn C) k ∧
      ∀ a, a ∉ (node A p cp (node B n cn C)).inorder ++ k.addrs → s'.mem a = s.mem a := by
  have hn := h.downR
  let s1 := k.setHole ⟨s.root_, reparent s.mem (k.par 0) n⟩ n
  let m2 := wr (reparent s1.mem n p) n ⟨(reparent s1.mem n p n).p, p, (reparent s1.mem n p n).r⟩
  let m3 := wr (reparent m2 p B.addr) p
    ⟨(reparent m2 p B.addr p).p, (reparent m2 p B.addr p).l, B.addr⟩
  have e : s.rotate_left p = .ok ⟨s1.root_, m3⟩ := by
    unfold intrusive_tree.rotate_left
    rw [h.parent_, h.right_]
    simp only [bind_ok, RBT.addr]
    rw [hn.left_]
    simp only [bind_ok]
    rw [h.relink n]
    simp only [bind_ok]
    rw [link_left_eq _ _ hn.node_ne hn.node_even]
    simp only [bind_ok]
    rw [link_right_eq _ _ h.node_ne h.node_even]
  obtain ⟨ndA, -, ndk, pA, pR, pk, dAR, dAk, dRk⟩ := h.nd
  obtain ⟨ndB, ndC, -, nB, nC, -, dBC, -, -⟩ := hn.nd
  obtain ⟨pB, pn, pC⟩ := not_mem_node pR
  obtain ⟨dBk, nk, dCk⟩ := disjoint_node_left dRk
  obtain ⟨dAB, nA, dAC⟩ := disjoint_node_right dAR
  have p0 := h.node_ne
  have n0 := hn.node_ne
  have hpb : p ≠ B.addr := RBT.ne_addr p0 pB
  have hnb : n ≠ B.addr := RBT.ne_addr n0 nB
  have hpg := Ctx.ne_par pk
  have hng := Ctx.ne_par nk
  have hnp : n ≠ p := Ne.symm pn
  have ge := h.par_even
  have hok := h.ok
  have hnl : s.mem n = ⟨enc p cn, B.addr, C.addr⟩ := hn.node_link
  have hout : ∀ a, a ≠ p → a ≠ n → (a ≠ B.addr ∨ B.addr = 0) → (a ≠ k.par 0 ∨ k = []) →
      m3 a = s.mem a := by
    intro a h1 h2 h3 h4
    have h3' : ¬ (a = B.addr ∧ B.addr ≠ 0) := by tauto
    simp [m3, m2, s1, wr_ne, reparent_apply, Ctx.setHole_mem_ne, h1, h2, h3', h4]
  have hmp : m3 p = ⟨enc n cp, A.addr, B.addr⟩ := by
    simp [m3, m2, s1, wr_ne, reparent_ne, reparent_same, Ctx.setHole_mem_ne, hpb, pn, p0,
      hpg, h.node_link, enc_black _ _ _ _ ge]
  have hmn : m3 n = ⟨enc (k.par 0) cn, p, C.addr⟩ := by
    simp [m3, m2, s1, wr_ne, reparent_ne, reparent_same, Ctx.setHole_mem_ne, hnb, hnp, n0,
      hng, hnl, enc_black _ _ _ _ h.node_even]
  have hA : ∀ a ∈ A.inorder, m3 a = s.mem a := fun a ha =>
    hout a (fun e => pA (e ▸ ha)) (fun e => nA (e ▸ ha))
      (Or.inl fun e => by
        have hb : B.addr ∈ B.inorder := RBT.addr_mem (e ▸ (hok a (by simp [inorder, ha])).1)
        exact dAB ha (e ▸ hb))
      (Ctx.ne_par (fun x => dAk ha x))
  have hC : ∀ a ∈ C.inorder, m3 a = s.mem a := fun a ha =>
    hout a (fun e => pC (e ▸ ha)) (fun e => nC (e ▸ ha))
      (Or.inl fun e => by
        have hb : B.addr ∈ B.inorder := RBT.addr_mem (e ▸ (hok a (by simp [inorder, ha])).1)
        exact dBC hb (e ▸ ha))
      (Ctx.ne_par (fun x => dCk ha x))
  have hB : ∀ a ∈ B.inorder, m3 a = reparent s.mem p B.addr a := by
    intro a ha
    have a1 : a ≠ p := fun e => pB (e ▸ ha)
    have a2 : a ≠ n := fun e => nB (e ▸ ha)
    have a3 := Ctx.ne_par (fun x => dBk ha x)
    simp [m3, m2, s1, wr_ne, reparent_apply, Ctx.setHole_mem_ne, a1, a2, a3]
  have hK : ∀ a ∈ k.addrs, m3 a = s1.mem a := by
    intro a ha
    have a1 : a ≠ p := fun e => pk (e ▸ ha)
    have a2 : a ≠ n := fun e => nk (e ▸ ha)
    have a3 : a ≠ B.addr := fun e => by
      have hb : B.addr ∈ B.inorder := RBT.addr_mem (e ▸ (hok a (by simp [ha])).1)
      exact dBk hb (e ▸ ha)
    simp [m3, m2, wr_ne, reparent_ne, a1, a2, a3]
  have hctx0 : Ctx.InMem (reparent s.mem (k.par 0) n) 0 k p :=
    CInMem_congr (fun a ha => reparent_ne _ _ (fun e => nk (e ▸ ha))) h.ctx
  have hctx1 : Ctx.InMem s1.mem 0 k n := Ctx.setHole_inMem (s := ⟨s.root_, _⟩) hctx0 ndk
  refine ⟨_, e, ⟨Ctx.setHole_root (s := ⟨s.root_, _⟩) h.root,
    ⟨hmn, ⟨hmp, InMem_congr hA h.sub.2.1, ?_⟩, InMem_congr hC hn.sub.2.2⟩,
    CInMem_congr hK hctx1, ?_, ?_⟩, ?_⟩
  · exact InMem_congr hB (hn.sub.2.1.reparent hn.node_even ndB
      (fun a ha => (hok a (by simp [inorder, ha])).1))
  · refine (List.Perm.nodup_iff ?_).1 h.nodup
    simp only [inorder, List.append_assoc, List.cons_append]
    exact List.Perm.refl _
  · intro a ha
    exact hok a (by simpa [inorder, or_assoc] using ha)
  · intro a ha
    simp only [inorder, List.mem_append, List.mem_cons, not_or] at ha
    refine hout a ha.1.2.1 ha.1.2.2.2.1 ?_ (Ctx.ne_par ha.2)
    rcases Nat.eq_zero_or_pos B.addr with hz | hz
    · exact Or.inr hz
    · exact Or.inl (fun e => ha.1.2.2.1 (e ▸ RBT.addr_mem (by omega)))

theorem ShapeAt.rotate_right {s : intrusive_tree} {k : Ctx} {A B C : RBT} {p n : Nat}
    {cp cn : Bool} (h : ShapeAt s (node (node A n cn B) p cp C) k) :
    ∃ s', s.rotate_right p = .ok s' ∧ ShapeAt s' (node A n cn (node B p cp C)) k ∧
      ∀ a, a ∉ (node (node A n cn B) p cp C).inorder ++ k.addrs → s'.mem a = s.mem a := by
  have hn := h.downL
  let s1 := k.setHole ⟨s.root_, reparent s.mem (k.par 0) n⟩ n
  let m2 := wr (reparent s1.mem n p) n ⟨(reparent s1.mem n p n).p, (reparent s1.mem n p n).l, p⟩
  let m3 := wr (reparent m2 p B.addr) p
    ⟨(reparent m2 p B.addr p).p, B.addr, (reparent m2 p B.addr p).r⟩
  have e : s.rotate_right p = .ok ⟨s1.root_, m3⟩ := by
    unfold intrusive_tree.rotate_right
    rw [h.parent_, h.left_]
    simp only [bind_ok, RBT.addr]
    rw [hn.right_]
    simp only [bind_ok]
    rw [h.relink n]
    simp only [bind_ok]
    rw [link_right_eq _ _ hn.node_ne hn.node_even]
    simp only [bind_ok]
    rw [link_left_eq _ _ h.node_ne h.node_even]
  obtain ⟨-, ndC, ndk, pL, pC, pk, dLC, dLk, dCk⟩ := h.nd
  obtain ⟨ndA, ndB, -, nA, nB, -, dAB, -, -⟩ := hn.nd
  obtain ⟨pA, pn, pB⟩ := not_mem_node pL
  obtain ⟨dAk, nk, dBk⟩ := disjoint_node_left dLk
  obtain ⟨dAC, nC, dBC⟩ := disjoint_node_left dLC
  have p0 := h.node_ne
  have n0 := hn.node_ne
  have hpb : p ≠ B.addr := RBT.ne_addr p0 pB
  have hnb : n ≠ B.addr := RBT.ne_addr n0 nB
  have hpg := Ctx.ne_par pk
  have hng := Ctx.ne_par nk
  have hnp : n ≠ p := Ne.symm pn
  have ge := h.par_even
  have hok := h.ok
  have hnl : s.mem n = ⟨enc p cn, A.addr, B.addr⟩ := hn.node_link
  have hout : ∀ a, a ≠ p → a ≠ n → (a ≠ B.addr ∨ B.addr = 0) → (a ≠ k.par 0 ∨ k = []) →
      m3 a = s.mem a := by
    intro a h1 h2 h3 h4
    have h3' : ¬ (a = B.addr ∧ B.addr ≠ 0) := by tauto
    simp [m3, m2, s1, wr_ne, reparent_apply, Ctx.setHole_mem_ne, h1, h2, h3', h4]
  have hmp : m3 p = ⟨enc n cp, B.addr, C.addr⟩ := by
    simp [m3, m2, s1, wr_ne, reparent_ne, reparent_same, Ctx.setHole_mem_ne, hpb, pn, p0,
      hpg, h.node_link, enc_black _ _ _ _ ge]
  have hmn : m3 n = ⟨enc (k.par 0) cn, A.addr, p⟩ := by
    simp [m3, m2, s1, wr_ne, reparent_ne, reparent_same, Ctx.setHole_mem_ne, hnb, hnp, n0,
      hng, hnl, enc_black _ _ _ _ h.node_even]
  have hA : ∀ a ∈ A.inorder, m3 a = s.mem a := fun a ha =>
    hout a (fun e => pA (e ▸ ha)) (fun e => nA (e ▸ ha))
      (Or.inl fun e => by
        have hb : B.addr ∈ B.inorder := RBT.addr_mem (e ▸ (hok a (by simp [inorder, ha])).1)
        exact dAB ha (e ▸ hb))
      (Ctx.ne_par (fun x => dAk ha x))
  have hC : ∀ a ∈ C.inorder, m3 a = s.mem a := fun a ha =>
    hout a (fun e => pC (e ▸ ha)) (fun e => nC (e ▸ ha))
      (Or.inl fun e => by
        have hb : B.addr ∈ B.inorder := RBT.addr_mem (e ▸ (hok a (by simp [inorder, ha])).1)
        exact dBC hb (e ▸ ha))
      (Ctx.ne_par (fun x => dCk ha x))
  have hB : ∀ a ∈ B.inorder, m3 a = reparent s.mem p B.addr a := by
    intro a ha
    have a1 : a ≠ p := fun e => pB (e ▸ ha)
    have a2 : a ≠ n := fun e => nB (e ▸ ha)
    have a3 := Ctx.ne_par (fun x => dBk ha x)
    simp [m3, m2, s1, wr_ne, reparent_apply, Ctx.setHole_mem_ne, a1, a2, a3]
  have hK : ∀ a ∈ k.addrs, m3 a = s1.mem a := by
    intro a ha
    have a1 : a ≠ p := fun e => pk (e ▸ ha)
    have a2 : a ≠ n := fun e => nk (e ▸ ha)
    have a3 : a ≠ B.addr := fun e => by
      have hb : B.addr ∈ B.inorder := RBT.addr_mem (e ▸ (hok a (by simp [ha])).1)
      exact dBk hb (e ▸ ha)
    simp [m3, m2, wr_ne, reparent_ne, a1, a2, a3]
  have hctx0 : Ctx.InMem (reparent s.mem (k.par 0) n) 0 k p :=
    CInMem_congr (fun a ha => reparent_ne _ _ (fun e => nk (e ▸ ha))) h.ctx
  have hctx1 : Ctx.InMem s1.mem 0 k n := Ctx.setHole_inMem (s := ⟨s.root_, _⟩) hctx0 ndk
  refine ⟨_, e, ⟨Ctx.setHole_root (s := ⟨s.root_, _⟩) h.root,
    ⟨hmn, InMem_congr hA hn.sub.2.1, ⟨hmp, ?_, InMem_congr hC h.sub.2.2⟩⟩,
    CInMem_congr hK hctx1, ?_, ?_⟩, ?_⟩
  · exact InMem_congr hB (hn.sub.2.2.reparent hn.node_even ndB
      (fun a ha => (hok a (by simp [inorder, ha])).1))
  · refine (List.Perm.nodup_iff ?_).1 h.nodup
    simp only [inorder, List.append_assoc, List.cons_append]
    exact List.Perm.refl _
  · intro a ha
    exact hok a (by simpa [inorder, or_assoc] using ha)
  · intro a ha
    simp only [inorder, List.mem_append, List.mem_cons, not_or] at ha
    refine hout a ha.1.2.1 ha.1.1.2.1 ?_ (Ctx.ne_par ha.2)
    rcases Nat.eq_zero_or_pos B.addr with hz | hz
    · exact Or.inr hz
    · exact Or.inl (fun e => ha.1.1.2.2 (e ▸ RBT.addr_mem (by omega)))

end Oco

namespace Oco

open RBT intrusive_tree

/-! ## Colour invariants of plugged trees -/

theorem Frame.fill_flip (f : Frame) (t : RBT) : (f.flip t).fill f.sib = f.fill t := by
  cases f <;> rfl

theorem Frame.flip_sib (f : Frame) (t : RBT) : (f.flip t).sib = t := by cases f <;> rfl
theorem Frame.flip_addr (f : Frame) (t : RBT) : (f.flip t).addr = f.addr := by cases f <;> rfl
theorem Frame.flip_color (f : Frame) (t : RBT) : (f.flip t).color = f.color := by cases f <;> rfl
theorem Frame.flip_flip (f : Frame) (t : RBT) : (f.flip t).flip f.sib = f := by cases f <;> rfl
theorem Frame.setColor_sib (f : Frame) (c : Bool) : (f.setColor c).sib = f.sib := by cases f <;> rfl
theorem Frame.setColor_addr (f : Frame) (c : Bool) : (f.setColor c).addr = f.addr := by
  cases f <;> rfl
theorem Frame.setColor_color (f : Frame) (c : Bool) : (f.setColor c).color = c := by cases f <;> rfl
theorem Frame.setColor_isL (f : Frame) (c : Bool) : (f.setColor c).isL = f.isL := by cases f <;> rfl
theorem Frame.addr_fill (f : Frame) (t : RBT) : (f.fill t).addr = f.addr := by cases f <;> rfl
theorem Frame.isBlack_fill (f : Frame) (t : RBT) : (f.fill t).isBlack = f.color := by
  cases f <;> rfl

theorem Frame.balanced_fill (f : Frame) (t : RBT) :
    (f.fill t).balanced ↔ f.sib.bh = t.bh ∧ f.sib.balanced ∧ t.balanced := by
  cases f with
  | L a c r =>
    simp only [Frame.fill, balanced, Frame.sib]
    exact ⟨fun ⟨h1, h2, h3⟩ => ⟨h1.symm, h3, h2⟩, fun ⟨h1, h2, h3⟩ => ⟨h1.symm, h3, h2⟩⟩
  | R l a c =>
    simp only [Frame.fill, balanced, Frame.sib]

theorem Frame.noRedRed_fill (f : Frame) (t : RBT) :
    (f.fill t).noRedRed ↔
      (f.color = false → t.isBlack = true ∧ f.sib.isBlack = true) ∧ f.sib.noRedRed ∧ t.noRedRed := by
  cases f <;> simp only [Frame.fill, noRedRed, Frame.sib, Frame.color] <;> tauto

theorem Frame.bh_fill (f : Frame) (t : RBT) (h : f.sib.bh = t.bh) :
    (f.fill t).bh = t.bh + (if f.color then 1 else 0) := by
  cases f <;> simp only [Frame.fill, bh, Frame.sib, Frame.color] at h ⊢
  rw [h]

/-- A plugged tree is red-black iff the subtree is balanced without red-red edge
and the context invariant holds for its black height and root colour. -/
theorem redBlack_plug {t : RBT} {k : Ctx} :
    (plug t k).redBlack ↔ t.balanced ∧ t.noRedRed ∧ k.Inv t.bh t.isBlack := by
  induction k generalizing t with
  | nil => simp only [plug, redBlack, Ctx.Inv]; tauto
  | cons f k ih =>
    rw [plug_cons, ih, Frame.balanced_fill, Frame.noRedRed_fill, Frame.isBlack_fill]
    simp only [Ctx.Inv]
    constructor
    · rintro ⟨⟨h1, h2, h3⟩, ⟨h4, h5, h6⟩, h7⟩
      rw [Frame.bh_fill f t h1] at h7
      exact ⟨h3, h6, h1, h2, h5, h4, h7⟩
    · rintro ⟨h3, h6, h1, h2, h5, h4, h7⟩
      rw [← Frame.bh_fill f t h1] at h7
      exact ⟨⟨h1, h2, h3⟩, ⟨h4, h5, h6⟩, h7⟩

/-- A hole that may hold a red root may hold a black one as well, except at the root. -/
theorem Ctx.Inv.of_red {f : Frame} {k : Ctx} {h : Nat} (hk : Ctx.Inv (f :: k) h false) :
    Ctx.Inv (f :: k) h true := by
  obtain ⟨h1, h2, h3, h4, h5⟩ := hk
  exact ⟨h1, h2, h3, fun e => ⟨rfl, (h4 e).2⟩, h5⟩

theorem Ctx.Inv.black_par {f : Frame} {k : Ctx} {h : Nat} (hk : Ctx.Inv (f :: k) h false) :
    f.color = true := by
  obtain ⟨-, -, -, h4, -⟩ := hk
  cases hc : f.color
  · exact absurd (h4 hc).1 (by simp)
  · rfl

end Oco

namespace Oco

open RBT intrusive_tree

/-! ## Reading and recolouring the nodes around the focus -/

namespace ShapeAt

variable {s : intrusive_tree} {k : Ctx} {t : RBT} {f g : Frame}

theorem flip (h : ShapeAt s t (f :: k)) : ShapeAt s f.sib (f.flip t :: k) := by
  apply ShapeAt.down
  rw [Frame.fill_flip]
  exact h.up

theorem unflip (h : ShapeAt s f.sib (f.flip t :: k)) : ShapeAt s t (f :: k) := by
  apply ShapeAt.down
  have := h.up
  rwa [Frame.fill_flip] at this

theorem is_black_par (h : ShapeAt s t (f :: k)) : s.is_black f.addr = f.color := by
  have := h.up.is_black_addr
  rwa [Frame.addr_fill, Frame.isBlack_fill] at this

theorem is_red_par (h : ShapeAt s t (f :: k)) : s.is_red f.addr = !f.color := by
  have := h.up.is_red_addr
  rwa [Frame.addr_fill, Frame.isBlack_fill] at this

theorem is_black_sib (h : ShapeAt s t (f :: k)) : s.is_black f.sib.addr = f.sib.isBlack :=
  h.flip.is_black_addr

theorem is_red_sib (h : ShapeAt s t (f :: k)) : s.is_red f.sib.addr = !f.sib.isBlack :=
  h.flip.is_red_addr

theorem parent_par (h : ShapeAt s t (f :: k)) : s.parent_ f.addr = .ok (k.par 0) := by
  have := h.up
  cases f <;> exact this.parent_

theorem is_root_par (h : ShapeAt s t (f :: k)) : s.is_root f.addr = .ok (decide (k = [])) := by
  have := h.up
  cases f <;> exact this.is_root

theorem is_left_par (h : ShapeAt s t (f :: g :: k)) : s.is_left f.addr = .ok g.isL := by
  have := h.up
  cases f <;> exact this.is_left g

theorem is_right_par (h : ShapeAt s t (f :: g :: k)) : s.is_right f.addr = .ok (!g.isL) := by
  have := h.up
  cases f <;> exact this.is_right g

theorem peer_par (h : ShapeAt s t (f :: g :: k)) : s.peer f.addr = .ok g.sib.addr := by
  have := h.up
  cases f <;> exact this.peer g

theorem par_ne' (h : ShapeAt s t (f :: k)) : f.addr ≠ 0 :=
  (h.ok _ (List.mem_append_right _ (Ctx.par_mem (k := f :: k) (by simp)))).1

/-- `toggle` on the parent of the focus. -/
theorem toggle_par (h : ShapeAt s t (f :: k)) :
    ∃ s', s.toggle f.addr = .ok s' ∧ ShapeAt s' t (f.setColor (!f.color) :: k) ∧
      ∀ a, a ≠ f.addr → s'.mem a = s.mem a := by
  have hu := h.up
  cases f with
  | L a c r =>
    obtain ⟨s', e, h', hfr⟩ := hu.toggle
    exact ⟨s', e, h'.downL, hfr⟩
  | R l a c =>
    obtain ⟨s', e, h', hfr⟩ := hu.toggle
    exact ⟨s', e, h'.downR, hfr⟩

/-- `toggle` on the sibling of the focus. -/
theorem toggle_sib {ul ur : RBT} {ua : Nat} {uc : Bool} (h : ShapeAt s t (f :: k))
    (hs : f.sib = node ul ua uc ur) :
    ∃ s', s.toggle ua = .ok s' ∧ ShapeAt s' t (f.setSib (node ul ua (!uc) ur) :: k) ∧
      ∀ a, a ≠ ua → s'.mem a = s.mem a := by
  have hf := h.flip
  rw [hs] at hf
  obtain ⟨s', e, h', hfr⟩ := hf.toggle
  refine ⟨s', e, ?_, hfr⟩
  have := h'.up
  apply ShapeAt.down
  cases f <;> exact this

end ShapeAt

end Oco

namespace Oco

open RBT intrusive_tree

/-! ## The fixup loop of `insert` -/

theorem isBlack_node (l r : RBT) (a : Nat) (c : Bool) : (node l a c r).isBlack = c := rfl

theorem inorder_plug_congr {t t' : RBT} (k : Ctx) (h : t'.inorder = t.inorder) :
    (plug t' k).inorder = (plug t k).inorder := by
  rw [inorder_plug, inorder_plug, h]

theorem Frame.inorder_fill_setColor (f : Frame) (c : Bool) (t : RBT) :
    ((f.setColor c).fill t).inorder = (f.fill t).inorder := by cases f <;> rfl

theorem insert_fixup_root {s : intrusive_tree} {l r : RBT} {n : Nat} (fuel : Nat)
    (h : ShapeAt s (node l n false r) [])
    (hb : (node l n false r).balanced) (hr : (node l n false r).noRedRed) :
    InsFixOk s (fuel + 1) n (plug (node l n false r) []) := by
  obtain ⟨s', e, h', hfr⟩ := h.toggle
  refine ⟨s', _, ?_, h'.shape, ⟨rfl, ⟨fun x => absurd x (by simp), hr.2⟩, hb⟩, rfl, ?_⟩
  · simp only [insert_fixup, bne_of_ne h.node_ne, check_true, bind_ok, h.parent_, Ctx.par,
      beq_self_eq_true, if_true, h.is_red, Bool.not_false, e]
  · intro a ha
    exact hfr a (fun e => ha (by simp [plug, inorder, e]))

theorem insert_fixup_black {s : intrusive_tree} {l r : RBT} {n : Nat} {f : Frame} {k : Ctx}
    (fuel : Nat) (h : ShapeAt s (node l n false r) (f :: k)) (hf : f.color = true)
    (hb : (node l n false r).balanced) (hr : (node l n false r).noRedRed)
    (hk : Ctx.Inv (f :: k) l.bh true) :
    InsFixOk s (fuel + 1) n (plug (node l n false r) (f :: k)) := by
  refine ⟨s, _, ?_, h.shape, redBlack_plug.2 ⟨hb, hr, ?_⟩, rfl, fun _ _ => rfl⟩
  · simp only [insert_fixup, bne_of_ne h.node_ne, check_true, bind_ok, h.parent_, Ctx.par,
      beq_of_ne h.par_ne', h.is_black_par, hf, if_true, Bool.false_eq_true, if_false, pure_ok]
  · obtain ⟨h1, h2, h3, -, h5⟩ := hk
    exact ⟨h1, h2, h3, fun e => absurd (hf ▸ e) (by simp), h5⟩

/-- One round of recolouring: parent and uncle red. -/
theorem insert_fixup_recolor {s : intrusive_tree} {l r ul ur : RBT} {n ua : Nat} {f g : Frame}
    {k : Ctx} (fuel : Nat) (h : ShapeAt s (node l n false r) (f :: g :: k))
    (hf : f.color = false) (hg : g.color = true) (hu : g.sib = node ul ua false ur) :
    ∃ s3, ShapeAt s3 (node l n false r)
        (f.setColor true :: (g.setColor false).setSib (node ul ua true ur) :: k) ∧
      insert_fixup (fuel + 1) s n = insert_fixup fuel s3 g.addr ∧
      ∀ a, a ∉ (plug (node l n false r) (f :: g :: k)).inorder → s3.mem a = s.mem a := by
  obtain ⟨s1, e1, h1, fr1⟩ := h.up.toggle_par
  have h1' := h1.down (f := f)
  obtain ⟨s2, e2, h2, fr2⟩ := h1'.toggle_par
  have hu2 : (g.setColor (!g.color)).sib = node ul ua false ur := by
    rw [Frame.setColor_sib, hu]
  obtain ⟨s3, e3, h3, fr3⟩ := h2.up.toggle_sib hu2
  have h3' := h3.down (f := f.setColor (!f.color))
  have hua : ua ≠ 0 := by
    have := h.up.flip
    rw [hu] at this
    exact this.node_ne
  have q1 := h.peer_par
  have q2 := h.up.is_black_sib
  have q3 := h.up.is_red_sib
  rw [hu] at q1 q2 q3
  simp only [RBT.addr, isBlack, Bool.not_false] at q1 q2 q3
  have q4 : s.parent_ f.addr = .ok g.addr := h.parent_par
  refine ⟨s3, ?_, ?_, ?_⟩
  · rw [hf, hg] at h3'
    cases g <;> exact h3'
  · simp only [insert_fixup, bne_of_ne h.node_ne, check_true, bind_ok, h.parent_, Ctx.par,
      beq_of_ne h.par_ne', h.is_black_par, hf, Bool.false_eq_true, if_false,
      q4, beq_of_ne h.up.par_ne', q1, beq_of_ne hua, q2,
      Bool.or_self, h.up.is_black_par, hg, h.is_red_par, Bool.not_false, q3, e1, e2, e3]
  · intro a ha
    have ha' := fun x => ha (mem_plug.2 x)
    have a1 : a ≠ g.addr := fun e => ha' (Or.inr (by
      cases f <;> cases g <;> simp [Ctx.addrs, Frame.addrs, e, Frame.addr]))
    have a2 : a ≠ f.addr := fun e => ha' (Or.inr (by
      cases f <;> cases g <;> simp [Ctx.addrs, Frame.addrs, e, Frame.addr]))
    have a3 : a ≠ ua := fun e => ha' (Or.inr (by
      cases f <;> cases g <;> simp only [Frame.sib] at hu <;>
        simp [Ctx.addrs, Frame.addrs, e, hu, inorder]))
    rw [fr3 a a3, fr2 a a2, fr1 a a1]

theorem not_mem_plug {t : RBT} {k : Ctx} {a : Nat} (h : a ∉ (plug t k).inorder) :
    a ∉ t.inorder ++ k.addrs := fun x => h (mem_plug.2 (List.mem_append.1 x))

theorem ne_of_not_mem_plug {l r : RBT} {n : Nat} {c : Bool} {k : Ctx} {a : Nat}
    (h : a ∉ (plug (node l n c r) k).inorder) : a ≠ n :=
  fun e => h (mem_plug.2 (Or.inl (by simp [inorder, e])))

theorem andM_ok (a b : Bool) : andM (.ok a) (.ok b) = .ok (a && b) := by
  cases a <;> rfl

theorem andM_false (b : M Bool) : andM (.ok false) b = .ok false := rfl

theorem orM_true (b : M Bool) : orM (.ok true) b = .ok true := rfl

theorem orM_false (b : M Bool) : orM (.ok false) b = b := by
  cases b <;> rfl

/-- Straight line on the left: rotate right at the grandparent. -/
theorem insert_fixup_LL {s : intrusive_tree} {l r sp u : RBT} {n p ga : Nat} {k : Ctx}
    (fuel : Nat) (h : ShapeAt s (node l n false r) (.L p false sp :: .L ga true u :: k))
    (hu : u.isBlack = true) :
    ∃ s', insert_fixup (fuel + 1) s n = .ok s' ∧
      ShapeAt s' (node (node l n false r) p true (node sp ga false u)) k ∧
      ∀ a, a ∉ (plug (node l n false r) (.L p false sp :: .L ga true u :: k)).inorder →
        s'.mem a = s.mem a := by
  have hp := h.up
  have hg := hp.up
  obtain ⟨s2, e2, h2, fr2⟩ := hg.rotate_right
  obtain ⟨s3, e3, h3, fr3⟩ := h2.downR.toggle
  obtain ⟨s4, e4, h4, fr4⟩ := h3.up.toggle
  have q1 : s.peer p = .ok u.addr := h.peer_par
  have q2 : s.is_black u.addr = true := by rw [← hu]; exact hp.is_black_sib
  have q3 : s.is_right n = .ok false := h.is_right _
  have q4 : s.is_left n = .ok true := h.is_left _
  have q5 : s.is_right p = .ok false := hp.is_right _
  have q6 : s.is_left p = .ok true := hp.is_left _
  have q7 : s.is_black ga = true := hg.is_black
  have q8 : s.is_red p = true := hp.is_red
  have q9 : s.is_red n = true := h.is_red
  have q10 : s4.is_red ga = true := h4.downR.is_red
  have q11 : s4.is_black p = true := h4.is_black
  have q12 : s4.is_red n = true := h4.downL.is_red
  have q13 : s.is_black p = false := hp.is_black
  refine ⟨s4, ?_, h4, ?_⟩
  · simp only [insert_fixup, bne_of_ne h.node_ne, check_true, bind_ok, h.parent_, Ctx.par,
      Frame.addr, beq_of_ne hp.node_ne, q13, Bool.false_eq_true, if_false, hp.parent_,
      beq_of_ne hg.node_ne, q1, q2, Bool.or_true, if_true, q3, q4, q5, q6, andM_ok, andM_false,
      Bool.and_false, Bool.and_true, pure_ok, Bool.not_true, Bool.not_false, orM_true, orM_false,
      q7, q8, q9, e2, e3, e4, q10, q11, q12]
  · intro a ha
    rw [fr4 a (ne_of_not_mem_plug (l := node l n false r) (r := sp) (c := false)
        (k := .L ga true u :: k) ha),
      fr3 a (ne_of_not_mem_plug (l := node (node l n false r) p false sp) (r := u) (c := true)
        (k := k) ha),
      fr2 a (not_mem_plug (t := node (node (node l n false r) p false sp) ga true u) (k := k) ha)]

/-- Straight line on the right: rotate left at the grandparent. -/
theorem insert_fixup_RR {s : intrusive_tree} {l r sp u : RBT} {n p ga : Nat} {k : Ctx}
    (fuel : Nat) (h : ShapeAt s (node l n false r) (.R sp p false :: .R u ga true :: k))
    (hu : u.isBlack = true) :
    ∃ s', insert_fixup (fuel + 1) s n = .ok s' ∧
      ShapeAt s' (node (node u ga false sp) p true (node l n false r)) k ∧
      ∀ a, a ∉ (plug (node l n false r) (.R sp p false :: .R u ga true :: k)).inorder →
        s'.mem a = s.mem a := by
  have hp := h.up
  have hg := hp.up
  obtain ⟨s2, e2, h2, fr2⟩ := hg.rotate_left
  obtain ⟨s3, e3, h3, fr3⟩ := h2.downL.toggle
  obtain ⟨s4, e4, h4, fr4⟩ := h3.up.toggle
  have q1 : s.peer p = .ok u.addr := h.peer_par
  have q2 : s.is_black u.addr = true := by rw [← hu]; exact hp.is_black_sib
  have q3 : s.is_right n = .ok true := h.is_right _
  have q4 : s.is_left n = .ok false := h.is_left _
  have q5 : s.is_right p = .ok true := hp.is_right _
  have q6 : s.is_left p = .ok false := hp.is_left _
  have q7 : s.is_black ga = true := hg.is_black
  have q8 : s.is_red p = true := hp.is_red
  have q9 : s.is_red n = true := h.is_red
  have q10 : s4.is_red ga = true := h4.downL.is_red
  have q11 : s4.is_black p = true := h4.is_black
  have q12 : s4.is_red n = true := h4.downR.is_red
  have q13 : s.is_black p = false := hp.is_black
  refine ⟨s4, ?_, h4, ?_⟩
  · simp only [insert_fixup, bne_of_ne h.node_ne, check_true, bind_ok, h.parent_, Ctx.par,
      Frame.addr, beq_of_ne hp.node_ne, q13, Bool.false_eq_true, if_false, hp.parent_,
      beq_of_ne hg.node_ne, q1, q2, Bool.or_true, if_true, q3, q4, q5, q6, andM_ok, andM_false,
      Bool.and_false, Bool.and_true, Bool.and_self, pure_ok, Bool.not_true, Bool.not_false,
      orM_true, orM_false, q7, q8, q9, e2, e3, e4, q10, q11, q12]
  · intro a ha
    rw [fr4 a (ne_of_not_mem_plug (l := sp) (r := node l n false r) (c := false)
        (k := .R u ga true :: k) ha),
      fr3 a (ne_of_not_mem_plug (l := u) (r := node sp p false (node l n false r)) (c := true)
        (k := k) ha),
      fr2 a (not_mem_plug (t := node u ga true (node sp p false (node l n false r))) (k := k) ha)]

/-- Zig-zag, parent on the left: rotate left at the parent, then right at the grandparent. -/
theorem insert_fixup_LR {s : intrusive_tree} {l r sp u : RBT} {n p ga : Nat} {k : Ctx}
    (fuel : Nat) (h : ShapeAt s (node l n false r) (.R sp p false :: .L ga true u :: k))
    (hu : u.isBlack = true) :
    ∃ s', insert_fixup (fuel + 1) s n = .ok s' ∧
      ShapeAt s' (node (node sp p false l) n true (node r ga false u)) k ∧
      ∀ a, a ∉ (plug (node l n false r) (.R sp p false :: .L ga true u :: k)).inorder →
        s'.mem a = s.mem a := by
  have hp := h.up
  have hg := hp.up
  obtain ⟨s1, e1, h1, fr1⟩ := hp.rotate_left
  obtain ⟨s2, e2, h2, fr2⟩ := h1.up.rotate_right
  obtain ⟨s3, e3, h3, fr3⟩ := h2.downR.toggle
  obtain ⟨s4, e4, h4, fr4⟩ := h3.up.toggle
  have q1 : s.peer p = .ok u.addr := h.peer_par
  have q2 : s.is_black u.addr = true := by rw [← hu]; exact hp.is_black_sib
  have q3 : s.is_right n = .ok true := h.is_right _
  have q4 : s.is_left n = .ok false := h.is_left _
  have q5 : s.is_right p = .ok false := hp.is_right _
  have q6 : s.is_left p = .ok true := hp.is_left _
  have q7 : s.is_black ga = true := hg.is_black
  have q8 : s.is_red p = true := hp.is_red
  have q9 : s.is_red n = true := h.is_red
  have q10 : s4.is_red ga = true := h4.downR.is_red
  have q11 : s4.is_black n = true := h4.is_black
  have q12 : s4.is_red p = true := h4.downL.is_red
  have q13 : s.is_black p = false := hp.is_black
  have r1 : s1.is_black ga = true := h1.up.is_black
  have r2 : s1.is_red p = true := h1.downL.is_red
  have r3 : s1.is_red n = true := h1.is_red
  have r4 : s1.is_left p = .ok true := h1.downL.is_left _
  have r5 : s1.is_right p = .ok false := h1.downL.is_right _
  have r6 : s1.is_left n = .ok true := h1.is_left _
  have r7 : s1.is_right n = .ok false := h1.is_right _
  refine ⟨s4, ?_, h4, ?_⟩
  · simp only [insert_fixup, bne_of_ne h.node_ne, check_true, bind_ok, h.parent_, Ctx.par,
      Frame.addr, beq_of_ne hp.node_ne, q13, Bool.false_eq_true, if_false, hp.parent_,
      beq_of_ne hg.node_ne, q1, q2, Bool.or_true, if_true, q3, q4, q5, q6, andM_ok, andM_false,
      Bool.and_false, Bool.and_true, Bool.and_self, pure_ok, Bool.not_true, Bool.not_false,
      orM_true, orM_false, q7, q8, q9, e2, e3, e4, q10, q11, q12, e1, r1, r2, r3, r4, r5, r6, r7]
  · intro a ha
    have ha1 : a ∉ (plug (node (node sp p false l) n false r) (.L ga true u :: k)).inorder := by
      rw [inorder_plug_congr (t := node sp p false (node l n false r)) _ (by simp [inorder])]
      exact ha
    have ha2 : a ∉ (plug (node (node sp p false l) n false (node r ga true u)) k).inorder := by
      rw [inorder_plug_congr (t := node (node (node sp p false l) n false r) ga true u) _
        (by simp [inorder])]
      exact ha1
    rw [fr4 a (ne_of_not_mem_plug ha2),
      fr3 a (ne_of_not_mem_plug (l := r) (r := u) (c := true)
        (k := .R (node sp p false l) n false :: k) ha2),
      fr2 a (not_mem_plug (t := node (node (node sp p false l) n false r) ga true u) (k := k) ha1),
      fr1 a (not_mem_plug (t := node sp p false (node l n false r)) (k := .L ga true u :: k) ha)]

/-- Zig-zag, parent on the right: rotate right at the parent, then left at the grandparent. -/
theorem insert_fixup_RL {s : intrusive_tree} {l r sp u : RBT} {n p ga : Nat} {k : Ctx}
    (fuel : Nat) (h : ShapeAt s (node l n false r) (.L p false sp :: .R u ga true :: k))
    (hu : u.isBlack = true) :
    ∃ s', insert_fixup (fuel + 1) s n = .ok s' ∧
      ShapeAt s' (node (node u ga false l) n true (node r p false sp)) k ∧
      ∀ a, a ∉ (plug (node l n false r) (.L p false sp :: .R u ga true :: k)).inorder →
        s'.mem a = s.mem a := by
  have hp := h.up
  have hg := hp.up
  obtain ⟨s1, e1, h1, fr1⟩ := hp.rotate_right
  obtain ⟨s2, e2, h2, fr2⟩ := h1.up.rotate_left
  obtain ⟨s3, e3, h3, fr3⟩ := h2.downL.toggle
  obtain ⟨s4, e4, h4, fr4⟩ := h3.up.toggle
  have q1 : s.peer p = .ok u.addr := h.peer_par
  have q2 : s.is_black u.addr = true := by rw [← hu]; exact hp.is_black_sib
  have q3 : s.is_right n = .ok false := h.is_right _
  have q4 : s.is_left n = .ok true := h.is_left _
  have q5 : s.is_right p = .ok true := hp.is_right _
  have q6 : s.is_left p = .ok false := hp.is_left _
  have q7 : s.is_black ga = true := hg.is_black
  have q8 : s.is_red p = true := hp.is_red
  have q9 : s.is_red n = true := h.is_red
  have q10 : s4.is_red ga = true := h4.downL.is_red
  have q11 : s4.is_black n = true := h4.is_black
  have q12 : s4.is_red p = true := h4.downR.is_red
  have q13 : s.is_black p = false := hp.is_black
  have r1 : s1.is_black ga = true := h1.up.is_black
  have r2 : s1.is_red p = true := h1.downR.is_red
  have r3 : s1.is_red n = true := h1.is_red
  have r4 : s1.is_left p = .ok false := h1.downR.is_left _
  have r5 : s1.is_right p = .ok true := h1.downR.is_right _
  have r6 : s1.is_left n = .ok false := h1.is_left _
  have r7 : s1.is_right n = .ok true := h1.is_right _
  refine ⟨s4, ?_, h4, ?_⟩
  · simp only [insert_fixup, bne_of_ne h.node_ne, check_true, bind_ok, h.parent_, Ctx.par,
      Frame.addr, beq_of_ne hp.node_ne, q13, Bool.false_eq_true, if_false, hp.parent_,
      beq_of_ne hg.node_ne, q1, q2, Bool.or_true, if_true, q3, q4, q5, q6, andM_ok, andM_false,
      Bool.and_false, Bool.and_true, Bool.and_self, pure_ok, Bool.not_true, Bool.not_false,
      orM_true, orM_false, q7, q8, q9, e2, e3, e4, q10, q11, q12, e1, r1, r2, r3, r4, r5, r6, r7]
  · intro a ha
    have ha1 : a ∉ (plug (node l n false (node r p false sp)) (.R u ga true :: k)).inorder := by
      rw [inorder_plug_congr (t := node (node l n false r) p false sp) _ (by simp [inorder])]
      exact ha
    have ha2 : a ∉ (plug (node (node u ga true l) n false (node r p false sp)) k).inorder := by
      rw [inorder_plug_congr (t := node u ga true (node l n false (node r p false sp))) _
        (by simp [inorder])]
      exact ha1
    rw [fr4 a (ne_of_not_mem_plug ha2),
      fr3 a (ne_of_not_mem_plug (l := u) (r := l) (c := true)
        (k := .L n false (node r p false sp) :: k) ha2),
      fr2 a (not_mem_plug (t := node u ga true (node l n false (node r p false sp))) (k := k) ha1),
      fr1 a (not_mem_plug (t := node (node l n false r) p false sp) (k := .R u ga true :: k) ha)]

theorem Ctx.Inv.red_par {f g : Frame} {k : Ctx} {h : Nat} (hk : Ctx.Inv (f :: g :: k) h true)
    (hf : f.color = false) :
    f.sib.bh = h ∧ f.sib.balanced ∧ f.sib.noRedRed ∧ f.sib.isBlack = true ∧
    g.sib.bh = h ∧ g.sib.balanced ∧ g.sib.noRedRed ∧ g.color = true ∧ Ctx.Inv k (h + 1) true := by
  obtain ⟨h1, h2, h3, h4, h5⟩ := hk
  rw [hf] at h5
  have hg := h5.black_par
  obtain ⟨h6, h7, h8, -, h10⟩ := h5
  rw [hg] at h10
  simp only [Bool.false_eq_true, if_false, Nat.add_zero, if_true] at h6 h10
  exact ⟨h1, h2, h3, (h4 hf).2, h6, h7, h8, hg, h10⟩

theorem Ctx.Inv.red_root {f : Frame} {h : Nat} (hk : Ctx.Inv [f] h true) : f.color = true := by
  obtain ⟨-, -, -, -, h5⟩ := hk
  exact h5

theorem Frame.inorder_recolor (f g : Frame) (t u' : RBT) (c c' : Bool)
    (hu : u'.inorder = g.sib.inorder) :
    (((g.setColor c).setSib u').fill ((f.setColor c').fill t)).inorder =
      (g.fill (f.fill t)).inorder := by
  cases f <;> cases g <;> simp only [Frame.sib] at hu <;>
    simp [Frame.fill, Frame.setColor, Frame.setSib, inorder, hu]

/-- The recolouring round followed by the rest of the loop. -/
theorem insert_fixup_recolor_ok {s : intrusive_tree} {l r ul ur : RBT} {n ua : Nat}
    {f g : Frame} {k : Ctx} (fuel : Nat)
    (ih : ∀ {s : intrusive_tree} {l r : RBT} {n : Nat},
      ShapeAt s (node l n false r) k → (node l n false r).balanced →
      (node l n false r).noRedRed → k.Inv l.bh true →
      InsFixOk s fuel n (plug (node l n false r) k))
    (h : ShapeAt s (node l n false r) (f :: g :: k))
    (hb : (node l n false r).balanced) (hr : (node l n false r).noRedRed)
    (hk : Ctx.Inv (f :: g :: k) l.bh true)
    (hf : f.color = false) (hu : g.sib = node ul ua false ur) :
    InsFixOk s (fuel + 1) n (plug (node l n false r) (f :: g :: k)) := by
  obtain ⟨i1, i2, i3, i4, i5, i6, i7, i8, i9⟩ := hk.red_par hf
  obtain ⟨s3, h3, e3, fr3⟩ := insert_fixup_recolor fuel h hf i8 hu
  have hG := h3.up.up
  rw [hu] at i5 i6 i7
  have hN : (node l n false r).bh = l.bh := by simp [bh]
  have hfb : ((f.setColor true).fill (node l n false r)).bh = l.bh + 1 := by
    rw [Frame.bh_fill _ _ (by rw [Frame.setColor_sib, i1, hN]), hN, Frame.setColor_color]
    simp
  have hfbal : ((f.setColor true).fill (node l n false r)).balanced := by
    rw [Frame.balanced_fill, Frame.setColor_sib, hN]
    exact ⟨i1, i2, hb⟩
  have hfnr : ((f.setColor true).fill (node l n false r)).noRedRed := by
    rw [Frame.noRedRed_fill, Frame.setColor_sib, Frame.setColor_color]
    exact ⟨fun e => absurd e (by simp), i3, hr⟩
  have hfc : ((f.setColor true).fill (node l n false r)).isBlack = true := by
    rw [Frame.isBlack_fill, Frame.setColor_color]
  have hub : (node ul ua true ur).bh = l.bh + 1 := by
    simp only [bh, if_true, Bool.false_eq_true, if_false, Nat.add_zero] at i5 ⊢; omega
  have io : (plug (((g.setColor false).setSib (node ul ua true ur)).fill
      ((f.setColor true).fill (node l n false r))) k).inorder =
      (plug (node l n false r) (f :: g :: k)).inorder :=
    inorder_plug_congr (t := g.fill (f.fill (node l n false r))) k
      (Frame.inorder_recolor f g _ _ _ _ (by rw [hu]; rfl))
  have key : InsFixOk s3 fuel g.addr (plug (((g.setColor false).setSib (node ul ua true ur)).fill
      ((f.setColor true).fill (node l n false r))) k) := by
    cases g with
    | L ga cg u =>
      refine ih hG ⟨hfb.trans hub.symm, hfbal, i6⟩ ⟨fun _ => ⟨hfc, rfl⟩, hfnr, ?_⟩ ?_
      · exact ⟨fun e => absurd e (by simp), i7.2⟩
      · rw [hfb]; exact i9
    | R u ga cg =>
      refine ih hG ⟨hub.trans hfb.symm, i6, hfbal⟩ ⟨fun _ => ⟨rfl, hfc⟩, ?_, hfnr⟩ ?_
      · exact ⟨fun e => absurd e (by simp), i7.2⟩
      · rw [hub]; exact i9
  obtain ⟨s', T', e, sh, rb, io', fr⟩ := key
  refine ⟨s', T', by rw [e3]; exact e, sh, rb, io'.trans io, fun a ha => ?_⟩
  rw [fr a (by rw [io]; exact ha), fr3 a ha]

/-- The fixup loop of `insert` restores the red-black invariants and keeps the
in-order sequence, for a red focus whose only possible defect is a red parent. -/
theorem insert_fixup_ok : (k : Ctx) → ∀ (fuel : Nat) {s : intrusive_tree} {l r : RBT} {n : Nat},
    ShapeAt s (node l n false r) k → (node l n false r).balanced → (node l n false r).noRedRed →
    k.Inv l.bh true → k.length < fuel → InsFixOk s fuel n (plug (node l n false r) k)
  | [], fuel, s, l, r, n, h, hb, hr, _, hfu => by
    obtain ⟨fuel, rfl⟩ : ∃ f', fuel = f' + 1 := ⟨fuel - 1, by omega⟩
    exact insert_fixup_root fuel h hb hr
  | [f], fuel, s, l, r, n, h, hb, hr, hk, hfu => by
    obtain ⟨fuel, rfl⟩ : ∃ f', fuel = f' + 1 := ⟨fuel - 1, by omega⟩
    exact insert_fixup_black fuel h hk.red_root hb hr hk
  | f :: g :: k, fuel, s, l, r, n, h, hb, hr, hk, hfu => by
    obtain ⟨fuel, rfl⟩ : ∃ f', fuel = f' + 1 := ⟨fuel - 1, by omega⟩
    have hlen : k.length < fuel := by simp only [List.length_cons] at hfu; omega
    cases hf : f.color with
    | true => exact insert_fixup_black fuel h hf hb hr hk
    | false =>
      by_cases hub : g.sib.isBlack = false
      · -- red uncle: recolour and continue from the grandparent
        obtain ⟨ul, ua, ur, hu⟩ : ∃ ul ua ur, g.sib = node ul ua false ur := by
          cases hs : g.sib with
          | nil => rw [hs] at hub; simp [isBlack] at hub
          | node ul ua uc ur =>
            rw [hs] at hub; simp only [isBlack] at hub; subst hub; exact ⟨_, _, _, rfl⟩
        exact insert_fixup_recolor_ok fuel
          (fun h' hb' hr' hk' => insert_fixup_ok k fuel h' hb' hr' hk' hlen) h hb hr hk hf hu
      · -- black uncle: one or two rotations
        have hub : g.sib.isBlack = true := by simpa using hub
        obtain ⟨i1, i2, i3, i4, i5, i6, i7, i8, i9⟩ := hk.red_par hf
        obtain ⟨hb1, hb2, hb3⟩ := hb
        obtain ⟨hr1, hr2, hr3⟩ := hr
        have hr1 := hr1 rfl
        cases f with
        | L p cp sp =>
          cases g with
          | L ga cg u =>
            simp only [Frame.color] at hf i8; subst hf; subst i8
            simp only [Frame.sib] at hub i1 i2 i3 i4 i5 i6 i7
            obtain ⟨s', e, h', fr⟩ := insert_fixup_LL fuel h hub
            refine ⟨s', _, e, h'.shape, redBlack_plug.2 ⟨?_, ?_, ?_⟩,
              inorder_plug_congr (t := node (node (node l n false r) p false sp) ga true u) k
                (by simp [inorder]), fr⟩
            · simp only [balanced, bh]; simp [*]
            · simp only [noRedRed, isBlack_node]; simp [*]
            · simpa only [bh, isBlack, if_true, Bool.false_eq_true, if_false, Nat.add_zero]
                using i9
          | R u ga cg =>
            simp only [Frame.color] at hf i8; subst hf; subst i8
            simp only [Frame.sib] at hub i1 i2 i3 i4 i5 i6 i7
            obtain ⟨s', e, h', fr⟩ := insert_fixup_RL fuel h hub
            refine ⟨s', _, e, h'.shape, redBlack_plug.2 ⟨?_, ?_, ?_⟩,
              inorder_plug_congr (t := node u ga true (node (node l n false r) p false sp)) k
                (by simp [inorder]), fr⟩
            · simp only [balanced, bh]; simp [*]
            · simp only [noRedRed, isBlack_node]; simp [*]
            · simpa only [bh, isBlack, if_true, Bool.false_eq_true, if_false, Nat.add_zero, i5]
                using i9
        | R sp p cp =>
          cases g with
          | L ga cg u =>
            simp only [Frame.color] at hf i8; subst hf; subst i8
            simp only [Frame.sib] at hub i1 i2 i3 i4 i5 i6 i7
            obtain ⟨s', e, h', fr⟩ := insert_fixup_LR fuel h hub
            refine ⟨s', _, e, h'.shape, redBlack_plug.2 ⟨?_, ?_, ?_⟩,
              inorder_plug_congr (t := node (node sp p false (node l n false r)) ga true u) k
                (by simp [inorder]), fr⟩
            · simp only [balanced, bh]; simp [*]
            · simp only [noRedRed, isBlack_node]; simp [*]
            · simpa only [bh, isBlack, if_true, Bool.false_eq_true, if_false, Nat.add_zero, i1]
                using i9
          | R u ga cg =>
            simp only [Frame.color] at hf i8; subst hf; subst i8
            simp only [Frame.sib] at hub i1 i2 i3 i4 i5 i6 i7
            obtain ⟨s', e, h', fr⟩ := insert_fixup_RR fuel h hub
            refine ⟨s', _, e, h'.shape, redBlack_plug.2 ⟨?_, ?_, ?_⟩,
              inorder_plug_congr (t := node u ga true (node sp p false (node l n false r))) k
                (by simp [inorder]), fr⟩
            · simp only [balanced, bh]; simp [*]
            · simp only [noRedRed, isBlack_node]; simp [*]
            · simpa only [bh, isBlack, if_true, Bool.false_eq_true, if_false, Nat.add_zero, i5]
                using i9

end Oco

namespace Oco

open RBT intrusive_tree

/-! ## Membership, boundness and the validity check -/

theorem ShapeAt.congr_at {s s' : intrusive_tree} {t : RBT} {k : Ctx} (h : ShapeAt s t k)
    (hr : s'.root_ = s.root_) (hm : ∀ a ∈ t.inorder ++ k.addrs, s'.mem a = s.mem a) :
    ShapeAt s' t k :=
  ⟨hr.trans h.root, InMem_congr (fun a ha => hm a (List.mem_append_left _ ha)) h.sub,
    CInMem_congr (fun a ha => hm a (List.mem_append_right _ ha)) h.ctx, h.nodup, h.ok⟩

theorem Shape.congr_mem {s s' : intrusive_tree} {t : RBT} (h : Shape s t)
    (hr : s'.root_ = s.root_) (hm : ∀ a ∈ t.inorder, s'.mem a = s.mem a) : Shape s' t :=
  ⟨hr.trans h.root, InMem_congr hm h.rep, h.nodup, h.ok⟩

/-- Every member is the root of a subtree in some context. -/
theorem exists_focus {t : RBT} {a : Nat} (h : a ∈ t.inorder) :
    ∃ l c r k, t = plug (node l a c r) k ∧ k.length < t.height := by
  induction t with
  | nil => simp [inorder] at h
  | node l b c r ihl ihr =>
    simp only [inorder, List.mem_append, List.mem_cons] at h
    rcases h with h | rfl | h
    · obtain ⟨l', c', r', k, e, hk⟩ := ihl h
      refine ⟨l', c', r', k ++ [.L b c r], ?_, ?_⟩
      · rw [plug_append, ← e]; rfl
      · simp only [List.length_append, List.length_singleton, height]
        omega
    · exact ⟨l, c, r, [], rfl, by simp [height]⟩
    · obtain ⟨l', c', r', k, e, hk⟩ := ihr h
      refine ⟨l', c', r', k ++ [.R l b c], ?_, ?_⟩
      · rw [plug_append, ← e]; rfl
      · simp only [List.length_append, List.length_singleton, height]
        omega

theorem ShapeAt.eldest_loop {s : intrusive_tree} : ∀ {k : Ctx} {l r : RBT} {n : Nat} {c : Bool}
    {fuel : Nat}, ShapeAt s (node l n c r) k → k.length < fuel →
    s.eldest_loop fuel n = .ok s.root_
  | [], l, r, n, c, fuel, h, hf => by
    obtain ⟨fuel, rfl⟩ : ∃ f', fuel = f' + 1 := ⟨fuel - 1, by omega⟩
    simp only [intrusive_tree.eldest_loop, h.parent_, Ctx.par, bind_ok, bne_self_eq_false,
      Bool.false_eq_true, if_false, pure_ok]
    rw [h.root]; rfl
  | f :: k, l, r, n, c, fuel, h, hf => by
    obtain ⟨fuel, rfl⟩ : ∃ f', fuel = f' + 1 := ⟨fuel - 1, by omega⟩
    simp only [intrusive_tree.eldest_loop, h.parent_, Ctx.par, bind_ok, bne_of_ne h.par_ne,
      if_true]
    have hu := h.up
    have hl : k.length < fuel := by simp only [List.length_cons] at hf; omega
    cases f with
    | L a c' r' => exact ShapeAt.eldest_loop hu hl
    | R l' a c' => exact ShapeAt.eldest_loop hu hl

/-- `is_member` holds for every node of the tree. -/
theorem Shape.is_member {s : intrusive_tree} {t : RBT} {a fuel : Nat} (h : Shape s t)
    (ha : a ∈ t.inorder) (hf : t.height ≤ fuel) : s.is_member fuel a = .ok true := by
  obtain ⟨l, c, r, k, rfl, hk⟩ := exists_focus ha
  have hz := h.at
  simp only [intrusive_tree.is_member, bne_of_ne hz.node_ne, check_true, bind_ok,
    intrusive_tree.empty, beq_of_ne hz.root_ne, Bool.false_eq_true, if_false,
    intrusive_tree.eldest_, hz.eldest_loop (lt_of_lt_of_le hk hf), pure_ok, beq_self_eq_true]

/-- An unbound element is not a member. -/
theorem Shape.is_member_unbound {s : intrusive_tree} {t : RBT} {e fuel : Nat} (h : Shape s t)
    (he : Unbound s e) (h0 : e ≠ 0) (hnot : e ∉ t.inorder) :
    s.is_member (fuel + 1) e = .ok false := by
  simp only [intrusive_tree.is_member, bne_of_ne h0, check_true, bind_ok, intrusive_tree.empty]
  by_cases hr : s.root_ = 0
  · simp [hr]
  · have hne : e ≠ s.root_ := by
      rw [h.root]; intro e'; rw [h.root] at hr
      exact hnot (e' ▸ RBT.addr_mem hr)
    have hp : s.parent_ e = .ok 0 := by
      rw [parent_eq _ h0, he]; rfl
    simp [beq_of_ne hr, intrusive_tree.eldest_, bne_of_ne h0, intrusive_tree.eldest_loop, hp,
      beq_of_ne hne]

theorem Unbound.is_bound_false {s : intrusive_tree} {e : Nat} (he : Unbound s e) (h0 : e ≠ 0) :
    s.is_bound e = .ok false := by
  have he' : s.mem e = ⟨0, 0, 0⟩ := he
  simp [intrusive_tree.is_bound, bne_of_ne h0, he', Link.bound]

/-- Every node of a tree with a black root is bound. -/
theorem Shape.is_bound {s : intrusive_tree} {t : RBT} {a : Nat} (h : Shape s t)
    (hb : t.isBlack = true) (ha : a ∈ t.inorder) : s.is_bound a = .ok true := by
  obtain ⟨l, c, r, k, rfl, -⟩ := exists_focus ha
  have hz := h.at
  have hp : enc (k.par 0) c ≠ 0 := by
    rw [Ne, enc_eq_zero]
    rintro ⟨h1, h2⟩
    cases k with
    | nil => subst h2; simp [plug, isBlack] at hb
    | cons f k => exact hz.par_ne h1
  simp [intrusive_tree.is_bound, bne_of_ne hz.node_ne, hz.node_link, Link.bound, bne_of_ne hp]

theorem Shape.mem_ne_zero {s : intrusive_tree} {t : RBT} {a : Nat} (h : Shape s t)
    (hb : t.isBlack = true) (ha : a ∈ t.inorder) : (s.mem a).p ≠ 0 := by
  obtain ⟨l, c, r, k, rfl, -⟩ := exists_focus ha
  have hz := h.at
  rw [hz.node_link, Ne, enc_eq_zero]
  rintro ⟨h1, h2⟩
  cases k with
  | nil => subst h2; simp [plug, isBlack] at hb
  | cons f k => exact hz.par_ne h1

/-- An unbound element is not a node of a tree with a black root. -/
theorem Shape.not_mem_of_unbound {s : intrusive_tree} {t : RBT} {e : Nat} (h : Shape s t)
    (hb : t.isBlack = true) (he : Unbound s e) : e ∉ t.inorder := fun ha =>
  h.mem_ne_zero hb ha (by rw [he])

theorem height_lt_left {l r : RBT} {a : Nat} {c : Bool} {fuel : Nat}
    (h : (node l a c r).height < fuel + 1) : l.height < fuel := by
  simp only [height] at h
  omega

theorem height_lt_right {l r : RBT} {a : Nat} {c : Bool} {fuel : Nat}
    (h : (node l a c r).height < fuel + 1) : r.height < fuel := by
  simp only [height] at h
  omega

theorem ShapeAt.depth {s : intrusive_tree} : ∀ (t : RBT) {k : Ctx} {fuel : Nat},
    ShapeAt s t k → t.balanced → t.height < fuel → s.depth fuel t.addr = .ok t.bh
  | nil, k, fuel, _, _, hf => by
    obtain ⟨fuel, rfl⟩ : ∃ f', fuel = f' + 1 := ⟨fuel - 1, by omega⟩
    simp [intrusive_tree.depth, RBT.addr, bh]
  | node l a c r, k, fuel, h, hb, hf => by
    obtain ⟨fuel, rfl⟩ : ∃ f', fuel = f' + 1 := ⟨fuel - 1, by omega⟩
    have e1 := ShapeAt.depth l h.downL hb.2.1 (height_lt_left hf)
    have e2 := ShapeAt.depth r h.downR hb.2.2 (height_lt_right hf)
    simp only [intrusive_tree.depth, addr_node, beq_of_ne h.node_ne, Bool.false_eq_true, if_false,
      h.left_, h.right_, bind_ok, e1, e2, hb.1, beq_self_eq_true, check_true, h.is_black, pure_ok,
      bh]
    rw [Nat.add_comm]

theorem ShapeAt.valid_at {s : intrusive_tree} (lt : Nat → Nat → Bool) :
    ∀ (t : RBT) {k : Ctx} {fuel : Nat},
    ShapeAt s t k → t.noRedRed → t.ordered lt → t.height < fuel →
    s.valid_at lt fuel t.addr = .ok true
  | nil, k, fuel, _, _, _, hf => by
    obtain ⟨fuel, rfl⟩ : ∃ f', fuel = f' + 1 := ⟨fuel - 1, by omega⟩
    simp [intrusive_tree.valid_at, RBT.addr]
  | node l a c r, k, fuel, h, hr, ho, hf => by
    obtain ⟨fuel, rfl⟩ : ∃ f', fuel = f' + 1 := ⟨fuel - 1, by omega⟩
    simp only [ordered, inorder, List.pairwise_append, List.pairwise_cons, List.mem_cons,
      forall_eq_or_imp] at ho
    obtain ⟨ol, ⟨oar, or'⟩, olr⟩ := ho
    have e1 := ShapeAt.valid_at lt l h.downL hr.2.1 ol (height_lt_left hf)
    have e2 := ShapeAt.valid_at lt r h.downR hr.2.2 or' (height_lt_right hf)
    have c1 : (s.is_red a && (l.addr != 0 && !s.is_black l.addr)) = false := by
      rw [h.is_red, h.downL.is_black_addr]
      cases c
      · simp [(hr.1 rfl).1]
      · simp
    have c2 : (s.is_red a && (r.addr != 0 && !s.is_black r.addr)) = false := by
      rw [h.is_red, h.downR.is_black_addr]
      cases c
      · simp [(hr.1 rfl).2]
      · simp
    have c3 : (l.addr != 0 && lt a l.addr) = false := by
      by_cases hl : l.addr = 0
      · simp [hl]
      · simp [(olr _ (RBT.addr_mem hl)).1]
    have c4 : (r.addr != 0 && lt r.addr a) = false := by
      by_cases hl : r.addr = 0
      · simp [hl]
      · simp [oar _ (RBT.addr_mem hl)]
    simp only [intrusive_tree.valid_at, addr_node, beq_of_ne h.node_ne, Bool.false_eq_true,
      if_false, h.left_, h.right_, bind_ok, c1, c2, c3, c4, e1, e2, if_true]

/-- The validity check passes on a red-black tree whose in-order sequence is ordered. -/
theorem Shape.valid {s : intrusive_tree} {t : RBT} {lt : Nat → Nat → Bool} {fuel : Nat}
    (h : Shape s t) (hrb : t.redBlack) (ho : t.ordered lt) (hf : t.height < fuel) :
    s.valid lt fuel = .ok true := by
  cases t with
  | nil => simp [intrusive_tree.valid, intrusive_tree.empty, h.root, RBT.addr]
  | node l a c r =>
    have hz : ShapeAt s (node l a c r) [] := h.at (k := [])
    obtain ⟨fuel, rfl⟩ : ∃ f', fuel = f' + 1 := ⟨fuel - 1, by omega⟩
    have hr : s.root_ = a := h.root
    have e1 := ShapeAt.depth l hz.downL hrb.2.2.2.1 
      (Nat.lt_succ_of_lt (height_lt_left hf))
    have e2 := ShapeAt.depth r hz.downR hrb.2.2.2.2
      (Nat.lt_succ_of_lt (height_lt_right hf))
    have e3 := ShapeAt.valid_at lt _ hz hrb.2.1 ho hf
    have hc : c = true := hrb.1
    simp only [intrusive_tree.valid, intrusive_tree.empty, hr, beq_of_ne hz.node_ne,
      Bool.false_eq_true, if_false, hz.is_black, hc, Bool.not_true, hz.left_, hz.right_, bind_ok,
      e1, e2, hrb.2.2.1, bne_self_eq_false]
    exact e3

end Oco

namespace Oco

open RBT intrusive_tree

/-! ## The descent of `insert` -/

theorem plug_descend (lt : Nat → Nat → Bool) (e : Nat) (t : RBT) (k : Ctx) :
    plug .nil (descend lt e t k) = plug t k := by
  induction t generalizing k with
  | nil => rfl
  | node l a c r ihl ihr =>
    simp only [descend]
    split
    · rw [ihl]; rfl
    · rw [ihr]; rfl

theorem length_descend (lt : Nat → Nat → Bool) (e : Nat) (t : RBT) (k : Ctx) :
    (descend lt e t k).length ≤ t.height + k.length := by
  induction t generalizing k with
  | nil => simp [descend, height]
  | node l a c r ihl ihr =>
    simp only [descend, height]
    split
    · have := ihl (.L a c r :: k); simp only [List.length_cons] at this; omega
    · have := ihr (.R l a c :: k); simp only [List.length_cons] at this; omega

theorem ShapeAt.get_slot {s : intrusive_tree} {t : RBT} {k : Ctx} (h : ShapeAt s t k) :
    s.get k.slot = t.addr := by
  cases k with
  | nil => exact h.root
  | cons f k =>
    cases f with
    | L a c r => simp only [Ctx.slot, intrusive_tree.get]; rw [h.ctx.1]
    | R l a c => simp only [Ctx.slot, intrusive_tree.get]; rw [h.ctx.1]

theorem set_slot (s : intrusive_tree) (k : Ctx) (x : Nat) : s.set k.slot x = k.setHole s x := by
  cases k with
  | nil => rfl
  | cons f k => cases f <;> rfl

/-- The descent links `e` as a red leaf at the place `descend` finds. -/
theorem insert_descend_ok (lt : Nat → Nat → Bool) (e : Nat) (he0 : e ≠ 0) (he2 : e % 2 = 0) :
    ∀ (t : RBT) {k : Ctx} {s : intrusive_tree} (fuel : Nat),
    ShapeAt s t k → e ∉ t.inorder ++ k.addrs → s.mem e = ⟨k.par 0, 0, 0⟩ → t.height < fuel →
    ∃ s', insert_descend lt e fuel s k.slot = .ok s' ∧
      ShapeAt s' (node nil e false nil) (descend lt e t k) ∧
      ∀ a, a ∉ (plug t k).inorder → a ≠ e → s'.mem a = s.mem a
  | nil, k, s, fuel, h, hne, hme, hf => by
    obtain ⟨fuel, rfl⟩ : ∃ f', fuel = f' + 1 := ⟨fuel - 1, by omega⟩
    have hek : e ∉ k.addrs := fun x => hne (List.mem_append_right _ x)
    have hnd : k.addrs.Nodup := by simpa [inorder] using h.nodup
    simp only [descend]
    refine ⟨k.setHole s e, ?_, ⟨Ctx.setHole_root h.root, ⟨?_, trivial, trivial⟩,
      Ctx.setHole_inMem h.ctx hnd, ?_, ?_⟩, ?_⟩
    · simp only [insert_descend, h.get_slot, addr_nil, bne_self_eq_false, Bool.false_eq_true,
        if_false, pure_ok, set_slot]
    · rw [Ctx.setHole_mem_ne (Ctx.ne_par hek), hme]; simp [addr_nil]
    · simpa [inorder, hek] using hnd
    · intro a ha
      simp only [inorder, List.nil_append, List.cons_append, List.mem_cons] at ha
      rcases ha with rfl | ha
      · exact ⟨he0, he2⟩
      · exact h.ok a (by simpa [inorder] using ha)
    · intro a ha _
      exact Ctx.setHole_mem_ne (Ctx.ne_par (fun x => ha (mem_plug.2 (Or.inr x))))
  | node l a c r, k, s, fuel, h, hne, hme, hf => by
    obtain ⟨fuel, rfl⟩ : ∃ f', fuel = f' + 1 := ⟨fuel - 1, by omega⟩
    have ha0 := h.node_ne
    have hea : e ≠ a := fun x => hne (by simp [inorder, x])
    have hs1 : ∀ x ∈ (node l a c r).inorder ++ k.addrs, (s.setp e a).mem x = s.mem x :=
      fun x hx => wr_ne _ _ (fun e' => hne (e' ▸ hx))
    have h1 : ShapeAt (s.setp e a) (node l a c r) k := h.congr_at rfl hs1
    have hme1 : (s.setp e a).mem e = ⟨a, 0, 0⟩ := by
      simp [intrusive_tree.setp, hme]
    have hg : s.get k.slot = a := h.get_slot
    have hg1 : (s.setp e a).get k.slot = a := h1.get_slot
    have hfr : ∀ x, x ≠ e → (s.setp e a).mem x = s.mem x := fun x hx => wr_ne _ _ hx
    simp only [insert_descend, hg, bne_of_ne ha0, if_true, hg1, descend]
    by_cases hlt : lt e a = true
    · simp only [hlt, if_true]
      obtain ⟨s', e1, h', fr⟩ := insert_descend_ok lt e he0 he2 l (k := .L a c r :: k)
        fuel h1.downL
        (by simpa [inorder, Ctx.addrs, Frame.addrs, not_or, and_assoc, and_left_comm]
          using hne)
        hme1 (height_lt_left hf)
      exact ⟨s', e1, h', fun x hx hxe => (fr x hx hxe).trans (hfr x hxe)⟩
    · simp only [hlt, Bool.false_eq_true, if_false]
      obtain ⟨s', e1, h', fr⟩ := insert_descend_ok lt e he0 he2 r (k := .R l a c :: k)
        fuel h1.downR
        (by simpa [inorder, Ctx.addrs, Frame.addrs, not_or, and_assoc, and_left_comm]
          using hne)
        hme1 (height_lt_right hf)
      exact ⟨s', e1, h', fun x hx hxe => (fr x hx hxe).trans (hfr x hxe)⟩

theorem StrictWeak.asymm {lt : Nat → Nat → Bool} (sw : StrictWeak lt) {a b : Nat}
    (h : lt a b = true) : lt b a = false := by
  cases hba : lt b a
  · rfl
  · have := sw.trans a b a h hba
    rw [sw.irrefl] at this
    exact absurd this (by simp)

theorem height_le_size (t : RBT) : t.height ≤ t.size := by
  induction t with
  | nil => simp [height, size]
  | node l a c r ihl ihr => simp only [height, size]; omega

theorem length_inorder (t : RBT) : t.inorder.length = t.size := by
  induction t with
  | nil => rfl
  | node l a c r ihl ihr => simp only [inorder, List.length_append, List.length_cons, size]; omega

theorem ordered_sub {lt : Nat → Nat → Bool} {t : RBT} {k : Ctx} (h : (plug t k).ordered lt) :
    t.ordered lt := by
  unfold ordered at h ⊢
  rw [inorder_plug] at h
  exact (List.pairwise_append.1 (List.pairwise_append.1 h).1).2.1

/-- Where the descent puts `e`: after every element `e` is not before, and before
every element it is before. -/
theorem descend_order {lt : Nat → Nat → Bool} (sw : StrictWeak lt) (e : Nat) :
    ∀ (t : RBT) (k : Ctx), (plug t k).ordered lt →
    (∀ x ∈ k.before, lt e x = false) → (∀ y ∈ k.after, lt e y = true) →
    (∀ x ∈ (descend lt e t k).before, lt e x = false) ∧
    (∀ y ∈ (descend lt e t k).after, lt e y = true)
  | nil, k, _, hb, ha => ⟨hb, ha⟩
  | node l a c r, k, ho, hb, ha => by
    have hs := ordered_sub ho
    simp only [ordered, inorder, List.pairwise_append, List.pairwise_cons, List.mem_cons,
      forall_eq_or_imp] at hs
    obtain ⟨-, ⟨oar, -⟩, olr⟩ := hs
    simp only [descend]
    by_cases hlt : lt e a = true
    · simp only [hlt, if_true]
      refine descend_order sw e l (.L a c r :: k) ho hb ?_
      intro y hy
      simp only [Ctx.after, List.cons_append, List.mem_cons, List.mem_append] at hy
      rcases hy with rfl | hy | hy
      · exact hlt
      · cases hey : lt e y
        · have := sw.ntrans e y a hey (oar y hy)
          rw [hlt] at this; exact absurd this (by simp)
        · rfl
      · exact ha y hy
    · have hlt : lt e a = false := by simpa using hlt
      simp only [hlt, Bool.false_eq_true, if_false]
      refine descend_order sw e r (.R l a c :: k) ho ?_ ha
      intro x hx
      simp only [Ctx.before, List.mem_append, List.mem_singleton] at hx
      rcases hx with hx | hx | rfl
      · exact hb x hx
      · exact sw.ntrans e a x hlt (olr x hx).1
      · exact hlt

/-- Full specification of `insert` on a red-black tree with an ordered in-order
sequence. -/
theorem insert_spec {lt : Nat → Nat → Bool} (sw : StrictWeak lt) {s : intrusive_tree} {T : RBT}
    {e fuel : Nat} (h : Shape s T) (hrb : T.redBlack) (ho : T.ordered lt)
    (he : Unbound s e) (he0 : e ≠ 0) (he2 : e % 2 = 0) (hf : T.size + 1 < fuel) :
    ∃ s' T', s.insert lt fuel e = .ok s' ∧ Shape s' T' ∧ T'.redBlack ∧ T'.ordered lt ∧
      (∃ xs ys, T.inorder = xs ++ ys ∧ T'.inorder = xs ++ e :: ys ∧
        (∀ x ∈ xs, lt e x = false) ∧ (∀ y ∈ ys, lt e y = true)) ∧
      (∀ a, a ∉ T.inorder → a ≠ e → s'.mem a = s.mem a) := by
  have hht := height_le_size T
  have hnm : e ∉ T.inorder := h.not_mem_of_unbound hrb.1 he
  have hz : ShapeAt s T [] := h.at (k := [])
  obtain ⟨s1, e1, h1, fr1⟩ := insert_descend_ok lt e he0 he2 T (k := []) fuel hz
    (by simpa [Ctx.addrs] using hnm) he (by omega)
  have hpl := plug_descend lt e T []
  have hlen := length_descend lt e T []
  simp only [plug, List.length_nil, Nat.add_zero] at hpl hlen
  obtain ⟨ob, oa⟩ := descend_order sw e T [] ho (by simp [Ctx.before]) (by simp [Ctx.after])
  have hinv : (descend lt e T []).Inv 1 true := by
    have := redBlack_plug.1 (hpl ▸ hrb)
    simpa [bh, isBlack] using this.2.2
  obtain ⟨s2, T', e2, h2, rb2, io2, fr2⟩ := insert_fixup_ok (descend lt e T []) fuel h1
    ⟨rfl, trivial, trivial⟩ ⟨fun _ => ⟨rfl, rfl⟩, trivial, trivial⟩ (by simpa [bh] using hinv)
    (by omega)
  have hT : T.inorder = (descend lt e T []).before ++ (descend lt e T []).after := by
    conv_lhs => rw [← hpl, inorder_plug]
    simp [inorder]
  have hT' : T'.inorder = (descend lt e T []).before ++ e :: (descend lt e T []).after := by
    rw [io2, inorder_plug]; simp [inorder]
  have ho' : T'.ordered lt := by
    unfold ordered at ho ⊢
    rw [hT'] 
    rw [hT] at ho
    rw [List.pairwise_append] at ho ⊢
    refine ⟨ho.1, List.pairwise_cons.2 ⟨fun y hy => sw.asymm (oa y hy), ho.2.1⟩, ?_⟩
    intro x hx y hy
    rcases List.mem_cons.1 hy with rfl | hy
    · exact ob x hx
    · exact ho.2.2 x hx y hy
  have hsz : T'.size = T.size + 1 := by
    rw [← length_inorder, ← length_inorder, hT', hT]; simp; omega
  have hht' := height_le_size T'
  have hmem : e ∈ T'.inorder := by rw [hT']; simp
  have hnil : s2.root_ ≠ 0 := by
    obtain ⟨l, c, r, k, rfl, -⟩ := exists_focus hmem
    exact h2.at.root_ne
  have v1 : s.valid lt fuel = .ok true := h.valid hrb ho (by omega)
  have v2 : s2.valid lt fuel = .ok true := h2.valid rb2 ho' (by omega)
  have v3 : s2.is_member fuel e = .ok true := h2.is_member hmem (by omega)
  have e1' : insert_descend lt e fuel s Slot.root = .ok s1 := e1
  refine ⟨s2, T', ?_, h2, rb2, ho', ⟨_, _, hT, hT', ob, oa⟩, ?_⟩
  · simp only [intrusive_tree.insert, v1, check_true, bind_ok,
      he.is_bound_false he0, Bool.not_false, e1', h1.is_red, e2, v3,
      h2.is_bound rb2.1 hmem, intrusive_tree.empty, beq_of_ne hnil, v2, pure_ok]
  · intro a ha hae
    have ha1 : a ∉ (plug (node nil e false nil) (descend lt e T [])).inorder := by
      rw [inorder_plug]; rw [hT] at ha
      simpa [inorder, hae] using ha
    rw [fr2 a ha1, fr1 a (by simpa [plug] using ha) hae]

end Oco

namespace Oco

open RBT intrusive_tree

/-! ## `leftest_`, `rightest_`, `next`, `prev`, `min`, `max` -/

theorem Ctx.after_of_allR : ∀ {k : Ctx}, (∀ f ∈ k, f.isL = false) → k.after = []
  | [], _ => rfl
  | .L a c r :: k, h => by have := h (.L a c r) (by simp); simp [Frame.isL] at this
  | .R l a c :: k, h => by
    simp only [Ctx.after]
    exact Ctx.after_of_allR (fun f hf => h f (List.mem_cons_of_mem _ hf))

theorem Ctx.before_of_allL : ∀ {k : Ctx}, (∀ f ∈ k, f.isL = true) → k.before = []
  | [], _ => rfl
  | .R l a c :: k, h => by have := h (.R l a c) (by simp); simp [Frame.isL] at this
  | .L a c r :: k, h => by
    simp only [Ctx.before]
    exact Ctx.before_of_allL (fun f hf => h f (List.mem_cons_of_mem _ hf))

/-- `rightest_` walks down the right spine to the node without right child. -/
theorem ShapeAt.rightest_loop {s : intrusive_tree} : ∀ (r : RBT) {l : RBT} {a : Nat} {c : Bool}
    {k : Ctx} (fuel : Nat), ShapeAt s (node l a c r) k → (node l a c r).height ≤ fuel →
    ∃ bl x cb kL, node l a c r = plug (node bl x cb nil) kL ∧ (∀ f ∈ kL, f.isL = false) ∧
      kL.length < (node l a c r).height ∧ s.rightest_loop fuel a = .ok x
  | nil, l, a, c, k, fuel, h, hf => by
    obtain ⟨fuel, rfl⟩ : ∃ f', fuel = f' + 1 := ⟨fuel - 1, by simp only [height] at hf; omega⟩
    refine ⟨l, a, c, [], rfl, by simp, by simp [height], ?_⟩
    simp [intrusive_tree.rightest_loop, h.right_, addr_nil]
  | node rl ra rc rr, l, a, c, k, fuel, h, hf => by
    obtain ⟨fuel, rfl⟩ : ∃ f', fuel = f' + 1 := ⟨fuel - 1, by simp only [height] at hf; omega⟩
    have hr := h.downR
    obtain ⟨bl, x, cb, kL, e, hall, hlen, ev⟩ := ShapeAt.rightest_loop rr fuel hr
      (by simp only [height] at hf ⊢; omega)
    refine ⟨bl, x, cb, kL ++ [.R l a c], ?_, ?_, ?_, ?_⟩
    · rw [plug_append, ← e]; rfl
    · intro f hf'
      rcases List.mem_append.1 hf' with hf' | hf'
      · exact hall f hf'
      · simp only [List.mem_singleton] at hf'; subst hf'; rfl
    · simp only [List.length_append, List.length_singleton]
      simp only [height] at hlen ⊢; omega
    · simp only [intrusive_tree.rightest_loop, h.right_, addr_node, bind_ok,
        bne_of_ne hr.node_ne, if_true]
      exact ev

/-- `leftest_` walks down the left spine to the node without left child. -/
theorem ShapeAt.leftest_loop {s : intrusive_tree} : ∀ (l : RBT) {r : RBT} {a : Nat} {c : Bool}
    {k : Ctx} (fuel : Nat), ShapeAt s (node l a c r) k → (node l a c r).height ≤ fuel →
    ∃ br x cb kL, node l a c r = plug (node nil x cb br) kL ∧ (∀ f ∈ kL, f.isL = true) ∧
      kL.length < (node l a c r).height ∧ s.leftest_loop fuel a = .ok x
  | nil, r, a, c, k, fuel, h, hf => by
    obtain ⟨fuel, rfl⟩ : ∃ f', fuel = f' + 1 := ⟨fuel - 1, by simp only [height] at hf; omega⟩
    refine ⟨r, a, c, [], rfl, by simp, by simp [height], ?_⟩
    simp [intrusive_tree.leftest_loop, h.left_, addr_nil]
  | node ll la lc lr, r, a, c, k, fuel, h, hf => by
    obtain ⟨fuel, rfl⟩ : ∃ f', fuel = f' + 1 := ⟨fuel - 1, by simp only [height] at hf; omega⟩
    have hl := h.downL
    obtain ⟨br, x, cb, kL, e, hall, hlen, ev⟩ := ShapeAt.leftest_loop ll fuel hl
      (by simp only [height] at hf ⊢; omega)
    refine ⟨br, x, cb, kL ++ [.L a c r], ?_, ?_, ?_, ?_⟩
    · rw [plug_append, ← e]; rfl
    · intro f hf'
      rcases List.mem_append.1 hf' with hf' | hf'
      · exact hall f hf'
      · simp only [List.mem_singleton] at hf'; subst hf'; rfl
    · simp only [List.length_append, List.length_singleton]
      simp only [height] at hlen ⊢; omega
    · simp only [intrusive_tree.leftest_loop, h.left_, addr_node, bind_ok,
        bne_of_ne hl.node_ne, if_true]
      exact ev

/-- `leftest_` of a non-empty subtree is the first element of its in-order sequence. -/
theorem ShapeAt.leftest_first {s : intrusive_tree} {l r : RBT} {a : Nat} {c : Bool} {k : Ctx}
    {fuel : Nat} (h : ShapeAt s (node l a c r) k) (hf : (node l a c r).height ≤ fuel) :
    ∃ x rest, (node l a c r).inorder = x :: rest ∧ s.leftest_loop fuel a = .ok x := by
  obtain ⟨br, x, cb, kL, e, hall, -, ev⟩ := h.leftest_loop l fuel hf
  refine ⟨x, br.inorder ++ kL.after, ?_, ev⟩
  rw [e, inorder_plug, Ctx.before_of_allL hall]
  simp [inorder]

/-- `rightest_` of a non-empty subtree is the last element of its in-order sequence. -/
theorem ShapeAt.rightest_last {s : intrusive_tree} {l r : RBT} {a : Nat} {c : Bool} {k : Ctx}
    {fuel : Nat} (h : ShapeAt s (node l a c r) k) (hf : (node l a c r).height ≤ fuel) :
    ∃ x init, (node l a c r).inorder = init ++ [x] ∧ s.rightest_loop fuel a = .ok x := by
  obtain ⟨bl, x, cb, kL, e, hall, -, ev⟩ := h.rightest_loop r fuel hf
  refine ⟨x, kL.before ++ bl.inorder, ?_, ev⟩
  rw [e, inorder_plug, Ctx.after_of_allR hall]
  simp [inorder]

/-- The upward walk of `next`: the first ancestor reached from its left subtree. -/
theorem ShapeAt.next_loop {s : intrusive_tree} : ∀ {k : Ctx} {l r : RBT} {n : Nat} {c : Bool}
    (fuel : Nat), ShapeAt s (node l n c r) k → k ≠ [] → k.length ≤ fuel →
    s.next_loop fuel n = .ok (k.after.headD 0)
  | [], _, _, _, _, _, _, hk, _ => absurd rfl hk
  | f :: k, l, r, n, c, fuel, h, _, hf => by
    obtain ⟨fuel, rfl⟩ : ∃ f', fuel = f' + 1 := ⟨fuel - 1, by
      simp only [List.length_cons] at hf; omega⟩
    have hl : k.length ≤ fuel := by simp only [List.length_cons] at hf; omega
    have hu := h.up
    cases f with
    | L a c' r' =>
      simp [intrusive_tree.next_loop, h.parent_, Ctx.par, Frame.addr, h.is_left, Frame.isL,
        Ctx.after]
    | R l' a c' =>
      simp only [intrusive_tree.next_loop, h.parent_, Ctx.par, Frame.addr, h.is_left,
        Frame.isL, bind_ok, Bool.false_eq_true, if_false, Ctx.after]
      have hr : s.is_root a = .ok (decide (k = [])) := hu.is_root
      rw [hr]
      cases k with
      | nil => simp [Ctx.after]
      | cons g k =>
        simp only [bind_ok, decide_False, Bool.not_false, if_true]
        exact ShapeAt.next_loop fuel hu (by simp) hl

/-- The upward walk of `prev`: the first ancestor reached from its right subtree. -/
theorem ShapeAt.prev_loop {s : intrusive_tree} : ∀ {k : Ctx} {l r : RBT} {n : Nat} {c : Bool}
    (fuel : Nat), ShapeAt s (node l n c r) k → k ≠ [] → k.length ≤ fuel →
    s.prev_loop fuel n = .ok (k.before.reverse.headD 0)
  | [], _, _, _, _, _, _, hk, _ => absurd rfl hk
  | f :: k, l, r, n, c, fuel, h, _, hf => by
    obtain ⟨fuel, rfl⟩ : ∃ f', fuel = f' + 1 := ⟨fuel - 1, by
      simp only [List.length_cons] at hf; omega⟩
    have hl : k.length ≤ fuel := by simp only [List.length_cons] at hf; omega
    have hu := h.up
    cases f with
    | R l' a c' =>
      simp [intrusive_tree.prev_loop, h.parent_, Ctx.par, Frame.addr, h.is_right, Frame.isL,
        Ctx.before]
    | L a c' r' =>
      simp only [intrusive_tree.prev_loop, h.parent_, Ctx.par, Frame.addr, h.is_right,
        Frame.isL, bind_ok, Bool.false_eq_true, if_false, Ctx.before, Bool.not_true]
      have hr : s.is_root a = .ok (decide (k = [])) := hu.is_root
      rw [hr]
      cases k with
      | nil => simp [Ctx.before]
      | cons g k =>
        simp only [bind_ok, decide_False, Bool.not_false, if_true]
        exact ShapeAt.prev_loop fuel hu (by simp) hl

theorem height_le_plug (t : RBT) (k : Ctx) : t.height ≤ (plug t k).height := by
  induction k generalizing t with
  | nil => exact Nat.le_refl _
  | cons f k ih =>
    rw [plug_cons]
    refine Nat.le_trans ?_ (ih _)
    cases f <;> simp only [Frame.fill, height] <;> omega

/-- In a duplicate-free list the position of an element is unique. -/
theorem nodup_split {x : Nat} : ∀ {a1 b1 a2 b2 : List Nat}, (a1 ++ x :: b1).Nodup →
    a1 ++ x :: b1 = a2 ++ x :: b2 → a1 = a2 ∧ b1 = b2
  | [], b1, [], b2, _, h => by simpa using h
  | [], b1, y :: a2, b2, hnd, h => by
    simp only [List.nil_append, List.cons_append, List.cons.injEq] at h
    obtain ⟨rfl, rfl⟩ := h
    simp at hnd
  | y :: a1, b1, [], b2, hnd, h => by
    simp only [List.nil_append, List.cons_append, List.cons.injEq] at h
    obtain ⟨rfl, rfl⟩ := h
    simp at hnd
  | y :: a1, b1, z :: a2, b2, hnd, h => by
    simp only [List.cons_append, List.cons.injEq] at h
    obtain ⟨rfl, h⟩ := h
    have := nodup_split (List.nodup_cons.1 hnd).2 h
    exact ⟨by rw [this.1], this.2⟩

/-- What `next` returns for a member: its in-order successor, or for the last
member null, unless that member is the root, where an assertion fails. -/
theorem Shape.next_cases {s : intrusive_tree} {T : RBT} {n fuel : Nat} (h : Shape s T)
    (hn : n ∈ T.inorder) (hf : T.height ≤ fuel) :
    (∃ xs m ys, T.inorder = xs ++ n :: m :: ys ∧ s.next fuel n = .ok m) ∨
    (∃ xs, T.inorder = xs ++ [n] ∧
      s.next fuel n = if n = s.root_ then .error Err.assertion else .ok 0) := by
  have hm := h.is_member hn hf
  obtain ⟨l, c, r, k, rfl, hk⟩ := exists_focus hn
  have hz := h.at
  have hio := inorder_plug (node l n c r) k
  simp only [inorder] at hio
  cases r with
  | nil =>
    have e1 : s.next fuel n = s.next_loop fuel n := by
      simp [intrusive_tree.next, hm, hz.right_, addr_nil]
    by_cases hne : k = []
    · subst hne
      right
      refine ⟨l.inorder, by simp [plug, inorder], ?_⟩
      have hr : n = s.root_ := hz.root_eq_iff.2 rfl
      obtain ⟨fuel, rfl⟩ : ∃ f', fuel = f' + 1 := ⟨fuel - 1, by
        have := height_le_plug (node l n c nil) []; simp only [height] at this hf; omega⟩
      rw [e1, if_pos hr]
      simp [intrusive_tree.next_loop, hz.parent_, hz.is_left_nil]
    · have e2 := hz.next_loop fuel hne (by omega)
      have hr : n ≠ s.root_ := fun e => hne (hz.root_eq_iff.1 e)
      cases ha : k.after with
      | nil =>
        right
        refine ⟨k.before ++ l.inorder, by rw [hio, ha, inorder]; simp, ?_⟩
        rw [e1, e2, ha, if_neg hr]; rfl
      | cons m ys =>
        left
        refine ⟨k.before ++ l.inorder, m, ys, by rw [hio, ha, inorder]; simp, ?_⟩
        rw [e1, e2, ha]; rfl
  | node rl ra rc rr =>
    left
    have hr := hz.downR
    have hh : (node rl ra rc rr).height ≤ fuel := by
      have h1 := height_le_plug (node l n c (node rl ra rc rr)) k
      have h2 : (node rl ra rc rr).height ≤ (node l n c (node rl ra rc rr)).height := by
        simp only [height]; omega
      omega
    obtain ⟨x, rest, e, ev⟩ := hr.leftest_first hh
    refine ⟨k.before ++ l.inorder, x, rest ++ k.after, by rw [hio, e]; simp, ?_⟩
    simp only [intrusive_tree.next, hm, check_true, bind_ok, hz.right_, addr_node,
      bne_of_ne hr.node_ne, if_true, intrusive_tree.leftest_, ev]

/-- What `prev` returns for a member: its in-order predecessor, or for the first
member null, unless that member is the root, where an assertion fails. -/
theorem Shape.prev_cases {s : intrusive_tree} {T : RBT} {n fuel : Nat} (h : Shape s T)
    (hn : n ∈ T.inorder) (hf : T.height ≤ fuel) :
    (∃ xs m ys, T.inorder = xs ++ m :: n :: ys ∧ s.prev fuel n = .ok m) ∨
    (∃ ys, T.inorder = n :: ys ∧
      s.prev fuel n = if n = s.root_ then .error Err.assertion else .ok 0) := by
  have hm := h.is_member hn hf
  obtain ⟨l, c, r, k, rfl, hk⟩ := exists_focus hn
  have hz := h.at
  have hio := inorder_plug (node l n c r) k
  simp only [inorder] at hio
  cases l with
  | nil =>
    have e1 : s.prev fuel n = s.prev_loop fuel n := by
      simp [intrusive_tree.prev, hm, hz.left_, addr_nil]
    by_cases hne : k = []
    · subst hne
      right
      refine ⟨r.inorder, by simp [plug, inorder], ?_⟩
      have hr : n = s.root_ := hz.root_eq_iff.2 rfl
      obtain ⟨fuel, rfl⟩ : ∃ f', fuel = f' + 1 := ⟨fuel - 1, by
        have := height_le_plug (node nil n c r) []; simp only [height] at this hf; omega⟩
      rw [e1, if_pos hr]
      simp [intrusive_tree.prev_loop, hz.parent_, hz.is_right_nil]
    · have e2 := hz.prev_loop fuel hne (by omega)
      have hr : n ≠ s.root_ := fun e => hne (hz.root_eq_iff.1 e)
      rcases List.eq_nil_or_concat k.before with ha | ⟨init, m, ha⟩
      · right
        refine ⟨r.inorder ++ k.after, by rw [hio, ha, inorder]; simp, ?_⟩
        rw [e1, e2, ha, if_neg hr]; rfl
      · left
        refine ⟨init, m, r.inorder ++ k.after, by rw [hio, ha, inorder]; simp, ?_⟩
        rw [e1, e2, ha]; simp
  | node ll la lc lr =>
    left
    have hl := hz.downL
    have hh : (node ll la lc lr).height ≤ fuel := by
      have h1 := height_le_plug (node (node ll la lc lr) n c r) k
      have h2 : (node ll la lc lr).height ≤ (node (node ll la lc lr) n c r).height := by
        simp only [height]; omega
      omega
    obtain ⟨x, init, e, ev⟩ := hl.rightest_last hh
    refine ⟨k.before ++ init, x, r.inorder ++ k.after, by rw [hio, e]; simp, ?_⟩
    simp only [intrusive_tree.prev, hm, check_true, bind_ok, hz.left_, addr_node,
      bne_of_ne hl.node_ne, if_true, intrusive_tree.rightest_, ev]

/-- `next` of a member that has a successor returns the successor. -/
theorem Shape.next_eq {s : intrusive_tree} {T : RBT} {n m fuel : Nat} {xs ys : List Nat}
    (h : Shape s T) (hio : T.inorder = xs ++ n :: m :: ys) (hf : T.height ≤ fuel) :
    s.next fuel n = .ok m := by
  have hnd := h.nodup
  rcases h.next_cases (n := n) (by rw [hio]; simp) hf with ⟨xs', m', ys', e, ev⟩ | ⟨xs', e, -⟩
  · rw [e] at hio hnd
    have := (nodup_split hnd hio).2
    simp only [List.cons.injEq] at this
    rw [ev, this.1]
  · rw [e] at hio hnd
    have := (nodup_split hnd hio).2
    simp at this

/-- `prev` of a member that has a predecessor returns the predecessor. -/
theorem Shape.prev_eq {s : intrusive_tree} {T : RBT} {n m fuel : Nat} {xs ys : List Nat}
    (h : Shape s T) (hio : T.inorder = xs ++ m :: n :: ys) (hf : T.height ≤ fuel) :
    s.prev fuel n = .ok m := by
  have hnd := h.nodup
  have hio' : T.inorder = (xs ++ [m]) ++ n :: ys := by rw [hio]; simp
  rcases h.prev_cases (n := n) (by rw [hio]; simp) hf with ⟨xs', m', ys', e, ev⟩ | ⟨ys', e, -⟩
  · have e' : T.inorder = (xs' ++ [m']) ++ n :: ys' := by rw [e]; simp
    rw [e'] at hio' hnd
    have := (nodup_split hnd hio').1
    have := List.append_inj' this rfl
    simp only [List.cons.injEq, and_true] at this
    rw [ev, this.2]
  · have e' : T.inorder = [] ++ n :: ys' := by rw [e]; simp
    rw [e'] at hio' hnd
    have := (nodup_split hnd hio').1
    simp at this

/-- `min` returns the first element of the in-order sequence. -/
theorem Shape.min_eq {s : intrusive_tree} {T : RBT} {a fuel : Nat} {rest : List Nat}
    (h : Shape s T) (hio : T.inorder = a :: rest) (hf : T.height ≤ fuel) :
    s.min fuel = .ok a := by
  cases T with
  | nil => simp [inorder] at hio
  | node l x c r =>
    have hz : ShapeAt s (node l x c r) [] := h.at (k := [])
    have hr : s.root_ = x := h.root
    have hm : s.is_member fuel x = .ok true := h.is_member (by simp [inorder]) hf
    obtain ⟨y, rest', e, ev⟩ := hz.leftest_first hf
    rw [hio] at e
    simp only [List.cons.injEq] at e
    simp only [intrusive_tree.min, intrusive_tree.root, intrusive_tree.empty,
      beq_of_ne hz.node_ne, Bool.not_false, check_true, bind_ok, pure_ok, hr,
      intrusive_tree.leftest, hm, intrusive_tree.leftest_, bne_of_ne hz.node_ne, ev, e.1]

/-- `max` returns the last element of the in-order sequence. -/
theorem Shape.max_eq {s : intrusive_tree} {T : RBT} {a fuel : Nat} {init : List Nat}
    (h : Shape s T) (hio : T.inorder = init ++ [a]) (hf : T.height ≤ fuel) :
    s.max fuel = .ok a := by
  cases T with
  | nil => simp [inorder] at hio
  | node l x c r =>
    have hz : ShapeAt s (node l x c r) [] := h.at (k := [])
    have hr : s.root_ = x := h.root
    have hm : s.is_member fuel x = .ok true := h.is_member (by simp [inorder]) hf
    obtain ⟨y, init', e, ev⟩ := hz.rightest_last hf
    rw [hio] at e
    have := List.append_inj' e rfl
    simp only [List.cons.injEq, and_true] at this
    simp only [intrusive_tree.max, intrusive_tree.root, intrusive_tree.empty,
      beq_of_ne hz.node_ne, Bool.not_false, check_true, bind_ok, pure_ok, hr,
      intrusive_tree.rightest, hm, intrusive_tree.rightest_, bne_of_ne hz.node_ne, ev, this.2]

end Oco

namespace Oco

open intrusive_stack

/-! ## The LIFO stack -/

theorem Chain.congr_links {m m' : Nat → Nat} : ∀ {xs : List Nat} {h : Nat},
    (∀ a ∈ xs, m' a = m a) → Chain m h xs → Chain m' h xs
  | [], _, _, hc => hc
  | x :: xs, h, hm, ⟨h1, h2, h3, h4⟩ => by
    have hx := hm x (by simp)
    refine ⟨h1, h2, by rw [hx]; exact h3, ?_⟩
    rw [hx]
    exact Chain.congr_links (fun a ha => hm a (List.mem_cons_of_mem _ ha)) h4

theorem Chain.bound {m : Nat → Nat} : ∀ {xs : List Nat} {h : Nat}, Chain m h xs →
    ∀ a ∈ xs, m a ≠ 0
  | [], _, _, a, ha => by simp at ha
  | x :: xs, h, ⟨_, _, h3, h4⟩, a, ha => by
    rcases List.mem_cons.1 ha with rfl | ha
    · exact h3
    · exact Chain.bound h4 a ha

theorem Chain.empty_iff {m : Nat → Nat} {xs : List Nat} {h : Nat} (hc : Chain m h xs) :
    h = bad ↔ xs = [] := by
  cases xs with
  | nil => simpa using hc
  | cons x xs =>
    obtain ⟨h1, h2, -, -⟩ := hc
    simp [h1, h2]

/-- `push` succeeds exactly on an unbound element other than the sentinel (and with
a head that is not null), and then links it in front. -/
theorem push_eq (s : intrusive_stack) (t : Nat) :
    s.push t = if s.mem t = 0 ∧ s.head ≠ 0 ∧ t ≠ bad then
      .ok ⟨t, wrp s.mem t s.head⟩ else .error Err.assertion := by
  by_cases h1 : s.mem t = 0
  · by_cases h2 : s.head = 0
    · simp [push, bound, empty, h1, h2, wrp]
    · by_cases h3 : t = bad
      · simp [push, bound, empty, h1, h2, h3, wrp]
        rw [← h3, h1]; simp [bne_of_ne h2]
      · simp [push, bound, empty, h1, h2, h3, wrp, bne_of_ne h2, beq_of_ne h3]
  · simp [push, bound, empty, h1, bne_of_ne h1]

/-- `pop` succeeds exactly on a non-empty stack whose head is bound, and then
unlinks and returns the head. -/
theorem pop_eq (s : intrusive_stack) :
    s.pop = if s.head ≠ bad ∧ s.mem s.head ≠ 0 then
      .ok (s.head, ⟨s.mem s.head, wrp s.mem s.head 0⟩) else .error Err.assertion := by
  by_cases h1 : s.head = bad
  · simp [pop, empty, h1]
  · by_cases h2 : s.mem s.head = 0
    · simp [pop, bound, empty, h1, h2, beq_of_ne h1]
    · simp [pop, bound, empty, h1, h2, beq_of_ne h1, bne_of_ne h2, wrp]

/-- A successful `push` puts the element in front of the chain. -/
theorem push_chain {s s' : intrusive_stack} {t : Nat} {xs : List Nat}
    (hc : Chain s.mem s.head xs) (hnd : xs.Nodup) (h : s.push t = .ok s') :
    Chain s'.mem s'.head (t :: xs) ∧ (t :: xs).Nodup := by
  rw [push_eq] at h
  split at h
  · rename_i hcond
    obtain ⟨h1, h2, h3⟩ := hcond
    simp only [Except.ok.injEq] at h
    subst h
    have htx : t ∉ xs := fun hx => hc.bound t hx h1
    refine ⟨⟨rfl, h3, by simp [wrp, h2], ?_⟩, List.nodup_cons.2 ⟨htx, hnd⟩⟩
    have : wrp s.mem t s.head t = s.head := by simp [wrp]
    show Chain (wrp s.mem t s.head) (wrp s.mem t s.head t) xs
    rw [this]
    exact hc.congr_links (fun a ha => by
      have : a ≠ t := fun e => htx (e ▸ ha)
      simp [wrp, this])
  · simp at h

/-- A successful `pop` returns the front of the chain and removes it. -/
theorem pop_chain {s s' : intrusive_stack} {t : Nat} {xs : List Nat}
    (hc : Chain s.mem s.head xs) (hnd : xs.Nodup) (h : s.pop = .ok (t, s')) :
    ∃ ys, xs = t :: ys ∧ Chain s'.mem s'.head ys ∧ ys.Nodup := by
  rw [pop_eq] at h
  split at h
  · rename_i hcond
    simp only [Except.ok.injEq, Prod.mk.injEq] at h
    obtain ⟨rfl, rfl⟩ := h
    cases xs with
    | nil => exact absurd hc hcond.1
    | cons x ys =>
      obtain ⟨h1, h2, h3, h4⟩ := hc
      have hxy : x ∉ ys := (List.nodup_cons.1 hnd).1
      refine ⟨ys, by rw [h1], ?_, (List.nodup_cons.1 hnd).2⟩
      show Chain (wrp s.mem s.head 0) (s.mem s.head) ys
      rw [h1]
      exact h4.congr_links (fun a ha => by
        have : a ≠ x := fun e => hxy (e ▸ ha)
        simp [wrp, this])
  · simp at h

/-- A successful run follows the LIFO discipline. -/
theorem run_chain : ∀ (ops : List StackOp) {s : intrusive_stack} {xs : List Nat}
    {r : List Nat × intrusive_stack}, Chain s.mem s.head xs → xs.Nodup → run ops s = .ok r →
    r.1 = lifo ops xs ∧ ∃ ys, Chain r.2.mem r.2.head ys ∧ ys.Nodup ∧
      ys.length + pops ops = xs.length + pushes ops
  | [], s, xs, r, hc, hnd, h => by
    simp only [run, pure_ok, Except.ok.injEq] at h
    subst h
    exact ⟨rfl, xs, hc, hnd, rfl⟩
  | .push t :: ops, s, xs, r, hc, hnd, h => by
    simp only [run] at h
    cases hp : s.push t with
    | error e => rw [hp] at h; simp at h
    | ok s1 =>
      rw [hp] at h
      simp only [bind_ok] at h
      obtain ⟨hc1, hnd1⟩ := push_chain hc hnd hp
      obtain ⟨e, ys, hcy, hndy, hlen⟩ := run_chain ops hc1 hnd1 h
      refine ⟨by rw [e]; rfl, ys, hcy, hndy, ?_⟩
      simp only [pushes, pops, List.countP_cons, List.length_cons] at hlen ⊢
      simp; omega
  | .pop :: ops, s, xs, r, hc, hnd, h => by
    simp only [run] at h
    cases hp : s.pop with
    | error e => rw [hp] at h; simp at h
    | ok p =>
      obtain ⟨t, s1⟩ := p
      rw [hp] at h
      simp only [bind_ok] at h
      obtain ⟨zs, rfl, hc1, hnd1⟩ := pop_chain hc hnd hp
      cases hr : run ops s1 with
      | error e => rw [hr] at h; simp at h
      | ok q =>
        obtain ⟨out, s2⟩ := q
        rw [hr] at h
        simp only [bind_ok, pure_ok, Except.ok.injEq] at h
        subst h
        obtain ⟨e, ys, hcy, hndy, hlen⟩ := run_chain ops hc1 hnd1 hr
        refine ⟨by simp only [lifo]; rw [← e], ys, hcy, hndy, ?_⟩
        simp only [pushes, pops, List.countP_cons, List.length_cons] at hlen ⊢
        simp; omega

theorem lifo_pops : ∀ (n : Nat) (st : List Nat),
    lifo (List.replicate n StackOp.pop) st = st.take n
  | 0, st => by simp [lifo]
  | n + 1, [] => by simp only [List.replicate_succ, lifo]; rw [lifo_pops n []]; simp
  | n + 1, x :: st => by simp only [List.replicate_succ, lifo]; rw [lifo_pops n st]; simp

theorem lifo_push_pop : ∀ (ts st : List Nat) (n : Nat),
    lifo (ts.map StackOp.push ++ List.replicate n StackOp.pop) st =
      (ts.reverse ++ st).take n
  | [], st, n => by simpa using lifo_pops n st
  | t :: ts, st, n => by
    show lifo (ts.map StackOp.push ++ List.replicate n StackOp.pop) (t :: st) = _
    rw [lifo_push_pop ts (t :: st) n]
    simp

end Oco

namespace Oco

open RBT intrusive_tree

/-! ## Unlinking a leaf and splicing a child into its place -/

/-- Storing null into the slot of a leaf's position leaves the tree without the leaf. -/
theorem ShapeAt.setHole_nil {s : intrusive_tree} {k : Ctx} {t : Nat} {c : Bool}
    (h : ShapeAt s (node nil t c nil) k) : ShapeAt (k.setHole s 0) nil k := by
  obtain ⟨-, -, ndk, -, -, tk, -, -, -⟩ := h.nd
  refine ⟨Ctx.setHole_root h.root, trivial, Ctx.setHole_inMem h.ctx ndk, by simpa [inorder] using ndk,
    fun a ha => h.ok a ?_⟩
  simp only [inorder, List.nil_append] at ha
  exact List.mem_append.2 (Or.inr ha)

/-- `unlink` of a leaf: the leaf leaves the tree and keeps only its colour bit. -/
theorem ShapeAt.unlink {s : intrusive_tree} {k : Ctx} {t : Nat} {c : Bool} (fuel : Nat)
    (h : ShapeAt s (node nil t c nil) k) (hf : k.length < fuel) :
    ∃ s', s.unlink fuel t = .ok s' ∧ ShapeAt s' nil k ∧ s'.mem t = ⟨enc 0 c, 0, 0⟩ ∧
      ∀ a, a ∉ (plug (node nil t c nil) k).inorder → s'.mem a = s.mem a := by
  have hm : s.is_member fuel t = .ok true := by
    have := h.eldest_loop hf
    simp only [intrusive_tree.is_member, bne_of_ne h.node_ne, check_true, bind_ok,
      intrusive_tree.empty, beq_of_ne h.root_ne, Bool.false_eq_true, if_false,
      intrusive_tree.eldest_, this, pure_ok, beq_self_eq_true]
  obtain ⟨-, -, ndk, -, -, tk, -, -, -⟩ := h.nd
  have h1 := h.setHole_nil
  have hrel := h.relink 0
  simp only [reparent_zero] at hrel
  have hmt : (k.setHole s 0).mem t = ⟨enc (k.par 0) c, 0, 0⟩ := by
    rw [Ctx.setHole_mem_ne (Ctx.ne_par tk)]; exact h.node_link
  have hb : (k.setHole s 0).is_black t = c := by
    simp only [intrusive_tree.is_black, beq_of_ne h.node_ne, Bool.false_or, hmt]
    exact enc_black _ _ _ _ h.par_even
  have hfin : ∀ (s2 : intrusive_tree), s2 = (k.setHole s 0).setp t 0 →
      (if c = true then s2.toggle t else pure s2) =
        .ok ⟨(k.setHole s 0).root_, wr (k.setHole s 0).mem t ⟨enc 0 c, 0, 0⟩⟩ := by
    intro s2 e
    subst e
    cases c
    · simp [intrusive_tree.setp, hmt, enc]
    · simp only [if_true]
      rw [toggle_eq _ h.node_ne]
      simp [intrusive_tree.setp, hmt, enc, wr_wr]
  refine ⟨⟨(k.setHole s 0).root_, wr (k.setHole s 0).mem t ⟨enc 0 c, 0, 0⟩⟩, ?_, ?_, ?_, ?_⟩
  · unfold intrusive_tree.unlink
    simp only [bne_of_ne h.node_ne, check_true, bind_ok, hm, h.left_, h.right_, addr_nil,
      beq_self_eq_true]
    have hrel' : (do
        if (← s.is_root t) then s.link_root 0
        else if (← s.is_left t) then s.link_left (← s.parent_ t) 0
        else s.link_right (← s.parent_ t) 0) = .ok (k.setHole s 0) := by
      rw [← hrel]
      simp only [h.parent_, bind_ok]
    rw [hrel']
    simp only [bind_ok, hb]
    exact hfin _ rfl
  · exact h1.congr_at rfl (fun a ha => wr_ne _ _ (fun e => tk (by
      subst e; simpa [inorder] using ha)))
  · simp
  · intro a ha
    have hat : a ≠ t := ne_of_not_mem_plug ha
    have hak : a ∉ k.addrs := fun x => ha (mem_plug.2 (Or.inr x))
    show wr _ t _ a = _
    rw [wr_ne _ _ hat, Ctx.setHole_mem_ne (Ctx.ne_par hak)]

/-- Linking a detached tree into an empty position. -/
theorem ShapeAt.fill {s : intrusive_tree} {k : Ctx} {X : RBT} {par' : Nat}
    (h : ShapeAt s nil k) (hX : InMem s.mem par' X) (hp : par' % 2 = 0)
    (hnd : (X.inorder ++ k.addrs).Nodup) (hok : ∀ a ∈ X.inorder, a ≠ 0 ∧ a % 2 = 0) :
    ShapeAt (k.setHole ⟨s.root_, reparent s.mem (k.par 0) X.addr⟩ X.addr) X k := by
  have ndX : X.inorder.Nodup := (List.nodup_append.1 hnd).1
  have ndk : k.addrs.Nodup := (List.nodup_append.1 hnd).2.1
  have dj : X.inorder.Disjoint k.addrs := (List.nodup_append.1 hnd).2.2
  refine ⟨Ctx.setHole_root (s := ⟨s.root_, _⟩) h.root, ?_, ?_, hnd, ?_⟩
  · exact InMem_congr (fun a ha => Ctx.setHole_mem_ne (Ctx.ne_par (fun x => dj ha x)))
      (hX.reparent hp ndX (fun a ha => (hok a ha).1))
  · refine Ctx.setHole_inMem (s := ⟨s.root_, _⟩) (CInMem_congr (fun a ha => ?_) h.ctx) ndk
    show reparent s.mem _ _ a = _
    rw [reparent_apply, if_neg]
    rintro ⟨e, h0⟩
    exact dj (RBT.addr_mem h0) (e ▸ ha)
  · intro a ha
    rcases List.mem_append.1 ha with ha | ha
    · exact hok a ha
    · exact h.ok a (by simpa [inorder] using ha)

/-- `replace` of a leaf by a detached tree. -/
theorem ShapeAt.replace {s : intrusive_tree} {k : Ctx} {X : RBT} {t par' : Nat} {c : Bool}
    (fuel : Nat) (h : ShapeAt s (node nil t c nil) k) (hf : k.length < fuel)
    (hX : InMem s.mem par' X) (hp : par' % 2 = 0)
    (hnd : (X.inorder ++ t :: k.addrs).Nodup) (hok : ∀ a ∈ X.inorder, a ≠ 0 ∧ a % 2 = 0) :
    ∃ s', s.replace fuel t X.addr = .ok s' ∧ ShapeAt s' X k ∧ s'.mem t = ⟨enc 0 c, 0, 0⟩ ∧
      ∀ a, a ∉ X.inorder ++ t :: k.addrs → s'.mem a = s.mem a := by
  obtain ⟨s1, e1, h1, ht, fr1⟩ := h.unlink fuel hf
  have hnd' : (X.inorder ++ k.addrs).Nodup := by
    rw [List.nodup_append] at hnd ⊢
    refine ⟨hnd.1, (List.nodup_cons.1 hnd.2.1).2, fun a ha hk => hnd.2.2 ha (List.mem_cons_of_mem _ hk)⟩
  have htX : t ∉ X.inorder := fun x => (List.nodup_append.1 hnd).2.2 x (List.mem_cons_self _ _)
  have hXm : ∀ a ∈ X.inorder, s1.mem a = s.mem a := fun a ha =>
    fr1 a (fun x => by
      rcases mem_plug.1 x with x | x
      · simp only [inorder, List.nil_append, List.mem_singleton] at x
        exact htX (x ▸ ha)
      · exact (List.nodup_append.1 hnd').2.2 ha x)
  have hX1 : InMem s1.mem par' X := InMem_congr hXm hX
  have h2 := h1.fill hX1 hp hnd' hok
  have htk : t ∉ k.addrs := h.nd.2.2.2.2.2.1
  have e2 : s.replace fuel t X.addr = .ok (k.setHole ⟨s1.root_, reparent s1.mem (k.par 0) X.addr⟩ X.addr) := by
    unfold intrusive_tree.replace
    cases k with
    | nil => simp only [h.is_root_nil, bind_ok, if_true, e1, link_root_eq, Ctx.setHole, Ctx.par]
    | cons f k =>
      have ha : f.addr ≠ 0 := h.par_ne
      have he : f.addr % 2 = 0 := h.par_even
      cases f with
      | L a c' r' =>
        simp only [h.is_root_cons, h.is_left, bind_ok, Frame.isL, if_true, Bool.false_eq_true,
          if_false, h.parent_, Ctx.par, Frame.addr, e1]
        rw [link_left_eq _ _ (p := a) ha he]; rfl
      | R l' a c' =>
        simp only [h.is_root_cons, h.is_left, bind_ok, Frame.isL, Bool.false_eq_true,
          if_false, h.parent_, Ctx.par, Frame.addr, e1]
        rw [link_right_eq _ _ (p := a) ha he]; rfl
  refine ⟨_, e2, h2, ?_, ?_⟩
  · rw [Ctx.setHole_mem_ne (Ctx.ne_par htk)]
    show reparent s1.mem _ _ t = _
    rw [reparent_apply, if_neg, ht]
    rintro ⟨e, h0⟩
    exact htX (e ▸ RBT.addr_mem h0)
  · intro a ha
    have haX : a ∉ X.inorder := fun x => ha (List.mem_append_left _ x)
    have hat : a ≠ t := fun x => ha (List.mem_append_right _ (x ▸ List.mem_cons_self _ _))
    have hak : a ∉ k.addrs := fun x => ha (List.mem_append_right _ (List.mem_cons_of_mem _ x))
    rw [Ctx.setHole_mem_ne (Ctx.ne_par hak)]
    show reparent s1.mem _ _ a = _
    rw [reparent_apply, if_neg]
    · refine fr1 a (fun x => ?_)
      rcases mem_plug.1 x with x | x
      · simp only [inorder, List.nil_append, List.mem_singleton] at x
        exact hat x
      · exact hak x
    · rintro ⟨e, h0⟩
      exact haX (e ▸ RBT.addr_mem h0)

/-- `take_left` detaches the left subtree of a node without right child. -/
theorem ShapeAt.take_left {s : intrusive_tree} {k : Ctx} {ll lr r : RBT} {t x : Nat}
    {c cx : Bool} (h : ShapeAt s (node (node ll x cx lr) t c r) k) :
    ∃ s', s.take_left t = .ok (x, s') ∧ ShapeAt s' (node nil t c r) k ∧
      InMem s'.mem 0 (node ll x cx lr) ∧
      ∀ a, a ≠ t → a ≠ x → s'.mem a = s.mem a := by
  have hx := h.downL
  have x0 := hx.node_ne
  obtain ⟨ndl, ndr, ndk, tl, tr, tk, dlr, dlk, drk⟩ := h.nd
  have hxt : x ≠ t := fun e => tl (by simp [inorder, e])
  let m1 := wr (reparent s.mem t 0) t ⟨(reparent s.mem t 0 t).p, 0, (reparent s.mem t 0 t).r⟩
  have e : s.take_left t = .ok (x, ⟨s.root_, reparent m1 0 x⟩) := by
    unfold intrusive_tree.take_left
    simp only [h.left_, bind_ok, addr_node, bne_of_ne x0, check_true]
    rw [link_left_eq _ _ h.node_ne h.node_even]
    simp only [bind_ok]
    rw [link_parent_eq _ x0 (by rfl)]
    rfl
  have hout : ∀ a, a ≠ t → a ≠ x → reparent m1 0 x a = s.mem a := by
    intro a h1 h2
    simp [m1, reparent_ne, reparent_zero, wr_ne, h1, h2]
  have hmt : reparent m1 0 x t = ⟨enc (k.par 0) c, 0, r.addr⟩ := by
    simp [m1, reparent_ne, reparent_zero, Ne.symm hxt, h.node_link]
  have hxin : InMem m1 t (node ll x cx lr) :=
    InMem_wr tl (by rw [reparent_zero]; exact hx.sub)
  have hX : InMem (reparent m1 0 (node ll x cx lr).addr) 0 (node ll x cx lr) :=
    hxin.reparent h.node_even ndl (fun a ha => (h.ok a (List.mem_append_left _ (by
      show a ∈ (node ll x cx lr).inorder ++ t :: r.inorder
      exact List.mem_append_left _ ha))).1)
  refine ⟨_, e, ⟨h.root, ⟨hmt, trivial, ?_⟩, ?_, ?_, ?_⟩, hX, hout⟩
  · refine InMem_congr (fun a ha => ?_) h.sub.2.2
    exact hout a (fun e => tr (e ▸ ha)) (fun e => dlr (by simp [inorder, e]) ha)
  · refine CInMem_congr (fun a ha => ?_) h.ctx
    exact hout a (fun e => tk (e ▸ ha)) (fun e => dlk (by simp [inorder, e]) ha)
  · have := h.nodup
    rw [show (node (node ll x cx lr) t c r).inorder ++ k.addrs =
      (node ll x cx lr).inorder ++ ((node nil t c r).inorder ++ k.addrs) by
        simp [inorder]] at this
    exact (List.nodup_append.1 this).2.1
  · intro a ha
    exact h.ok a (by
      simp only [inorder, List.nil_append, List.mem_append, List.mem_cons] at ha ⊢
      tauto)

/-- `take_right` detaches the right subtree of a node. -/
theorem ShapeAt.take_right {s : intrusive_tree} {k : Ctx} {l rl rr : RBT} {t x : Nat}
    {c cx : Bool} (h : ShapeAt s (node l t c (node rl x cx rr)) k) :
    ∃ s', s.take_right t = .ok (x, s') ∧ ShapeAt s' (node l t c nil) k ∧
      InMem s'.mem 0 (node rl x cx rr) ∧
      ∀ a, a ≠ t → a ≠ x → s'.mem a = s.mem a := by
  have hx := h.downR
  have x0 := hx.node_ne
  obtain ⟨ndl, ndr, ndk, tl, tr, tk, dlr, dlk, drk⟩ := h.nd
  have hxt : x ≠ t := fun e => tr (by simp [inorder, e])
  let m1 := wr (reparent s.mem t 0) t ⟨(reparent s.mem t 0 t).p, (reparent s.mem t 0 t).l, 0⟩
  have e : s.take_right t = .ok (x, ⟨s.root_, reparent m1 0 x⟩) := by
    unfold intrusive_tree.take_right
    simp only [h.right_, bind_ok, addr_node, bne_of_ne x0, check_true]
    rw [link_right_eq _ _ h.node_ne h.node_even]
    simp only [bind_ok]
    rw [link_parent_eq _ x0 (by rfl)]
    rfl
  have hout : ∀ a, a ≠ t → a ≠ x → reparent m1 0 x a = s.mem a := by
    intro a h1 h2
    simp [m1, reparent_ne, reparent_zero, wr_ne, h1, h2]
  have hmt : reparent m1 0 x t = ⟨enc (k.par 0) c, l.addr, 0⟩ := by
    simp [m1, reparent_ne, reparent_zero, Ne.symm hxt, h.node_link]
  have hxin : InMem m1 t (node rl x cx rr) :=
    InMem_wr tr (by rw [reparent_zero]; exact hx.sub)
  have hX : InMem (reparent m1 0 (node rl x cx rr).addr) 0 (node rl x cx rr) :=
    hxin.reparent h.node_even ndr (fun a ha => (h.ok a (List.mem_append_left _ (by
      show a ∈ l.inorder ++ t :: (node rl x cx rr).inorder
      exact List.mem_append_right _ (List.mem_cons_of_mem _ ha)))).1)
  refine ⟨_, e, ⟨h.root, ⟨hmt, ?_, trivial⟩, ?_, ?_, ?_⟩, hX, hout⟩
  · refine InMem_congr (fun a ha => ?_) h.sub.2.1
    exact hout a (fun e => tl (e ▸ ha)) (fun e => dlr ha (by simp [inorder, e]))
  · refine CInMem_congr (fun a ha => ?_) h.ctx
    exact hout a (fun e => tk (e ▸ ha)) (fun e => drk (by simp [inorder, e]) ha)
  · exact nodup_node_iff.2 ⟨ndl, List.nodup_nil, ndk, tl, List.not_mem_nil _, tk,
      List.disjoint_nil_right _, dlk, List.disjoint_nil_left _⟩
  · intro a ha
    exact h.ok a (by
      simp only [inorder, List.nil_append, List.mem_append, List.mem_cons,
        List.not_mem_nil, or_false] at ha ⊢
      tauto)

end Oco

namespace Oco

open RBT intrusive_tree

/-! ## The blocks of the loop of `remove` -/

theorem Ctx.Inv.to_black {k : Ctx} {h : Nat} (hk : Ctx.Inv k h false) : Ctx.Inv k h true := by
  cases k with
  | nil => exact absurd hk (by simp [Ctx.Inv])
  | cons f k => exact hk.of_red

theorem bh_pos (t : RBT) : 1 ≤ t.bh := by
  induction t with
  | nil => simp [bh]
  | node l a c r ihl _ => simp only [bh]; omega

theorem exists_node_of_bh {t : RBT} (h : 2 ≤ t.bh) (hb : t.isBlack = true) :
    ∃ l a r, t = node l a true r := by
  cases t with
  | nil => simp [bh] at h
  | node l a c r =>
    simp only [isBlack_node] at hb
    subst hb
    exact ⟨l, a, r, rfl⟩

/-- Red sibling, `n` on the left: recolour and rotate left at the parent. -/
theorem remove_red_sibling_L {s : intrusive_tree} {xl xr SL SR : RBT} {n p b : Nat} {xc : Bool}
    {k : Ctx} (h : ShapeAt s (node xl n xc xr) (.L p true (node SL b false SR) :: k)) :
    ∃ s', s.remove_red_sibling n p b = .ok (s', p, SL.addr) ∧
      ShapeAt s' (node xl n xc xr) (.L p false SL :: .L b true SR :: k) ∧
      ∀ a, a ∉ (plug (node xl n xc xr) (.L p true (node SL b false SR) :: k)).inorder →
        s'.mem a = s.mem a := by
  obtain ⟨sa, ea, ha, fra⟩ := h.toggle_par
  obtain ⟨sb, eb, hb, frb⟩ := @ShapeAt.toggle_sib _ _ _ _ SL SR b false ha rfl
  have hb' : ShapeAt sb (node xl n xc xr) (.L p false (node SL b true SR) :: k) := hb
  obtain ⟨sc, ec, hc, frc⟩ := hb'.up.rotate_left
  have hc' : ShapeAt sc (node xl n xc xr) (.L p false SL :: .L b true SR :: k) := hc.downL.downL
  have q1 : s.is_red b = true := h.is_red_sib
  have q2 : s.is_black p = true := h.is_black_par
  have q3 : sb.is_left n = .ok true := hb'.is_left _
  have q4 : sc.parent_ n = .ok p := hc'.parent_
  have q5 : sc.peer n = .ok SL.addr := hc'.peer _
  refine ⟨sc, ?_, hc', ?_⟩
  · simp only [remove_red_sibling, q1, if_true, q2, check_true, bind_ok, Frame.addr] at ea eb ⊢
    simp only [ea, eb, bind_ok, q3, if_true, ec, q4, q5, pure_ok]
  · intro a ha
    have hx := not_mem_plug ha
    have a1 : a ≠ p := fun e => hx (by simp [Ctx.addrs, Frame.addrs, e])
    have a2 : a ≠ b := fun e => hx (by simp [Ctx.addrs, Frame.addrs, inorder, e])
    rw [frc a (not_mem_plug (t := node (node xl n xc xr) p true (node SL b false SR)) (k := k) ha),
      frb a a2, fra a a1]

/-- Red sibling, `n` on the right: recolour and rotate right at the parent. -/
theorem remove_red_sibling_R {s : intrusive_tree} {xl xr SL SR : RBT} {n p b : Nat} {xc : Bool}
    {k : Ctx} (h : ShapeAt s (node xl n xc xr) (.R (node SL b false SR) p true :: k)) :
    ∃ s', s.remove_red_sibling n p b = .ok (s', p, SR.addr) ∧
      ShapeAt s' (node xl n xc xr) (.R SR p false :: .R SL b true :: k) ∧
      ∀ a, a ∉ (plug (node xl n xc xr) (.R (node SL b false SR) p true :: k)).inorder →
        s'.mem a = s.mem a := by
  obtain ⟨sa, ea, ha, fra⟩ := h.toggle_par
  obtain ⟨sb, eb, hb, frb⟩ := @ShapeAt.toggle_sib _ _ _ _ SL SR b false ha rfl
  have hb' : ShapeAt sb (node xl n xc xr) (.R (node SL b true SR) p false :: k) := hb
  obtain ⟨sc, ec, hc, frc⟩ := hb'.up.rotate_right
  have hc' : ShapeAt sc (node xl n xc xr) (.R SR p false :: .R SL b true :: k) := hc.downR.downR
  have q1 : s.is_red b = true := h.is_red_sib
  have q2 : s.is_black p = true := h.is_black_par
  have q3 : sb.is_left n = .ok false := hb'.is_left _
  have q4 : sc.parent_ n = .ok p := hc'.parent_
  have q5 : sc.peer n = .ok SR.addr := hc'.peer _
  refine ⟨sc, ?_, hc', ?_⟩
  · simp only [remove_red_sibling, q1, if_true, q2, check_true, bind_ok, Frame.addr] at ea eb ⊢
    simp only [ea, eb, bind_ok, q3, Bool.false_eq_true, if_false, ec, q4, q5, pure_ok]
  · intro a ha
    have hx := not_mem_plug ha
    have a1 : a ≠ p := fun e => hx (by simp [Ctx.addrs, Frame.addrs, e])
    have a2 : a ≠ b := fun e => hx (by simp [Ctx.addrs, Frame.addrs, inorder, e])
    rw [frc a (not_mem_plug (t := node (node SL b false SR) p true (node xl n xc xr)) (k := k) ha),
      frb a a2, fra a a1]

theorem remove_red_sibling_none {s : intrusive_tree} {n p b : Nat} (h : s.is_red b = false) :
    s.remove_red_sibling n p b = .ok (s, p, b) := by
  simp only [remove_red_sibling, h, Bool.false_eq_true, if_false, pure_ok]

/-- Near nephew red and far nephew black, `n` on the left: rotate right at the sibling. -/
theorem remove_near_nephew_L {s : intrusive_tree} {xl xr SLL SLR SR : RBT} {n p b sl : Nat}
    {xc cp : Bool} {k : Ctx}
    (h : ShapeAt s (node xl n xc xr) (.L p cp (node (node SLL sl false SLR) b true SR) :: k))
    (hr : SR.isBlack = true) :
    ∃ s', s.remove_near_nephew n b sl SR.addr = .ok s' ∧
      ShapeAt s' (node xl n xc xr) (.L p cp (node SLL sl true (node SLR b false SR)) :: k) ∧
      ∀ a, a ∉ (plug (node xl n xc xr)
          (.L p cp (node (node SLL sl false SLR) b true SR) :: k)).inorder →
        s'.mem a = s.mem a := by
  have hS := h.flip
  obtain ⟨sa, ea, ha, fra⟩ := hS.toggle
  obtain ⟨sb, eb, hb, frb⟩ := ha.downL.toggle
  obtain ⟨sc, ec, hc, frc⟩ := hb.up.rotate_right
  have q1 : s.is_left n = .ok true := h.is_left _
  have q2 : s.is_black SR.addr = true := by rw [← hr]; exact hS.downR.is_black_addr
  have q3 : s.is_red sl = true := hS.downL.is_red
  refine ⟨sc, ?_, hc.unflip, ?_⟩
  · simp only [remove_near_nephew, q1, q2, andM_ok, pure_ok, Bool.and_self, bind_ok, if_true, q3,
      check_true, ea, eb, ec]
  · intro a ha
    have hx := not_mem_plug ha
    have a1 : a ≠ b := fun e => hx (by simp [Ctx.addrs, Frame.addrs, inorder, e])
    have a2 : a ≠ sl := fun e => hx (by simp [Ctx.addrs, Frame.addrs, inorder, e])
    rw [frc a (fun x => hx (by
        simp only [Ctx.addrs, Frame.addrs, Frame.flip, inorder, List.mem_append, List.mem_cons] at x ⊢
        tauto)),
      frb a a2, fra a a1]

/-- Near nephew red and far nephew black, `n` on the right: rotate left at the sibling. -/
theorem remove_near_nephew_R {s : intrusive_tree} {xl xr SL SRL SRR : RBT} {n p b sr : Nat}
    {xc cp : Bool} {k : Ctx}
    (h : ShapeAt s (node xl n xc xr) (.R (node SL b true (node SRL sr false SRR)) p cp :: k))
    (hl : SL.isBlack = true) :
    ∃ s', s.remove_near_nephew n b SL.addr sr = .ok s' ∧
      ShapeAt s' (node xl n xc xr) (.R (node (node SL b false SRL) sr true SRR) p cp :: k) ∧
      ∀ a, a ∉ (plug (node xl n xc xr)
          (.R (node SL b true (node SRL sr false SRR)) p cp :: k)).inorder →
        s'.mem a = s.mem a := by
  have hS := h.flip
  obtain ⟨sa, ea, ha, fra⟩ := hS.toggle
  obtain ⟨sb, eb, hb, frb⟩ := ha.downR.toggle
  obtain ⟨sc, ec, hc, frc⟩ := hb.up.rotate_left
  have q1 : s.is_left n = .ok false := h.is_left _
  have q1' : s.is_right n = .ok true := h.is_right _
  have q2 : s.is_black SL.addr = true := by rw [← hl]; exact hS.downL.is_black_addr
  have q3 : s.is_red sr = true := hS.downR.is_red
  refine ⟨sc, ?_, hc.unflip, ?_⟩
  · simp only [remove_near_nephew, q1, q1', q2, andM_ok, andM_false, pure_ok, Bool.and_self,
      Bool.false_and, bind_ok, if_true, Bool.false_eq_true, if_false, q3, check_true, ea, eb, ec]
  · intro a ha
    have hx := not_mem_plug ha
    have a1 : a ≠ b := fun e => hx (by simp [Ctx.addrs, Frame.addrs, inorder, e])
    have a2 : a ≠ sr := fun e => hx (by simp [Ctx.addrs, Frame.addrs, inorder, e])
    rw [frc a (fun x => hx (by
        simp only [Ctx.addrs, Frame.addrs, Frame.flip, inorder, List.mem_append, List.mem_cons] at x ⊢
        tauto)),
      frb a a2, fra a a1]

/-- Far nephew red: the near-nephew step does nothing. -/
theorem remove_near_nephew_skip_L {s : intrusive_tree} {xl xr SL SR : RBT} {n p b : Nat}
    {xc cp cb : Bool} {k : Ctx}
    (h : ShapeAt s (node xl n xc xr) (.L p cp (node SL b cb SR) :: k))
    (hr : SR.isBlack = false) :
    s.remove_near_nephew n b SL.addr SR.addr = .ok s := by
  have hS := h.flip
  have q1 : s.is_left n = .ok true := h.is_left _
  have q1' : s.is_right n = .ok false := h.is_right _
  have q2 : s.is_black SR.addr = false := by rw [← hr]; exact hS.downR.is_black_addr
  simp only [remove_near_nephew, q1, q1', q2, andM_ok, andM_false, pure_ok, Bool.and_false,
    Bool.false_and, bind_ok, Bool.false_eq_true, if_false]

theorem remove_near_nephew_skip_R {s : intrusive_tree} {xl xr SL SR : RBT} {n p b : Nat}
    {xc cp cb : Bool} {k : Ctx}
    (h : ShapeAt s (node xl n xc xr) (.R (node SL b cb SR) p cp :: k))
    (hl : SL.isBlack = false) :
    s.remove_near_nephew n b SL.addr SR.addr = .ok s := by
  have hS := h.flip
  have q1 : s.is_left n = .ok false := h.is_left _
  have q1' : s.is_right n = .ok true := h.is_right _
  have q2 : s.is_black SL.addr = false := by rw [← hl]; exact hS.downL.is_black_addr
  simp only [remove_near_nephew, q1, q1', q2, andM_ok, andM_false, pure_ok, Bool.and_false,
    Bool.false_and, bind_ok, Bool.false_eq_true, if_false]

/-- Far nephew red, `n` on the left: recolour and rotate left at the parent. -/
theorem remove_far_nephew_L {s : intrusive_tree} {xl xr SL SRL SRR : RBT} {n p b sr : Nat}
    {xc cp : Bool} {k : Ctx}
    (h : ShapeAt s (node xl n xc xr) (.L p cp (node SL b true (node SRL sr false SRR)) :: k)) :
    ∃ s', s.remove_far_nephew n = .ok s' ∧
      ShapeAt s' (node xl n xc xr) (.L p true SL :: .L b cp (node SRL sr true SRR) :: k) ∧
      ∀ a, a ∉ (plug (node xl n xc xr)
          (.L p cp (node SL b true (node SRL sr false SRR)) :: k)).inorder →
        s'.mem a = s.mem a := by
  have hS := h.flip
  have q1 : s.parent_ n = .ok p := h.parent_
  have q2 : s.peer n = .ok b := h.peer _
  have q3 : s.left_ b = .ok SL.addr := hS.left_
  have q4 : s.right_ b = .ok sr := hS.right_
  have q5 : s.is_red p = !cp := h.is_red_par
  cases cp with
  | true =>
    obtain ⟨sc, ec, hc, frc⟩ := hS.downR.toggle
    have hc' : ShapeAt sc (node xl n xc xr) (.L p true (node SL b true (node SRL sr true SRR)) :: k) :=
      ShapeAt.unflip (f := .L p true (node SL b true (node SRL sr true SRR))) hc.up
    obtain ⟨sd, ed, hd, frd⟩ := hc'.up.rotate_left
    have q6 : s.is_left n = .ok true := h.is_left _
    have q7 : s.is_red sr = true := hS.downR.is_red
    refine ⟨sd, ?_, hd.downL.downL, ?_⟩
    · simp only [remove_far_nephew, q1, q2, q3, q4, q5, bind_ok, Bool.not_true,
        Bool.false_eq_true, if_false, pure_ok, q6, if_true, q7, ec, ed]
    · intro a ha
      have hx := not_mem_plug ha
      have a3 : a ≠ sr := fun e => hx (by simp [Ctx.addrs, Frame.addrs, inorder, e])
      rw [frd a (not_mem_plug
          (t := node (node xl n xc xr) p true (node SL b true (node SRL sr false SRR)))
          (k := k) ha), frc a a3]
  | false =>
    obtain ⟨sa, ea, ha, fra⟩ := h.toggle_par
    obtain ⟨sb, eb, hb, frb⟩ := @ShapeAt.toggle_sib _ _ _ _ SL (node SRL sr false SRR) b true ha rfl
    have hb' : ShapeAt sb (node xl n xc xr)
        (.L p true (node SL b false (node SRL sr false SRR)) :: k) := hb
    have hSb := hb'.flip
    obtain ⟨sc, ec, hc, frc⟩ := hSb.downR.toggle
    have hc' : ShapeAt sc (node xl n xc xr)
        (.L p true (node SL b false (node SRL sr true SRR)) :: k) :=
      ShapeAt.unflip (f := .L p true (node SL b false (node SRL sr true SRR))) hc.up
    obtain ⟨sd, ed, hd, frd⟩ := hc'.up.rotate_left
    have q6 : sb.is_left n = .ok true := hb'.is_left _
    have q7 : sb.is_red sr = true := hSb.downR.is_red
    have q8 : sa.is_black b = true := ha.is_black_sib
    refine ⟨sd, ?_, hd.downL.downL, ?_⟩
    · simp only [Frame.addr] at ea
      simp only [remove_far_nephew, q1, q2, q3, q4, q5, bind_ok, Bool.not_false,
        if_true, ea, q8, eb, pure_ok, q6, q7, ec, ed]
    · intro a ha
      have hx := not_mem_plug ha
      have a1 : a ≠ p := fun e => hx (by simp [Ctx.addrs, Frame.addrs, e])
      have a2 : a ≠ b := fun e => hx (by simp [Ctx.addrs, Frame.addrs, inorder, e])
      have a3 : a ≠ sr := fun e => hx (by simp [Ctx.addrs, Frame.addrs, inorder, e])
      rw [frd a (not_mem_plug
          (t := node (node xl n xc xr) p false (node SL b true (node SRL sr false SRR)))
          (k := k) ha), frc a a3, frb a a2, fra a a1]

/-- Far nephew red, `n` on the right: recolour and rotate right at the parent. -/
theorem remove_far_nephew_R {s : intrusive_tree} {xl xr SLL SLR SR : RBT} {n p b sl : Nat}
    {xc cp : Bool} {k : Ctx}
    (h : ShapeAt s (node xl n xc xr) (.R (node (node SLL sl false SLR) b true SR) p cp :: k)) :
    ∃ s', s.remove_far_nephew n = .ok s' ∧
      ShapeAt s' (node xl n xc xr) (.R SR p true :: .R (node SLL sl true SLR) b cp :: k) ∧
      ∀ a, a ∉ (plug (node xl n xc xr)
          (.R (node (node SLL sl false SLR) b true SR) p cp :: k)).inorder →
        s'.mem a = s.mem a := by
  have hS := h.flip
  have q1 : s.parent_ n = .ok p := h.parent_
  have q2 : s.peer n = .ok b := h.peer _
  have q3 : s.left_ b = .ok sl := hS.left_
  have q4 : s.right_ b = .ok SR.addr := hS.right_
  have q5 : s.is_red p = !cp := h.is_red_par
  cases cp with
  | true =>
    obtain ⟨sc, ec, hc, frc⟩ := hS.downL.toggle
    have hc' : ShapeAt sc (node xl n xc xr) (.R (node (node SLL sl true SLR) b true SR) p true :: k) :=
      ShapeAt.unflip (f := .R (node (node SLL sl true SLR) b true SR) p true) hc.up
    obtain ⟨sd, ed, hd, frd⟩ := hc'.up.rotate_right
    have q6 : s.is_left n = .ok false := h.is_left _
    have q7 : s.is_red sl = true := hS.downL.is_red
    refine ⟨sd, ?_, hd.downR.downR, ?_⟩
    · simp only [remove_far_nephew, q1, q2, q3, q4, q5, bind_ok, Bool.not_true,
        Bool.false_eq_true, if_false, pure_ok, q6, if_true, q7, ec, ed]
    · intro a ha
      have hx := not_mem_plug ha
      have a3 : a ≠ sl := fun e => hx (by simp [Ctx.addrs, Frame.addrs, inorder, e])
      rw [frd a (not_mem_plug
          (t := node (node (node SLL sl false SLR) b true SR) p true (node xl n xc xr))
          (k := k) ha), frc a a3]
  | false =>
    obtain ⟨sa, ea, ha, fra⟩ := h.toggle_par
    obtain ⟨sb, eb, hb, frb⟩ := @ShapeAt.toggle_sib _ _ _ _ (node SLL sl false SLR) SR b true ha rfl
    have hb' : ShapeAt sb (node xl n xc xr)
        (.R (node (node SLL sl false SLR) b false SR) p true :: k) := hb
    have hSb := hb'.flip
    obtain ⟨sc, ec, hc, frc⟩ := hSb.downL.toggle
    have hc' : ShapeAt sc (node xl n xc xr)
        (.R (node (node SLL sl true SLR) b false SR) p true :: k) :=
      ShapeAt.unflip (f := .R (node (node SLL sl true SLR) b false SR) p true) hc.up
    obtain ⟨sd, ed, hd, frd⟩ := hc'.up.rotate_right
    have q6 : sb.is_left n = .ok false := hb'.is_left _
    have q7 : sb.is_red sl = true := hSb.downL.is_red
    have q8 : sa.is_black b = true := ha.is_black_sib
    refine ⟨sd, ?_, hd.downR.downR, ?_⟩
    · simp only [Frame.addr] at ea
      simp only [remove_far_nephew, q1, q2, q3, q4, q5, bind_ok, Bool.not_false,
        if_true, ea, q8, eb, pure_ok, q6, Bool.false_eq_true, if_false, q7, ec, ed]
    · intro a ha
      have hx := not_mem_plug ha
      have a1 : a ≠ p := fun e => hx (by simp [Ctx.addrs, Frame.addrs, e])
      have a2 : a ≠ b := fun e => hx (by simp [Ctx.addrs, Frame.addrs, inorder, e])
      have a3 : a ≠ sl := fun e => hx (by simp [Ctx.addrs, Frame.addrs, inorder, e])
      rw [frd a (not_mem_plug
          (t := node (node (node SLL sl false SLR) b true SR) p false (node xl n xc xr))
          (k := k) ha), frc a a3, frb a a2, fra a a1]

/-- Red parent, black sibling with black children: swap their colours and stop. -/
theorem remove_rebalance_recolor {s : intrusive_tree} {xl xr SL SR : RBT} {n b : Nat} {xc : Bool}
    {f : Frame} {k : Ctx} (h : ShapeAt s (node xl n xc xr) (f :: k))
    (hc : f.color = false) (hs : f.sib = node SL b true SR)
    (hl : SL.isBlack = true) (hr : SR.isBlack = true) :
    ∃ s', s.remove_rebalance n f.addr b = .ok (s', none) ∧
      ShapeAt s' (node xl n xc xr) ((f.setSib (node SL b false SR)).setColor true :: k) ∧
      ∀ a, a ∉ (plug (node xl n xc xr) (f :: k)).inorder → s'.mem a = s.mem a := by
  have hS := h.flip
  rw [hs] at hS
  obtain ⟨sa, ea, ha, fra⟩ := h.toggle_sib hs
  obtain ⟨sb, eb, hb, frb⟩ := ha.toggle_par
  have q1 : s.left_ b = .ok SL.addr := hS.left_
  have q2 : s.right_ b = .ok SR.addr := hS.right_
  have q3 : s.is_red f.addr = true := by rw [h.is_red_par, hc]; rfl
  have q4 : s.is_black b = true := hS.is_black
  have q5 : s.is_black SL.addr = true := by rw [← hl]; exact hS.downL.is_black_addr
  have q6 : s.is_black SR.addr = true := by rw [← hr]; exact hS.downR.is_black_addr
  have hb' : ShapeAt sb (node xl n xc xr) ((f.setSib (node SL b false SR)).setColor true :: k) := by
    cases f <;> simp only [Frame.color] at hc <;> subst hc <;> exact hb
  have eb' : sa.toggle f.addr = .ok sb := by cases f <;> exact eb
  refine ⟨sb, ?_, hb', ?_⟩
  · simp only [remove_rebalance, bne_of_ne hS.node_ne, if_true, q1, q2, bind_ok, q3, q4, q5, q6,
      Bool.and_self, check_true, ea, eb', pure_ok]
  · intro a ha
    have hx := not_mem_plug ha
    have a1 : a ≠ f.addr := fun e => hx (by
      cases f <;> simp [Ctx.addrs, Frame.addrs, Frame.addr, e])
    have a2 : a ≠ b := fun e => hx (by
      cases f <;> simp only [Frame.sib] at hs <;> simp [Ctx.addrs, Frame.addrs, hs, inorder, e])
    have a1' : a ≠ (f.setSib (node SL b false SR)).addr := by cases f <;> exact a1
    rw [frb a a1', fra a a2]

/-- Everything black around `n`: make the sibling red and go on at the parent. -/
theorem remove_rebalance_up {s : intrusive_tree} {xl xr SL SR : RBT} {n b : Nat} {xc : Bool}
    {f : Frame} {k : Ctx} (h : ShapeAt s (node xl n xc xr) (f :: k))
    (hc : f.color = true) (hs : f.sib = node SL b true SR)
    (hl : SL.isBlack = true) (hr : SR.isBlack = true) :
    ∃ s', s.remove_rebalance n f.addr b = .ok (s', some f.addr) ∧
      ShapeAt s' (node xl n xc xr) (f.setSib (node SL b false SR) :: k) ∧
      ∀ a, a ∉ (plug (node xl n xc xr) (f :: k)).inorder → s'.mem a = s.mem a := by
  have hS := h.flip
  rw [hs] at hS
  obtain ⟨sa, ea, ha, fra⟩ := h.toggle_sib hs
  have q1 : s.left_ b = .ok SL.addr := hS.left_
  have q2 : s.right_ b = .ok SR.addr := hS.right_
  have q3 : s.is_red f.addr = false := by rw [h.is_red_par, hc]; rfl
  have q3' : s.is_black f.addr = true := by rw [h.is_black_par, hc]
  have q4 : s.is_black b = true := hS.is_black
  have q5 : s.is_black SL.addr = true := by rw [← hl]; exact hS.downL.is_black_addr
  have q6 : s.is_black SR.addr = true := by rw [← hr]; exact hS.downR.is_black_addr
  have q7 : s.is_red SL.addr = false := by rw [hS.downL.is_red_addr, hl]; rfl
  have q8 : s.is_red SR.addr = false := by rw [hS.downR.is_red_addr, hr]; rfl
  refine ⟨sa, ?_, ha, ?_⟩
  · simp only [remove_rebalance, bne_of_ne hS.node_ne, if_true, q1, q2, bind_ok, q3, q3', q4, q5,
      q6, q7, q8, Bool.and_self, Bool.or_self, Bool.false_and, Bool.false_eq_true, if_false,
      check_true, ea, pure_ok]
  · intro a ha
    have hx := not_mem_plug ha
    have a2 : a ≠ b := fun e => hx (by
      cases f <;> simp only [Frame.sib] at hs <;> simp [Ctx.addrs, Frame.addrs, hs, inorder, e])
    rw [fra a a2]

theorem remove_rebalance_far_L {s : intrusive_tree} {xl xr SL SRL SRR : RBT} {n p b sr : Nat}
    {xc cp : Bool} {k : Ctx}
    (h : ShapeAt s (node xl n xc xr) (.L p cp (node SL b true (node SRL sr false SRR)) :: k)) :
    ∃ s', s.remove_rebalance n p b = .ok (s', none) ∧
      ShapeAt s' (node xl n xc xr) (.L p true SL :: .L b cp (node SRL sr true SRR) :: k) ∧
      ∀ a, a ∉ (plug (node xl n xc xr)
          (.L p cp (node SL b true (node SRL sr false SRR)) :: k)).inorder →
        s'.mem a = s.mem a := by
  have hS := h.flip
  obtain ⟨s', e, h', fr⟩ := remove_far_nephew_L h
  have e0 := remove_near_nephew_skip_L h rfl
  have q1 : s.left_ b = .ok SL.addr := hS.left_
  have q2 : s.right_ b = .ok sr := hS.right_
  have q4 : s.is_black b = true := hS.is_black
  have q6 : s.is_black sr = false := hS.downR.is_black
  have q8 : s.is_red sr = true := hS.downR.is_red
  refine ⟨s', ?_, h', fr⟩
  simp only [addr_node] at e0
  simp only [remove_rebalance, bne_of_ne hS.node_ne, if_true, q1, q2, bind_ok, q4, q6, q8,
    Bool.and_false, Bool.or_true, Bool.false_eq_true, if_false, check_true, e0, e, pure_ok]

theorem remove_rebalance_far_R {s : intrusive_tree} {xl xr SLL SLR SR : RBT} {n p b sl : Nat}
    {xc cp : Bool} {k : Ctx}
    (h : ShapeAt s (node xl n xc xr) (.R (node (node SLL sl false SLR) b true SR) p cp :: k)) :
    ∃ s', s.remove_rebalance n p b = .ok (s', none) ∧
      ShapeAt s' (node xl n xc xr) (.R SR p true :: .R (node SLL sl true SLR) b cp :: k) ∧
      ∀ a, a ∉ (plug (node xl n xc xr)
          (.R (node (node SLL sl false SLR) b true SR) p cp :: k)).inorder →
        s'.mem a = s.mem a := by
  have hS := h.flip
  obtain ⟨s', e, h', fr⟩ := remove_far_nephew_R h
  have e0 := remove_near_nephew_skip_R h rfl
  have q1 : s.left_ b = .ok sl := hS.left_
  have q2 : s.right_ b = .ok SR.addr := hS.right_
  have q4 : s.is_black b = true := hS.is_black
  have q6 : s.is_black sl = false := hS.downL.is_black
  have q8 : s.is_red sl = true := hS.downL.is_red
  refine ⟨s', ?_, h', fr⟩
  simp only [addr_node] at e0
  simp only [remove_rebalance, bne_of_ne hS.node_ne, if_true, q1, q2, bind_ok, q4, q6, q8,
    Bool.and_false, Bool.false_and, Bool.or_true, Bool.true_or, Bool.false_eq_true, if_false,
    check_true, e0, e, pure_ok]

theorem remove_rebalance_near_L {s : intrusive_tree} {xl xr SLL SLR SR : RBT} {n p b sl : Nat}
    {xc cp : Bool} {k : Ctx}
    (h : ShapeAt s (node xl n xc xr) (.L p cp (node (node SLL sl false SLR) b true SR) :: k))
    (hr : SR.isBlack = true) :
    ∃ s', s.remove_rebalance n p b = .ok (s', none) ∧
      ShapeAt s' (node xl n xc xr) (.L p true SLL :: .L sl cp (node SLR b true SR) :: k) ∧
      ∀ a, a ∉ (plug (node xl n xc xr)
          (.L p cp (node (node SLL sl false SLR) b true SR) :: k)).inorder →
        s'.mem a = s.mem a := by
  have hS := h.flip
  obtain ⟨s1, e1, h1, fr1⟩ := remove_near_nephew_L h hr
  obtain ⟨s2, e2, h2, fr2⟩ := remove_far_nephew_L h1
  have q1 : s.left_ b = .ok sl := hS.left_
  have q2 : s.right_ b = .ok SR.addr := hS.right_
  have q4 : s.is_black b = true := hS.is_black
  have q6 : s.is_black sl = false := hS.downL.is_black
  have q8 : s.is_red sl = true := hS.downL.is_red
  refine ⟨s2, ?_, h2, ?_⟩
  · simp only [remove_rebalance, bne_of_ne hS.node_ne, if_true, q1, q2, bind_ok, q4, q6, q8,
      Bool.and_false, Bool.false_and, Bool.or_true, Bool.true_or, Bool.false_eq_true, if_false,
      check_true, e1, e2, pure_ok]
  · intro a ha
    rw [fr2 a (fun x => ha (by
        rw [mem_plug] at x ⊢
        simp only [Ctx.addrs, Frame.addrs, inorder, List.mem_append, List.mem_cons] at x ⊢
        tauto)), fr1 a ha]

theorem remove_rebalance_near_R {s : intrusive_tree} {xl xr SL SRL SRR : RBT} {n p b sr : Nat}
    {xc cp : Bool} {k : Ctx}
    (h : ShapeAt s (node xl n xc xr) (.R (node SL b true (node SRL sr false SRR)) p cp :: k))
    (hl : SL.isBlack = true) :
    ∃ s', s.remove_rebalance n p b = .ok (s', none) ∧
      ShapeAt s' (node xl n xc xr) (.R SRR p true :: .R (node SL b true SRL) sr cp :: k) ∧
      ∀ a, a ∉ (plug (node xl n xc xr)
          (.R (node SL b true (node SRL sr false SRR)) p cp :: k)).inorder →
        s'.mem a = s.mem a := by
  have hS := h.flip
  obtain ⟨s1, e1, h1, fr1⟩ := remove_near_nephew_R h hl
  obtain ⟨s2, e2, h2, fr2⟩ := remove_far_nephew_R h1
  have q1 : s.left_ b = .ok SL.addr := hS.left_
  have q2 : s.right_ b = .ok sr := hS.right_
  have q4 : s.is_black b = true := hS.is_black
  have q6 : s.is_black sr = false := hS.downR.is_black
  have q8 : s.is_red sr = true := hS.downR.is_red
  refine ⟨s2, ?_, h2, ?_⟩
  · simp only [remove_rebalance, bne_of_ne hS.node_ne, if_true, q1, q2, bind_ok, q4, q6, q8,
      Bool.and_false, Bool.false_and, Bool.or_true, Bool.true_or, Bool.false_eq_true, if_false,
      check_true, e1, e2, pure_ok]
  · intro a ha
    rw [fr2 a (fun x => ha (by
        rw [mem_plug] at x ⊢
        simp only [Ctx.addrs, Frame.addrs, inorder, List.mem_append, List.mem_cons] at x ⊢
        tauto)), fr1 a ha]

theorem exists_node_of_red {t : RBT} (h : ¬ t.isBlack = true) : ∃ l a r, t = node l a false r := by
  cases t with
  | nil => exact absurd rfl h
  | node l a c r =>
    cases c
    · exact ⟨l, a, r, rfl⟩
    · exact absurd rfl h

/-- The loop of `remove` ends in this pass: `n` on the left, black sibling, and the
parent or a nephew red. -/
theorem remove_rebalance_break_L {s : intrusive_tree} {xl xr SL SR : RBT} {n p b hb : Nat}
    {xc cp : Bool} {k : Ctx}
    (h : ShapeAt s (node xl n xc xr) (.L p cp (node SL b true SR) :: k))
    (hi : Ctx.Inv (.L p cp (node SL b true SR) :: k) (hb + 1) true)
    (hne : cp = false ∨ ¬ SL.isBlack = true ∨ ¬ SR.isBlack = true) :
    ∃ s' K', s.remove_rebalance n p b = .ok (s', none) ∧ ShapeAt s' (node xl n xc xr) K' ∧
      K'.Inv hb true ∧ K'.before = k.before ∧
      K'.after = p :: (SL.inorder ++ b :: SR.inorder) ++ k.after ∧
      ∀ a, a ∉ (plug (node xl n xc xr) (.L p cp (node SL b true SR) :: k)).inorder →
        s'.mem a = s.mem a := by
  obtain ⟨h1, h2, h3, h4, h5⟩ := hi
  simp only [Frame.sib, Frame.color, bh, balanced, noRedRed, if_true] at h1 h2 h3 h5
  obtain ⟨h2a, h2b, h2c⟩ := h2
  obtain ⟨-, h3b, h3c⟩ := h3
  have h1' : SL.bh = hb := by omega
  by_cases hr : SR.isBlack = true
  · by_cases hl : SL.isBlack = true
    · have hcp : cp = false := by tauto
      subst hcp
      obtain ⟨s', e, h', fr⟩ := remove_rebalance_recolor h rfl rfl hl hr
      refine ⟨s', _, e, h', ?_, rfl, rfl, fr⟩
      refine ⟨?_, ⟨h2a, h2b, h2c⟩, ⟨fun _ => ⟨hl, hr⟩, h3b, h3c⟩, fun x => absurd x (by simp [Frame.setColor, Frame.setSib, Frame.color]), ?_⟩
      · simpa [Frame.sib, Frame.setColor, Frame.setSib, bh] using h1'
      · simpa [Frame.sib, Frame.setColor, Frame.setSib, Frame.color] using h5.to_black
    · obtain ⟨SLL, sl, SLR, rfl⟩ := exists_node_of_red hl
      obtain ⟨s', e, h', fr⟩ := remove_rebalance_near_L h hr
      simp only [bh, balanced, noRedRed, Bool.false_eq_true, if_false, Nat.add_zero] at h1' h2a h2b h3b
      refine ⟨s', _, e, h', ?_, rfl, ?_, fr⟩
      · refine ⟨h1', h2b.2.1, h3b.2.1, fun x => absurd x (by simp [Frame.color]), ?_, ?_, ?_, ?_, h5⟩
        · simp only [Frame.sib, Frame.color, bh, if_true]; omega
        · exact ⟨by omega, h2b.2.2, h2c⟩
        · exact ⟨fun x => absurd x (by simp), h3b.2.2, h3c⟩
        · intro _; exact ⟨rfl, rfl⟩
      · simp [Ctx.after, inorder]
  · obtain ⟨SRL, sr, SRR, rfl⟩ := exists_node_of_red hr
    obtain ⟨s', e, h', fr⟩ := remove_rebalance_far_L h
    simp only [bh, balanced, noRedRed, Bool.false_eq_true, if_false, Nat.add_zero] at h2a h2c h3c
    refine ⟨s', _, e, h', ?_, rfl, ?_, fr⟩
    · refine ⟨h1', h2b, h3b, fun x => absurd x (by simp [Frame.color]), ?_, ?_, ?_, ?_, h5⟩
      · simp only [Frame.sib, Frame.color, bh, if_true]; omega
      · exact h2c
      · exact ⟨fun x => absurd x (by simp), h3c.2.1, h3c.2.2⟩
      · intro _; exact ⟨rfl, rfl⟩
    · simp [Ctx.after, inorder]

/-- The loop of `remove` ends in this pass: `n` on the right, black sibling, and the
parent or a nephew red. -/
theorem remove_rebalance_break_R {s : intrusive_tree} {xl xr SL SR : RBT} {n p b hb : Nat}
    {xc cp : Bool} {k : Ctx}
    (h : ShapeAt s (node xl n xc xr) (.R (node SL b true SR) p cp :: k))
    (hi : Ctx.Inv (.R (node SL b true SR) p cp :: k) (hb + 1) true)
    (hne : cp = false ∨ ¬ SL.isBlack = true ∨ ¬ SR.isBlack = true) :
    ∃ s' K', s.remove_rebalance n p b = .ok (s', none) ∧ ShapeAt s' (node xl n xc xr) K' ∧
      K'.Inv hb true ∧ K'.before = k.before ++ ((SL.inorder ++ b :: SR.inorder) ++ [p]) ∧
      K'.after = k.after ∧
      ∀ a, a ∉ (plug (node xl n xc xr) (.R (node SL b true SR) p cp :: k)).inorder →
        s'.mem a = s.mem a := by
  obtain ⟨h1, h2, h3, h4, h5⟩ := hi
  simp only [Frame.sib, Frame.color, bh, balanced, noRedRed, if_true] at h1 h2 h3 h5
  obtain ⟨h2a, h2b, h2c⟩ := h2
  obtain ⟨-, h3b, h3c⟩ := h3
  have h1' : SL.bh = hb := by omega
  by_cases hl : SL.isBlack = true
  · by_cases hr : SR.isBlack = true
    · have hcp : cp = false := by tauto
      subst hcp
      obtain ⟨s', e, h', fr⟩ := remove_rebalance_recolor h rfl rfl hl hr
      refine ⟨s', _, e, h', ?_, rfl, rfl, fr⟩
      refine ⟨?_, ⟨h2a, h2b, h2c⟩, ⟨fun _ => ⟨hl, hr⟩, h3b, h3c⟩, fun x => absurd x (by simp [Frame.setColor, Frame.setSib, Frame.color]), ?_⟩
      · simpa [Frame.sib, Frame.setColor, Frame.setSib, bh] using h1'
      · simpa [Frame.sib, Frame.setColor, Frame.setSib, Frame.color] using h5.to_black
    · obtain ⟨SRL, sr, SRR, rfl⟩ := exists_node_of_red hr
      obtain ⟨s', e, h', fr⟩ := remove_rebalance_near_R h hl
      simp only [bh, balanced, noRedRed, Bool.false_eq_true, if_false, Nat.add_zero] at h2a h2c h3c
      refine ⟨s', _, e, h', ?_, ?_, rfl, fr⟩
      · refine ⟨(by show SRR.bh = hb; omega), h2c.2.2, h3c.2.2, fun x => absurd x (by simp [Frame.color]), ?_, ?_, ?_, ?_, h5⟩
        · simp only [Frame.sib, Frame.color, bh, if_true]; omega
        · exact ⟨by omega, h2b, h2c.2.1⟩
        · exact ⟨fun x => absurd x (by simp), h3b, h3c.2.1⟩
        · intro _; exact ⟨rfl, rfl⟩
      · simp [Ctx.before, inorder]
  · obtain ⟨SLL, sl, SLR, rfl⟩ := exists_node_of_red hl
    obtain ⟨s', e, h', fr⟩ := remove_rebalance_far_R h
    simp only [bh, balanced, noRedRed, Bool.false_eq_true, if_false, Nat.add_zero] at h1' h2a h2b h3b
    refine ⟨s', _, e, h', ?_, ?_, rfl, fr⟩
    · refine ⟨(by show SR.bh = hb; omega), h2c, h3c, fun x => absurd x (by simp [Frame.color]), ?_, ?_, ?_, ?_, h5⟩
      · simp only [Frame.sib, Frame.color, bh, if_true]; omega
      · exact h2b
      · exact ⟨fun x => absurd x (by simp), h3b.2.1, h3b.2.2⟩
      · intro _; exact ⟨rfl, rfl⟩
    · simp [Ctx.before, inorder]

end Oco

namespace Oco

open RBT intrusive_tree

/-! ## The loop of `remove` -/

theorem remove_fixup_nil {s : intrusive_tree} {xl xr : RBT} {n : Nat} {xc : Bool} (fuel : Nat)
    (h : ShapeAt s (node xl n xc xr) []) : remove_fixup (fuel + 1) s n = .ok s := by
  simp only [remove_fixup, h.is_root_nil, bind_ok, if_true, pure_ok]

theorem remove_fixup_break {s s' : intrusive_tree} {xl xr : RBT} {n p b p' b' : Nat} {xc : Bool}
    {f : Frame} {k : Ctx} {s1 : intrusive_tree} (fuel : Nat)
    (h : ShapeAt s (node xl n xc xr) (f :: k)) (hp : f.addr = p) (hs : f.sib.addr = b)
    (e1 : s.remove_red_sibling n p b = .ok (s1, p', b'))
    (e2 : s1.remove_rebalance n p' b' = .ok (s', none)) :
    remove_fixup (fuel + 1) s n = .ok s' := by
  have q1 : s.parent_ n = .ok p := by rw [h.parent_]; exact congrArg _ hp
  have q2 : s.peer n = .ok b := by rw [h.peer]; exact congrArg _ hs
  simp only [remove_fixup, h.is_root_cons, bind_ok, Bool.false_eq_true, if_false, remove_step,
    q1, q2, e1, e2, pure_ok]

theorem remove_fixup_continue {s s1 : intrusive_tree} {xl xr SL SR : RBT} {n b : Nat}
    {xc : Bool} {f : Frame} {k : Ctx} (fuel : Nat)
    (h : ShapeAt s (node xl n xc xr) (f :: k)) (hs : f.sib = node SL b true SR)
    (e2 : s.remove_rebalance n f.addr b = .ok (s1, some f.addr)) :
    remove_fixup (fuel + 1) s n = remove_fixup fuel s1 f.addr := by
  have q1 : s.parent_ n = .ok f.addr := h.parent_
  have q2 : s.peer n = .ok b := by rw [h.peer, hs]; rfl
  have q3 : s.is_red b = false := by
    have := h.is_red_sib
    rw [hs] at this
    exact this
  simp only [remove_fixup, h.is_root_cons, bind_ok, Bool.false_eq_true, if_false, remove_step,
    q1, q2, remove_red_sibling_none q3, e2]

set_option maxHeartbeats 1000000 in
/-- The loop of `remove`: from a position whose subtree is one black node short, it
restores the colour invariants of the context and keeps the in-order sequence. -/
theorem remove_fixup_ok : ∀ (K : Ctx) (fuel : Nat) {s : intrusive_tree} {xl xr : RBT} {n : Nat}
    {xc : Bool} {hb : Nat}, ShapeAt s (node xl n xc xr) K → K.Inv (hb + 1) true → 1 ≤ hb →
    K.length < fuel →
    ∃ s' K', remove_fixup fuel s n = .ok s' ∧ ShapeAt s' (node xl n xc xr) K' ∧
      K'.Inv hb true ∧ K'.before = K.before ∧ K'.after = K.after ∧
      ∀ a, a ∉ (plug (node xl n xc xr) K).inorder → s'.mem a = s.mem a
  | [], fuel, s, xl, xr, n, xc, hb, h, hi, hh, hf => by
    obtain ⟨fuel, rfl⟩ : ∃ f', fuel = f' + 1 := ⟨fuel - 1, by omega⟩
    exact ⟨s, [], remove_fixup_nil fuel h, h, rfl, rfl, rfl, fun _ _ => rfl⟩
  | .L p cp S :: k, fuel, s, xl, xr, n, xc, hb, h, hi, hh, hf => by
    obtain ⟨fuel, rfl⟩ : ∃ f', fuel = f' + 1 := ⟨fuel - 1, by omega⟩
    simp only [List.length_cons] at hf
    have hi0 := hi
    obtain ⟨h1, h2, h3, h4, h5⟩ := hi
    simp only [Frame.sib, Frame.color] at h1 h2 h3 h4 h5
    cases S with
    | nil => simp only [bh] at h1; omega
    | node SL b cb SR =>
      simp only [bh, balanced, noRedRed] at h1 h2 h3
      cases cb with
      | false =>
        have hcp : cp = true := by
          cases cp
          · exact absurd (h4 rfl).2 (by simp [isBlack])
          · rfl
        subst hcp
        simp only [Bool.false_eq_true, if_false, if_true, Nat.add_zero] at h1 h5
        obtain ⟨s1, e1, g1, fr1⟩ := remove_red_sibling_L h
        obtain ⟨A, sl, B, rfl⟩ := exists_node_of_bh (t := SL) (by omega) (h3.1 rfl).1
        simp only [bh, if_true] at h1 h2
        have hi1 : Ctx.Inv (.L p false (node A sl true B) :: .L b true SR :: k) (hb + 1) true :=
          ⟨by simp only [Frame.sib, bh, if_true]; omega, h2.2.1, h3.2.1, fun _ => ⟨rfl, (h3.1 rfl).1⟩,
            by simp only [Frame.sib, Frame.color, Bool.false_eq_true, if_false, Nat.add_zero]; omega, h2.2.2, h3.2.2,
            fun x => absurd x (by simp [Frame.color]), h5⟩
        obtain ⟨s', K', e2, g2, i2, b2, a2, fr2⟩ := remove_rebalance_break_L g1 hi1 (Or.inl rfl)
        refine ⟨s', K', remove_fixup_break fuel h rfl rfl e1 e2, g2, i2, ?_, ?_, ?_⟩
        · show K'.before = Ctx.before k
          rw [b2]; rfl
        · show K'.after = p :: ((node A sl true B).inorder ++ b :: SR.inorder) ++ Ctx.after k
          rw [a2]; simp [Ctx.after, inorder]
        · intro a ha
          have hx : a ∉ (node xl n xc xr).inorder ++ Ctx.addrs (.L p false (node A sl true B) :: .L b true SR :: k) := fun x =>
            not_mem_plug ha (by
              simp only [Ctx.addrs, Frame.addrs, inorder, List.mem_append, List.mem_cons] at x ⊢
              tauto)
          rw [fr2 a (fun x => hx (List.mem_append.2 (mem_plug.1 x))), fr1 a ha]
      | true =>
        simp only [if_true] at h1
        have q3 : s.is_red b = false := h.is_red_sib
        by_cases hall : cp = true ∧ SL.isBlack = true ∧ SR.isBlack = true
        · obtain ⟨rfl, hl, hr⟩ := hall
          obtain ⟨s1, e1, g1, fr1⟩ := remove_rebalance_up h rfl rfl hl hr
          have hi1 : Ctx.Inv k (hb + 1 + 1) true := h5
          obtain ⟨s', k', e2, g2, i2, b2, a2, fr2⟩ :=
            remove_fixup_ok k fuel g1.up hi1 (by omega) (by omega)
          refine ⟨s', .L p true (node SL b false SR) :: k', ?_, g2.downL, ?_, ?_, ?_, ?_⟩
          · rw [remove_fixup_continue fuel h rfl e1]; exact e2
          · exact ⟨by simp only [Frame.sib, bh, Bool.false_eq_true, if_false]; omega, h2,
              ⟨fun _ => ⟨hl, hr⟩, h3.2⟩, fun x => absurd x (by simp [Frame.color]), i2⟩
          · exact b2
          · show p :: (SL.inorder ++ b :: SR.inorder) ++ Ctx.after k' = _
            rw [a2]; rfl
          · intro a ha
            rw [fr2 a (fun x => ha (by
              rw [mem_plug] at x ⊢
              simp only [Ctx.addrs, Frame.addrs, inorder, List.mem_append, List.mem_cons] at x ⊢
              tauto)), fr1 a ha]
        · obtain ⟨s', K', e2, g2, i2, b2, a2, fr2⟩ := remove_rebalance_break_L h hi0 (by
            by_cases hc : cp = true
            · exact Or.inr (by by_contra hx; exact hall ⟨hc, by tauto⟩)
            · exact Or.inl (by simpa using hc))
          refine ⟨s', K', remove_fixup_break fuel h rfl rfl (remove_red_sibling_none q3) e2, g2, i2,
            b2, a2, fr2⟩
  | .R S p cp :: k, fuel, s, xl, xr, n, xc, hb, h, hi, hh, hf => by
    obtain ⟨fuel, rfl⟩ : ∃ f', fuel = f' + 1 := ⟨fuel - 1, by omega⟩
    simp only [List.length_cons] at hf
    have hi0 := hi
    obtain ⟨h1, h2, h3, h4, h5⟩ := hi
    simp only [Frame.sib, Frame.color] at h1 h2 h3 h4 h5
    cases S with
    | nil => simp only [bh] at h1; omega
    | node SL b cb SR =>
      simp only [bh, balanced, noRedRed] at h1 h2 h3
      cases cb with
      | false =>
        have hcp : cp = true := by
          cases cp
          · exact absurd (h4 rfl).2 (by simp [isBlack])
          · rfl
        subst hcp
        simp only [Bool.false_eq_true, if_false, if_true, Nat.add_zero] at h1 h5
        obtain ⟨s1, e1, g1, fr1⟩ := remove_red_sibling_R h
        obtain ⟨A, sl, B, rfl⟩ := exists_node_of_bh (t := SR) (by omega) (h3.1 rfl).2
        simp only [bh, if_true] at h1 h2
        have hi1 : Ctx.Inv (.R (node A sl true B) p false :: .R SL b true :: k) (hb + 1) true :=
          ⟨by simp only [Frame.sib, bh, if_true]; omega, h2.2.2, h3.2.2, fun _ => ⟨rfl, (h3.1 rfl).2⟩,
            by simp only [Frame.sib, Frame.color, Bool.false_eq_true, if_false, Nat.add_zero]; omega, h2.2.1, h3.2.1,
            fun x => absurd x (by simp [Frame.color]), h5⟩
        obtain ⟨s', K', e2, g2, i2, b2, a2, fr2⟩ := remove_rebalance_break_R g1 hi1 (Or.inl rfl)
        refine ⟨s', K', remove_fixup_break fuel h rfl rfl e1 e2, g2, i2, ?_, ?_, ?_⟩
        · show K'.before = Ctx.before k ++ ((SL.inorder ++ b :: (node A sl true B).inorder) ++ [p])
          rw [b2]; simp [Ctx.before, inorder]
        · show K'.after = Ctx.after k
          rw [a2]; rfl
        · intro a ha
          have hx : a ∉ (node xl n xc xr).inorder ++ Ctx.addrs (.R (node A sl true B) p false :: .R SL b true :: k) := fun x =>
            not_mem_plug ha (by
              simp only [Ctx.addrs, Frame.addrs, inorder, List.mem_append, List.mem_cons] at x ⊢
              tauto)
          rw [fr2 a (fun x => hx (List.mem_append.2 (mem_plug.1 x))), fr1 a ha]
      | true =>
        simp only [if_true] at h1
        have q3 : s.is_red b = false := h.is_red_sib
        by_cases hall : cp = true ∧ SL.isBlack = true ∧ SR.isBlack = true
        · obtain ⟨rfl, hl, hr⟩ := hall
          obtain ⟨s1, e1, g1, fr1⟩ := remove_rebalance_up h rfl rfl hl hr
          have hi1 : Ctx.Inv k (hb + 1 + 1) true := h5
          obtain ⟨s', k', e2, g2, i2, b2, a2, fr2⟩ :=
            remove_fixup_ok k fuel g1.up hi1 (by omega) (by omega)
          refine ⟨s', .R (node SL b false SR) p true :: k', ?_, g2.downR, ?_, ?_, ?_, ?_⟩
          · rw [remove_fixup_continue fuel h rfl e1]; exact e2
          · exact ⟨by simp only [Frame.sib, bh, Bool.false_eq_true, if_false]; omega, h2,
              ⟨fun _ => ⟨hl, hr⟩, h3.2⟩, fun x => absurd x (by simp [Frame.color]), i2⟩
          · show Ctx.before k' ++ ((SL.inorder ++ b :: SR.inorder) ++ [p]) = _
            rw [b2]; rfl
          · exact a2
          · intro a ha
            rw [fr2 a (fun x => ha (by
              rw [mem_plug] at x ⊢
              simp only [Ctx.addrs, Frame.addrs, inorder, List.mem_append, List.mem_cons] at x ⊢
              tauto)), fr1 a ha]
        · obtain ⟨s', K', e2, g2, i2, b2, a2, fr2⟩ := remove_rebalance_break_R h hi0 (by
            by_cases hc : cp = true
            · exact Or.inr (by by_contra hx; exact hall ⟨hc, by tauto⟩)
            · exact Or.inl (by simpa using hc))
          refine ⟨s', K', remove_fixup_break fuel h rfl rfl (remove_red_sibling_none q3) e2, g2, i2,
            b2, a2, fr2⟩

end Oco

namespace Oco

open RBT intrusive_tree

/-! ## Fields of the memory after the linking primitives -/

theorem wr_apply (m : Nat → Link) (n : Nat) (k : Link) (a : Nat) :
    wr m n k a = if a = n then k else m a := by
  by_cases h : a = n
  · subst h; simp [wr]
  · simp [wr_ne _ _ h, h]

theorem Link.up_even (k : Link) : k.up % 2 = 0 := by
  simp [Link.up]

theorem Link.eta_enc (k : Link) : k = ⟨enc k.up k.black, k.l, k.r⟩ := by
  rcases black_cases k with ⟨hb, hp⟩ | ⟨hb, hp⟩
  · cases k with
    | mk p l r =>
      simp only [Link.mk.injEq, and_true] at hb hp ⊢
      rw [hb]
      simp only [Link.up, enc, if_true]
      omega
  · cases k with
    | mk p l r =>
      simp only [Link.mk.injEq, and_true] at hb hp ⊢
      rw [hb]
      simp only [Link.up, enc, Bool.false_eq_true, if_false]
      omega

theorem Link.ext_fields {j k : Link} (h1 : j.up = k.up) (h2 : j.black = k.black)
    (h3 : j.l = k.l) (h4 : j.r = k.r) : j = k := by
  rw [Link.eta_enc j, Link.eta_enc k, h1, h2, h3, h4]

theorem reparent_up (m : Nat → Link) {p : Nat} (c a : Nat) (hp : p % 2 = 0) :
    (reparent m p c a).up = if a = c ∧ c ≠ 0 then p else (m a).up := by
  rw [reparent_apply]
  split
  · exact enc_up _ _ _ _ hp
  · rfl

theorem reparent_black (m : Nat → Link) {p : Nat} (c a : Nat) (hp : p % 2 = 0) :
    (reparent m p c a).black = (m a).black := by
  rw [reparent_apply]
  split
  · exact enc_black _ _ _ _ hp
  · rfl

theorem reparent_l (m : Nat → Link) (p c a : Nat) : (reparent m p c a).l = (m a).l := by
  rw [reparent_apply]; split <;> rfl

theorem reparent_r (m : Nat → Link) (p c a : Nat) : (reparent m p c a).r = (m a).r := by
  rw [reparent_apply]; split <;> rfl

theorem up_of_p {j k : Link} (h : j.p = k.p) : j.up = k.up := by simp [Link.up, h]

theorem black_of_p {j k : Link} (h : j.p = k.p) : j.black = k.black := by simp [Link.black, h]

theorem mlinkL_up (m : Nat → Link) {p : Nat} (c a : Nat) (hp : p % 2 = 0) :
    (mlinkL m p c a).up = if a = c ∧ c ≠ 0 then p else (m a).up := by
  rw [← reparent_up m c a hp]
  unfold mlinkL
  rw [wr_apply]
  split
  · subst_vars; exact up_of_p rfl
  · rfl

theorem mlinkL_black (m : Nat → Link) {p : Nat} (c a : Nat) (hp : p % 2 = 0) :
    (mlinkL m p c a).black = (m a).black := by
  rw [← reparent_black m c a hp]
  unfold mlinkL
  rw [wr_apply]
  split
  · subst_vars; exact black_of_p rfl
  · rfl

theorem mlinkL_l (m : Nat → Link) (p c a : Nat) :
    (mlinkL m p c a).l = if a = p then c else (m a).l := by
  unfold mlinkL
  rw [wr_apply]
  split
  · rfl
  · exact reparent_l _ _ _ _

theorem mlinkL_r (m : Nat → Link) (p c a : Nat) : (mlinkL m p c a).r = (m a).r := by
  rw [← reparent_r m p c a]
  unfold mlinkL
  rw [wr_apply]
  split
  · subst_vars; rfl
  · rfl

theorem mlinkR_up (m : Nat → Link) {p : Nat} (c a : Nat) (hp : p % 2 = 0) :
    (mlinkR m p c a).up = if a = c ∧ c ≠ 0 then p else (m a).up := by
  rw [← reparent_up m c a hp]
  unfold mlinkR
  rw [wr_apply]
  split
  · subst_vars; exact up_of_p rfl
  · rfl

theorem mlinkR_black (m : Nat → Link) {p : Nat} (c a : Nat) (hp : p % 2 = 0) :
    (mlinkR m p c a).black = (m a).black := by
  rw [← reparent_black m c a hp]
  unfold mlinkR
  rw [wr_apply]
  split
  · subst_vars; exact black_of_p rfl
  · rfl

theorem mlinkR_r (m : Nat → Link) (p c a : Nat) :
    (mlinkR m p c a).r = if a = p then c else (m a).r := by
  unfold mlinkR
  rw [wr_apply]
  split
  · rfl
  · exact reparent_r _ _ _ _

theorem mlinkR_l (m : Nat → Link) (p c a : Nat) : (mlinkR m p c a).l = (m a).l := by
  rw [← reparent_l m p c a]
  unfold mlinkR
  rw [wr_apply]
  split
  · subst_vars; rfl
  · rfl

theorem mlink_up (b : Bool) (m : Nat → Link) {p : Nat} (c a : Nat) (hp : p % 2 = 0) :
    (mlink b m p c a).up = if a = c ∧ c ≠ 0 then p else (m a).up := by
  cases b
  · exact mlinkR_up m c a hp
  · exact mlinkL_up m c a hp

theorem mlink_black (b : Bool) (m : Nat → Link) {p : Nat} (c a : Nat) (hp : p % 2 = 0) :
    (mlink b m p c a).black = (m a).black := by
  cases b
  · exact mlinkR_black m c a hp
  · exact mlinkL_black m c a hp

theorem mlink_l (b : Bool) (m : Nat → Link) (p c a : Nat) :
    (mlink b m p c a).l = if a = p ∧ b = true then c else (m a).l := by
  cases b
  · simp [mlink, mlinkR_l]
  · simp [mlink, mlinkL_l]

theorem mlink_r (b : Bool) (m : Nat → Link) (p c a : Nat) :
    (mlink b m p c a).r = if a = p ∧ b = false then c else (m a).r := by
  cases b
  · simp [mlink, mlinkR_r]
  · simp [mlink, mlinkL_r]

theorem mtoggle_up (m : Nat → Link) (n a : Nat) : (mtoggle m n a).up = (m a).up := by
  unfold mtoggle
  rw [wr_apply]
  split
  · subst_vars
    rcases black_cases (m a) with ⟨-, hp⟩ | ⟨-, hp⟩
    · simp only [Link.up]; rw [xor_one_odd _ hp]; omega
    · simp only [Link.up]; rw [xor_one_even _ hp]; omega
  · rfl

theorem mtoggle_black (m : Nat → Link) (n a : Nat) :
    (mtoggle m n a).black = if a = n then !(m a).black else (m a).black := by
  unfold mtoggle
  rw [wr_apply]
  split
  · subst_vars
    rcases black_cases (m a) with ⟨hb, hp⟩ | ⟨hb, hp⟩
    · rw [hb]; simp only [Link.black]; rw [xor_one_odd _ hp]
      simp only [Nat.and_one_is_mod, bne_iff_ne, ne_eq, Bool.not_true, bne_eq_false_iff_eq]
      omega
    · rw [hb]; simp only [Link.black]; rw [xor_one_even _ hp]
      simp only [Nat.and_one_is_mod, bne_iff_ne, ne_eq, Bool.not_false]
      omega
  · rfl

theorem mtoggle_l (m : Nat → Link) (n a : Nat) : (mtoggle m n a).l = (m a).l := by
  unfold mtoggle; rw [wr_apply]; split
  · subst_vars; rfl
  · rfl

theorem mtoggle_r (m : Nat → Link) (n a : Nat) : (mtoggle m n a).r = (m a).r := by
  unfold mtoggle; rw [wr_apply]; split
  · subst_vars; rfl
  · rfl

theorem mswapcol_up (m : Nat → Link) (x y a : Nat) : (mswapcol m x y a).up = (m a).up := by
  unfold mswapcol; split
  · rw [mtoggle_up, mtoggle_up]
  · rfl

theorem mswapcol_l (m : Nat → Link) (x y a : Nat) : (mswapcol m x y a).l = (m a).l := by
  unfold mswapcol; split
  · rw [mtoggle_l, mtoggle_l]
  · rfl

theorem mswapcol_r (m : Nat → Link) (x y a : Nat) : (mswapcol m x y a).r = (m a).r := by
  unfold mswapcol; split
  · rw [mtoggle_r, mtoggle_r]
  · rfl

theorem mswapcol_black (m : Nat → Link) {x y : Nat} (a : Nat) (hxy : x ≠ y) :
    (mswapcol m x y a).black =
      if a = x then (m y).black else if a = y then (m x).black else (m a).black := by
  unfold mswapcol
  split
  · rename_i h
    rw [mtoggle_black, mtoggle_black]
    by_cases h1 : a = x
    · subst h1
      simp only [if_true, hxy, if_false]
      revert h; cases (m a).black <;> cases (m y).black <;> simp
    · by_cases h2 : a = y
      · subst h2
        simp only [h1, if_false, if_true]
        revert h; cases (m x).black <;> cases (m a).black <;> simp
      · simp only [h1, h2, if_false]
  · rename_i h
    have h' : (m x).black = (m y).black := by simpa using h
    by_cases h1 : a = x
    · subst h1; simp only [if_true]; exact h'
    · by_cases h2 : a = y
      · subst h2; simp only [h1, if_false, if_true]; exact h'.symm
      · simp only [h1, h2, if_false]

/-! ## The steps of `node_swap` as memory functions -/

theorem link_left_mem (s : intrusive_tree) {p : Nat} (c : Nat) (hp : p ≠ 0) (he : p % 2 = 0) :
    s.link_left p c = .ok ⟨s.root_, mlinkL s.mem p c⟩ := link_left_eq s c hp he

theorem link_right_mem (s : intrusive_tree) {p : Nat} (c : Nat) (hp : p ≠ 0) (he : p % 2 = 0) :
    s.link_right p c = .ok ⟨s.root_, mlinkR s.mem p c⟩ := link_right_eq s c hp he

theorem link_side_mem (s : intrusive_tree) (b : Bool) {p : Nat} (c : Nat) (hp : p ≠ 0)
    (he : p % 2 = 0) :
    (if b = true then s.link_left p c else s.link_right p c) = .ok ⟨s.root_, mlink b s.mem p c⟩ := by
  cases b
  · simp only [Bool.false_eq_true, if_false, mlink]; exact link_right_mem s c hp he
  · simp only [if_true, mlink]; exact link_left_mem s c hp he

theorem toggle_mem (s : intrusive_tree) {n : Nat} (hn : n ≠ 0) :
    s.toggle n = .ok ⟨s.root_, mtoggle s.mem n⟩ := toggle_eq s hn

theorem left_swap_mem (s : intrusive_tree) {foo bar : Nat} (hf : foo ≠ 0) (hfe : foo % 2 = 0)
    (hb : bar ≠ 0) (hbe : bar % 2 = 0) :
    s.left_swap foo bar = .ok ⟨s.root_, mswapL s.mem foo bar⟩ := by
  simp only [left_swap, left_eq s hf, left_eq s hb, bind_ok, link_left_mem s _ hf hfe,
    link_left_mem _ _ hb hbe, mswapL]

theorem right_swap_mem (s : intrusive_tree) {foo bar : Nat} (hf : foo ≠ 0) (hfe : foo % 2 = 0)
    (hb : bar ≠ 0) (hbe : bar % 2 = 0) :
    s.right_swap foo bar = .ok ⟨s.root_, mswapR s.mem foo bar⟩ := by
  simp only [right_swap, right_eq s hf, right_eq s hb, bind_ok, link_right_mem s _ hf hfe,
    link_right_mem _ _ hb hbe, mswapR]

theorem swapcol_mem (s : intrusive_tree) {foo bar : Nat} (hf : foo ≠ 0) (hb : bar ≠ 0) :
    (do
      if (s.is_black foo != s.is_black bar) = true then
        let s' ← s.toggle bar
        s'.toggle foo
      else pure s) = .ok ⟨s.root_, mswapcol s.mem foo bar⟩ := by
  have e1 : s.is_black foo = (s.mem foo).black := by
    simp [intrusive_tree.is_black, beq_of_ne hf]
  have e2 : s.is_black bar = (s.mem bar).black := by
    simp [intrusive_tree.is_black, beq_of_ne hb]
  rw [e1, e2]
  unfold mswapcol
  split
  · simp only [toggle_mem s hb, bind_ok, toggle_mem _ hf]
  · rfl

/-- `node_swap(t, bar)` as a memory function, from what it reads at the start. -/
theorem node_swap_mem (s : intrusive_tree) {t bar g bp : Nat} {rt fl bl : Bool}
    (ht : t ≠ 0) (hte : t % 2 = 0) (hb : bar ≠ 0) (hbe : bar % 2 = 0)
    (q1 : s.is_root t = .ok rt) (q2 : s.is_root bar = .ok false)
    (q3 : s.is_left bar = .ok bl) (q4 : s.parent_ bar = .ok bp) (hbp : bp ≠ 0)
    (hbpe : bp % 2 = 0)
    (q5 : rt = false → s.is_left t = .ok fl ∧ s.parent_ t = .ok g ∧ g ≠ 0 ∧ g % 2 = 0) :
    s.node_swap t bar =
      .ok ⟨if rt = true then bar else s.root_, mnode_swap rt fl bl s.mem s.root_ g bp t bar⟩ := by
  have e1 : (do
      if (← s.is_root t) then s.root_swap bar
      else if (← s.is_root bar) then s.root_swap t
      else s.parent_swap t bar) =
      .ok ⟨if rt = true then bar else s.root_, mphase1 rt fl bl s.mem s.root_ g bp t bar⟩ := by
    cases rt with
    | true =>
      simp only [q1, bind_ok, if_true, root_swap, bne_of_ne hb, check_true, q3, q4,
        link_side_mem s bl _ hbp hbpe, link_root_eq, mphase1]
    | false =>
      obtain ⟨q6, q7, hg, hge⟩ := q5 rfl
      simp only [q1, q2, bind_ok, Bool.false_eq_true, if_false, parent_swap, Bool.not_false,
        check_true, q3, q4, q6, q7, link_side_mem s fl _ hg hge,
        link_side_mem _ bl _ hbp hbpe, mphase1]
  unfold intrusive_tree.node_swap
  rw [e1]
  simp only [bind_ok]
  rw [swapcol_mem _ ht hb]
  simp only [bind_ok]
  rw [left_swap_mem _ ht hte hb hbe]
  simp only [bind_ok]
  rw [right_swap_mem _ ht hte hb hbe]
  rfl

/-! ## Fields of the memory after `node_swap` -/

theorem mphase1_up {rt fl bl : Bool} (m : Nat → Link) {ρ g bp t bar : Nat} (a : Nat)
    (ht : t ≠ 0) (hb : bar ≠ 0) (htb : t ≠ bar) (hbpe : bp % 2 = 0) (hge : g % 2 = 0)
    (hρ : rt = true → ρ = t ∧ g = 0) :
    (mphase1 rt fl bl m ρ g bp t bar a).up =
      if a = t then bp else if a = bar then g else (m a).up := by
  cases rt with
  | true =>
    obtain ⟨rfl, rfl⟩ := hρ rfl
    simp only [mphase1, if_true]
    rw [reparent_up _ _ _ (by rfl), mlink_up _ _ _ _ hbpe]
    by_cases h1 : a = ρ
    · subst h1; simp [htb, ht]
    · by_cases h2 : a = bar
      · subst h2; simp [hb, h1]
      · simp [h1, h2]
  | false =>
    simp only [mphase1, Bool.false_eq_true, if_false]
    rw [mlink_up _ _ _ _ hbpe, mlink_up _ _ _ _ hge]
    simp [ht, hb]

theorem mphase1_black {rt fl bl : Bool} (m : Nat → Link) {ρ g bp t bar : Nat} (a : Nat)
    (hbpe : bp % 2 = 0) (hge : g % 2 = 0) :
    (mphase1 rt fl bl m ρ g bp t bar a).black = (m a).black := by
  cases rt with
  | true =>
    simp only [mphase1, if_true]
    rw [reparent_black _ _ _ (by rfl), mlink_black _ _ _ _ hbpe]
  | false =>
    simp only [mphase1, Bool.false_eq_true, if_false]
    rw [mlink_black _ _ _ _ hbpe, mlink_black _ _ _ _ hge]

theorem mphase1_l {rt fl bl : Bool} (m : Nat → Link) {ρ g bp t bar : Nat} (a : Nat)
    (hρ : rt = true → ρ = t ∧ g = 0) :
    (mphase1 rt fl bl m ρ g bp t bar a).l =
      if a = bp ∧ bl = true then t
      else if rt = false ∧ a = g ∧ fl = true then bar else (m a).l := by
  cases rt with
  | true =>
    obtain ⟨rfl, rfl⟩ := hρ rfl
    simp only [mphase1, if_true]
    rw [reparent_l, mlink_l]
    simp
  | false =>
    simp only [mphase1, Bool.false_eq_true, if_false]
    rw [mlink_l, mlink_l]
    simp

theorem mphase1_r {rt fl bl : Bool} (m : Nat → Link) {ρ g bp t bar : Nat} (a : Nat)
    (hρ : rt = true → ρ = t ∧ g = 0) :
    (mphase1 rt fl bl m ρ g bp t bar a).r =
      if a = bp ∧ bl = false then t
      else if rt = false ∧ a = g ∧ fl = false then bar else (m a).r := by
  cases rt with
  | true =>
    obtain ⟨rfl, rfl⟩ := hρ rfl
    simp only [mphase1, if_true]
    rw [reparent_r, mlink_r]
    simp
  | false =>
    simp only [mphase1, Bool.false_eq_true, if_false]
    rw [mlink_r, mlink_r]
    simp

theorem mswapL_up (m : Nat → Link) {foo bar : Nat} (a : Nat) (hfe : foo % 2 = 0)
    (hbe : bar % 2 = 0) :
    (mswapL m foo bar a).up =
      if a = (m foo).l ∧ (m foo).l ≠ 0 then bar
      else if a = (m bar).l ∧ (m bar).l ≠ 0 then foo else (m a).up := by
  unfold mswapL
  rw [mlinkL_up _ _ _ hbe, mlinkL_up _ _ _ hfe]

theorem mswapL_black (m : Nat → Link) {foo bar : Nat} (a : Nat) (hfe : foo % 2 = 0)
    (hbe : bar % 2 = 0) : (mswapL m foo bar a).black = (m a).black := by
  unfold mswapL
  rw [mlinkL_black _ _ _ hbe, mlinkL_black _ _ _ hfe]

theorem mswapL_l (m : Nat → Link) (foo bar a : Nat) :
    (mswapL m foo bar a).l =
      if a = bar then (m foo).l else if a = foo then (m bar).l else (m a).l := by
  unfold mswapL
  rw [mlinkL_l, mlinkL_l]

theorem mswapL_r (m : Nat → Link) (foo bar a : Nat) : (mswapL m foo bar a).r = (m a).r := by
  unfold mswapL
  rw [mlinkL_r, mlinkL_r]

theorem mswapR_up (m : Nat → Link) {foo bar : Nat} (a : Nat) (hfe : foo % 2 = 0)
    (hbe : bar % 2 = 0) :
    (mswapR m foo bar a).up =
      if a = (m foo).r ∧ (m foo).r ≠ 0 then bar
      else if a = (m bar).r ∧ (m bar).r ≠ 0 then foo else (m a).up := by
  unfold mswapR
  rw [mlinkR_up _ _ _ hbe, mlinkR_up _ _ _ hfe]

theorem mswapR_black (m : Nat → Link) {foo bar : Nat} (a : Nat) (hfe : foo % 2 = 0)
    (hbe : bar % 2 = 0) : (mswapR m foo bar a).black = (m a).black := by
  unfold mswapR
  rw [mlinkR_black _ _ _ hbe, mlinkR_black _ _ _ hfe]

theorem mswapR_r (m : Nat → Link) (foo bar a : Nat) :
    (mswapR m foo bar a).r =
      if a = bar then (m foo).r else if a = foo then (m bar).r else (m a).r := by
  unfold mswapR
  rw [mlinkR_r, mlinkR_r]

theorem mswapR_l (m : Nat → Link) (foo bar a : Nat) : (mswapR m foo bar a).l = (m a).l := by
  unfold mswapR
  rw [mlinkR_l, mlinkR_l]

end Oco

namespace Oco

open RBT intrusive_tree

/-! ## Renaming the addresses of a tree -/

theorem addr_map {σ : Nat → Nat} (h0 : σ 0 = 0) (t : RBT) : (t.map σ).addr = σ t.addr := by
  cases t with
  | nil => exact h0.symm
  | node l a c r => rfl

theorem inorder_map (σ : Nat → Nat) (t : RBT) : (t.map σ).inorder = t.inorder.map σ := by
  induction t with
  | nil => rfl
  | node l a c r ihl ihr => simp [RBT.map, inorder, ihl, ihr]

theorem isBlack_map (σ : Nat → Nat) (t : RBT) : (t.map σ).isBlack = t.isBlack := by
  cases t <;> rfl

theorem bh_map (σ : Nat → Nat) (t : RBT) : (t.map σ).bh = t.bh := by
  induction t with
  | nil => rfl
  | node l a c r ihl _ => simp [RBT.map, bh, ihl]

theorem height_map (σ : Nat → Nat) (t : RBT) : (t.map σ).height = t.height := by
  induction t with
  | nil => rfl
  | node l a c r ihl ihr => simp [RBT.map, height, ihl, ihr]

theorem size_map (σ : Nat → Nat) (t : RBT) : (t.map σ).size = t.size := by
  induction t with
  | nil => rfl
  | node l a c r ihl ihr => simp [RBT.map, size, ihl, ihr]

theorem balanced_map (σ : Nat → Nat) (t : RBT) : (t.map σ).balanced ↔ t.balanced := by
  induction t with
  | nil => rfl
  | node l a c r ihl ihr => simp [RBT.map, balanced, ihl, ihr, bh_map]

theorem noRedRed_map (σ : Nat → Nat) (t : RBT) : (t.map σ).noRedRed ↔ t.noRedRed := by
  induction t with
  | nil => rfl
  | node l a c r ihl ihr => simp [RBT.map, noRedRed, ihl, ihr, isBlack_map]

theorem redBlack_map (σ : Nat → Nat) (t : RBT) : (t.map σ).redBlack ↔ t.redBlack := by
  simp [redBlack, isBlack_map, noRedRed_map, balanced_map]

theorem swp_left (x y : Nat) : swp x y x = y := by simp [swp]

theorem swp_right (x y : Nat) : swp x y y = x := by
  unfold swp; split
  · rename_i h; exact h
  · simp

theorem swp_ne {x y a : Nat} (h1 : a ≠ x) (h2 : a ≠ y) : swp x y a = a := by simp [swp, h1, h2]

theorem swp_swp (x y a : Nat) : swp x y (swp x y a) = a := by
  by_cases h1 : a = x
  · subst h1; rw [swp_left, swp_right]
  · by_cases h2 : a = y
    · subst h2; rw [swp_right, swp_left]
    · rw [swp_ne h1 h2, swp_ne h1 h2]

theorem swp_inj (x y : Nat) : Function.Injective (swp x y) := fun a b h => by
  have := congrArg (swp x y) h
  rwa [swp_swp, swp_swp] at this

theorem swp_zero {x y : Nat} (hx : x ≠ 0) (hy : y ≠ 0) : swp x y 0 = 0 :=
  swp_ne (Ne.symm hx) (Ne.symm hy)

theorem swp_even {x y a : Nat} (hx : x % 2 = 0) (hy : y % 2 = 0) (ha : a % 2 = 0) :
    swp x y a % 2 = 0 := by
  unfold swp; split
  · exact hy
  · split
    · exact hx
    · exact ha

/-- A memory that holds the renamed links holds the renamed tree. -/
theorem RBT.InMem.map {m m' : Nat → Link} {σ : Nat → Nat} (h0 : σ 0 = 0) :
    ∀ {t : RBT} {par : Nat}, InMem m par t → par % 2 = 0 →
      (∀ a ∈ t.inorder, a % 2 = 0) → (∀ a ∈ t.inorder, m' (σ a) = Link.map σ (m a)) →
      InMem m' (σ par) (t.map σ)
  | nil, _, _, _, _, _ => trivial
  | node l a c r, par, h, hp, hev, hm => by
    have hae : a % 2 = 0 := hev a (by simp [inorder])
    refine ⟨?_, ?_, ?_⟩
    · rw [hm a (by simp [inorder]), h.1, addr_map h0, addr_map h0]
      simp only [Link.map, enc_up _ _ _ _ hp, enc_black _ _ _ _ hp]
    · exact RBT.InMem.map h0 h.2.1 hae (fun x hx => hev x (by simp [inorder, hx]))
        (fun x hx => hm x (by simp [inorder, hx]))
    · exact RBT.InMem.map h0 h.2.2 hae (fun x hx => hev x (by simp [inorder, hx]))
        (fun x hx => hm x (by simp [inorder, hx]))

/-! ## The pointers of a tree in memory -/

theorem Shape.focus {s : intrusive_tree} {T : RBT} {a : Nat} (h : Shape s T)
    (ha : a ∈ T.inorder) :
    ∃ l c r k, T = plug (node l a c r) k ∧ ShapeAt s (node l a c r) k ∧ k.length < T.height := by
  obtain ⟨l, c, r, k, e, hk⟩ := exists_focus ha
  subst e
  exact ⟨l, c, r, k, rfl, h.at, hk⟩

theorem Shape.mem_ok {s : intrusive_tree} {T : RBT} {a : Nat} (h : Shape s T)
    (ha : a ∈ T.inorder) : a ≠ 0 ∧ a % 2 = 0 := h.ok a ha

/-- A non-null left child points back to its parent. -/
theorem Shape.up_of_l {s : intrusive_tree} {T : RBT} {a x : Nat} (h : Shape s T)
    (ha : a ∈ T.inorder) (hx : (s.mem a).l = x) (x0 : x ≠ 0) :
    (s.mem x).up = a ∧ x ∈ T.inorder ∧ x ≠ a := by
  obtain ⟨l, c, r, k, rfl, hf, -⟩ := h.focus ha
  rw [hf.node_link] at hx
  simp only at hx
  cases l with
  | nil => exact absurd hx.symm x0
  | node ll y cl lr =>
    simp only [addr_node] at hx
    subst hx
    have hd := hf.downL
    refine ⟨?_, mem_plug.2 (Or.inl (by simp [inorder])), ?_⟩
    · rw [hd.node_link]; exact enc_up _ _ _ _ hf.node_even
    · intro e
      exact hf.nd.2.2.2.1 (by rw [← e]; simp [inorder])

/-- A non-null right child points back to its parent. -/
theorem Shape.up_of_r {s : intrusive_tree} {T : RBT} {a x : Nat} (h : Shape s T)
    (ha : a ∈ T.inorder) (hx : (s.mem a).r = x) (x0 : x ≠ 0) :
    (s.mem x).up = a ∧ x ∈ T.inorder ∧ x ≠ a := by
  obtain ⟨l, c, r, k, rfl, hf, -⟩ := h.focus ha
  rw [hf.node_link] at hx
  simp only at hx
  cases r with
  | nil => exact absurd hx.symm x0
  | node rl y cr rr =>
    simp only [addr_node] at hx
    subst hx
    have hd := hf.downR
    refine ⟨?_, mem_plug.2 (Or.inl (by simp [inorder])), ?_⟩
    · rw [hd.node_link]; exact enc_up _ _ _ _ hf.node_even
    · intro e
      exact hf.nd.2.2.2.2.1 (by rw [← e]; simp [inorder])

theorem Shape.up_eq {s : intrusive_tree} {l r : RBT} {a : Nat} {c : Bool} {k : Ctx}
    (hf : ShapeAt s (node l a c r) k) : (s.mem a).up = k.par 0 := by
  rw [hf.node_link]; exact enc_up _ _ _ _ hf.par_even

/-- A non-null parent pointer leads to a node that has this one as exactly one child. -/
theorem Shape.child_of_up {s : intrusive_tree} {T : RBT} {a x : Nat} (h : Shape s T)
    (ha : a ∈ T.inorder) (hx : (s.mem a).up = x) (x0 : x ≠ 0) :
    x ∈ T.inorder ∧ x ≠ a ∧ a ≠ s.root_ ∧ s.is_root a = .ok false ∧
      s.is_left a = .ok (decide ((s.mem x).l = a)) ∧
      (((s.mem x).l = a ∧ (s.mem x).r ≠ a) ∨ ((s.mem x).r = a ∧ (s.mem x).l ≠ a)) := by
  obtain ⟨l, c, r, k, rfl, hf, -⟩ := h.focus ha
  rw [Shape.up_eq hf] at hx
  cases k with
  | nil => exact absurd hx.symm x0
  | cons f k =>
    simp only [Ctx.par] at hx
    subst hx
    have hne : a ≠ s.root_ := fun e => by
      have := hf.root_eq_iff.1 e
      simp at this
    have hxa : f.addr ≠ a := fun e => hf.ndk.2.2.2.1 (by rw [e]; simp [inorder])
    refine ⟨mem_plug.2 (Or.inr (Ctx.par_mem (k := f :: k) (by simp))), hxa, hne,
      hf.is_root_cons, ?_, ?_⟩
    · rw [hf.is_left f]
      have hs := hf.ne_sib_addr
      cases f with
      | L p c' r' =>
        have := hf.ctx.1
        simp only [Frame.addr] at this ⊢
        simp [this, Frame.isL, addr_node]
      | R l' p c' =>
        have := hf.ctx.1
        simp only [Frame.addr, Frame.sib] at this hs ⊢
        simp [this, Frame.isL, Ne.symm hs, addr_node]
    · have hs := hf.ne_sib_addr
      cases f with
      | L p c' r' =>
        have := hf.ctx.1
        simp only [Frame.addr, Frame.sib] at this hs ⊢
        left
        simp [this, Ne.symm hs, addr_node]
      | R l' p c' =>
        have := hf.ctx.1
        simp only [Frame.addr, Frame.sib] at this hs ⊢
        right
        simp [this, Ne.symm hs, addr_node]

theorem Shape.up_zero_iff {s : intrusive_tree} {T : RBT} {a : Nat} (h : Shape s T)
    (ha : a ∈ T.inorder) : (s.mem a).up = 0 ↔ a = s.root_ := by
  obtain ⟨l, c, r, k, rfl, hf, -⟩ := h.focus ha
  rw [Shape.up_eq hf, hf.root_eq_iff]
  cases k with
  | nil => simp [Ctx.par]
  | cons f k =>
    simp only [Ctx.par, reduceCtorEq, iff_false]
    exact hf.par_ne

theorem Shape.is_root_eq {s : intrusive_tree} {T : RBT} {a : Nat} (h : Shape s T)
    (ha : a ∈ T.inorder) : s.is_root a = .ok (decide (a = s.root_)) := by
  obtain ⟨l, c, r, k, rfl, hf, -⟩ := h.focus ha
  rw [hf.is_root]
  congr 1
  simp only [decide_eq_decide]
  exact hf.root_eq_iff.symm

theorem Shape.l_ne_self {s : intrusive_tree} {T : RBT} {a : Nat} (h : Shape s T)
    (ha : a ∈ T.inorder) : (s.mem a).l ≠ a := by
  intro e
  exact (h.up_of_l ha e (h.mem_ok ha).1).2.2 rfl

theorem Shape.r_ne_self {s : intrusive_tree} {T : RBT} {a : Nat} (h : Shape s T)
    (ha : a ∈ T.inorder) : (s.mem a).r ≠ a := by
  intro e
  exact (h.up_of_r ha e (h.mem_ok ha).1).2.2 rfl

theorem Shape.up_ne_self {s : intrusive_tree} {T : RBT} {a : Nat} (h : Shape s T)
    (ha : a ∈ T.inorder) : (s.mem a).up ≠ a := by
  intro e
  exact (h.child_of_up ha e (h.mem_ok ha).1).2.1 rfl

end Oco

namespace Oco

open RBT intrusive_tree

/-! ## The links after `node_swap`, field by field -/

theorem mnode_swap_black {rt fl bl : Bool} (m : Nat → Link) {ρ g bp t bar : Nat} (a : Nat)
    (hte : t % 2 = 0) (hbe : bar % 2 = 0) (htb : t ≠ bar) (hbpe : bp % 2 = 0)
    (hge : g % 2 = 0) :
    (mnode_swap rt fl bl m ρ g bp t bar a).black =
      if a = t then (m bar).black else if a = bar then (m t).black else (m a).black := by
  unfold mnode_swap
  rw [mswapR_black _ _ hte hbe, mswapL_black _ _ hte hbe, mswapcol_black _ _ htb]
  simp only [mphase1_black _ _ hbpe hge]

theorem mnode_swap_l {rt fl bl : Bool} (m : Nat → Link) {ρ g bp t bar : Nat} (a : Nat)
    (hρ : rt = true → ρ = t ∧ g = 0) (htg : t ≠ g) (hbbp : bar ≠ bp) (hbg : bar ≠ g) :
    (mnode_swap rt fl bl m ρ g bp t bar a).l =
      if a = bar then (if t = bp ∧ bl = true then t else (m t).l)
      else if a = t then (m bar).l
      else if a = bp ∧ bl = true then t
      else if rt = false ∧ a = g ∧ fl = true then bar else (m a).l := by
  unfold mnode_swap
  simp only [mswapR_l, mswapL_l, mswapcol_l, mphase1_l _ _ hρ]
  simp [htg, hbbp, hbg]

theorem mnode_swap_r {rt fl bl : Bool} (m : Nat → Link) {ρ g bp t bar : Nat} (a : Nat)
    (hρ : rt = true → ρ = t ∧ g = 0) (htg : t ≠ g) (hbbp : bar ≠ bp) (hbg : bar ≠ g) :
    (mnode_swap rt fl bl m ρ g bp t bar a).r =
      if a = bar then (if t = bp ∧ bl = false then t else (m t).r)
      else if a = t then (m bar).r
      else if a = bp ∧ bl = false then t
      else if rt = false ∧ a = g ∧ fl = false then bar else (m a).r := by
  unfold mnode_swap
  simp only [mswapR_r, mswapL_r, mswapcol_r, mphase1_r _ _ hρ]
  simp [htg, hbbp, hbg]

theorem mnode_swap_up {rt fl bl : Bool} (m : Nat → Link) {ρ g bp t bar : Nat} (a : Nat)
    (ht : t ≠ 0) (hb : bar ≠ 0) (hte : t % 2 = 0) (hbe : bar % 2 = 0) (htb : t ≠ bar)
    (hbpe : bp % 2 = 0) (hge : g % 2 = 0)
    (hρ : rt = true → ρ = t ∧ g = 0) (htg : t ≠ g) (hbbp : bar ≠ bp) (hbg : bar ≠ g) :
    (mnode_swap rt fl bl m ρ g bp t bar a).up =
      if a = (if t = bp ∧ bl = false then t else (m t).r) ∧
          (if t = bp ∧ bl = false then t else (m t).r) ≠ 0 then bar
      else if a = (m bar).r ∧ (m bar).r ≠ 0 then t
      else if a = (if t = bp ∧ bl = true then t else (m t).l) ∧
          (if t = bp ∧ bl = true then t else (m t).l) ≠ 0 then bar
      else if a = (m bar).l ∧ (m bar).l ≠ 0 then t
      else if a = t then bp else if a = bar then g else (m a).up := by
  unfold mnode_swap
  simp only [mswapR_up _ _ hte hbe, mswapL_up _ _ hte hbe, mswapR_r, mswapL_r, mswapL_l,
    mswapcol_up, mswapcol_l, mswapcol_r, mphase1_l _ _ hρ, mphase1_r _ _ hρ,
    mphase1_up _ _ ht hb htb hbpe hge hρ]
  simp [htg, hbbp, hbg]

/-- What `node_swap` reads at the start, and the facts about the two nodes that the
field-by-field comparison needs. -/
theorem Shape.swap_facts {s : intrusive_tree} {T : RBT} {t bar : Nat} (h : Shape s T)
    (ht : t ∈ T.inorder) (hb : bar ∈ T.inorder) (hbr : bar ≠ s.root_) :
    ((s.mem bar).up ≠ 0 ∧ (s.mem bar).up ≠ bar ∧ (s.mem t).up ≠ t) ∧
    (∀ a ∈ T.inorder, (s.mem a).l = bar ↔
      (a = (s.mem bar).up ∧ decide ((s.mem (s.mem bar).up).l = bar) = true)) ∧
    (∀ a ∈ T.inorder, (s.mem a).r = bar ↔
      (a = (s.mem bar).up ∧ decide ((s.mem (s.mem bar).up).l = bar) = false)) ∧
    (∀ a ∈ T.inorder, (s.mem a).l = t ↔
      (decide (t = s.root_) = false ∧ a = (s.mem t).up ∧
        decide ((s.mem (s.mem t).up).l = t) = true)) ∧
    (∀ a ∈ T.inorder, (s.mem a).r = t ↔
      (decide (t = s.root_) = false ∧ a = (s.mem t).up ∧
        decide ((s.mem (s.mem t).up).l = t) = false)) := by
  have t0 := (h.mem_ok ht).1
  have b0 := (h.mem_ok hb).1
  have hbp0 : (s.mem bar).up ≠ 0 := fun e => hbr ((h.up_zero_iff hb).1 e)
  obtain ⟨hbpT, hbpb, -, -, -, hbside⟩ := h.child_of_up hb rfl hbp0
  have key : ∀ {x : Nat}, x ∈ T.inorder → x ≠ s.root_ →
      (∀ a ∈ T.inorder, (s.mem a).l = x ↔
        (a = (s.mem x).up ∧ decide ((s.mem (s.mem x).up).l = x) = true)) ∧
      (∀ a ∈ T.inorder, (s.mem a).r = x ↔
        (a = (s.mem x).up ∧ decide ((s.mem (s.mem x).up).l = x) = false)) := by
    intro x hx hxr
    have x0 := (h.mem_ok hx).1
    have hp0 : (s.mem x).up ≠ 0 := fun e => hxr ((h.up_zero_iff hx).1 e)
    obtain ⟨-, -, -, -, -, hside⟩ := h.child_of_up hx rfl hp0
    constructor
    · intro a ha
      constructor
      · intro e
        have := (h.up_of_l ha e x0).1
        subst this
        exact ⟨rfl, by simpa using e⟩
      · rintro ⟨rfl, e⟩
        simpa using e
    · intro a ha
      constructor
      · intro e
        have := (h.up_of_r ha e x0).1
        subst this
        refine ⟨rfl, ?_⟩
        rcases hside with ⟨-, h2⟩ | ⟨-, h2⟩
        · exact absurd e h2
        · simpa using h2
      · rintro ⟨rfl, e⟩
        have e' : (s.mem (s.mem x).up).l ≠ x := by simpa using e
        rcases hside with ⟨h1, -⟩ | ⟨h1, -⟩
        · exact absurd h1 e'
        · exact h1
  refine ⟨⟨hbp0, hbpb, h.up_ne_self ht⟩, (key hb hbr).1, (key hb hbr).2, ?_, ?_⟩
  · intro a ha
    by_cases hr : t = s.root_
    · have hu : (s.mem t).up = 0 := (h.up_zero_iff ht).2 hr
      constructor
      · intro e
        have := (h.up_of_l ha e t0).1
        rw [hu] at this
        exact absurd this.symm (h.mem_ok ha).1
      · rintro ⟨e, -⟩
        exact absurd hr (by simpa using e)
    · rw [(key ht hr).1 a ha]
      simp [hr]
  · intro a ha
    by_cases hr : t = s.root_
    · have hu : (s.mem t).up = 0 := (h.up_zero_iff ht).2 hr
      constructor
      · intro e
        have := (h.up_of_r ha e t0).1
        rw [hu] at this
        exact absurd this.symm (h.mem_ok ha).1
      · rintro ⟨e, -⟩
        exact absurd hr (by simpa using e)
    · rw [(key ht hr).2 a ha]
      simp [hr]

theorem Shape.up_iff_child {s : intrusive_tree} {T : RBT} {x a : Nat} (h : Shape s T)
    (hx : x ∈ T.inorder) (ha : a ∈ T.inorder) :
    (s.mem a).up = x ↔ (a = (s.mem x).l ∨ a = (s.mem x).r) := by
  have x0 := (h.mem_ok hx).1
  have a0 := (h.mem_ok ha).1
  constructor
  · intro e
    rcases (h.child_of_up ha e x0).2.2.2.2.2 with ⟨h1, -⟩ | ⟨h1, -⟩
    · exact Or.inl h1.symm
    · exact Or.inr h1.symm
  · rintro (e | e)
    · exact (h.up_of_l hx e.symm a0).1
    · exact (h.up_of_r hx e.symm a0).1

end Oco

namespace Oco

open RBT intrusive_tree

/-! ## `node_swap` exchanges the places of two nodes -/

theorem swp_apply (x y a : Nat) : swp x y a = if a = x then y else if a = y then x else a := rfl

/-- The links after `node_swap(t, bar)` are the old links with `t` and `bar` exchanged. -/
theorem Shape.node_swap_links {s : intrusive_tree} {T : RBT} {t bar : Nat} (h : Shape s T)
    (ht : t ∈ T.inorder) (hb : bar ∈ T.inorder) (htb : t ≠ bar) (hbr : bar ≠ s.root_)
    (hgb : (s.mem t).up ≠ bar) :
    ∃ m', s.node_swap t bar = .ok ⟨if t = s.root_ then bar else s.root_, m'⟩ ∧
      (∀ a, a ∉ T.inorder → m' a = s.mem a) ∧
      (∀ a ∈ T.inorder, m' (swp t bar a) = Link.map (swp t bar) (s.mem a)) := by
  obtain ⟨t0, te⟩ := h.mem_ok ht
  obtain ⟨b0, be⟩ := h.mem_ok hb
  obtain ⟨⟨hbp0, hbpb, hgt⟩, K3, K5, K4, K6⟩ := h.swap_facts ht hb hbr
  have hρ : decide (t = s.root_) = true → s.root_ = t ∧ (s.mem t).up = 0 := fun e => by
    have e' : t = s.root_ := by simpa using e
    exact ⟨e'.symm, (h.up_zero_iff ht).2 e'⟩
  have q5 : decide (t = s.root_) = false →
      s.is_left t = .ok (decide ((s.mem (s.mem t).up).l = t)) ∧
      s.parent_ t = .ok (s.mem t).up ∧ (s.mem t).up ≠ 0 ∧ (s.mem t).up % 2 = 0 := fun e => by
    have e' : t ≠ s.root_ := by simpa using e
    have g0 : (s.mem t).up ≠ 0 := fun x => e' ((h.up_zero_iff ht).1 x)
    exact ⟨(h.child_of_up ht rfl g0).2.2.2.2.1, parent_eq s t0, g0, Link.up_even _⟩
  obtain ⟨-, -, -, q2, q3, -⟩ := h.child_of_up hb rfl hbp0
  have e := node_swap_mem s t0 te b0 be (h.is_root_eq ht) q2 q3 (parent_eq s b0) hbp0
    (Link.up_even _) q5
  have hre : (if decide (t = s.root_) = true then bar else s.root_) =
      if t = s.root_ then bar else s.root_ := by simp
  rw [hre] at e
  -- names for what was read
  have hbpe : (s.mem bar).up % 2 = 0 := Link.up_even _
  have hge : (s.mem t).up % 2 = 0 := Link.up_even _
  have N1 : (s.mem t).l ≠ t := h.l_ne_self ht
  have N2 : (s.mem t).r ≠ t := h.r_ne_self ht
  have N3 : (s.mem bar).r ≠ bar := h.r_ne_self hb
  have N4 : (s.mem bar).l ≠ bar := h.l_ne_self hb
  have N5 : (s.mem bar).l ≠ t := fun x => hgb (h.up_of_l hb x t0).1
  have N6 : (s.mem bar).r ≠ t := fun x => hgb (h.up_of_r hb x t0).1
  have K1 := K3 t ht
  have K2 := K5 t ht
  have fL := fun a => @mnode_swap_l (decide (t = s.root_))
    (decide ((s.mem (s.mem t).up).l = t))
    (decide ((s.mem (s.mem bar).up).l = bar)) s.mem s.root_ _ _ _ _ a hρ
    (Ne.symm hgt) (Ne.symm hbpb) (Ne.symm hgb)
  have fR := fun a => @mnode_swap_r (decide (t = s.root_))
    (decide ((s.mem (s.mem t).up).l = t))
    (decide ((s.mem (s.mem bar).up).l = bar)) s.mem s.root_ _ _ _ _ a hρ
    (Ne.symm hgt) (Ne.symm hbpb) (Ne.symm hgb)
  have fU := fun a => @mnode_swap_up (decide (t = s.root_))
    (decide ((s.mem (s.mem t).up).l = t))
    (decide ((s.mem (s.mem bar).up).l = bar)) s.mem s.root_ _ _ _ _ a t0 b0 te be htb
    hbpe hge hρ (Ne.symm hgt) (Ne.symm hbpb) (Ne.symm hgb)
  have fB := fun a => @mnode_swap_black (decide (t = s.root_))
    (decide ((s.mem (s.mem t).up).l = t))
    (decide ((s.mem (s.mem bar).up).l = bar)) s.mem s.root_ _ _ _ _ a te be htb hbpe hge
  refine ⟨_, e, ?_, ?_⟩
  · intro a ha
    have a1 : a ≠ t := fun x => ha (x ▸ ht)
    have a2 : a ≠ bar := fun x => ha (x ▸ hb)
    have cl : ∀ x ∈ T.inorder, ¬ (a = (s.mem x).l ∧ (s.mem x).l ≠ 0) :=
      fun x hx ⟨e1, e0⟩ => ha (e1 ▸ (h.up_of_l hx rfl e0).2.1)
    have cr : ∀ x ∈ T.inorder, ¬ (a = (s.mem x).r ∧ (s.mem x).r ≠ 0) :=
      fun x hx ⟨e1, e0⟩ => ha (e1 ▸ (h.up_of_r hx rfl e0).2.1)
    have cu : ∀ x ∈ T.inorder, (s.mem x).up ≠ 0 → a ≠ (s.mem x).up :=
      fun x hx e0 e1 => ha (e1 ▸ (h.child_of_up hx rfl e0).1)
    have a3 : a ≠ (s.mem bar).up := cu bar hb hbp0
    have a4 : ¬ (decide (t = s.root_) = false ∧ a = (s.mem t).up ∧
        decide ((s.mem (s.mem t).up).l = t) = true) := by
      rintro ⟨e1, e2, -⟩
      exact cu t ht (q5 e1).2.2.1 e2
    have a5 : ¬ (decide (t = s.root_) = false ∧ a = (s.mem t).up ∧
        decide ((s.mem (s.mem t).up).l = t) = false) := by
      rintro ⟨e1, e2, -⟩
      exact cu t ht (q5 e1).2.2.1 e2
    have a6 : ¬ (a = (if t = (s.mem bar).up ∧ decide ((s.mem (s.mem bar).up).l = bar) = false
          then t else (s.mem t).r) ∧
        (if t = (s.mem bar).up ∧ decide ((s.mem (s.mem bar).up).l = bar) = false
          then t else (s.mem t).r) ≠ 0) := by
      split
      · exact fun x => a1 x.1
      · exact cr t ht
    have a7 : ¬ (a = (if t = (s.mem bar).up ∧ decide ((s.mem (s.mem bar).up).l = bar) = true
          then t else (s.mem t).l) ∧
        (if t = (s.mem bar).up ∧ decide ((s.mem (s.mem bar).up).l = bar) = true
          then t else (s.mem t).l) ≠ 0) := by
      split
      · exact fun x => a1 x.1
      · exact cl t ht
    apply Link.ext_fields
    · rw [fU, if_neg a6, if_neg (cr bar hb), if_neg a7, if_neg (cl bar hb), if_neg a1, if_neg a2]
    · rw [fB, if_neg a1, if_neg a2]
    · rw [fL, if_neg a2, if_neg a1, if_neg (fun x => a3 x.1), if_neg a4]
    · rw [fR, if_neg a2, if_neg a1, if_neg (fun x => a3 x.1), if_neg a5]
  · intro a ha
    obtain ⟨a0, -⟩ := h.mem_ok ha
    have hev : swp t bar (s.mem a).up % 2 = 0 := swp_even te be (Link.up_even _)
    have KUt := h.up_iff_child ht ha
    have KUb := h.up_iff_child hb ha
    have K3a := K3 a ha
    have K4a := K4 a ha
    have K5a := K5 a ha
    have K6a := K6 a ha
    clear K3 K4 K5 K6 e q5 q2 q3 hρ
    generalize hbp : (s.mem bar).up = bp at *
    generalize hg : (s.mem t).up = g at *
    generalize decide ((s.mem bp).l = bar) = bl at *
    generalize decide ((s.mem g).l = t) = fl at *
    generalize decide (t = s.root_) = rt at *
    have hbl : ∀ {p : Prop}, (¬ (t = bp ∧ bl = true)) → (¬ (t = bp ∧ bl = false)) → (t = bp → p) :=
      fun n1 n2 e => by cases bl <;> simp_all
    apply Link.ext_fields
    · rw [show (Link.map (swp t bar) (s.mem a)).up = swp t bar (s.mem a).up from
        enc_up _ _ _ _ hev]
      rw [fU]
      have ntr : ∀ x, x = (s.mem a).up → x = t → ¬ x = bar := fun x _ e1 e2 => htb (e1 ▸ e2)
      by_cases h1 : a = t
      · subst h1
        rw [swp_left, hg, swp_ne hgt hgb]
        have nFR : ¬ (bar = (if a = bp ∧ bl = false then a else (s.mem a).r) ∧
            (if a = bp ∧ bl = false then a else (s.mem a).r) ≠ 0) := by
          split
          · exact fun x => htb x.1.symm
          · rename_i c; exact fun x => c (K2.1 x.1.symm)
        have nFL : ¬ (bar = (if a = bp ∧ bl = true then a else (s.mem a).l) ∧
            (if a = bp ∧ bl = true then a else (s.mem a).l) ≠ 0) := by
          split
          · exact fun x => htb x.1.symm
          · rename_i c; exact fun x => c (K1.1 x.1.symm)
        rw [if_neg nFR, if_neg (fun x => N3 x.1.symm), if_neg nFL, if_neg (fun x => N4 x.1.symm),
          if_neg (Ne.symm htb), if_pos rfl]
      · by_cases h2 : a = bar
        · subst h2
          rw [swp_right, hbp]
          by_cases cr : t = bp ∧ bl = false
          · have hFR : (if t = bp ∧ bl = false then t else (s.mem t).r) = t := if_pos cr
            simp only [hFR, ne_eq, t0, not_false_eq_true, and_self, if_true]
            rw [← cr.1, swp_left]
          · have hFR : (if t = bp ∧ bl = false then t else (s.mem t).r) = (s.mem t).r := if_neg cr
            simp only [hFR]
            rw [if_neg (fun x => N2 x.1.symm), if_neg (fun x => N6 x.1.symm)]
            by_cases cl : t = bp ∧ bl = true
            · have hFL : (if t = bp ∧ bl = true then t else (s.mem t).l) = t := if_pos cl
              simp only [hFL, ne_eq, t0, not_false_eq_true, and_self, if_true]
              rw [← cl.1, swp_left]
            · have hFL : (if t = bp ∧ bl = true then t else (s.mem t).l) = (s.mem t).l :=
                if_neg cl
              simp only [hFL]
              rw [if_neg (fun x => N1 x.1.symm), if_neg (fun x => N5 x.1.symm), if_pos trivial,
                swp_ne (fun x => hbl cl cr x.symm) hbpb]
        · rw [swp_ne h1 h2]
          have c1 : (a = (if t = bp ∧ bl = false then t else (s.mem t).r) ∧
              (if t = bp ∧ bl = false then t else (s.mem t).r) ≠ 0) ↔ a = (s.mem t).r := by
            by_cases cr : t = bp ∧ bl = false
            · simp only [if_pos cr]
              exact ⟨fun x => absurd x.1 h1, fun x => absurd (x.trans (K2.2 cr)) h2⟩
            · simp only [if_neg cr]
              exact ⟨fun x => x.1, fun x => ⟨x, x ▸ a0⟩⟩
          have c3 : (a = (if t = bp ∧ bl = true then t else (s.mem t).l) ∧
              (if t = bp ∧ bl = true then t else (s.mem t).l) ≠ 0) ↔ a = (s.mem t).l := by
            by_cases cl : t = bp ∧ bl = true
            · simp only [if_pos cl]
              exact ⟨fun x => absurd x.1 h1, fun x => absurd (x.trans (K1.2 cl)) h2⟩
            · simp only [if_neg cl]
              exact ⟨fun x => x.1, fun x => ⟨x, x ▸ a0⟩⟩
          have c2 : (a = (s.mem bar).r ∧ (s.mem bar).r ≠ 0) ↔ a = (s.mem bar).r :=
            ⟨fun x => x.1, fun x => ⟨x, x ▸ a0⟩⟩
          have c4 : (a = (s.mem bar).l ∧ (s.mem bar).l ≠ 0) ↔ a = (s.mem bar).l :=
            ⟨fun x => x.1, fun x => ⟨x, x ▸ a0⟩⟩
          simp only [c1, c2, c3, c4, h1, h2, if_false]
          by_cases u1 : (s.mem a).up = t
          · have nb : (s.mem a).up ≠ bar := fun x => htb (u1.symm.trans x)
            rw [u1, swp_left]
            by_cases y1 : a = (s.mem t).r
            · rw [if_pos y1]
            · rw [if_neg y1, if_neg (fun y => nb (KUb.2 (Or.inr y))),
                if_pos ((KUt.1 u1).resolve_right y1)]
          · by_cases u2 : (s.mem a).up = bar
            · rw [u2, swp_right, if_neg (fun y => u1 (KUt.2 (Or.inr y)))]
              by_cases y2 : a = (s.mem bar).r
              · rw [if_pos y2]
              · rw [if_neg y2, if_neg (fun y => u1 (KUt.2 (Or.inl y))),
                  if_pos ((KUb.1 u2).resolve_right y2)]
            · rw [swp_ne u1 u2, if_neg (fun y => u1 (KUt.2 (Or.inr y))),
                if_neg (fun y => u2 (KUb.2 (Or.inr y))), if_neg (fun y => u1 (KUt.2 (Or.inl y))),
                if_neg (fun y => u2 (KUb.2 (Or.inl y)))]
    · rw [show (Link.map (swp t bar) (s.mem a)).black = (s.mem a).black from
        enc_black _ _ _ _ hev, fB]
      by_cases h1 : a = t
      · subst h1; rw [swp_left]; simp [Ne.symm htb]
      · by_cases h2 : a = bar
        · subst h2; rw [swp_right]; simp
        · rw [swp_ne h1 h2]; simp [h1, h2]
    · show _ = swp t bar (s.mem a).l
      rw [fL]
      by_cases h1 : a = t
      · subst h1
        rw [swp_left, if_pos rfl]
        split
        · rename_i c; rw [K1.2 c, swp_right]
        · rename_i c; rw [swp_ne N1 (fun x => c (K1.1 x))]
      · by_cases h2 : a = bar
        · subst h2
          rw [swp_right, if_neg htb, if_pos rfl, swp_ne N5 N4]
        · rw [swp_ne h1 h2, if_neg h2, if_neg h1]
          by_cases x2 : (s.mem a).l = bar
          · rw [if_pos (K3a.1 x2), x2, swp_right]
          · rw [if_neg (fun c => x2 (K3a.2 c))]
            by_cases x1 : (s.mem a).l = t
            · rw [if_pos (K4a.1 x1), x1, swp_left]
            · rw [if_neg (fun c => x1 (K4a.2 c)), swp_ne x1 x2]
    · show _ = swp t bar (s.mem a).r
      rw [fR]
      by_cases h1 : a = t
      · subst h1
        rw [swp_left, if_pos rfl]
        split
        · rename_i c; rw [K2.2 c, swp_right]
        · rename_i c; rw [swp_ne N2 (fun x => c (K2.1 x))]
      · by_cases h2 : a = bar
        · subst h2
          rw [swp_right, if_neg htb, if_pos rfl, swp_ne N6 N3]
        · rw [swp_ne h1 h2, if_neg h2, if_neg h1]
          by_cases x2 : (s.mem a).r = bar
          · rw [if_pos (K5a.1 x2), x2, swp_right]
          · rw [if_neg (fun c => x2 (K5a.2 c))]
            by_cases x1 : (s.mem a).r = t
            · rw [if_pos (K6a.1 x1), x1, swp_left]
            · rw [if_neg (fun c => x1 (K6a.2 c)), swp_ne x1 x2]

/-- `node_swap(t, bar)` yields the tree with the addresses `t` and `bar` exchanged. -/
theorem Shape.node_swap {s : intrusive_tree} {T : RBT} {t bar : Nat} (h : Shape s T)
    (ht : t ∈ T.inorder) (hb : bar ∈ T.inorder) (htb : t ≠ bar) (hbr : bar ≠ s.root_)
    (hgb : (s.mem t).up ≠ bar) :
    ∃ s', s.node_swap t bar = .ok s' ∧ Shape s' (T.map (swp t bar)) ∧
      (∀ a, a ∉ T.inorder → s'.mem a = s.mem a) ∧
      s'.mem t = Link.map (swp t bar) (s.mem bar) := by
  obtain ⟨m', e, fr, hm⟩ := h.node_swap_links ht hb htb hbr hgb
  obtain ⟨t0, te⟩ := h.mem_ok ht
  obtain ⟨b0, be⟩ := h.mem_ok hb
  have h0 : swp t bar 0 = 0 := swp_zero t0 b0
  refine ⟨_, e, ⟨?_, ?_, ?_, ?_⟩, fr, ?_⟩
  · show (if t = s.root_ then bar else s.root_) = _
    rw [addr_map h0, ← h.root]
    split
    · rename_i c; rw [← c, swp_left]
    · rename_i c; rw [swp_ne (Ne.symm c) (Ne.symm hbr)]
  · have : InMem m' (swp t bar 0) (T.map (swp t bar)) :=
      RBT.InMem.map h0 h.rep (by rfl) (fun a ha => (h.mem_ok ha).2) hm
    rwa [h0] at this
  · rw [inorder_map]
    exact h.nodup.map (swp_inj t bar)
  · intro a ha
    rw [inorder_map, List.mem_map] at ha
    obtain ⟨x, hx, rfl⟩ := ha
    obtain ⟨x0, xe⟩ := h.mem_ok hx
    exact ⟨fun e0 => x0 (swp_inj t bar (e0.trans h0.symm)), swp_even te be xe⟩
  · have := hm bar hb
    rwa [swp_right] at this

end Oco

namespace Oco

open RBT intrusive_tree

/-! ## `remove` from the splice on -/

theorem eq_nil_of_bh_one {t : RBT} (hb : t.isBlack = true) (h : t.bh = 1) : t = nil := by
  cases t with
  | nil => rfl
  | node l a c r =>
    simp only [isBlack_node] at hb
    subst hb
    simp only [bh, if_true] at h
    have := bh_pos l
    omega

/-- A subtree beside an empty one in a balanced tree is a red leaf. -/
theorem red_leaf_of_bh_one {t : RBT} (hne : t ≠ nil) (h : t.bh = 1) (hb : t.balanced)
    (hr : t.noRedRed) : ∃ x, t = node nil x false nil := by
  cases t with
  | nil => exact absurd rfl hne
  | node l a c r =>
    cases c with
    | true =>
      simp only [bh, if_true] at h
      have := bh_pos l
      omega
    | false =>
      simp only [bh, Bool.false_eq_true, if_false, Nat.add_zero] at h
      obtain ⟨h1, -, -⟩ := hb
      obtain ⟨h2, -, -⟩ := hr
      obtain ⟨hl, hr'⟩ := h2 rfl
      have el := eq_nil_of_bh_one hl h
      have er := eq_nil_of_bh_one hr' (h1 ▸ h)
      subst el er
      exact ⟨a, rfl⟩

theorem length_add_height_le_plug : ∀ (k : Ctx) (t : RBT),
    k.length + t.height ≤ (plug t k).height
  | [], t => by simp [plug]
  | f :: k, t => by
    have := length_add_height_le_plug k (f.fill t)
    have h2 : t.height + 1 ≤ (f.fill t).height := by
      cases f <;> simp only [Frame.fill, height] <;> omega
    simp only [List.length_cons, plug]
    omega

theorem length_lt_of_size {k : Ctx} {l r : RBT} {a : Nat} {c : Bool} {fuel : Nat}
    (hf : (plug (node l a c r) k).size < fuel) : k.length < fuel := by
  have h1 := length_add_height_le_plug k (node l a c r)
  have h2 := height_le_size (plug (node l a c r) k)
  simp only [height] at h1
  omega

theorem size_plug_eq {t t' : RBT} {k k' : Ctx}
    (h : (plug t' k').inorder.length = (plug t k).inorder.length) :
    (plug t' k').size = (plug t k).size := by
  rw [← length_inorder, ← length_inorder, h]

/-- Removing a red leaf. -/
theorem remove_tail_red_leaf (lt : Nat → Nat → Bool) {s : intrusive_tree} {t fuel : Nat}
    {k : Ctx} (h : ShapeAt s (node nil t false nil) k) (hf : k.length < fuel) :
    ∃ s', remove_tail lt s fuel t = .ok s' ∧ ShapeAt s' nil k ∧ s'.mem t = ⟨0, 0, 0⟩ ∧
      ∀ a, a ∉ (plug (node nil t false nil) k).inorder → s'.mem a = s.mem a := by
  obtain ⟨s', e, h', hm, fr⟩ := h.unlink fuel hf
  have q1 : s.left_ t = .ok 0 := h.left_
  have q2 : s.right_ t = .ok 0 := h.right_
  have q3 : s.is_red t = true := h.is_red
  refine ⟨s', ?_, h', hm, fr⟩
  simp only [remove_tail, q1, q2, bind_ok, beq_self_eq_true, Bool.or_self, check_true,
    bne_self_eq_false, Bool.false_eq_true, if_false, pure_ok, q3, if_true, e]

theorem is_red_zero (s : intrusive_tree) : s.is_red 0 = false := by
  simp [intrusive_tree.is_red]

/-- Removing a black leaf: the loop repairs the colours, then the leaf is unlinked. -/
theorem remove_tail_black_leaf {lt : Nat → Nat → Bool} {s : intrusive_tree} {t fuel : Nat}
    {k : Ctx} (h : ShapeAt s (node nil t true nil) k) (hi : k.Inv 2 true)
    (ho : (k.before ++ k.after).Pairwise (fun a b => lt b a = false))
    (hf : (plug (node nil t true nil) k).size < fuel) :
    ∃ s' k', remove_tail lt s fuel t = .ok s' ∧ ShapeAt s' nil k' ∧ k'.Inv 1 true ∧
      k'.before = k.before ∧ k'.after = k.after ∧ s'.mem t = ⟨0, 0, 0⟩ ∧
      ∀ a, a ∉ (plug (node nil t true nil) k).inorder → s'.mem a = s.mem a := by
  obtain ⟨s4, e4, h4, fr4⟩ := h.toggle
  have h4' : ShapeAt s4 (node nil t false nil) k := h4
  obtain ⟨s5, k', e5, h5, i5, b5, a5, fr5⟩ :=
    remove_fixup_ok k fuel h4' hi (le_refl 1) (length_lt_of_size hf)
  have hlen : (plug (node nil t false nil) k').inorder.length =
      (plug (node nil t true nil) k).inorder.length := by
    rw [inorder_plug, inorder_plug, b5, a5]; rfl
  have hf' : k'.length < fuel := length_lt_of_size (by rw [size_plug_eq hlen]; exact hf)
  obtain ⟨s6, e6, h6, hm6, fr6⟩ := h5.unlink fuel hf'
  have hm6' : s6.mem t = ⟨0, 0, 0⟩ := by rw [hm6]; rfl
  have q1 : s.left_ t = .ok 0 := h.left_
  have q2 : s.right_ t = .ok 0 := h.right_
  have q3 : s.is_red t = false := h.is_red
  have q5 : s6.is_bound t = .ok false := Unbound.is_bound_false hm6' h.node_ne
  have hsz : (plug nil k').size + 1 = (plug (node nil t true nil) k).size := by
    rw [← length_inorder, ← length_inorder, inorder_plug, inorder_plug, b5, a5]
    simp [inorder]
    omega
  have q6 : s6.valid lt fuel = .ok true := by
    refine Shape.valid h6.shape (redBlack_plug.2 ⟨trivial, trivial, i5⟩) ?_ ?_
    · unfold RBT.ordered
      rw [inorder_plug, b5, a5]
      simpa [inorder] using ho
    · have := height_le_size (plug nil k')
      omega
  refine ⟨s6, k', ?_, h6, i5, b5, a5, hm6', ?_⟩
  · simp only [remove_tail, q1, q2, bind_ok, beq_self_eq_true, Bool.or_self, check_true,
      bne_self_eq_false, Bool.false_eq_true, if_false, pure_ok, q3, e4, is_red_zero, e5,
      if_true, e6, q5, Bool.not_false, q6]
  · intro a ha
    have hat : a ≠ t := ne_of_not_mem_plug ha
    have ha4 : a ∉ (plug (node nil t false nil) k).inorder := fun x => ha (by
      rw [mem_plug] at x ⊢; exact x)
    have ha5 : a ∉ (plug (node nil t false nil) k').inorder := fun x => ha (by
      rw [inorder_plug] at x ⊢
      rw [b5, a5] at x
      exact x)
    rw [fr6 a ha5, fr5 a ha4, fr4 a hat]

/-- Removing a black node whose only child is a red leaf on the left. -/
theorem remove_tail_left (lt : Nat → Nat → Bool) {s : intrusive_tree} {t x fuel : Nat}
    {k : Ctx} (h : ShapeAt s (node (node nil x false nil) t true nil) k) (hf : k.length < fuel) :
    ∃ s', remove_tail lt s fuel t = .ok s' ∧ ShapeAt s' (node nil x true nil) k ∧
      s'.mem t = ⟨0, 0, 0⟩ ∧
      ∀ a, a ∉ (plug (node (node nil x false nil) t true nil) k).inorder → s'.mem a = s.mem a := by
  obtain ⟨s2, e2, h2, hX, fr2⟩ := h.take_left
  have t0 := h.node_ne
  obtain ⟨ndl, ndr, ndk, tl, tr, htk, dlr, dlk, drk⟩ := h.nd
  have htx : t ≠ x := fun e => tl (by simp [inorder, e])
  have hxk' : x ∉ k.addrs := dlk (by simp [inorder])
  have hnd : ((node nil x false nil).inorder ++ t :: k.addrs).Nodup := by
    simpa [inorder, Ne.symm htx, hxk', htk] using ndk
  have hxk : x ∈ (node (node nil x false nil) t true nil).inorder ++ k.addrs := by simp [inorder]
  have hok : ∀ a ∈ (node nil x false nil).inorder, a ≠ 0 ∧ a % 2 = 0 := by
    intro a ha
    simp only [inorder, List.nil_append, List.mem_singleton] at ha
    subst ha
    exact h.ok a hxk
  obtain ⟨s3, e3, h3, hm3, fr3⟩ := h2.replace fuel hf hX (by rfl) hnd hok
  have x0 : x ≠ 0 := (h.ok x hxk).1
  have e4 := toggle_eq s3 t0
  have hm4 : wr s3.mem t ⟨(s3.mem t).p ^^^ 1, (s3.mem t).l, (s3.mem t).r⟩ t = ⟨0, 0, 0⟩ := by
    rw [wr_same, hm3]
    simp only [enc_xor 0 true (by rfl)]
    rfl
  have h4 : ShapeAt ⟨s3.root_, wr s3.mem t ⟨(s3.mem t).p ^^^ 1, (s3.mem t).l, (s3.mem t).r⟩⟩
      (node nil x false nil) k := h3.congr_at rfl (fun a ha => wr_ne _ _ (fun e => by
        subst e
        simp only [inorder, List.nil_append, List.singleton_append, List.mem_cons] at ha
        rcases ha with ha | ha
        · exact htx ha
        · exact htk ha))
  obtain ⟨s5, e5, h5, fr5⟩ := h4.toggle
  have q1 : s.left_ t = .ok x := h.left_
  have q2 : s.right_ t = .ok 0 := h.right_
  have q3 : s3.is_red t = false := by
    simp only [intrusive_tree.is_red, bne_of_ne t0, Bool.true_and, Link.red, hm3,
      enc_black 0 true 0 0 (by rfl), Bool.not_true]
  have q4 := h4.is_red
  simp only [Bool.not_false] at q4
  refine ⟨s5, ?_, h5, ?_, ?_⟩
  · simp only [addr_node] at e3
    simp only [remove_tail, q1, q2, bind_ok, beq_self_eq_true, Bool.or_true, Bool.or_false,
      Bool.true_or, check_true, bne_of_ne x0, beq_of_ne x0, bne_self_eq_false,
      Bool.false_eq_true, if_true, if_false, e2, e3, q3, e4, q4, e5]
  · rw [fr5 t htx]; exact hm4
  · intro a ha
    have hx := not_mem_plug ha
    have a1 : a ≠ t := fun e => hx (by simp [inorder, e])
    have a2 : a ≠ x := fun e => hx (by simp [inorder, e])
    have a3 : a ∉ k.addrs := fun e => hx (List.mem_append_right _ e)
    rw [fr5 a a2]
    show wr s3.mem t _ a = _
    rw [wr_ne _ _ a1, fr3 a (by simpa [inorder, a1, a2] using a3), fr2 a a1 a2]

/-- Removing a black node whose only child is a red leaf on the right. -/
theorem remove_tail_right (lt : Nat → Nat → Bool) {s : intrusive_tree} {t x fuel : Nat}
    {k : Ctx} (h : ShapeAt s (node nil t true (node nil x false nil)) k) (hf : k.length < fuel) :
    ∃ s', remove_tail lt s fuel t = .ok s' ∧ ShapeAt s' (node nil x true nil) k ∧
      s'.mem t = ⟨0, 0, 0⟩ ∧
      ∀ a, a ∉ (plug (node nil t true (node nil x false nil)) k).inorder → s'.mem a = s.mem a := by
  obtain ⟨s2, e2, h2, hX, fr2⟩ := h.take_right
  have t0 := h.node_ne
  obtain ⟨ndl, ndr, ndk, tl, tr, htk, dlr, dlk, drk⟩ := h.nd
  have htx : t ≠ x := fun e => tr (by simp [inorder, e])
  have hxk' : x ∉ k.addrs := drk (by simp [inorder])
  have hnd : ((node nil x false nil).inorder ++ t :: k.addrs).Nodup := by
    simpa [inorder, Ne.symm htx, hxk', htk] using ndk
  have hxk : x ∈ (node nil t true (node nil x false nil)).inorder ++ k.addrs := by simp [inorder]
  have hok : ∀ a ∈ (node nil x false nil).inorder, a ≠ 0 ∧ a % 2 = 0 := by
    intro a ha
    simp only [inorder, List.nil_append, List.mem_singleton] at ha
    subst ha
    exact h.ok a hxk
  obtain ⟨s3, e3, h3, hm3, fr3⟩ := h2.replace fuel hf hX (by rfl) hnd hok
  have x0 : x ≠ 0 := (h.ok x hxk).1
  have e4 := toggle_eq s3 t0
  have hm4 : wr s3.mem t ⟨(s3.mem t).p ^^^ 1, (s3.mem t).l, (s3.mem t).r⟩ t = ⟨0, 0, 0⟩ := by
    rw [wr_same, hm3]
    simp only [enc_xor 0 true (by rfl)]
    rfl
  have h4 : ShapeAt ⟨s3.root_, wr s3.mem t ⟨(s3.mem t).p ^^^ 1, (s3.mem t).l, (s3.mem t).r⟩⟩
      (node nil x false nil) k := h3.congr_at rfl (fun a ha => wr_ne _ _ (fun e => by
        subst e
        simp only [inorder, List.nil_append, List.singleton_append, List.mem_cons] at ha
        rcases ha with ha | ha
        · exact htx ha
        · exact htk ha))
  obtain ⟨s5, e5, h5, fr5⟩ := h4.toggle
  have q1 : s.left_ t = .ok 0 := h.left_
  have q2 : s.right_ t = .ok x := h.right_
  have q3 : s3.is_red t = false := by
    simp only [intrusive_tree.is_red, bne_of_ne t0, Bool.true_and, Link.red, hm3,
      enc_black 0 true 0 0 (by rfl), Bool.not_true]
  have q4 := h4.is_red
  simp only [Bool.not_false] at q4
  refine ⟨s5, ?_, h5, ?_, ?_⟩
  · simp only [addr_node] at e3
    simp only [remove_tail, q1, q2, bind_ok, beq_self_eq_true, Bool.or_true, Bool.or_false,
      Bool.true_or, check_true, bne_of_ne x0, beq_of_ne x0, bne_self_eq_false,
      Bool.false_eq_true, if_true, if_false, e2, e3, q3, e4, q4, e5]
  · rw [fr5 t htx]; exact hm4
  · intro a ha
    have hx := not_mem_plug ha
    have a1 : a ≠ t := fun e => hx (by simp [inorder, e])
    have a2 : a ≠ x := fun e => hx (by simp [inorder, e])
    have a3 : a ∉ k.addrs := fun e => hx (List.mem_append_right _ e)
    rw [fr5 a a2]
    show wr s3.mem t _ a = _
    rw [wr_ne _ _ a1, fr3 a (by simpa [inorder, a1, a2] using a3), fr2 a a1 a2]

/-- `remove` from the splice on, for a member with at most one child: the element
leaves the tree, the colours are repaired and its link is cleared. -/
theorem remove_tail_ok {lt : Nat → Nat → Bool} {s : intrusive_tree} {T : RBT} {t fuel : Nat}
    (h : Shape s T) (hrb : T.redBlack) (ht : t ∈ T.inorder)
    (hc : (s.mem t).l = 0 ∨ (s.mem t).r = 0)
    (ho : ∀ xs ys, T.inorder = xs ++ t :: ys → (xs ++ ys).Pairwise (fun a b => lt b a = false))
    (hf : T.size < fuel) :
    ∃ s' T', remove_tail lt s fuel t = .ok s' ∧ Shape s' T' ∧ T'.redBlack ∧
      (∃ xs ys, T.inorder = xs ++ t :: ys ∧ T'.inorder = xs ++ ys) ∧
      s'.mem t = ⟨0, 0, 0⟩ ∧ ∀ a, a ∉ T.inorder → s'.mem a = s.mem a := by
  obtain ⟨l, c, r, k, rfl, hz, -⟩ := h.focus ht
  obtain ⟨hbal, hnrr, hinv⟩ := redBlack_plug.1 hrb
  rw [hz.node_link] at hc
  simp only at hc
  have hkf := length_lt_of_size hf
  by_cases hln : l = nil
  · subst hln
    by_cases hrn : r = nil
    · subst hrn
      cases c with
      | false =>
        obtain ⟨s', e, h', hm, fr⟩ := remove_tail_red_leaf lt hz hkf
        refine ⟨s', _, e, h'.shape, redBlack_plug.2 ⟨trivial, trivial, hinv.to_black⟩,
          ⟨k.before, k.after, ?_, ?_⟩, hm, fr⟩
        · rw [inorder_plug]; simp [inorder]
        · rw [inorder_plug]; simp [inorder]
      | true =>
        have hord := ho k.before k.after (by rw [inorder_plug]; simp [inorder])
        obtain ⟨s', k', e, h', i', b', a', hm, fr⟩ := remove_tail_black_leaf hz hinv hord hf
        refine ⟨s', _, e, h'.shape, redBlack_plug.2 ⟨trivial, trivial, i'⟩,
          ⟨k.before, k.after, ?_, ?_⟩, hm, fr⟩
        · rw [inorder_plug]; simp [inorder]
        · rw [inorder_plug, b', a']; simp [inorder]
    · obtain ⟨x, rfl⟩ := red_leaf_of_bh_one hrn hbal.1.symm hbal.2.2 hnrr.2.2
      have hcb : c = true := by
        cases c
        · exact absurd (hnrr.1 rfl).2 (by simp [isBlack])
        · rfl
      subst hcb
      obtain ⟨s', e, h', hm, fr⟩ := remove_tail_right lt hz hkf
      refine ⟨s', _, e, h'.shape, redBlack_plug.2 ⟨⟨rfl, trivial, trivial⟩,
        ⟨fun x => absurd x (by simp), trivial, trivial⟩, hinv⟩,
        ⟨k.before, x :: k.after, ?_, ?_⟩, hm, fr⟩
      · rw [inorder_plug]; simp [inorder]
      · rw [inorder_plug]; simp [inorder]
  · have hrn : r = nil := by
      rcases hc with hc | hc
      · exact absurd (hz.downL.addr_eq_zero.1 hc) hln
      · exact hz.downR.addr_eq_zero.1 hc
    subst hrn
    obtain ⟨x, rfl⟩ := red_leaf_of_bh_one hln hbal.1 hbal.2.1 hnrr.2.1
    have hcb : c = true := by
      cases c
      · exact absurd (hnrr.1 rfl).1 (by simp [isBlack])
      · rfl
    subst hcb
    obtain ⟨s', e, h', hm, fr⟩ := remove_tail_left lt hz hkf
    refine ⟨s', _, e, h'.shape, redBlack_plug.2 ⟨⟨rfl, trivial, trivial⟩,
      ⟨fun x => absurd x (by simp), trivial, trivial⟩, hinv⟩,
      ⟨k.before ++ [x], k.after, ?_, ?_⟩, hm, fr⟩
    · rw [inorder_plug]; simp [inorder]
    · rw [inorder_plug]; simp [inorder]

end Oco

namespace Oco

open RBT intrusive_tree

/-! ## `remove` as a whole -/

theorem map_swp_fix {x y : Nat} {L : List Nat} (h : ∀ a ∈ L, a ≠ x ∧ a ≠ y) :
    L.map (swp x y) = L := by
  induction L with
  | nil => rfl
  | cons a L ih =>
    rw [List.map_cons, swp_ne (h a (List.mem_cons_self _ _)).1 (h a (List.mem_cons_self _ _)).2,
      ih (fun b hb => h b (List.mem_cons_of_mem _ hb))]

theorem map_swp_adj {x y : Nat} {A B : List Nat} (h : (A ++ x :: y :: B).Nodup) :
    (A ++ x :: y :: B).map (swp x y) = A ++ y :: x :: B ∧
    (A ++ x :: y :: B).map (swp y x) = A ++ y :: x :: B := by
  have hA : ∀ a ∈ A, a ≠ x ∧ a ≠ y := fun a ha =>
    ⟨fun e => (List.nodup_append.1 h).2.2 ha (by simp [e]),
     fun e => (List.nodup_append.1 h).2.2 ha (by simp [e])⟩
  have h2 := (List.nodup_append.1 h).2.1
  have hB : ∀ a ∈ B, a ≠ x ∧ a ≠ y := fun a ha =>
    ⟨fun e => (List.nodup_cons.1 h2).1 (by simp [← e, ha]),
     fun e => (List.nodup_cons.1 (List.nodup_cons.1 h2).2).1 (by simp [← e, ha])⟩
  constructor
  · rw [List.map_append, List.map_cons, List.map_cons, map_swp_fix hA, map_swp_fix hB,
      swp_left, swp_right]
  · rw [List.map_append, List.map_cons, List.map_cons,
      map_swp_fix (fun a ha => ⟨(hA a ha).2, (hA a ha).1⟩),
      map_swp_fix (fun a ha => ⟨(hB a ha).2, (hB a ha).1⟩), swp_left, swp_right]

theorem pairwise_erase_mid {R : Nat → Nat → Prop} {xs ys : List Nat} {e : Nat}
    (h : (xs ++ e :: ys).Pairwise R) : (xs ++ ys).Pairwise R :=
  h.sublist (List.Sublist.append (List.Sublist.refl xs) (List.sublist_cons_self e ys))

/-- Removing a member leaves an ordered sequence ordered. -/
theorem ordered_of_erase {lt : Nat → Nat → Bool} {T T' : RBT} {e : Nat} (ho : T.ordered lt)
    (h : ∃ xs ys, T.inorder = xs ++ e :: ys ∧ T'.inorder = xs ++ ys) : T'.ordered lt := by
  obtain ⟨xs, ys, e1, e2⟩ := h
  unfold RBT.ordered at ho ⊢
  rw [e1] at ho
  rw [e2]
  exact pairwise_erase_mid ho

theorem mem_map_swp {x y a : Nat} {L : List Nat} (hx : x ∈ L) (hy : y ∈ L) :
    a ∈ L.map (swp x y) ↔ a ∈ L := by
  rw [List.mem_map]
  constructor
  · rintro ⟨b, hb, rfl⟩
    unfold swp
    split
    · exact hy
    · split
      · exact hx
      · exact hb
  · intro ha
    refine ⟨swp x y a, ?_, swp_swp x y a⟩
    unfold swp
    split
    · exact hy
    · split
      · exact hx
      · exact ha

/-- The two-children case of `remove`: after `node_swap` with the in-order neighbour
`bar`, which has at most one child, the rest of `remove` takes `e` out. -/
theorem remove_swapped {lt : Nat → Nat → Bool} {s : intrusive_tree} {T : RBT} {e bar fuel : Nat}
    (h : Shape s T) (hrb : T.redBlack) (ho : T.ordered lt) (he : e ∈ T.inorder)
    (hb : bar ∈ T.inorder) (hne : e ≠ bar) (hbr : bar ≠ s.root_) (hgb : (s.mem e).up ≠ bar)
    (hc : (s.mem bar).l = 0 ∨ (s.mem bar).r = 0)
    (hadj : ∃ A B, T.inorder = A ++ bar :: e :: B ∨ T.inorder = A ++ e :: bar :: B)
    (hf : T.size < fuel) :
    ∃ s1 s' T', s.node_swap e bar = .ok s1 ∧ remove_tail lt s1 fuel e = .ok s' ∧
      Shape s' T' ∧ T'.redBlack ∧
      (∃ xs ys, T.inorder = xs ++ e :: ys ∧ T'.inorder = xs ++ ys) ∧
      s'.mem e = ⟨0, 0, 0⟩ ∧ ∀ a, a ∉ T.inorder → s'.mem a = s.mem a := by
  obtain ⟨s1, e1, h1, fr1, hm1⟩ := h.node_swap he hb hne hbr hgb
  obtain ⟨e0, -⟩ := h.mem_ok he
  obtain ⟨b0, -⟩ := h.mem_ok hb
  have hσ0 : swp e bar 0 = 0 := swp_zero e0 b0
  have hc1 : (s1.mem e).l = 0 ∨ (s1.mem e).r = 0 := by
    rw [hm1]
    rcases hc with hc | hc
    · left; show swp e bar (s.mem bar).l = 0; rw [hc, hσ0]
    · right; show swp e bar (s.mem bar).r = 0; rw [hc, hσ0]
  have he1 : e ∈ (T.map (swp e bar)).inorder := by
    rw [inorder_map, mem_map_swp he hb]; exact he
  have hnd := h.nodup
  obtain ⟨A, B, hAB⟩ := hadj
  have hin : ∃ xs ys, (T.map (swp e bar)).inorder = xs ++ e :: ys ∧
      ∃ xs' ys', T.inorder = xs' ++ e :: ys' ∧ xs ++ ys = xs' ++ ys' := by
    rcases hAB with hAB | hAB
    · refine ⟨A, bar :: B, ?_, A ++ [bar], B, by simp [hAB], by simp⟩
      rw [inorder_map, hAB]
      rw [hAB] at hnd
      exact (map_swp_adj hnd).2
    · refine ⟨A ++ [bar], B, ?_, A, bar :: B, hAB, by simp⟩
      rw [inorder_map, hAB]
      rw [hAB] at hnd
      rw [(map_swp_adj hnd).1]
      simp
  obtain ⟨xs0, ys0, hx0, xs', ys', hx', hxy⟩ := hin
  have ho' : ∀ xs ys, (T.map (swp e bar)).inorder = xs ++ e :: ys →
      (xs ++ ys).Pairwise (fun a b => lt b a = false) := by
    intro xs ys hxs
    obtain ⟨rfl, rfl⟩ := nodup_split (hxs ▸ h1.nodup) (hxs.symm.trans hx0)
    rw [hxy]
    have := ho
    unfold RBT.ordered at this
    rw [hx'] at this
    exact pairwise_erase_mid this
  obtain ⟨s', T', e2, h', rb', ⟨xs, ys, ex, ey⟩, hm, fr2⟩ :=
    remove_tail_ok h1 ((redBlack_map _ _).2 hrb) he1 hc1 ho' (by rw [size_map]; exact hf)
  obtain ⟨rfl, rfl⟩ := nodup_split (ex ▸ h1.nodup) (ex.symm.trans hx0)
  refine ⟨s1, s', T', e1, e2, h', rb', ⟨xs', ys', hx', ey.trans hxy⟩, hm, ?_⟩
  intro a ha
  rw [fr2 a (fun x => ha (by rwa [inorder_map, mem_map_swp he hb] at x)), fr1 a ha]

/-- The rightmost node of the left subtree: the in-order predecessor, without
right child. -/
theorem ShapeAt.pred_facts {s : intrusive_tree} {ll lr r : RBT} {e la fuel : Nat}
    {c lc : Bool} {k : Ctx} (hz : ShapeAt s (node (node ll la lc lr) e c r) k)
    (hfh : (node ll la lc lr).height ≤ fuel) :
    ∃ bar, s.rightest_ fuel la = .ok bar ∧
      bar ∈ (plug (node (node ll la lc lr) e c r) k).inorder ∧ e ≠ bar ∧ bar ≠ s.root_ ∧
      (s.mem e).up ≠ bar ∧ (s.mem bar).r = 0 ∧
      ∃ A B, (plug (node (node ll la lc lr) e c r) k).inorder = A ++ bar :: e :: B := by
  have hl := hz.downL
  obtain ⟨bl, x, cb, kL, epl, hall, -, ev⟩ := hl.rightest_loop lr fuel hfh
  have hx : ShapeAt s (node bl x cb nil) (kL ++ .L e c r :: k) := by
    have : Shape s (plug (node bl x cb nil) (kL ++ .L e c r :: k)) := by
      rw [plug_append, ← epl]; exact hz.shape
    exact this.at
  have hxl : x ∈ (node ll la lc lr).inorder := by
    rw [epl]; exact mem_plug.2 (Or.inl (by simp [inorder]))
  obtain ⟨-, -, -, el, -, -, -, dlk, -⟩ := hz.nd
  refine ⟨x, ?_, mem_plug.2 (Or.inl (by
      simp only [inorder, List.mem_append, List.mem_cons] at hxl ⊢; tauto)),
    fun e' => el (e' ▸ hxl), ?_, ?_, ?_, ?_⟩
  · simp only [intrusive_tree.rightest_, bne_of_ne hl.node_ne, check_true, bind_ok, ev]
  · intro e'
    have := hx.root_eq_iff.1 e'
    simp at this
  · rw [Shape.up_eq hz]
    cases k with
    | nil => exact Ne.symm hx.node_ne
    | cons f k' =>
      intro e'
      exact dlk hxl (e' ▸ Ctx.par_mem (k := f :: k') (by simp))
  · rw [hx.node_link]; rfl
  · refine ⟨k.before ++ (kL.before ++ bl.inorder), r.inorder ++ k.after, ?_⟩
    rw [inorder_plug]
    have : (node ll la lc lr).inorder = kL.before ++ bl.inorder ++ [x] := by
      rw [epl, inorder_plug, Ctx.after_of_allR hall]; simp [inorder]
    simp only [inorder] at this ⊢
    rw [this]
    simp

/-- The leftmost node of the right subtree: the in-order successor, without left
child. -/
theorem ShapeAt.succ_facts {s : intrusive_tree} {l rl rr : RBT} {e ra fuel : Nat}
    {c rc : Bool} {k : Ctx} (hz : ShapeAt s (node l e c (node rl ra rc rr)) k)
    (hfh : (node rl ra rc rr).height ≤ fuel) :
    ∃ bar, s.leftest_ fuel ra = .ok bar ∧
      bar ∈ (plug (node l e c (node rl ra rc rr)) k).inorder ∧ e ≠ bar ∧ bar ≠ s.root_ ∧
      (s.mem e).up ≠ bar ∧ (s.mem bar).l = 0 ∧
      ∃ A B, (plug (node l e c (node rl ra rc rr)) k).inorder = A ++ e :: bar :: B := by
  have hr := hz.downR
  obtain ⟨br, x, cb, kL, epl, hall, -, ev⟩ := hr.leftest_loop rl fuel hfh
  have hx : ShapeAt s (node nil x cb br) (kL ++ .R l e c :: k) := by
    have : Shape s (plug (node nil x cb br) (kL ++ .R l e c :: k)) := by
      rw [plug_append, ← epl]; exact hz.shape
    exact this.at
  have hxr : x ∈ (node rl ra rc rr).inorder := by
    rw [epl]; exact mem_plug.2 (Or.inl (by simp [inorder]))
  obtain ⟨-, -, -, -, er, -, -, -, drk⟩ := hz.nd
  refine ⟨x, ?_, mem_plug.2 (Or.inl (by
      simp only [inorder, List.mem_append, List.mem_cons] at hxr ⊢; tauto)),
    fun e' => er (e' ▸ hxr), ?_, ?_, ?_, ?_⟩
  · simp only [intrusive_tree.leftest_, bne_of_ne hr.node_ne, check_true, bind_ok, ev]
  · intro e'
    have := hx.root_eq_iff.1 e'
    simp at this
  · rw [Shape.up_eq hz]
    cases k with
    | nil => exact Ne.symm hx.node_ne
    | cons f k' =>
      intro e'
      exact drk hxr (e' ▸ Ctx.par_mem (k := f :: k') (by simp))
  · rw [hx.node_link]; rfl
  · refine ⟨k.before ++ l.inorder, br.inorder ++ kL.after ++ k.after, ?_⟩
    rw [inorder_plug]
    have : (node rl ra rc rr).inorder = x :: (br.inorder ++ kL.after) := by
      rw [epl, inorder_plug, Ctx.before_of_allL hall]; simp [inorder]
    simp only [inorder] at this ⊢
    rw [this]
    simp

/-- `remove` on a member of a valid tree: it returns the element, the tree stays
red-black and ordered, the in-order sequence loses exactly that element, the
element's link is cleared and nothing outside the tree is written. -/
theorem remove_spec {lt : Nat → Nat → Bool} {s : intrusive_tree} {T : RBT} {e fuel : Nat}
    (i : Int) (h : Shape s T) (hrb : T.redBlack) (ho : T.ordered lt) (he : e ∈ T.inorder)
    (hf : T.size < fuel) :
    ∃ s' T' i', s.remove lt fuel i e = .ok (e, i', s') ∧ Shape s' T' ∧ T'.redBlack ∧
      T'.ordered lt ∧ (∃ xs ys, T.inorder = xs ++ e :: ys ∧ T'.inorder = xs ++ ys) ∧
      s'.mem e = ⟨0, 0, 0⟩ ∧ ∀ a, a ∉ T.inorder → s'.mem a = s.mem a := by
  have hh : T.height < fuel := lt_of_le_of_lt (height_le_size T) hf
  have v1 : s.valid lt fuel = .ok true := Shape.valid h hrb ho hh
  have v3 : s.is_bound e = .ok true := h.is_bound hrb.1 he
  have v4 : s.is_member fuel e = .ok true := h.is_member he (le_of_lt hh)
  obtain ⟨l, c, r, k, hT, hz, -⟩ := h.focus he
  have v2 : s.empty = false := by
    simp only [intrusive_tree.empty]; exact beq_of_ne hz.root_ne
  have q1 : s.left_ e = .ok l.addr := hz.left_
  have q2 : s.right_ e = .ok r.addr := hz.right_
  have hsub : ∀ (t' : RBT), t'.height ≤ (plug (node l e c r) k).height →
      t'.height ≤ fuel := fun t' ht' => by rw [← hT] at ht'; omega
  have hhl : l.height ≤ (plug (node l e c r) k).height := by
    have := height_le_plug (node l e c r) k
    simp only [height] at this ⊢; omega
  have hhr : r.height ≤ (plug (node l e c r) k).height := by
    have := height_le_plug (node l e c r) k
    simp only [height] at this ⊢; omega
  by_cases hboth : l ≠ nil ∧ r ≠ nil
  · obtain ⟨hl, hr⟩ := hboth
    have l0 : l.addr ≠ 0 := fun x => hl (hz.downL.addr_eq_zero.1 x)
    have r0 : r.addr ≠ 0 := fun x => hr (hz.downR.addr_eq_zero.1 x)
    by_cases hodd : (incr i % 2 != 0) = true
    · cases l with
      | nil => exact absurd rfl hl
      | node ll la lc lr =>
        obtain ⟨bar, eb, hb, hne, hbr, hgb, hc, A, B, hAB⟩ := hz.pred_facts (hsub _ hhl)
        rw [← hT] at hb hAB
        obtain ⟨s1, s', T', e1, e2, h', rb', hin, hm, fr⟩ :=
          remove_swapped h hrb ho he hb hne hbr hgb (Or.inr hc)
            ⟨A, B, Or.inl hAB⟩ hf
        refine ⟨s', T', incr i, ?_, h', rb', ordered_of_erase ho hin, hin, hm, fr⟩
        simp only [addr_node] at q1 l0
        simp only [remove, v1, v2, v3, v4, check_true, bind_ok, Bool.not_false, q1, q2,
          bne_of_ne l0, bne_of_ne r0, Bool.and_self, if_true, hodd, eb, e1, e2, pure_ok]
    · cases r with
      | nil => exact absurd rfl hr
      | node rl ra rc rr =>
        obtain ⟨bar, eb, hb, hne, hbr, hgb, hc, A, B, hAB⟩ := hz.succ_facts (hsub _ hhr)
        rw [← hT] at hb hAB
        obtain ⟨s1, s', T', e1, e2, h', rb', hin, hm, fr⟩ :=
          remove_swapped h hrb ho he hb hne hbr hgb (Or.inl hc)
            ⟨A, B, Or.inr hAB⟩ hf
        refine ⟨s', T', incr i, ?_, h', rb', ordered_of_erase ho hin, hin, hm, fr⟩
        simp only [addr_node] at q2 r0
        simp only [remove, v1, v2, v3, v4, check_true, bind_ok, Bool.not_false, q1, q2,
          bne_of_ne l0, bne_of_ne r0, Bool.and_self, if_true, hodd, Bool.false_eq_true,
          if_false, eb, e1, e2, pure_ok]
  · have hc : l.addr = 0 ∨ r.addr = 0 := by
      by_cases hl : l = nil
      · left; rw [hl]; rfl
      · right
        have hr : r = nil := by
          by_contra hr; exact hboth ⟨hl, hr⟩
        rw [hr]; rfl
    have hc' : (s.mem e).l = 0 ∨ (s.mem e).r = 0 := by
      rw [hz.node_link]; exact hc
    have ho' : ∀ xs ys, T.inorder = xs ++ e :: ys →
        (xs ++ ys).Pairwise (fun a b => lt b a = false) := by
      intro xs ys hxy
      have := ho
      unfold RBT.ordered at this
      rw [hxy] at this
      exact pairwise_erase_mid this
    obtain ⟨s', T', e2, h', rb', hin, hm, fr⟩ := remove_tail_ok h hrb he hc' ho' hf
    refine ⟨s', T', i, ?_, h', rb', ordered_of_erase ho hin, hin, hm, fr⟩
    have hcond : (l.addr != 0 && r.addr != 0) = false := by
      rcases hc with hc | hc <;> simp [hc]
    simp only [remove, v1, v2, v3, v4, check_true, bind_ok, Bool.not_false, q1, q2, hcond,
      Bool.false_eq_true, if_false, pure_ok, e2]

end Oco

namespace Oco

open RBT intrusive_tree

/-! ## Sequences of `insert` and `remove` -/

/-- Inserting a list of distinct unbound elements one after the other. -/
theorem insert_all_ok {lt : Nat → Nat → Bool} (sw : StrictWeak lt) (fuel : Nat) :
    ∀ (es : List Nat) {s : intrusive_tree} {T : RBT}, Shape s T → T.redBlack → T.ordered lt →
      (∀ e ∈ es, Unbound s e ∧ e ≠ 0 ∧ e % 2 = 0) → es.Nodup → T.size + es.length < fuel →
      ∃ s' T', insert_all lt fuel es s = .ok s' ∧ Shape s' T' ∧ T'.redBlack ∧ T'.ordered lt ∧
        T'.inorder.Perm (es ++ T.inorder) ∧
        ∀ a, a ∉ T.inorder → a ∉ es → s'.mem a = s.mem a
  | [], s, T, h, hrb, ho, _, _, _ =>
    ⟨s, T, rfl, h, hrb, ho, by simp, fun _ _ _ => rfl⟩
  | e :: es, s, T, h, hrb, ho, hes, hnd, hf => by
    obtain ⟨hu, e0, e2⟩ := hes e (List.mem_cons_self _ _)
    simp only [List.length_cons] at hf
    have hf1 : T.size + 1 < fuel := by omega
    obtain ⟨s1, T1, e1, h1, rb1, ho1, ⟨xs, ys, hT, hT1, -, -⟩, fr1⟩ :=
      insert_spec sw h hrb ho hu e0 e2 hf1
    have hperm : T1.inorder.Perm (e :: T.inorder) := by
      rw [hT, hT1]; exact List.perm_middle
    have hsz : T1.size = T.size + 1 := by
      rw [← length_inorder, ← length_inorder, hperm.length_eq]; rfl
    have hes1 : ∀ x ∈ es, Unbound s1 x ∧ x ≠ 0 ∧ x % 2 = 0 := by
      intro x hx
      obtain ⟨hxu, x0, x2⟩ := hes x (List.mem_cons_of_mem _ hx)
      refine ⟨?_, x0, x2⟩
      show s1.mem x = _
      rw [fr1 x (h.not_mem_of_unbound hrb.1 hxu)
        (fun e' => (List.nodup_cons.1 hnd).1 (e' ▸ hx))]
      exact hxu
    have hf2 : T1.size + es.length < fuel := by omega
    obtain ⟨s', T', e', h', rb', ho', hp', fr'⟩ :=
      insert_all_ok sw fuel es h1 rb1 ho1 hes1 (List.nodup_cons.1 hnd).2 hf2
    refine ⟨s', T', ?_, h', rb', ho', ?_, ?_⟩
    · simp only [insert_all, e1, bind_ok]; exact e'
    · refine hp'.trans ?_
      refine (List.Perm.append_left es hperm).trans ?_
      exact List.perm_middle
    · intro a ha hae
      have a1 : a ≠ e := fun x => hae (x ▸ List.mem_cons_self _ _)
      have a2 : a ∉ es := fun x => hae (List.mem_cons_of_mem _ x)
      rw [fr' a (fun x => by
        rcases List.mem_cons.1 (hperm.mem_iff.1 x) with x | x
        · exact a1 x
        · exact ha x) a2, fr1 a ha a1]

/-- Removing a list of distinct members one after the other. -/
theorem remove_all_ok {lt : Nat → Nat → Bool} (fuel : Nat) :
    ∀ (rs : List Nat) (i : Int) {s : intrusive_tree} {T : RBT}, Shape s T → T.redBlack →
      T.ordered lt → (∀ e ∈ rs, e ∈ T.inorder) → rs.Nodup → T.size < fuel →
      ∃ s' T' i', remove_all lt fuel rs i s = .ok (i', s') ∧ Shape s' T' ∧ T'.redBlack ∧
        T'.ordered lt ∧ T.inorder.Perm (rs ++ T'.inorder) ∧
        (∀ e ∈ rs, s'.mem e = ⟨0, 0, 0⟩) ∧ ∀ a, a ∉ T.inorder → s'.mem a = s.mem a
  | [], i, s, T, h, hrb, ho, _, _, _ =>
    ⟨s, T, i, rfl, h, hrb, ho, by simp, by simp, fun _ _ => rfl⟩
  | e :: rs, i, s, T, h, hrb, ho, hrs, hnd, hf => by
    have he := hrs e (List.mem_cons_self _ _)
    obtain ⟨s1, T1, i1, e1, h1, rb1, ho1, ⟨xs, ys, hT, hT1⟩, hm1, fr1⟩ :=
      remove_spec i h hrb ho he hf
    have hperm : T.inorder.Perm (e :: T1.inorder) := by
      rw [hT, hT1]; exact List.perm_middle
    have hsz : T1.size < fuel := by
      have : T.size = T1.size + 1 := by
        rw [← length_inorder, ← length_inorder, hperm.length_eq]; rfl
      omega
    have he1 : e ∉ T1.inorder := by
      rw [hT1]; exact fun x => by
        have hn := h.nodup
        rw [hT] at hn
        rcases List.mem_append.1 x with x | x
        · exact (List.nodup_append.1 hn).2.2 x (List.mem_cons_self _ _)
        · exact (List.nodup_cons.1 (List.nodup_append.1 hn).2.1).1 x
    have hrs1 : ∀ x ∈ rs, x ∈ T1.inorder := by
      intro x hx
      rcases List.mem_cons.1 (hperm.mem_iff.1 (hrs x (List.mem_cons_of_mem _ hx))) with x' | x'
      · exact absurd (x' ▸ hx) (List.nodup_cons.1 hnd).1
      · exact x'
    obtain ⟨s', T', i', e', h', rb', ho', hp', hm', fr'⟩ :=
      remove_all_ok fuel rs i1 h1 rb1 ho1 hrs1 (List.nodup_cons.1 hnd).2 hsz
    refine ⟨s', T', i', ?_, h', rb', ho', ?_, ?_, ?_⟩
    · simp only [remove_all, e1, bind_ok]; exact e'
    · exact hperm.trans (List.Perm.cons e hp')
    · intro x hx
      rcases List.mem_cons.1 hx with rfl | hx
      · rw [fr' x he1]; exact hm1
      · exact hm' x hx
    · intro a ha
      rw [fr' a (fun x => ha (hperm.mem_iff.2 (List.mem_cons_of_mem _ x))), fr1 a ha]

end Oco

namespace Oco

open RBT intrusive_tree

/-! ## Membership across containers on one heap -/

/-- The walk to the eldest ancestor reads the links only. -/
theorem eldest_loop_congr {s s' : intrusive_tree} (h : s.mem = s'.mem) :
    ∀ (fuel n : Nat), s.eldest_loop fuel n = s'.eldest_loop fuel n
  | 0, _ => rfl
  | fuel + 1, n => by
    simp only [intrusive_tree.eldest_loop, intrusive_tree.parent_, h]
    cases hc : check (n != 0) with
    | error e => rfl
    | ok u =>
      simp only [bind_ok, pure_ok]
      split
      · exact eldest_loop_congr h fuel _
      · rfl

/-- A member of another container on the same heap is not a member of this one. -/
theorem Shape.is_member_other {s : intrusive_tree} {T T2 : RBT} {r2 n fuel : Nat}
    (h : Shape s T) (h2 : Shape ⟨r2, s.mem⟩ T2) (hn : n ∈ T2.inorder)
    (hd : ∀ a ∈ T2.inorder, a ∉ T.inorder) (hf : T2.height ≤ fuel) :
    s.is_member fuel n = .ok false := by
  obtain ⟨l, c, r, k, rfl, hk⟩ := exists_focus hn
  have hz := h2.at
  have e1 : s.eldest_loop fuel n = .ok r2 := by
    have e0 := eldest_loop_congr
      (show s.mem = (⟨r2, s.mem⟩ : intrusive_tree).mem from rfl) fuel n
    rw [e0]
    exact hz.eldest_loop (lt_of_lt_of_le hk hf)
  have hr2 : r2 ∈ (plug (node l n c r) k).inorder := by
    have : r2 = (plug (node l n c r) k).addr := h2.root
    rw [this]
    exact RBT.addr_mem (by rw [← this]; exact hz.root_ne)
  have hne : r2 ≠ s.root_ := by
    intro e
    by_cases hr : s.root_ = 0
    · exact hz.root_ne (e.trans hr)
    · rw [h.root] at hr e
      exact hd r2 hr2 (e ▸ RBT.addr_mem hr)
  simp only [intrusive_tree.is_member, bne_of_ne hz.node_ne, check_true, bind_ok,
    intrusive_tree.eldest_, e1, pure_ok, beq_of_ne hne]
  split <;> rfl

/-- In an empty container nothing is a member. -/
theorem is_member_empty {s : intrusive_tree} {n fuel : Nat} (he : s.empty = true) (h0 : n ≠ 0) :
    s.is_member fuel n = .ok false := by
  simp [intrusive_tree.is_member, bne_of_ne h0, he]

/-- The validity check passes on every empty container. -/
theorem valid_empty {s : intrusive_tree} {lt : Nat → Nat → Bool} {fuel : Nat}
    (he : s.empty = true) : s.valid lt fuel = .ok true := by
  simp [intrusive_tree.valid, he]

end Oco

namespace Oco

open intrusive_stack

/-! ## Bound elements of the stack -/

/-- A successful `push` keeps everything outside the chain unbound. -/
theorem push_links {s s' : intrusive_stack} {t : Nat} {xs : List Nat}
    (hu : ∀ a, a ∉ xs → s.mem a = 0) (h : s.push t = .ok s') :
    (∀ a, a ∉ t :: xs → s'.mem a = 0) ∧ s'.mem t = s.head ∧ s'.head = t ∧ s.mem t = 0 := by
  rw [push_eq] at h
  split at h
  · rename_i hcond
    simp only [Except.ok.injEq] at h
    subst h
    refine ⟨fun a ha => ?_, by simp [wrp], rfl, hcond.1⟩
    simp only [List.mem_cons, not_or] at ha
    simp only [wrp, if_neg ha.1]
    exact hu a ha.2
  · simp at h

/-- A successful `pop` leaves the popped element and everything outside the chain
unbound. -/
theorem pop_links {s s' : intrusive_stack} {t : Nat} {xs : List Nat}
    (hu : ∀ a, a ∉ xs → s.mem a = 0) (h : s.pop = .ok (t, s')) :
    (∀ a, a ∉ xs.erase t → s'.mem a = 0) ∧ s'.mem t = 0 ∧ t = s.head := by
  rw [pop_eq] at h
  split at h
  · simp only [Except.ok.injEq, Prod.mk.injEq] at h
    obtain ⟨rfl, rfl⟩ := h
    refine ⟨fun a ha => ?_, by simp [wrp], rfl⟩
    by_cases e : a = s.head
    · simp [wrp, e]
    · simp only [wrp, if_neg e]
      exact hu a (fun hx => ha ((List.mem_erase_of_ne e).2 hx))
  · simp at h

/-- After a successful run the bound elements are exactly those of the chain. -/
theorem run_links : ∀ (ops : List StackOp) {s : intrusive_stack} {xs : List Nat}
    {r : List Nat × intrusive_stack}, Chain s.mem s.head xs → xs.Nodup →
    (∀ a, a ∉ xs → s.mem a = 0) → run ops s = .ok r →
    ∃ ys, Chain r.2.mem r.2.head ys ∧ ys.Nodup ∧ ∀ a, a ∉ ys → r.2.mem a = 0
  | [], s, xs, r, hc, hnd, hu, h => by
    simp only [run, pure_ok, Except.ok.injEq] at h
    subst h
    exact ⟨xs, hc, hnd, hu⟩
  | .push t :: ops, s, xs, r, hc, hnd, hu, h => by
    simp only [run] at h
    cases hp : s.push t with
    | error e => rw [hp] at h; simp at h
    | ok s1 =>
      rw [hp] at h
      simp only [bind_ok] at h
      obtain ⟨hc1, hnd1⟩ := push_chain hc hnd hp
      exact run_links ops hc1 hnd1 (push_links hu hp).1 h
  | .pop :: ops, s, xs, r, hc, hnd, hu, h => by
    simp only [run] at h
    cases hp : s.pop with
    | error e => rw [hp] at h; simp at h
    | ok p =>
      obtain ⟨t, s1⟩ := p
      rw [hp] at h
      simp only [bind_ok] at h
      obtain ⟨zs, rfl, hc1, hnd1⟩ := pop_chain hc hnd hp
      have hu1 := (pop_links hu hp).1
      simp only [List.erase_cons_head] at hu1
      cases hr : run ops s1 with
      | error e => rw [hr] at h; simp at h
      | ok q =>
        obtain ⟨out, s2⟩ := q
        rw [hr] at h
        simp only [bind_ok, pure_ok, Except.ok.injEq] at h
        subst h
        exact @run_links ops s1 zs (out, s2) hc1 hnd1 hu1 hr

/-- The chain never contains the null pointer when no null pointer was pushed. -/
theorem Chain.head_ne_zero {m : Nat → Nat} {xs : List Nat} {h : Nat} (hc : Chain m h xs)
    (h0 : ∀ x ∈ xs, x ≠ 0) : h ≠ 0 := by
  cases xs with
  | nil =>
    have : h = bad := hc
    rw [this]; decide
  | cons x xs =>
    obtain ⟨h1, -, -, -⟩ := hc
    rw [h1]
    exact h0 x (by simp)

end Oco

namespace Oco

open RBT intrusive_tree

/-! ## What a passing validity check implies -/

/-- A result of `depth` is the black height, and the tree below is balanced. -/
theorem ShapeAt.depth_inv {s : intrusive_tree} : ∀ (t : RBT) {k : Ctx} {fuel d : Nat},
    ShapeAt s t k → s.depth fuel t.addr = .ok d → t.balanced ∧ d = t.bh
  | _, _, 0, _, _, hd => by simp [intrusive_tree.depth] at hd
  | nil, _, fuel + 1, d, _, hd => by
    simp only [intrusive_tree.depth, RBT.addr, beq_self_eq_true, if_true, pure_ok,
      Except.ok.injEq] at hd
    exact ⟨trivial, hd.symm⟩
  | node l a c r, k, fuel + 1, d, h, hd => by
    simp only [intrusive_tree.depth, addr_node, beq_of_ne h.node_ne, Bool.false_eq_true, if_false,
      h.left_, h.right_, bind_ok, h.is_black] at hd
    cases e1 : s.depth fuel l.addr with
    | error err => rw [e1] at hd; simp at hd
    | ok dl =>
      cases e2 : s.depth fuel r.addr with
      | error err => rw [e1, e2] at hd; simp at hd
      | ok dr =>
        rw [e1, e2] at hd
        simp only [bind_ok] at hd
        obtain ⟨bl, rfl⟩ := ShapeAt.depth_inv l h.downL e1
        obtain ⟨br, rfl⟩ := ShapeAt.depth_inv r h.downR e2
        by_cases hq : l.bh = r.bh
        · simp only [hq, beq_self_eq_true, check_true, bind_ok, pure_ok, Except.ok.injEq] at hd
          refine ⟨⟨hq, bl, br⟩, ?_⟩
          simp only [bh]
          rw [← hd, hq, Nat.add_comm]
        · simp [beq_of_ne hq] at hd

/-- A passing `valid(const T*)` excludes red-red edges and orders every node
against its two children. -/
theorem ShapeAt.valid_at_inv {s : intrusive_tree} (lt : Nat → Nat → Bool) :
    ∀ (t : RBT) {k : Ctx} {fuel : Nat}, ShapeAt s t k →
    s.valid_at lt fuel t.addr = .ok true → t.noRedRed ∧ t.localOrdered lt
  | nil, _, _, _, _ => ⟨trivial, trivial⟩
  | node l a c r, _, 0, _, hv => by simp [intrusive_tree.valid_at] at hv
  | node l a c r, k, fuel + 1, h, hv => by
    simp only [intrusive_tree.valid_at, addr_node, beq_of_ne h.node_ne, Bool.false_eq_true,
      if_false, h.left_, h.right_, bind_ok, h.is_red, h.downL.is_black_addr,
      h.downR.is_black_addr] at hv
    by_cases c1 : (!c && (l.addr != 0 && !l.isBlack)) = true
    · rw [if_pos c1] at hv; simp at hv
    rw [if_neg c1] at hv
    by_cases c2 : (!c && (r.addr != 0 && !r.isBlack)) = true
    · rw [if_pos c2] at hv; simp at hv
    rw [if_neg c2] at hv
    by_cases c3 : (l.addr != 0 && lt a l.addr) = true
    · rw [if_pos c3] at hv; simp at hv
    rw [if_neg c3] at hv
    by_cases c4 : (r.addr != 0 && lt r.addr a) = true
    · rw [if_pos c4] at hv; simp at hv
    rw [if_neg c4] at hv
    cases e1 : s.valid_at lt fuel l.addr with
    | error err => rw [e1] at hv; simp at hv
    | ok b1 =>
      rw [e1] at hv
      simp only [bind_ok] at hv
      cases b1 with
      | false => simp at hv
      | true =>
        simp only [if_true] at hv
        obtain ⟨nl, ol⟩ := ShapeAt.valid_at_inv lt l h.downL e1
        obtain ⟨nr, or'⟩ := ShapeAt.valid_at_inv lt r h.downR hv
        have zl : l.addr = 0 → l.isBlack = true := fun z => by
          rw [h.downL.addr_eq_zero.1 z]; rfl
        have zr : r.addr = 0 → r.isBlack = true := fun z => by
          rw [h.downR.addr_eq_zero.1 z]; rfl
        refine ⟨⟨fun hc => ?_, nl, nr⟩, ⟨fun hl => ?_, fun hr => ?_, ol, or'⟩⟩
        · subst hc
          constructor
          · by_cases z : l.addr = 0
            · exact zl z
            · simpa [bne_of_ne z] using c1
          · by_cases z : r.addr = 0
            · exact zr z
            · simpa [bne_of_ne z] using c2
        · simpa [bne_of_ne hl] using c3
        · simpa [bne_of_ne hr] using c4

/-- A passing `valid()` implies the colour invariants and the local order. -/
theorem Shape.valid_inv {s : intrusive_tree} {T : RBT} {lt : Nat → Nat → Bool} {fuel : Nat}
    (h : Shape s T) (hv : s.valid lt fuel = .ok true) :
    T.redBlack ∧ T.localOrdered lt := by
  cases T with
  | nil => exact ⟨⟨rfl, trivial, trivial⟩, trivial⟩
  | node l a c r =>
    have hz : ShapeAt s (node l a c r) [] := h.at (k := [])
    have hr : s.root_ = a := h.root
    simp only [intrusive_tree.valid, intrusive_tree.empty, hr, beq_of_ne hz.node_ne,
      Bool.false_eq_true, if_false, hz.is_black, hz.left_, hz.right_, bind_ok] at hv
    cases c with
    | false => simp at hv
    | true =>
      simp only [Bool.not_true, Bool.false_eq_true, if_false] at hv
      cases e1 : s.depth fuel l.addr with
      | error err => rw [e1] at hv; simp at hv
      | ok dl =>
        cases e2 : s.depth fuel r.addr with
        | error err => rw [e1, e2] at hv; simp at hv
        | ok dr =>
          rw [e1, e2] at hv
          simp only [bind_ok] at hv
          obtain ⟨bl, rfl⟩ := ShapeAt.depth_inv l hz.downL e1
          obtain ⟨br, rfl⟩ := ShapeAt.depth_inv r hz.downR e2
          by_cases hq : l.bh = r.bh
          · simp only [hq, bne_self_eq_false, Bool.false_eq_true, if_false] at hv
            obtain ⟨nn, oo⟩ := ShapeAt.valid_at_inv lt _ hz hv
            exact ⟨⟨rfl, nn, hq, bl, br⟩, oo⟩
          · simp [bne_of_ne hq] at hv

/-! ## The height of a red-black tree -/

theorem bh_ge_one (t : RBT) : 1 ≤ t.bh := by
  induction t with
  | nil => simp [bh]
  | node l a c r ihl _ => simp only [bh]; omega

/-- A balanced tree of black height `b` has at least `2 ^ (b - 1) - 1` nodes. -/
theorem pow_bh_le_size : ∀ (t : RBT), t.balanced → 2 ^ (t.bh - 1) ≤ t.size + 1
  | nil, _ => by simp [bh, size]
  | node l a c r, ⟨hq, bl, br⟩ => by
    have i1 := pow_bh_le_size l bl
    have i2 := pow_bh_le_size r br
    have p1 := bh_ge_one l
    rw [← hq] at i2
    simp only [bh, size]
    have hle : 2 ^ (l.bh + (if c = true then 1 else 0) - 1) ≤ 2 ^ l.bh := by
      apply Nat.pow_le_pow_right (by decide)
      split <;> omega
    have hs : 2 ^ l.bh = 2 ^ (l.bh - 1) + 2 ^ (l.bh - 1) := by
      obtain ⟨b, hb⟩ : ∃ b, l.bh = b + 1 := ⟨l.bh - 1, by omega⟩
      rw [hb, Nat.add_sub_cancel, Nat.pow_succ]; omega
    omega

/-- Without red-red edges the height is at most twice the black height. -/
theorem height_le_bh : ∀ (t : RBT), t.balanced → t.noRedRed →
    t.height + (if t.isBlack then 2 else 1) ≤ 2 * t.bh
  | nil, _, _ => by simp [height, bh, isBlack]
  | node l a c r, ⟨hq, bl, br⟩, ⟨hc, nl, nr⟩ => by
    have i1 := height_le_bh l bl nl
    have i2 := height_le_bh r br nr
    rw [← hq] at i2
    cases c with
    | true =>
      simp only [height, bh, isBlack, if_true]
      have : max l.height r.height ≤ 2 * l.bh - 1 := by
        apply max_le
        · split at i1 <;> omega
        · split at i2 <;> omega
      have p1 := bh_ge_one l
      omega
    | false =>
      obtain ⟨b1, b2⟩ := hc rfl
      rw [b1] at i1
      rw [b2] at i2
      simp only [if_true] at i1 i2
      simp only [height, bh, isBlack, Bool.false_eq_true, if_false]
      have : max l.height r.height ≤ 2 * l.bh - 2 := max_le (by omega) (by omega)
      have p1 := bh_ge_one l
      omega

/-- The height bound of a red-black tree: `2 ^ height ≤ (size + 1) ^ 2`. -/
theorem pow_height_le (t : RBT) (hrb : t.redBlack) : 2 ^ t.height ≤ (t.size + 1) ^ 2 := by
  obtain ⟨hb, nn, bb⟩ := hrb
  have h1 := height_le_bh t bb nn
  rw [hb] at h1
  simp only [if_true] at h1
  have h2 := pow_bh_le_size t bb
  have p1 := bh_ge_one t
  calc 2 ^ t.height ≤ 2 ^ (2 * (t.bh - 1)) := Nat.pow_le_pow_right (by decide) (by omega)
    _ = (2 ^ (t.bh - 1)) ^ 2 := by rw [Nat.pow_mul, Nat.pow_right_comm]
    _ ≤ (t.size + 1) ^ 2 := Nat.pow_le_pow_left h2 2

/-- Fuel that covers the logarithmic bound covers the height. -/
theorem height_le_of_pow {t : RBT} {fuel : Nat} (hrb : t.redBlack)
    (hf : (t.size + 1) ^ 2 ≤ 2 ^ fuel) : t.height ≤ fuel := by
  have h1 := pow_height_le t hrb
  exact (Nat.pow_le_pow_iff_right (by decide)).1 (le_trans h1 hf)

end Oco

namespace Oco

open RBT intrusive_tree

/-! ## Sequences of `insert` and `remove` calls -/

theorem is_bound_false_unbound {s : intrusive_tree} {e : Nat} (h : s.is_bound e = .ok false) :
    e ≠ 0 ∧ Unbound s e := by
  by_cases h0 : e = 0
  · simp [intrusive_tree.is_bound, h0] at h
  · refine ⟨h0, ?_⟩
    simp only [intrusive_tree.is_bound, bne_of_ne h0, check_true, bind_ok, Link.bound] at h
    by_cases hp : (s.mem e).p = 0
    · by_cases hl : (s.mem e).l = 0
      · by_cases hr : (s.mem e).r = 0
        · show s.mem e = ⟨0, 0, 0⟩
          cases hm : s.mem e with
          | mk p l r =>
            rw [hm] at hp hl hr
            simp only at hp hl hr
            rw [hp, hl, hr]
        · simp [hp, hl, beq_of_ne hr] at h
      · simp [hp, beq_of_ne hl] at h
    · simp [bne_of_ne hp] at h

theorem is_bound_true_bound {s : intrusive_tree} {e : Nat} (h : s.is_bound e = .ok true) :
    e ≠ 0 ∧ s.mem e ≠ ⟨0, 0, 0⟩ := by
  by_cases h0 : e = 0
  · simp [intrusive_tree.is_bound, h0] at h
  · refine ⟨h0, fun hm => ?_⟩
    simp [intrusive_tree.is_bound, bne_of_ne h0, Link.bound, hm] at h

/-- A successful `insert` passed the assertion `!is_bound(t)`. -/
theorem insert_ok_entry {lt : Nat → Nat → Bool} {s s1 : intrusive_tree} {fuel e : Nat}
    (h : s.insert lt fuel e = .ok s1) : s.is_bound e = .ok false := by
  simp only [intrusive_tree.insert] at h
  cases hv : s.valid lt fuel with
  | error err => rw [hv] at h; simp at h
  | ok b =>
    rw [hv] at h
    simp only [bind_ok] at h
    cases b with
    | false => simp at h
    | true =>
      simp only [check_true, bind_ok] at h
      cases hb : s.is_bound e with
      | error err => rw [hb] at h; simp at h
      | ok b2 =>
        cases b2 with
        | false => rfl
        | true => rw [hb] at h; simp at h

/-- A successful `remove` passed the assertion `is_bound(t)`. -/
theorem remove_ok_entry {lt : Nat → Nat → Bool} {s : intrusive_tree} {fuel e : Nat} {i : Int}
    {r : Nat × Int × intrusive_tree} (h : s.remove lt fuel i e = .ok r) :
    s.is_bound e = .ok true := by
  simp only [intrusive_tree.remove] at h
  cases hv : s.valid lt fuel with
  | error err => rw [hv] at h; simp at h
  | ok b =>
    rw [hv] at h
    simp only [bind_ok] at h
    cases b with
    | false => simp at h
    | true =>
      simp only [check_true, bind_ok] at h
      cases hE : s.empty with
      | true => rw [hE] at h; simp at h
      | false =>
        rw [hE] at h
        simp only [Bool.not_false, check_true, bind_ok] at h
        cases hb : s.is_bound e with
        | error err => rw [hb] at h; simp at h
        | ok b2 =>
          cases b2 with
          | true => rfl
          | false => rw [hb] at h; simp at h

/-- Every successful sequence of calls from a valid container, outside of which
everything is unbound, ends in a valid container of the same kind. -/
theorem run_ops_ok {lt : Nat → Nat → Bool} (sw : StrictWeak lt) (fuel : Nat) :
    ∀ (ops : List TreeOp) (i : Int) {s : intrusive_tree} {T : RBT}
      {r : Int × intrusive_tree}, Shape s T → T.redBlack → T.ordered lt →
      (∀ a, a ∉ T.inorder → s.mem a = ⟨0, 0, 0⟩) → (∀ op ∈ ops, op.elem % 2 = 0) →
      T.size + ops.length + 1 < fuel → run_ops lt fuel ops i s = .ok r →
      ∃ T', Shape r.2 T' ∧ T'.redBlack ∧ T'.ordered lt ∧
        (∀ a, a ∉ T'.inorder → r.2.mem a = ⟨0, 0, 0⟩) ∧ T'.size ≤ T.size + ops.length
  | [], i, s, T, r, h, hrb, ho, hu, _, _, hr => by
    simp only [run_ops, pure_ok, Except.ok.injEq] at hr
    subst hr
    exact ⟨T, h, hrb, ho, hu, by simp⟩
  | .insert e :: ops, i, s, T, r, h, hrb, ho, hu, hev, hf, hr => by
    simp only [run_ops] at hr
    simp only [List.length_cons] at hf
    cases h1 : s.insert lt fuel e with
    | error err => rw [h1] at hr; simp at hr
    | ok s1 =>
      rw [h1] at hr
      simp only [bind_ok] at hr
      obtain ⟨e0, hue⟩ := is_bound_false_unbound (insert_ok_entry h1)
      have e2 : e % 2 = 0 := hev (.insert e) (List.mem_cons_self _ _)
      have hf1 : T.size + 1 < fuel := by omega
      obtain ⟨s1', T1, e1, hS1, rb1, ho1, ⟨xs, ys, hT, hT1, -, -⟩, fr1⟩ :=
        insert_spec sw h hrb ho hue e0 e2 hf1
      rw [h1] at e1
      simp only [Except.ok.injEq] at e1
      subst e1
      have hsz : T1.size = T.size + 1 := by
        rw [← length_inorder, ← length_inorder, hT, hT1]
        simp only [List.length_append, List.length_cons]; omega
      have hu1 : ∀ a, a ∉ T1.inorder → s1.mem a = ⟨0, 0, 0⟩ := by
        intro a ha
        rw [hT1] at ha
        simp only [List.mem_append, List.mem_cons, not_or] at ha
        have haT : a ∉ T.inorder := by
          rw [hT]; simp only [List.mem_append, not_or]; exact ⟨ha.1, ha.2.2⟩
        rw [fr1 a haT ha.2.1]
        exact hu a haT
      have hf2 : T1.size + ops.length + 1 < fuel := by omega
      obtain ⟨T', hS', rb', ho', hu', hsz'⟩ := run_ops_ok sw fuel ops i hS1 rb1 ho1 hu1
        (fun op hop => hev op (List.mem_cons_of_mem _ hop)) hf2 hr
      exact ⟨T', hS', rb', ho', hu', by simp only [List.length_cons]; omega⟩
  | .remove e :: ops, i, s, T, r, h, hrb, ho, hu, hev, hf, hr => by
    simp only [run_ops] at hr
    simp only [List.length_cons] at hf
    cases h1 : s.remove lt fuel i e with
    | error err => rw [h1] at hr; simp at hr
    | ok q =>
      obtain ⟨t, i1, s1⟩ := q
      rw [h1] at hr
      simp only [bind_ok] at hr
      obtain ⟨-, hbe⟩ := is_bound_true_bound (remove_ok_entry h1)
      have heT : e ∈ T.inorder := by
        by_contra hn
        exact hbe (hu e hn)
      have hf1 : T.size < fuel := by omega
      obtain ⟨s1', T1, i1', e1, hS1, rb1, ho1, ⟨xs, ys, hT, hT1⟩, hm1, fr1⟩ :=
        remove_spec i h hrb ho heT hf1
      rw [h1] at e1
      simp only [Except.ok.injEq, Prod.mk.injEq] at e1
      obtain ⟨-, rfl, rfl⟩ := e1
      have hsz : T1.size + 1 = T.size := by
        rw [← length_inorder, ← length_inorder, hT, hT1]
        simp only [List.length_append, List.length_cons]; omega
      have hu1 : ∀ a, a ∉ T1.inorder → s1.mem a = ⟨0, 0, 0⟩ := by
        intro a ha
        by_cases hae : a = e
        · rw [hae]; exact hm1
        · have haT : a ∉ T.inorder := by
            rw [hT1] at ha
            rw [hT]
            simp only [List.mem_append, List.mem_cons, not_or] at ha ⊢
            exact ⟨ha.1, hae, ha.2⟩
          rw [fr1 a haT]
          exact hu a haT
      have hf2 : T1.size + ops.length + 1 < fuel := by omega
      obtain ⟨T', hS', rb', ho', hu', hsz'⟩ := run_ops_ok sw fuel ops i1 hS1 rb1 ho1 hu1
        (fun op hop => hev op (List.mem_cons_of_mem _ hop)) hf2 hr
      exact ⟨T', hS', rb', ho', hu', by simp only [List.length_cons]; omega⟩

end Oco

namespace Oco

open RBT intrusive_tree

/-! ## The partner chosen by a two-children `remove` -/

/-- On a member of a valid tree `remove` succeeds. With two children it advances the
counter, swaps `e` with `rightest_(left_(e))`, its in-order predecessor, when the
advanced counter is odd, and with `leftest_(right_(e))`, its in-order successor,
when it is even, and then runs the rest of `remove`; with fewer than two children
the counter stays and the rest of `remove` runs on the container as it is. -/
theorem remove_partner {lt : Nat → Nat → Bool} {s : intrusive_tree} {T : RBT} {e fuel : Nat}
    (i : Int) (h : Shape s T) (hrb : T.redBlack) (ho : T.ordered lt) (he : e ∈ T.inorder)
    (hf : T.size < fuel) :
    ∃ s' i', s.remove lt fuel i e = .ok (e, i', s') ∧
      (((s.mem e).l ≠ 0 ∧ (s.mem e).r ≠ 0) → i' = incr i ∧
        ∃ bar s1, s.node_swap e bar = .ok s1 ∧ remove_tail lt s1 fuel e = .ok s' ∧
          (incr i % 2 ≠ 0 → s.rightest_ fuel (s.mem e).l = .ok bar ∧
            ∃ A B, T.inorder = A ++ bar :: e :: B) ∧
          (incr i % 2 = 0 → s.leftest_ fuel (s.mem e).r = .ok bar ∧
            ∃ A B, T.inorder = A ++ e :: bar :: B)) ∧
      (¬((s.mem e).l ≠ 0 ∧ (s.mem e).r ≠ 0) → i' = i ∧ remove_tail lt s fuel e = .ok s') := by
  have hh : T.height < fuel := lt_of_le_of_lt (height_le_size T) hf
  have v1 : s.valid lt fuel = .ok true := Shape.valid h hrb ho hh
  have v3 : s.is_bound e = .ok true := h.is_bound hrb.1 he
  have v4 : s.is_member fuel e = .ok true := h.is_member he (le_of_lt hh)
  obtain ⟨l, c, r, k, hT, hz, -⟩ := h.focus he
  have v2 : s.empty = false := by
    simp only [intrusive_tree.empty]; exact beq_of_ne hz.root_ne
  have q1 : s.left_ e = .ok l.addr := hz.left_
  have q2 : s.right_ e = .ok r.addr := hz.right_
  have ml : (s.mem e).l = l.addr := by rw [hz.node_link]
  have mr : (s.mem e).r = r.addr := by rw [hz.node_link]
  have hsub : ∀ (t' : RBT), t'.height ≤ (plug (node l e c r) k).height →
      t'.height ≤ fuel := fun t' ht' => by rw [← hT] at ht'; omega
  have hhl : l.height ≤ (plug (node l e c r) k).height := by
    have := height_le_plug (node l e c r) k
    simp only [height] at this ⊢; omega
  have hhr : r.height ≤ (plug (node l e c r) k).height := by
    have := height_le_plug (node l e c r) k
    simp only [height] at this ⊢; omega
  by_cases hboth : l ≠ nil ∧ r ≠ nil
  · obtain ⟨hl, hr⟩ := hboth
    have l0 : l.addr ≠ 0 := fun x => hl (hz.downL.addr_eq_zero.1 x)
    have r0 : r.addr ≠ 0 := fun x => hr (hz.downR.addr_eq_zero.1 x)
    have hyes : (s.mem e).l ≠ 0 ∧ (s.mem e).r ≠ 0 := by rw [ml, mr]; exact ⟨l0, r0⟩
    by_cases hodd : (incr i % 2 != 0) = true
    · have hodd' : incr i % 2 ≠ 0 := by simpa using hodd
      cases l with
      | nil => exact absurd rfl hl
      | node ll la lc lr =>
        obtain ⟨bar, eb, hb, hne, hbr, hgb, hc, A, B, hAB⟩ := hz.pred_facts (hsub _ hhl)
        rw [← hT] at hb hAB
        obtain ⟨s1, s', T', e1, e2, -, -, -, -, -⟩ :=
          remove_swapped h hrb ho he hb hne hbr hgb (Or.inr hc)
            ⟨A, B, Or.inl hAB⟩ hf
        refine ⟨s', incr i, ?_, fun _ => ⟨rfl, bar, s1, e1, e2, fun _ => ⟨?_, A, B, hAB⟩,
          fun hz' => absurd hz' hodd'⟩, fun hn => absurd hyes hn⟩
        · simp only [addr_node] at q1 l0
          simp only [remove, v1, v2, v3, v4, check_true, bind_ok, Bool.not_false, q1, q2,
            bne_of_ne l0, bne_of_ne r0, Bool.and_self, if_true, hodd, eb, e1, e2, pure_ok]
        · rw [ml]; exact eb
    · have hev : incr i % 2 = 0 := by simpa using hodd
      cases r with
      | nil => exact absurd rfl hr
      | node rl ra rc rr =>
        obtain ⟨bar, eb, hb, hne, hbr, hgb, hc, A, B, hAB⟩ := hz.succ_facts (hsub _ hhr)
        rw [← hT] at hb hAB
        obtain ⟨s1, s', T', e1, e2, -, -, -, -, -⟩ :=
          remove_swapped h hrb ho he hb hne hbr hgb (Or.inl hc)
            ⟨A, B, Or.inr hAB⟩ hf
        refine ⟨s', incr i, ?_, fun _ => ⟨rfl, bar, s1, e1, e2, fun hz' => absurd hev hz',
          fun _ => ⟨?_, A, B, hAB⟩⟩, fun hn => absurd hyes hn⟩
        · simp only [addr_node] at q2 r0
          simp only [remove, v1, v2, v3, v4, check_true, bind_ok, Bool.not_false, q1, q2,
            bne_of_ne l0, bne_of_ne r0, Bool.and_self, if_true, hodd, Bool.false_eq_true,
            if_false, eb, e1, e2, pure_ok]
        · rw [mr]; exact eb
  · have hc : l.addr = 0 ∨ r.addr = 0 := by
      by_cases hl : l = nil
      · left; rw [hl]; rfl
      · right
        have hr : r = nil := by
          by_contra hr; exact hboth ⟨hl, hr⟩
        rw [hr]; rfl
    have hc' : (s.mem e).l = 0 ∨ (s.mem e).r = 0 := by
      rw [hz.node_link]; exact hc
    have ho' : ∀ xs ys, T.inorder = xs ++ e :: ys →
        (xs ++ ys).Pairwise (fun a b => lt b a = false) := by
      intro xs ys hxy
      have := ho
      unfold RBT.ordered at this
      rw [hxy] at this
      exact pairwise_erase_mid this
    obtain ⟨s', T', e2, -, -, -, -, -⟩ := remove_tail_ok h hrb he hc' ho' hf
    have hcond : (l.addr != 0 && r.addr != 0) = false := by
      rcases hc with hc | hc <;> simp [hc]
    refine ⟨s', i, ?_, fun hyes => ?_, fun _ => ⟨rfl, e2⟩⟩
    · simp only [remove, v1, v2, v3, v4, check_true, bind_ok, Bool.not_false, q1, q2, hcond,
        Bool.false_eq_true, if_false, pure_ok, e2]
    · exfalso
      rcases hc' with z | z
      · exact hyes.1 z
      · exact hyes.2 z

/-- Advancing the counter of `remove` flips its parity, also across the wrap. -/
theorem incr_emod (i : Int) : incr i % 2 = (i + 1) % 2 := by
  simp only [incr]
  split <;> omega

/-- After `c` advances from `0` the counter of `remove` has the parity of `c`. -/
theorem iterate_incr_emod : ∀ (c : Nat), (Nat.iterate incr c 0) % 2 = (c : Int) % 2
  | 0 => rfl
  | c + 1 => by
    rw [Function.iterate_succ_apply', incr_emod]
    have ih := iterate_incr_emod c
    push_cast
    omega

/-! ## Relative order of the members -/

/-- A pair in sequence order stays so when an element is put in between. -/
theorem pair_sublist_insert {a b e : Nat} {xs ys : List Nat}
    (h : [a, b].Sublist (xs ++ ys)) : [a, b].Sublist (xs ++ e :: ys) :=
  h.trans (List.Sublist.append (List.Sublist.refl xs) (List.sublist_cons_self e ys))

/-- A member before the hole is before the element put into the hole. -/
theorem pair_sublist_left {x e : Nat} {xs ys : List Nat} (hx : x ∈ xs) :
    [x, e].Sublist (xs ++ e :: ys) := by
  have h1 : [x].Sublist xs := List.singleton_sublist.2 hx
  have h2 : [e].Sublist (e :: ys) := List.singleton_sublist.2 (List.mem_cons_self _ _)
  exact List.Sublist.append h1 h2

/-- A member after the hole is after the element put into the hole. -/
theorem pair_sublist_right {y e : Nat} {xs ys : List Nat} (hy : y ∈ ys) :
    [e, y].Sublist (xs ++ e :: ys) := by
  have h2 : [e, y].Sublist (e :: ys) := List.Sublist.cons₂ e (List.singleton_sublist.2 hy)
  exact h2.trans (List.sublist_append_right xs _)

end Oco

namespace Oco

open RBT intrusive_tree

/-! ## Stable insertion -/

theorem takeWhile_split {p : Nat → Bool} : ∀ {xs ys : List Nat},
    (∀ x ∈ xs, p x = true) → (∀ y ∈ ys, p y = false) →
    (xs ++ ys).takeWhile p = xs ∧ (xs ++ ys).dropWhile p = ys
  | [], [], _, _ => ⟨rfl, rfl⟩
  | [], y :: ys, _, hy => by
    have := hy y (List.mem_cons_self _ _)
    simp [List.takeWhile, List.dropWhile, this]
  | x :: xs, ys, hx, hy => by
    have h1 := hx x (List.mem_cons_self _ _)
    obtain ⟨i1, i2⟩ := takeWhile_split (fun a ha => hx a (List.mem_cons_of_mem _ ha)) hy
    simp only [List.cons_append, List.takeWhile, List.dropWhile, h1]
    exact ⟨by show x :: List.takeWhile p (xs ++ ys) = x :: xs; rw [i1], i2⟩

/-- The in-order sequence after an insertion is the stable insertion into the old
one. -/
theorem stableInsert_eq {lt : Nat → Nat → Bool} {e : Nat} {xs ys : List Nat}
    (hx : ∀ x ∈ xs, lt e x = false) (hy : ∀ y ∈ ys, lt e y = true) :
    stableInsert lt e (xs ++ ys) = xs ++ e :: ys := by
  obtain ⟨h1, h2⟩ := @takeWhile_split (fun x => !lt e x) xs ys
    (fun x hxx => by simp [hx x hxx]) (fun y hyy => by simp [hy y hyy])
  simp only [stableInsert, h1, h2]

/-- Inserting a list of distinct unbound elements one after the other is a stable
insertion sort into the in-order sequence: an element inserted later that is not
before an earlier one ends up behind it. -/
theorem insert_all_stable {lt : Nat → Nat → Bool} (sw : StrictWeak lt) (fuel : Nat) :
    ∀ (es : List Nat) {s : intrusive_tree} {T : RBT}, Shape s T → T.redBlack → T.ordered lt →
      (∀ e ∈ es, Unbound s e ∧ e ≠ 0 ∧ e % 2 = 0) → es.Nodup → T.size + es.length < fuel →
      ∃ s' T', insert_all lt fuel es s = .ok s' ∧ Shape s' T' ∧ T'.redBlack ∧ T'.ordered lt ∧
        T'.inorder = es.foldl (fun L x => stableInsert lt x L) T.inorder ∧
        (∀ a b, [a, b].Sublist T.inorder → [a, b].Sublist T'.inorder) ∧
        (∀ a ∈ T.inorder, ∀ b ∈ es, lt b a = false → [a, b].Sublist T'.inorder) ∧
        (∀ a b, [a, b].Sublist es → lt b a = false → [a, b].Sublist T'.inorder) ∧
        (∀ a ∈ T.inorder, a ∈ T'.inorder)
  | [], s, T, h, hrb, ho, _, _, _ =>
    ⟨s, T, rfl, h, hrb, ho, rfl, fun _ _ hab => hab, fun _ _ b hb => by simp at hb,
      fun a b hab => by simp at hab, fun _ ha => ha⟩
  | e :: es, s, T, h, hrb, ho, hes, hnd, hf => by
    obtain ⟨hu, e0, e2⟩ := hes e (List.mem_cons_self _ _)
    simp only [List.length_cons] at hf
    have hf1 : T.size + 1 < fuel := by omega
    obtain ⟨s1, T1, e1, h1, rb1, ho1, ⟨xs, ys, hT, hT1, hxs, hys⟩, fr1⟩ :=
      insert_spec sw h hrb ho hu e0 e2 hf1
    have hsz : T1.size = T.size + 1 := by
      rw [← length_inorder, ← length_inorder, hT, hT1]
      simp only [List.length_append, List.length_cons]; omega
    have hes1 : ∀ x ∈ es, Unbound s1 x ∧ x ≠ 0 ∧ x % 2 = 0 := by
      intro x hx
      obtain ⟨hxu, x0, x2⟩ := hes x (List.mem_cons_of_mem _ hx)
      refine ⟨?_, x0, x2⟩
      show s1.mem x = _
      rw [fr1 x (h.not_mem_of_unbound hrb.1 hxu)
        (fun e' => (List.nodup_cons.1 hnd).1 (e' ▸ hx))]
      exact hxu
    have hf2 : T1.size + es.length < fuel := by omega
    obtain ⟨s', T', e', h', rb', ho', hio, p1, p2, p3, p4⟩ :=
      insert_all_stable sw fuel es h1 rb1 ho1 hes1 (List.nodup_cons.1 hnd).2 hf2
    have hst : T1.inorder = stableInsert lt e T.inorder := by
      rw [hT, hT1, stableInsert_eq hxs hys]
    have hsub : ∀ a ∈ T.inorder, a ∈ T1.inorder := by
      intro a ha
      rw [hT] at ha
      rw [hT1]
      simp only [List.mem_append, List.mem_cons] at ha ⊢
      tauto
    have heT1 : e ∈ T1.inorder := by rw [hT1]; simp
    refine ⟨s', T', ?_, h', rb', ho', ?_, ?_, ?_, ?_, fun a ha => p4 a (hsub a ha)⟩
    · simp only [insert_all, e1, bind_ok]; exact e'
    · rw [hio, hst]; rfl
    · intro a b hab
      apply p1
      rw [hT] at hab
      rw [hT1]
      exact pair_sublist_insert hab
    · intro a ha b hb hl
      rcases List.mem_cons.1 hb with rfl | hb
      · apply p1
        rw [hT1]
        have hax : a ∈ xs := by
          rw [hT] at ha
          rcases List.mem_append.1 ha with ha | ha
          · exact ha
          · rw [hys a ha] at hl; exact absurd hl (by decide)
        exact pair_sublist_left hax
      · exact p2 a (hsub a ha) b hb hl
    · intro a b hab hl
      cases hab with
      | cons _ hab' =>
        have hb : b ∈ es := by
          have := hab'.subset (List.mem_cons_of_mem _ (List.mem_cons_self _ _))
          exact this
        have ha : a ∈ es := hab'.subset (List.mem_cons_self _ _)
        exact p3 a b hab' hl
      | cons₂ _ hab' =>
        have hb : b ∈ es := List.singleton_sublist.1 hab'
        exact p2 _ heT1 b hb hl

end Oco

namespace Oco

open intrusive_tree

/-! ## The runs that keep the heap agree with the plain runs -/

@[simp] theorem bindT_ok {α β : Type} (a : α) (f : α → MT β) :
    ((Except.ok a : MT α) >>= f) = f a := rfl

@[simp] theorem bindT_error {α β : Type} (e : Err × intrusive_tree) (f : α → MT β) :
    ((Except.error e : MT α) >>= f) = Except.error e := rfl

@[simp] theorem query_ok {α : Type} (s : intrusive_tree) (a : α) :
    Traced.query s (Except.ok a) = Except.ok a := rfl

@[simp] theorem query_error {α : Type} (s : intrusive_tree) (e : Err) :
    Traced.query s (Except.error e : M α) = Except.error (e, s) := rfl

@[simp] theorem checkAt_true (s : intrusive_tree) : Traced.checkAt s true = Except.ok () := rfl

@[simp] theorem checkAt_false (s : intrusive_tree) :
    Traced.checkAt s false = Except.error (Err.assertion, s) := rfl

theorem forget_eq_ok {α : Type} {x : MT α} {a : α} : forget x = .ok a ↔ x = .ok a := by
  cases x with
  | ok b => simp [forget]
  | error e => obtain ⟨e, s⟩ := e; simp [forget]

theorem forget_of_error {α : Type} {x : MT α} {e : Err} {s : intrusive_tree}
    (h : x = .error (e, s)) : forget x = .error e := by
  rw [h]; rfl

@[simp] theorem forget_ok {α : Type} (a : α) : forget (Except.ok a : MT α) = Except.ok a := rfl

@[simp] theorem forget_error {α : Type} (e : Err) (s : intrusive_tree) :
    forget (Except.error (e, s) : MT α) = Except.error e := rfl

@[simp] theorem forget_pure {α : Type} (a : α) : forget (pure a : MT α) = pure a := rfl

@[simp] theorem forget_bind {α β : Type} (x : MT α) (f : α → MT β) :
    forget (x >>= f) = forget x >>= fun a => forget (f a) := by
  cases x with
  | ok a => rfl
  | error e => obtain ⟨e, s⟩ := e; rfl

@[simp] theorem forget_map {α β : Type} (f : α → β) (x : MT α) :
    forget (f <$> x) = forget x >>= fun a => Except.ok (f a) := by
  cases x with
  | ok a => rfl
  | error e => obtain ⟨e, s⟩ := e; rfl

@[simp] theorem forget_query {α : Type} (s : intrusive_tree) (q : M α) :
    forget (Traced.query s q) = q := by
  cases q <;> rfl

@[simp] theorem forget_checkAt (s : intrusive_tree) (b : Bool) :
    forget (Traced.checkAt s b) = check b := forget_query s _

@[simp] theorem forget_ite {α : Type} (c : Prop) [Decidable c] (a b : MT α) :
    forget (if c then a else b) = if c then forget a else forget b := by
  split <;> rfl

@[simp] theorem toggle_forget (s : intrusive_tree) (n : Nat) :
    forget (Traced.toggle s n) = s.toggle n := by
  simp [Traced.toggle, intrusive_tree.toggle]

@[simp] theorem link_parent_forget (s : intrusive_tree) (p c : Nat) :
    forget (Traced.link_parent s p c) = s.link_parent p c := by
  simp [Traced.link_parent, intrusive_tree.link_parent]

@[simp] theorem link_root_forget (s : intrusive_tree) (n : Nat) :
    forget (Traced.link_root s n) = s.link_root n := by
  simp [Traced.link_root, intrusive_tree.link_root]

@[simp] theorem link_left_forget (s : intrusive_tree) (p c : Nat) :
    forget (Traced.link_left s p c) = s.link_left p c := by
  simp [Traced.link_left, intrusive_tree.link_left]

@[simp] theorem link_right_forget (s : intrusive_tree) (p c : Nat) :
    forget (Traced.link_right s p c) = s.link_right p c := by
  simp [Traced.link_right, intrusive_tree.link_right]

@[simp] theorem unlink_forget (s : intrusive_tree) (fuel n : Nat) :
    forget (Traced.unlink s fuel n) = s.unlink fuel n := by
  simp [Traced.unlink, intrusive_tree.unlink]

@[simp] theorem rotate_left_forget (s : intrusive_tree) (p : Nat) :
    forget (Traced.rotate_left s p) = s.rotate_left p := by
  simp [Traced.rotate_left, intrusive_tree.rotate_left]

@[simp] theorem rotate_right_forget (s : intrusive_tree) (p : Nat) :
    forget (Traced.rotate_right s p) = s.rotate_right p := by
  simp [Traced.rotate_right, intrusive_tree.rotate_right]

@[simp] theorem root_swap_forget (s : intrusive_tree) (n : Nat) :
    forget (Traced.root_swap s n) = s.root_swap n := by
  simp [Traced.root_swap, intrusive_tree.root_swap]

@[simp] theorem left_swap_forget (s : intrusive_tree) (foo bar : Nat) :
    forget (Traced.left_swap s foo bar) = s.left_swap foo bar := by
  simp [Traced.left_swap, intrusive_tree.left_swap]

@[simp] theorem right_swap_forget (s : intrusive_tree) (foo bar : Nat) :
    forget (Traced.right_swap s foo bar) = s.right_swap foo bar := by
  simp [Traced.right_swap, intrusive_tree.right_swap]

@[simp] theorem parent_swap_forget (s : intrusive_tree) (foo bar : Nat) :
    forget (Traced.parent_swap s foo bar) = s.parent_swap foo bar := by
  simp [Traced.parent_swap, intrusive_tree.parent_swap]

@[simp] theorem node_swap_forget (s : intrusive_tree) (foo bar : Nat) :
    forget (Traced.node_swap s foo bar) = s.node_swap foo bar := by
  simp [Traced.node_swap, intrusive_tree.node_swap]

@[simp] theorem take_left_forget (s : intrusive_tree) (t : Nat) :
    forget (Traced.take_left s t) = s.take_left t := by
  simp [Traced.take_left, intrusive_tree.take_left]

@[simp] theorem take_right_forget (s : intrusive_tree) (t : Nat) :
    forget (Traced.take_right s t) = s.take_right t := by
  simp [Traced.take_right, intrusive_tree.take_right]

@[simp] theorem replace_forget (s : intrusive_tree) (fuel o n : Nat) :
    forget (Traced.replace s fuel o n) = s.replace fuel o n := by
  simp [Traced.replace, intrusive_tree.replace]

@[simp] theorem insert_descend_forget (lt : Nat → Nat → Bool) (t : Nat) :
    ∀ (fuel : Nat) (s : intrusive_tree) (i : Slot),
      forget (Traced.insert_descend lt t fuel s i) = insert_descend lt t fuel s i
  | 0, _, _ => rfl
  | fuel + 1, s, i => by
    simp only [Traced.insert_descend, intrusive_tree.insert_descend]
    split
    · exact insert_descend_forget lt t fuel _ _
    · rfl

@[simp] theorem insert_fixup_forget : ∀ (fuel : Nat) (s : intrusive_tree) (n : Nat),
    forget (Traced.insert_fixup fuel s n) = insert_fixup fuel s n
  | 0, _, _ => rfl
  | fuel + 1, s, n => by
    simp [Traced.insert_fixup, intrusive_tree.insert_fixup, insert_fixup_forget fuel]

@[simp] theorem insert_forget (lt : Nat → Nat → Bool) (s : intrusive_tree) (fuel t : Nat) :
    forget (Traced.insert lt s fuel t) = s.insert lt fuel t := by
  simp [Traced.insert, intrusive_tree.insert]

@[simp] theorem remove_red_sibling_forget (s : intrusive_tree) (n p0 b0 : Nat) :
    forget (Traced.remove_red_sibling s n p0 b0) = s.remove_red_sibling n p0 b0 := by
  simp [Traced.remove_red_sibling, intrusive_tree.remove_red_sibling]

@[simp] theorem remove_near_nephew_forget (s : intrusive_tree) (n b sl sr : Nat) :
    forget (Traced.remove_near_nephew s n b sl sr) = s.remove_near_nephew n b sl sr := by
  simp [Traced.remove_near_nephew, intrusive_tree.remove_near_nephew]

@[simp] theorem remove_far_nephew_forget (s : intrusive_tree) (n : Nat) :
    forget (Traced.remove_far_nephew s n) = s.remove_far_nephew n := by
  simp [Traced.remove_far_nephew, intrusive_tree.remove_far_nephew]

@[simp] theorem remove_rebalance_forget (s : intrusive_tree) (n p b : Nat) :
    forget (Traced.remove_rebalance s n p b) = s.remove_rebalance n p b := by
  simp [Traced.remove_rebalance, intrusive_tree.remove_rebalance]

@[simp] theorem remove_step_forget (s : intrusive_tree) (n : Nat) :
    forget (Traced.remove_step s n) = s.remove_step n := by
  simp [Traced.remove_step, intrusive_tree.remove_step]

@[simp] theorem remove_fixup_forget : ∀ (fuel : Nat) (s : intrusive_tree) (n : Nat),
    forget (Traced.remove_fixup fuel s n) = remove_fixup fuel s n
  | 0, _, _ => rfl
  | fuel + 1, s, n => by
    simp only [Traced.remove_fixup, intrusive_tree.remove_fixup, forget_bind, forget_query,
      forget_ite, forget_pure, remove_step_forget, pure_ok]
    cases h1 : s.is_root n with
    | error e => rfl
    | ok a =>
      simp only [bind_ok]
      split
      · rfl
      · cases h2 : s.remove_step n with
        | error e => rfl
        | ok x =>
          obtain ⟨s1, next⟩ := x
          cases next with
          | none => rfl
          | some p => exact remove_fixup_forget fuel s1 p

@[simp] theorem remove_tail_forget (lt : Nat → Nat → Bool) (s : intrusive_tree) (fuel t : Nat) :
    forget (Traced.remove_tail lt s fuel t) = remove_tail lt s fuel t := by
  simp [Traced.remove_tail, intrusive_tree.remove_tail]

/-- The run of `remove` that keeps the heap yields what the plain run yields. -/
theorem remove_forget (lt : Nat → Nat → Bool) (s : intrusive_tree) (fuel : Nat) (i : Int)
    (t : Nat) : forget (Traced.remove lt s fuel i t) = s.remove lt fuel i t := by
  simp [Traced.remove, intrusive_tree.remove]

/-- A successful run that keeps the heap is a successful plain run, and conversely. -/
theorem insert_traced_ok {lt : Nat → Nat → Bool} {s s' : intrusive_tree} {fuel t : Nat} :
    Traced.insert lt s fuel t = .ok s' ↔ s.insert lt fuel t = .ok s' := by
  rw [← insert_forget, forget_eq_ok]

theorem remove_traced_ok {lt : Nat → Nat → Bool} {s : intrusive_tree} {fuel t : Nat} {i : Int}
    {r : Nat × Int × intrusive_tree} :
    Traced.remove lt s fuel i t = .ok r ↔ s.remove lt fuel i t = .ok r := by
  rw [← remove_forget, forget_eq_ok]

/-- On a valid container `insert` of a bound element stops at its second assertion,
with the heap as it was. -/
theorem insert_bound_rejected {lt : Nat → Nat → Bool} {s : intrusive_tree} {fuel e : Nat}
    (hv : s.valid lt fuel = .ok true) (hb : s.is_bound e = .ok true) :
    Traced.insert lt s fuel e = .error (Err.assertion, s) := by
  simp only [Traced.insert, hv, hb, query_ok, checkAt_true, bindT_ok, Bool.not_true,
    checkAt_false, bindT_error]

/-- On a valid container `remove` stops at one of its entry assertions, with the heap
as it was, when the three assertions after `assert(valid())` do not all pass. -/
theorem remove_entry_rejected {lt : Nat → Nat → Bool} {s : intrusive_tree} {fuel e : Nat}
    (i : Int) (hv : s.valid lt fuel = .ok true)
    (hk : (do check (!s.empty); check (← s.is_bound e); check (← s.is_member fuel e) :
      M Unit) = .error Err.assertion) :
    Traced.remove lt s fuel i e = .error (Err.assertion, s) := by
  simp only [Traced.remove, hv, query_ok, checkAt_true, bindT_ok]
  cases hE : s.empty with
  | true => simp only [Bool.not_true, checkAt_false, bindT_error]
  | false =>
    rw [hE] at hk
    simp only [Bool.not_false, check_true, bind_ok, checkAt_true, bindT_ok] at hk ⊢
    cases hB : s.is_bound e with
    | error err =>
      rw [hB] at hk
      simp only [bind_error, Except.error.injEq] at hk
      simp only [query_error, bindT_error, hk]
    | ok b =>
      rw [hB] at hk
      simp only [bind_ok, query_ok, bindT_ok] at hk ⊢
      cases b with
      | false => simp only [checkAt_false, bindT_error]
      | true =>
        simp only [check_true, bind_ok, checkAt_true, bindT_ok] at hk ⊢
        cases hM : s.is_member fuel e with
        | error err =>
          rw [hM] at hk
          simp only [bind_error, Except.error.injEq] at hk
          simp only [query_error, bindT_error, hk]
        | ok b2 =>
          rw [hM] at hk
          simp only [bind_ok, query_ok, bindT_ok] at hk ⊢
          cases b2 with
          | false => simp only [checkAt_false, bindT_error]
          | true => simp at hk

end Oco

namespace Oco

open RBT intrusive_tree

/-! ## Facts about the concrete inputs -/

theorem strictWeak_ltKey : StrictWeak ltKey where
  irrefl := fun a => by simp [ltKey]
  trans := fun a b c h1 h2 => by
    simp only [ltKey, decide_eq_true_eq] at h1 h2 ⊢; omega
  ntrans := fun a b c h1 h2 => by
    simp only [ltKey, decide_eq_false_iff_not] at h1 h2 ⊢; omega

theorem shape_tree0 : Shape tree0 .nil :=
  ⟨rfl, trivial, List.nodup_nil, fun a ha => by simp [inorder] at ha⟩

theorem shape_tree1 : Shape tree1 (.node .nil 4 true .nil) :=
  ⟨rfl, ⟨rfl, trivial, trivial⟩, by decide, by decide⟩

theorem shape_tree3 : Shape tree3 shape3 :=
  ⟨rfl, ⟨rfl, ⟨rfl, trivial, trivial⟩, ⟨rfl, trivial, trivial⟩⟩, by decide, by decide⟩

theorem redBlack_shape3 : shape3.redBlack :=
  ⟨rfl, ⟨fun e => absurd e (by decide), ⟨fun _ => ⟨rfl, rfl⟩, trivial, trivial⟩,
    ⟨fun _ => ⟨rfl, rfl⟩, trivial, trivial⟩⟩, ⟨rfl, ⟨rfl, trivial, trivial⟩, ⟨rfl, trivial, trivial⟩⟩⟩

theorem strictOrdered_shape3 : shape3.strictOrdered ltKey := by
  unfold strictOrdered; decide

theorem ordered_shape3 : shape3.ordered ltKey := by
  unfold ordered; decide

/-! ## Properties of the containers -/

/-- C1: on a container holding a red-black tree whose in-order sequence is ordered
by the predicate, `insert` of an unbound element succeeds and leaves a tree with
a black root, no red node with a red child, and equal black height on both sides
of every node. -/
theorem insert_keeps_red_black (lt : Nat → Nat → Bool) (s : intrusive_tree) (T : RBT)
    (e fuel : Nat) (sw : StrictWeak lt) (h : Shape s T) (hrb : T.redBlack) (ho : T.ordered lt)
    (he : Unbound s e) (he0 : e ≠ 0) (he2 : e % 2 = 0) (hf : T.size + 1 < fuel) :
    ∃ s' T', s.insert lt fuel e = .ok s' ∧ Shape s' T' ∧
      T'.isBlack = true ∧ T'.noRedRed ∧ T'.balanced := by
  obtain ⟨s', T', e1, h', rb, -, -, -⟩ := insert_spec sw h hrb ho he he0 he2 hf
  exact ⟨s', T', e1, h', rb.1, rb.2.1, rb.2.2⟩

theorem insert_keeps_red_black_witness :
    ∃ s' T', tree3.insert ltKey 5 8 = .ok s' ∧ Shape s' T' ∧
      T'.isBlack = true ∧ T'.noRedRed ∧ T'.balanced :=
  insert_keeps_red_black ltKey tree3 shape3 8 5 strictWeak_ltKey shape_tree3 redBlack_shape3
    ordered_shape3 rfl (by decide) (by decide) (by decide)

/-- C3: with pairwise distinct keys under a strict total order, the in-order
sequence after `insert(e)` is strictly increasing and is the previous sequence
with `e` put in at one place. -/
theorem insert_inorder (lt : Nat → Nat → Bool) (s : intrusive_tree) (T : RBT)
    (e fuel : Nat) (sw : StrictWeak lt) (h : Shape s T) (hrb : T.redBlack)
    (hso : T.strictOrdered lt) (htot : ∀ x ∈ T.inorder, lt e x = true ∨ lt x e = true)
    (he : Unbound s e) (he0 : e ≠ 0) (he2 : e % 2 = 0) (hf : T.size + 1 < fuel) :
    ∃ s' T', s.insert lt fuel e = .ok s' ∧ Shape s' T' ∧ T'.strictOrdered lt ∧
      ∃ xs ys, T.inorder = xs ++ ys ∧ T'.inorder = xs ++ e :: ys := by
  have ho : T.ordered lt := List.Pairwise.imp (fun hab => sw.asymm hab) hso
  obtain ⟨s', T', e1, h', -, -, ⟨xs, ys, hT, hT', hb, ha⟩, -⟩ :=
    insert_spec sw h hrb ho he he0 he2 hf
  refine ⟨s', T', e1, h', ?_, xs, ys, hT, hT'⟩
  unfold strictOrdered at hso ⊢
  rw [hT] at hso htot
  rw [hT', List.pairwise_append] at *
  refine ⟨hso.1, List.pairwise_cons.2 ⟨ha, hso.2.1⟩, ?_⟩
  intro x hx y hy
  rcases List.mem_cons.1 hy with rfl | hy
  · rcases htot x (List.mem_append_left _ hx) with h1 | h1
    · rw [hb x hx] at h1; exact absurd h1 (by simp)
    · exact h1
  · exact hso.2.2 x hx y hy

theorem insert_inorder_witness :
    ∃ s' T', tree3.insert ltKey 5 8 = .ok s' ∧ Shape s' T' ∧ T'.strictOrdered ltKey ∧
      ∃ xs ys, shape3.inorder = xs ++ ys ∧ T'.inorder = xs ++ 8 :: ys :=
  insert_inorder ltKey tree3 shape3 8 5 strictWeak_ltKey shape_tree3 redBlack_shape3
    strictOrdered_shape3 (by decide) rfl (by decide) (by decide) (by decide)

/-- C6: in a run of successful `push` and `pop` calls on a stack that starts
empty, every `pop` returns the most recently pushed element not yet popped, the
stack is empty at the end iff there were as many pops as pushes, and popping
everything after a series of pushes returns the elements in reverse order. -/
theorem stack_lifo (ops : List StackOp) (m : Nat → Nat) (r : List Nat × intrusive_stack)
    (h : intrusive_stack.run ops (intrusive_stack.init m) = .ok r) :
    r.1 = lifo ops [] ∧ (r.2.empty = true ↔ pushes ops = pops ops) ∧
    ∀ ts : List Nat, ops = ts.map StackOp.push ++ List.replicate ts.length StackOp.pop →
      r.1 = ts.reverse := by
  obtain ⟨e, ys, hc, -, hlen⟩ := @run_chain ops (intrusive_stack.init m) [] r
    rfl List.nodup_nil h
  refine ⟨e, ?_, ?_⟩
  · have h1 : r.2.empty = true ↔ r.2.head = intrusive_stack.bad := by
      simp [intrusive_stack.empty]
    rw [h1, hc.empty_iff]
    simp only [List.length_nil, Nat.zero_add] at hlen
    constructor
    · rintro rfl; simp only [List.length_nil, Nat.zero_add] at hlen; exact hlen.symm
    · intro hp
      rw [hp] at hlen
      exact List.length_eq_zero.1 (by omega)
  · rintro ts rfl
    rw [e, lifo_push_pop]
    simp

theorem stack_lifo_witness :
    ([6, 4, 2], (⟨intrusive_stack.bad,
        wrp (wrp (wrp (wrp (wrp (wrp (fun _ => 0) 2 intrusive_stack.bad) 4 2) 6 4) 6 0) 4 0) 2 0⟩ :
        intrusive_stack)).1 =
      lifo [.push 2, .push 4, .push 6, .pop, .pop, .pop] [] ∧
    ((⟨intrusive_stack.bad,
        wrp (wrp (wrp (wrp (wrp (wrp (fun _ => 0) 2 intrusive_stack.bad) 4 2) 6 4) 6 0) 4 0) 2 0⟩ :
        intrusive_stack).empty = true ↔
      pushes [.push 2, .push 4, .push 6, .pop, .pop, .pop] =
        pops [.push 2, .push 4, .push 6, .pop, .pop, .pop]) ∧
    ∀ ts : List Nat, [StackOp.push 2, .push 4, .push 6, .pop, .pop, .pop] =
        ts.map StackOp.push ++ List.replicate ts.length StackOp.pop →
      [6, 4, 2] = ts.reverse :=
  stack_lifo [.push 2, .push 4, .push 6, .pop, .pop, .pop] (fun _ => 0)
    ([6, 4, 2], ⟨intrusive_stack.bad,
      wrp (wrp (wrp (wrp (wrp (wrp (fun _ => 0) 2 intrusive_stack.bad) 4 2) 6 4) 6 0) 4 0) 2 0⟩)
    rfl

/-- C8: in a container holding a tree with strictly increasing in-order sequence,
`next(n)` of a member `n` that has a following member returns that member, which
is the least member `n` is before; `prev(n)` of a member with a preceding member
returns that member, the greatest member before `n`. -/
theorem next_prev_neighbours (lt : Nat → Nat → Bool) (s : intrusive_tree) (T : RBT)
    (fuel : Nat) (sw : StrictWeak lt) (h : Shape s T) (hso : T.strictOrdered lt)
    (hf : T.height ≤ fuel) :
    (∀ xs n m ys, T.inorder = xs ++ n :: m :: ys →
      s.next fuel n = .ok m ∧ lt n m = true ∧
      ∀ x ∈ T.inorder, lt n x = true → x = m ∨ lt m x = true) ∧
    (∀ xs m n ys, T.inorder = xs ++ m :: n :: ys →
      s.prev fuel n = .ok m ∧ lt m n = true ∧
      ∀ x ∈ T.inorder, lt x n = true → x = m ∨ lt x m = true) := by
  unfold strictOrdered at hso
  constructor
  · intro xs n m ys hio
    rw [hio] at hso
    simp only [List.pairwise_append, List.pairwise_cons, List.mem_cons, forall_eq_or_imp] at hso
    obtain ⟨-, ⟨⟨hnm, hny⟩, ⟨hmy, -⟩⟩, hx⟩ := hso
    refine ⟨h.next_eq hio hf, hnm, ?_⟩
    intro x hxT hnx
    rw [hio] at hxT
    simp only [List.mem_append, List.mem_cons] at hxT
    rcases hxT with hxT | rfl | rfl | hxT
    · have := sw.asymm (hx x hxT).1
      rw [hnx] at this; exact absurd this (by simp)
    · rw [sw.irrefl] at hnx; exact absurd hnx (by simp)
    · exact Or.inl rfl
    · exact Or.inr (hmy x hxT)
  · intro xs m n ys hio
    rw [hio] at hso
    simp only [List.pairwise_append, List.pairwise_cons, List.mem_cons, forall_eq_or_imp] at hso
    obtain ⟨-, ⟨⟨hmn, hmy⟩, ⟨hny, -⟩⟩, hx⟩ := hso
    refine ⟨h.prev_eq hio hf, hmn, ?_⟩
    intro x hxT hxn
    rw [hio] at hxT
    simp only [List.mem_append, List.mem_cons] at hxT
    rcases hxT with hxT | rfl | rfl | hxT
    · exact Or.inr (hx x hxT).1
    · exact Or.inl rfl
    · rw [sw.irrefl] at hxn; exact absurd hxn (by simp)
    · have := sw.asymm (hny x hxT)
      rw [hxn] at this; exact absurd this (by simp)

theorem next_prev_neighbours_witness :
    (∀ xs n m ys, shape3.inorder = xs ++ n :: m :: ys →
      tree3.next 3 n = .ok m ∧ ltKey n m = true ∧
      ∀ x ∈ shape3.inorder, ltKey n x = true → x = m ∨ ltKey m x = true) ∧
    (∀ xs m n ys, shape3.inorder = xs ++ m :: n :: ys →
      tree3.prev 3 n = .ok m ∧ ltKey m n = true ∧
      ∀ x ∈ shape3.inorder, ltKey x n = true → x = m ∨ ltKey x m = true) :=
  next_prev_neighbours ltKey tree3 shape3 3 strictWeak_ltKey shape_tree3 strictOrdered_shape3
    (by decide)

/-- C9: for a member `n`, if `prev(n)` returns a non-null element then `next` of
that element returns `n`, and if `next(n)` returns a non-null element then `prev`
of that element returns `n`. -/
theorem next_prev_inverse (s : intrusive_tree) (T : RBT) (fuel n m : Nat) (h : Shape s T)
    (hn : n ∈ T.inorder) (hf : T.height ≤ fuel) :
    (s.prev fuel n = .ok m → m ≠ 0 → s.next fuel m = .ok n) ∧
    (s.next fuel n = .ok m → m ≠ 0 → s.prev fuel m = .ok n) := by
  constructor
  · intro hp hm
    rcases h.prev_cases hn hf with ⟨xs, m', ys, e, ev⟩ | ⟨ys, -, ev⟩
    · rw [hp] at ev
      simp only [Except.ok.injEq] at ev
      subst ev
      exact h.next_eq e hf
    · rw [hp] at ev
      split at ev
      · simp at ev
      · simp only [Except.ok.injEq] at ev
        exact absurd ev hm
  · intro hp hm
    rcases h.next_cases hn hf with ⟨xs, m', ys, e, ev⟩ | ⟨xs, -, ev⟩
    · rw [hp] at ev
      simp only [Except.ok.injEq] at ev
      subst ev
      exact h.prev_eq e hf
    · rw [hp] at ev
      split at ev
      · simp at ev
      · simp only [Except.ok.injEq] at ev
        exact absurd ev hm

theorem next_prev_inverse_witness :
    (tree3.prev 3 4 = .ok 2 → 2 ≠ 0 → tree3.next 3 2 = .ok 4) ∧
    (tree3.next 3 4 = .ok 2 → 2 ≠ 0 → tree3.prev 3 2 = .ok 4) :=
  next_prev_inverse tree3 shape3 3 4 2 shape_tree3 (by decide) (by decide)

/-- C10: on a non-empty container holding a tree with ordered in-order sequence,
`min()` returns the first element of the in-order sequence, which no member is
before, and `max()` returns the last, which is before no member.  After inserting
keys 5, 3, 8, 1, 4, 7, 9 into the empty container, `min()` is the element with
key 1, `max()` the one with key 9, and the walk from `min()` by `next` visits the
keys 1, 3, 4, 5, 7, 8, 9. -/
theorem min_max_ends :
    (∀ (lt : Nat → Nat → Bool) (s : intrusive_tree) (T : RBT) (fuel : Nat), StrictWeak lt →
      Shape s T → T.ordered lt → T ≠ .nil → T.height ≤ fuel →
      ∃ a b, T.inorder.head? = some a ∧ T.inorder.getLast? = some b ∧
        s.min fuel = .ok a ∧ s.max fuel = .ok b ∧
        (∀ x ∈ T.inorder, lt x a = false) ∧ (∀ x ∈ T.inorder, lt b x = false)) ∧
    (do
      let s ← insert_all ltKey 9 [10, 6, 16, 2, 8, 14, 18] tree0
      let a ← s.min 9
      let b ← s.max 9
      let w ← walk s 9 8 a
      pure (key a, key b, w.map key) : M (Nat × Nat × List Nat)) =
      .ok (1, 9, [1, 3, 4, 5, 7, 8, 9]) := by
  refine ⟨?_, by decide⟩
  intro lt s T fuel sw h ho hne hf
  unfold ordered at ho
  cases hio : T.inorder with
  | nil =>
    cases T with
    | nil => exact absurd rfl hne
    | node l a c r => simp [inorder] at hio
  | cons a rest =>
    obtain ⟨init, b, hb⟩ : ∃ init b, a :: rest = init ++ [b] := by
      rcases List.eq_nil_or_concat (a :: rest) with h0 | ⟨init, b, h1⟩
      · simp at h0
      · exact ⟨init, b, by simpa using h1⟩
    refine ⟨a, b, rfl, by rw [hb]; simp, h.min_eq hio hf, h.max_eq (hio.trans hb) hf, ?_, ?_⟩
    · rw [hio] at ho
      intro x hx
      rcases List.mem_cons.1 hx with rfl | hx
      · exact sw.irrefl _
      · exact (List.pairwise_cons.1 ho).1 x hx
    · rw [hio, hb] at ho
      rw [hb]
      intro x hx
      rcases List.mem_append.1 hx with hx | hx
      · exact (List.pairwise_append.1 ho).2.2 x hx b (by simp)
      · simp only [List.mem_singleton] at hx; subst hx; exact sw.irrefl _

theorem min_max_ends_witness :
    ∃ a b, shape3.inorder.head? = some a ∧ shape3.inorder.getLast? = some b ∧
      tree3.min 3 = .ok a ∧ tree3.max 3 = .ok b ∧
      (∀ x ∈ shape3.inorder, ltKey x a = false) ∧ (∀ x ∈ shape3.inorder, ltKey b x = false) :=
  min_max_ends.1 ltKey tree3 shape3 3 strictWeak_ltKey shape_tree3 ordered_shape3
    (by decide) (by decide)

end Oco

namespace Oco

open RBT intrusive_tree

/-! ## Properties of `remove` and of round trips -/

theorem erase_mid {xs ys : List Nat} {e : Nat} (h : (xs ++ e :: ys).Nodup) :
    (xs ++ e :: ys).erase e = xs ++ ys := by
  have he : e ∉ xs := fun x => (List.nodup_append.1 h).2.2 x (List.mem_cons_self _ _)
  rw [List.erase_append_right _ he, List.erase_cons_head]

theorem not_mem_mid {xs ys : List Nat} {e : Nat} (h : (xs ++ e :: ys).Nodup) :
    e ∉ xs ++ ys := by
  intro x
  rcases List.mem_append.1 x with x | x
  · exact (List.nodup_append.1 h).2.2 x (List.mem_cons_self _ _)
  · exact (List.nodup_cons.1 (List.nodup_append.1 h).2.1).1 x

/-- C2: on a container holding a red-black tree whose in-order sequence is ordered
by the predicate (what `valid()` demands on entry), `remove` of a member succeeds
for every value `i` of the predecessor/successor counter, returns the member, and
leaves a tree with a black root (or empty), no red node with a red child, and
equal black height on both sides of every node; the container's own `valid()`
passes on it. -/
theorem remove_keeps_red_black (lt : Nat → Nat → Bool) (s : intrusive_tree) (T : RBT)
    (e fuel : Nat) (i : Int) (h : Shape s T) (hrb : T.redBlack) (ho : T.ordered lt)
    (he : e ∈ T.inorder) (hf : T.size < fuel) :
    ∃ s' T' i', s.remove lt fuel i e = .ok (e, i', s') ∧ Shape s' T' ∧
      T'.isBlack = true ∧ T'.noRedRed ∧ T'.balanced ∧ s'.valid lt fuel = .ok true := by
  obtain ⟨s', T', i', e1, h', rb, ho', ⟨xs, ys, hT, hT'⟩, -, -⟩ := remove_spec i h hrb ho he hf
  refine ⟨s', T', i', e1, h', rb.1, rb.2.1, rb.2.2, Shape.valid h' rb ho' ?_⟩
  have h1 := height_le_size T'
  have h2 : T'.size ≤ T.size := by
    rw [← length_inorder, ← length_inorder, hT, hT']
    simp
  omega

theorem remove_keeps_red_black_witness :
    ∃ s' T' i', tree3.remove ltKey 5 0 4 = .ok (4, i', s') ∧ Shape s' T' ∧
      T'.isBlack = true ∧ T'.noRedRed ∧ T'.balanced ∧ s'.valid ltKey 5 = .ok true :=
  remove_keeps_red_black ltKey tree3 shape3 4 5 0 shape_tree3 redBlack_shape3 ordered_shape3
    (by decide) (by decide)

/-- C4: for a member `e` of a tree with strictly increasing in-order sequence, the
in-order sequence after `remove(e)` is the previous one with `e` deleted, the
other members in the same order, and it is strictly increasing; this holds for
every value of the counter that chooses predecessor or successor. -/
theorem remove_inorder (lt : Nat → Nat → Bool) (s : intrusive_tree) (T : RBT)
    (e fuel : Nat) (i : Int) (sw : StrictWeak lt) (h : Shape s T) (hrb : T.redBlack)
    (hso : T.strictOrdered lt) (he : e ∈ T.inorder) (hf : T.size < fuel) :
    ∃ s' T' i', s.remove lt fuel i e = .ok (e, i', s') ∧ Shape s' T' ∧
      T'.strictOrdered lt ∧ T'.inorder = T.inorder.erase e ∧
      ∃ xs ys, T.inorder = xs ++ e :: ys ∧ T'.inorder = xs ++ ys := by
  have ho : T.ordered lt := List.Pairwise.imp (fun hab => sw.asymm hab) hso
  obtain ⟨s', T', i', e1, h', -, -, ⟨xs, ys, hT, hT'⟩, -, -⟩ := remove_spec i h hrb ho he hf
  refine ⟨s', T', i', e1, h', ?_, ?_, xs, ys, hT, hT'⟩
  · unfold strictOrdered at hso ⊢
    rw [hT] at hso
    rw [hT']
    exact pairwise_erase_mid hso
  · rw [hT', hT, erase_mid (hT ▸ h.nodup)]

theorem remove_inorder_witness :
    ∃ s' T' i', tree3.remove ltKey 5 1 4 = .ok (4, i', s') ∧ Shape s' T' ∧
      T'.strictOrdered ltKey ∧ T'.inorder = shape3.inorder.erase 4 ∧
      ∃ xs ys, shape3.inorder = xs ++ 4 :: ys ∧ T'.inorder = xs ++ ys :=
  remove_inorder ltKey tree3 shape3 4 5 1 strictWeak_ltKey shape_tree3 redBlack_shape3
    strictOrdered_shape3 (by decide) (by decide)

theorem eq_nil_of_inorder {T : RBT} (h : T.inorder = []) : T = .nil := by
  cases T with
  | nil => rfl
  | node l a c r => simp [inorder] at h

/-- C5: starting from an empty container, inserting a list of distinct unbound
elements in the given order and then removing all of them in any order `rs`
succeeds at every step and leaves the container empty, `root_` null, and every
element unbound; this holds for every start value of the counter of `remove`
(and does not need the keys to be distinct). -/
theorem insert_remove_round_trip (lt : Nat → Nat → Bool) (s : intrusive_tree)
    (es rs : List Nat) (fuel : Nat) (i : Int) (sw : StrictWeak lt) (h : Shape s .nil)
    (hes : ∀ e ∈ es, Unbound s e ∧ e ≠ 0 ∧ e % 2 = 0) (hnd : es.Nodup) (hp : rs.Perm es)
    (hf : es.length < fuel) :
    ∃ s1 s2 i', insert_all lt fuel es s = .ok s1 ∧ remove_all lt fuel rs i s1 = .ok (i', s2) ∧
      s2.root_ = 0 ∧ s2.empty = true ∧ ∀ e ∈ es, Unbound s2 e := by
  have hf0 : RBT.nil.size + es.length < fuel := by simp only [size]; omega
  obtain ⟨s1, T1, e1, h1, rb1, ho1, hp1, -⟩ :=
    insert_all_ok sw fuel es h ⟨rfl, trivial, trivial⟩ List.Pairwise.nil hes hnd hf0
  have hp1' : T1.inorder.Perm es := by simpa [inorder] using hp1
  have hsz : T1.size < fuel := by
    rw [← length_inorder, hp1'.length_eq]; exact hf
  obtain ⟨s2, T2, i', e2, h2, -, -, hp2, hm2, -⟩ :=
    remove_all_ok fuel rs i h1 rb1 ho1
      (fun e he => hp1'.mem_iff.2 (hp.mem_iff.1 he)) (hp.nodup_iff.2 hnd) hsz
  have hlen : T2.inorder.length = 0 := by
    have l1 := hp2.length_eq
    have l2 := hp1'.length_eq
    have l3 := hp.length_eq
    simp only [List.length_append] at l1
    omega
  have hT2 : T2 = .nil := eq_nil_of_inorder (List.length_eq_zero.1 hlen)
  subst hT2
  have hr : s2.root_ = 0 := h2.root
  refine ⟨s1, s2, i', e1, e2, hr, ?_, fun e he => hm2 e (hp.mem_iff.2 he)⟩
  simp [intrusive_tree.empty, hr]

theorem insert_remove_round_trip_witness :
    ∃ s1 s2 i', insert_all ltKey 5 [2, 4, 6] tree0 = .ok s1 ∧
      remove_all ltKey 5 [4, 6, 2] 0 s1 = .ok (i', s2) ∧
      s2.root_ = 0 ∧ s2.empty = true ∧ ∀ e ∈ [2, 4, 6], Unbound s2 e :=
  insert_remove_round_trip ltKey tree0 [2, 4, 6] [4, 6, 2] 5 0 strictWeak_ltKey shape_tree0
    (by simp [Unbound, tree0, mem0]) (by decide) (by decide) (by decide)

/-- C7: on a container holding a valid tree, after `insert(e)` of an unbound `e`
the element is bound and a member and the container is not empty; `remove(e)` of
a member returns `e`, and afterwards `e` is not bound, its link is all null (parent,
left and right null, colour bit clear) and `e` is not a member.  The statement
about `remove` covers every path through it, for every value of its counter. -/
theorem insert_remove_postconditions :
    (∀ (lt : Nat → Nat → Bool) (s : intrusive_tree) (T : RBT) (e fuel : Nat), StrictWeak lt →
      Shape s T → T.redBlack → T.ordered lt → Unbound s e → e ≠ 0 → e % 2 = 0 →
      T.size + 1 < fuel →
      ∃ s', s.insert lt fuel e = .ok s' ∧ s'.is_bound e = .ok true ∧
        s'.is_member fuel e = .ok true ∧ s'.empty = false) ∧
    (∀ (lt : Nat → Nat → Bool) (s : intrusive_tree) (T : RBT) (e fuel : Nat) (i : Int),
      Shape s T → T.redBlack → T.ordered lt → e ∈ T.inorder → T.size < fuel →
      ∃ s' i', s.remove lt fuel i e = .ok (e, i', s') ∧ s'.is_bound e = .ok false ∧
        s'.mem e = ⟨0, 0, 0⟩ ∧ (s'.mem e).black = false ∧
        s'.is_member fuel e = .ok false) := by
  constructor
  · intro lt s T e fuel sw h hrb ho he e0 e2 hf
    obtain ⟨s', T', e1, h', rb, -, ⟨xs, ys, hT, hT', -, -⟩, -⟩ :=
      insert_spec sw h hrb ho he e0 e2 hf
    have hin : e ∈ T'.inorder := by rw [hT']; simp
    have hh : T'.height ≤ fuel := by
      have h1 := height_le_size T'
      have h2 : T'.size = T.size + 1 := by
        rw [← length_inorder, ← length_inorder, hT, hT']; simp; omega
      omega
    obtain ⟨l, c, r, k, -, hz, -⟩ := h'.focus hin
    refine ⟨s', e1, h'.is_bound rb.1 hin, h'.is_member hin hh, ?_⟩
    simp only [intrusive_tree.empty]
    exact beq_of_ne hz.root_ne
  · intro lt s T e fuel i h hrb ho he hf
    obtain ⟨s', T', i', e1, h', -, -, ⟨xs, ys, hT, hT'⟩, hm, -⟩ := remove_spec i h hrb ho he hf
    have e0 := (h.mem_ok he).1
    have hnot : e ∉ T'.inorder := by
      rw [hT']; exact not_mem_mid (hT ▸ h.nodup)
    obtain ⟨f', rfl⟩ : ∃ f', fuel = f' + 1 := ⟨fuel - 1, by omega⟩
    refine ⟨s', i', e1, Unbound.is_bound_false hm e0, hm, by rw [hm]; rfl,
      h'.is_member_unbound hm e0 hnot⟩

theorem insert_remove_postconditions_witness :
    (∃ s', tree3.insert ltKey 5 8 = .ok s' ∧ s'.is_bound 8 = .ok true ∧
        s'.is_member 5 8 = .ok true ∧ s'.empty = false) ∧
    (∃ s' i', tree3.remove ltKey 5 0 2 = .ok (2, i', s') ∧ s'.is_bound 2 = .ok false ∧
        s'.mem 2 = ⟨0, 0, 0⟩ ∧ (s'.mem 2).black = false ∧ s'.is_member 5 2 = .ok false) :=
  ⟨insert_remove_postconditions.1 ltKey tree3 shape3 8 5 strictWeak_ltKey shape_tree3
      redBlack_shape3 ordered_shape3 rfl (by decide) (by decide) (by decide),
    insert_remove_postconditions.2 ltKey tree3 shape3 2 5 0 shape_tree3 redBlack_shape3
      ordered_shape3 (by decide) (by decide)⟩

end Oco

namespace Oco

open RBT intrusive_tree

/-! ## Membership, `swap` and the stack -/

theorem shape_treeA : Shape treeA shape3 :=
  ⟨rfl, ⟨rfl, ⟨rfl, trivial, trivial⟩, ⟨rfl, trivial, trivial⟩⟩, by decide, by decide⟩

theorem shape_treeB : Shape treeB shapeB :=
  ⟨rfl, ⟨rfl, trivial, trivial⟩, by decide, by decide⟩

/-- C11: on a heap where every element is a member of this container, unbound, or
a member of another container, `is_member(n)` returns true exactly when `n` is in
the in-order sequence of this container; it returns false for an unbound element,
for every element when the container is empty, and for a member of a different
container. -/
theorem is_member_iff_in_order (s : intrusive_tree) (T : RBT) (fuel n : Nat)
    (h : Shape s T) (hb : T.isBlack = true) (h0 : n ≠ 0) (hf : T.height < fuel)
    (hn : n ∈ T.inorder ∨ Unbound s n ∨ ∃ r2 T2, Shape ⟨r2, s.mem⟩ T2 ∧ n ∈ T2.inorder ∧
      (∀ a ∈ T2.inorder, a ∉ T.inorder) ∧ T2.height ≤ fuel) :
    s.is_member fuel n = .ok (decide (n ∈ T.inorder)) ∧
    (Unbound s n → s.is_member fuel n = .ok false) ∧
    (s.empty = true → s.is_member fuel n = .ok false) ∧
    (∀ r2 T2, Shape ⟨r2, s.mem⟩ T2 → n ∈ T2.inorder → (∀ a ∈ T2.inorder, a ∉ T.inorder) →
      T2.height ≤ fuel → s.is_member fuel n = .ok false) := by
  obtain ⟨fuel, rfl⟩ : ∃ f', fuel = f' + 1 := ⟨fuel - 1, by omega⟩
  have hu : Unbound s n → s.is_member (fuel + 1) n = .ok false := fun hu =>
    h.is_member_unbound hu h0 (h.not_mem_of_unbound hb hu)
  have ho : ∀ r2 T2, Shape ⟨r2, s.mem⟩ T2 → n ∈ T2.inorder →
      (∀ a ∈ T2.inorder, a ∉ T.inorder) → T2.height ≤ fuel + 1 →
      s.is_member (fuel + 1) n = .ok false :=
    fun r2 T2 h2 hn2 hd hf2 => h.is_member_other h2 hn2 hd hf2
  refine ⟨?_, hu, fun he => is_member_empty he h0, ho⟩
  rcases hn with hn | hn | ⟨r2, T2, h2, hn2, hd, hf2⟩
  · rw [h.is_member hn (by omega)]
    simp [hn]
  · rw [hu hn]
    simp [h.not_mem_of_unbound hb hn]
  · rw [ho r2 T2 h2 hn2 hd hf2]
    simp [hd n hn2]

theorem is_member_iff_in_order_witness :
    treeA.is_member 3 10 = .ok (decide (10 ∈ shape3.inorder)) ∧
    (Unbound treeA 10 → treeA.is_member 3 10 = .ok false) ∧
    (treeA.empty = true → treeA.is_member 3 10 = .ok false) ∧
    (∀ r2 T2, Shape ⟨r2, treeA.mem⟩ T2 → 10 ∈ T2.inorder →
      (∀ a ∈ T2.inorder, a ∉ shape3.inorder) → T2.height ≤ 3 →
      treeA.is_member 3 10 = .ok false) :=
  is_member_iff_in_order treeA shape3 3 10 shape_treeA rfl (by decide) (by decide)
    (Or.inr (Or.inr ⟨10, shapeB, shape_treeB, by decide, by decide, by decide⟩))

/-- C12: for two containers on one heap, `a.swap(b)` exchanges the two roots and
leaves every link and colour as it was, so the tree of `a` becomes the tree of `b`
and vice versa, membership and the validity check are exchanged with them, and a
second swap restores both containers. -/
theorem swap_exchanges_roots (a b : intrusive_tree) (Ta Tb : RBT) (lt : Nat → Nat → Bool)
    (fuel : Nat) (hm : a.mem = b.mem) (ha : Shape a Ta) (hb : Shape b Tb) :
    (a.swap b).1.root_ = b.root_ ∧ (a.swap b).2.root_ = a.root_ ∧
    (a.swap b).1.mem = a.mem ∧ (a.swap b).2.mem = b.mem ∧
    Shape (a.swap b).1 Tb ∧ Shape (a.swap b).2 Ta ∧
    (∀ n, (a.swap b).1.is_member fuel n = b.is_member fuel n ∧
      (a.swap b).2.is_member fuel n = a.is_member fuel n) ∧
    ((a.swap b).1.valid lt fuel = b.valid lt fuel ∧
      (a.swap b).2.valid lt fuel = a.valid lt fuel) ∧
    (a.swap b).1.swap (a.swap b).2 = (a, b) := by
  obtain ⟨ra, ma⟩ := a
  obtain ⟨rb, mb⟩ := b
  have hm' : ma = mb := hm
  subst hm'
  exact ⟨rfl, rfl, rfl, rfl, hb, ha, fun n => ⟨rfl, rfl⟩, ⟨rfl, rfl⟩, rfl⟩

theorem swap_exchanges_roots_witness :
    (treeA.swap treeB).1.root_ = treeB.root_ ∧ (treeA.swap treeB).2.root_ = treeA.root_ ∧
    (treeA.swap treeB).1.mem = treeA.mem ∧ (treeA.swap treeB).2.mem = treeB.mem ∧
    Shape (treeA.swap treeB).1 shapeB ∧ Shape (treeA.swap treeB).2 shape3 ∧
    (∀ n, (treeA.swap treeB).1.is_member 3 n = treeB.is_member 3 n ∧
      (treeA.swap treeB).2.is_member 3 n = treeA.is_member 3 n) ∧
    ((treeA.swap treeB).1.valid ltKey 3 = treeB.valid ltKey 3 ∧
      (treeA.swap treeB).2.valid ltKey 3 = treeA.valid ltKey 3) ∧
    (treeA.swap treeB).1.swap (treeA.swap treeB).2 = (treeA, treeB) :=
  swap_exchanges_roots treeA treeB shape3 shapeB ltKey 3 rfl shape_treeA shape_treeB

/-- C13: on a well-formed stack of non-null elements, `pop()` and `peek()` fail
exactly when the stack is empty, and `push(e)` of an element fails exactly when `e`
is bound; `peek()` on a non-empty stack returns the element the next `pop()` returns
(it is a read of `head` and has no effect on the stack). After pushing distinct
unbound elements `a`, `b`, `c`, three pops return `c`, `b`, `a` and a fourth pop
fails. -/
theorem stack_failures (s : intrusive_stack) (xs : List Nat) (e : Nat)
    (hc : Chain s.mem s.head xs) (h0 : ∀ x ∈ xs, x ≠ 0) (he : e ≠ intrusive_stack.bad) :
    (s.empty = true → s.pop = .error Err.assertion ∧ s.peek = .error Err.assertion) ∧
    (s.empty = false → ∃ t s', s.peek = .ok t ∧ s.pop = .ok (t, s')) ∧
    (s.bound e = true → s.push e = .error Err.assertion) ∧
    (s.bound e = false → ∃ s', s.push e = .ok s') ∧
    (∀ (m : Nat → Nat) (a b c : Nat), a ≠ b → a ≠ c → b ≠ c → a ≠ 0 → b ≠ 0 →
      a ≠ intrusive_stack.bad → b ≠ intrusive_stack.bad → c ≠ intrusive_stack.bad →
      m a = 0 → m b = 0 → m c = 0 →
      (intrusive_stack.run [.push a, .push b, .push c, .pop, .pop, .pop]
        (intrusive_stack.init m)).map Prod.fst = .ok [c, b, a] ∧
      intrusive_stack.run [.push a, .push b, .push c, .pop, .pop, .pop, .pop]
        (intrusive_stack.init m) = .error Err.assertion) := by
  refine ⟨fun hE => ?_, fun hE => ?_, fun hB => ?_, fun hB => ?_, ?_⟩
  · have hh : s.head = intrusive_stack.bad := by
      simpa [intrusive_stack.empty] using hE
    exact ⟨by rw [pop_eq]; simp [hh], by simp [intrusive_stack.peek, hE]⟩
  · have hh : s.head ≠ intrusive_stack.bad := by
      simpa [intrusive_stack.empty] using hE
    have hne : xs ≠ [] := fun e' => hh (hc.empty_iff.2 e')
    have hb : s.mem s.head ≠ 0 := by
      cases xs with
      | nil => exact absurd rfl hne
      | cons x xs =>
        obtain ⟨h1, -, h3, -⟩ := hc
        rw [h1]; exact h3
    exact ⟨s.head, _, by simp [intrusive_stack.peek, hE], by rw [pop_eq, if_pos ⟨hh, hb⟩]⟩
  · have hm : s.mem e ≠ 0 := by simpa [intrusive_stack.bound] using hB
    rw [push_eq]
    simp [hm]
  · have hm : s.mem e = 0 := by simpa [intrusive_stack.bound] using hB
    exact ⟨_, by rw [push_eq, if_pos ⟨hm, hc.head_ne_zero h0, he⟩]⟩
  · intro m a b c hab hac hbc ha0 hb0 ha hb hcb ma mb mc
    have hbad : intrusive_stack.bad ≠ 0 := by decide
    simp only [intrusive_stack.run, intrusive_stack.init, push_eq, pop_eq, wrp, bind_ok, pure_ok,
      ma, mb, mc, if_neg hab, if_neg hac, if_neg hbc, if_neg (Ne.symm hab), if_neg (Ne.symm hac),
      if_neg (Ne.symm hbc), if_true, ne_eq, hbad, not_false_eq_true, and_self, ha, hb, hcb,
      ha0, hb0, Except.map, true_and, and_true, not_true_eq_false, if_false, false_and,
      bind_error]

theorem stack_failures_witness :
    ((⟨4, wrp (wrp (fun _ => 0) 2 intrusive_stack.bad) 4 2⟩ : intrusive_stack).empty = true →
      (⟨4, wrp (wrp (fun _ => 0) 2 intrusive_stack.bad) 4 2⟩ : intrusive_stack).pop =
        .error Err.assertion ∧
      (⟨4, wrp (wrp (fun _ => 0) 2 intrusive_stack.bad) 4 2⟩ : intrusive_stack).peek =
        .error Err.assertion) ∧
    ((⟨4, wrp (wrp (fun _ => 0) 2 intrusive_stack.bad) 4 2⟩ : intrusive_stack).empty = false →
      ∃ t s', (⟨4, wrp (wrp (fun _ => 0) 2 intrusive_stack.bad) 4 2⟩ : intrusive_stack).peek =
          .ok t ∧
        (⟨4, wrp (wrp (fun _ => 0) 2 intrusive_stack.bad) 4 2⟩ : intrusive_stack).pop =
          .ok (t, s')) ∧
    ((⟨4, wrp (wrp (fun _ => 0) 2 intrusive_stack.bad) 4 2⟩ : intrusive_stack).bound 6 = true →
      (⟨4, wrp (wrp (fun _ => 0) 2 intrusive_stack.bad) 4 2⟩ : intrusive_stack).push 6 =
        .error Err.assertion) ∧
    ((⟨4, wrp (wrp (fun _ => 0) 2 intrusive_stack.bad) 4 2⟩ : intrusive_stack).bound 6 = false →
      ∃ s', (⟨4, wrp (wrp (fun _ => 0) 2 intrusive_stack.bad) 4 2⟩ : intrusive_stack).push 6 =
        .ok s') ∧
    (∀ (m : Nat → Nat) (a b c : Nat), a ≠ b → a ≠ c → b ≠ c → a ≠ 0 → b ≠ 0 →
      a ≠ intrusive_stack.bad → b ≠ intrusive_stack.bad → c ≠ intrusive_stack.bad →
      m a = 0 → m b = 0 → m c = 0 →
      (intrusive_stack.run [.push a, .push b, .push c, .pop, .pop, .pop]
        (intrusive_stack.init m)).map Prod.fst = .ok [c, b, a] ∧
      intrusive_stack.run [.push a, .push b, .push c, .pop, .pop, .pop, .pop]
        (intrusive_stack.init m) = .error Err.assertion) :=
  stack_failures ⟨4, wrp (wrp (fun _ => 0) 2 intrusive_stack.bad) 4 2⟩ [4, 2] 6
    ⟨rfl, by decide, by decide, rfl, by decide, by decide, rfl⟩ (by decide) (by decide)

/-- C14: after any successful sequence of `push`/`pop` calls on a stack that started
empty with all elements unbound, the elements reachable from `head` along the links
form a chain ending at the sentinel in which every element occurs once, and an
element is bound exactly when it is on that chain. A successful `push(e)` leaves `e`
bound with its link holding the previous head (the sentinel when the stack was
empty), and a successful `pop()` leaves the popped element unbound. -/
theorem stack_bound_iff_reachable (ops : List StackOp) (r : List Nat × intrusive_stack)
    (h : intrusive_stack.run ops (intrusive_stack.init (fun _ => 0)) = .ok r) :
    ∃ st : List Nat, Chain r.2.mem r.2.head st ∧ st.Nodup ∧
      (∀ t, r.2.bound t = true ↔ t ∈ st) ∧
      (∀ e s', r.2.push e = .ok s' → s'.bound e = true ∧ s'.mem e = r.2.head ∧
        (r.2.empty = true → s'.mem e = intrusive_stack.bad) ∧
        Chain s'.mem s'.head (e :: st)) ∧
      (∀ t s', r.2.pop = .ok (t, s') → s'.bound t = false ∧
        ∃ st', st = t :: st' ∧ Chain s'.mem s'.head st') := by
  obtain ⟨st, hc, hnd, hu⟩ := @run_links ops (intrusive_stack.init (fun _ => 0)) [] r
    rfl List.nodup_nil (fun _ _ => rfl) h
  refine ⟨st, hc, hnd, fun t => ?_, fun e s' hp => ?_, fun t s' hp => ?_⟩
  · constructor
    · intro hb
      by_contra hn
      simp [intrusive_stack.bound, hu t hn] at hb
    · intro ht
      simp [intrusive_stack.bound, hc.bound t ht]
  · obtain ⟨-, h2, h3, -⟩ := push_links hu hp
    obtain ⟨⟨-, -, h4, -⟩, -⟩ := push_chain hc hnd hp
    refine ⟨?_, h2, fun hE => ?_, (push_chain hc hnd hp).1⟩
    · simp [intrusive_stack.bound, h4]
    · rw [h2]
      simpa [intrusive_stack.empty] using hE
  · obtain ⟨-, h2, -⟩ := pop_links hu hp
    obtain ⟨st', e1, hc', -⟩ := pop_chain hc hnd hp
    exact ⟨by simp [intrusive_stack.bound, h2], st', e1, hc'⟩

theorem stack_bound_iff_reachable_witness :
    ∃ st : List Nat, Chain (wrp (wrp (wrp (fun _ => 0) 2 intrusive_stack.bad) 4 2) 4 0) 2 st ∧
      st.Nodup ∧
      (∀ t, (⟨2, wrp (wrp (wrp (fun _ => 0) 2 intrusive_stack.bad) 4 2) 4 0⟩ :
        intrusive_stack).bound t = true ↔ t ∈ st) ∧
      (∀ e s', (⟨2, wrp (wrp (wrp (fun _ => 0) 2 intrusive_stack.bad) 4 2) 4 0⟩ :
          intrusive_stack).push e = .ok s' →
        s'.bound e = true ∧ s'.mem e = 2 ∧
        ((⟨2, wrp (wrp (wrp (fun _ => 0) 2 intrusive_stack.bad) 4 2) 4 0⟩ :
          intrusive_stack).empty = true → s'.mem e = intrusive_stack.bad) ∧
        Chain s'.mem s'.head (e :: st)) ∧
      (∀ t s', (⟨2, wrp (wrp (wrp (fun _ => 0) 2 intrusive_stack.bad) 4 2) 4 0⟩ :
          intrusive_stack).pop = .ok (t, s') →
        s'.bound t = false ∧ ∃ st', st = t :: st' ∧ Chain s'.mem s'.head st') :=
  stack_bound_iff_reachable [.push 2, .push 4, .pop]
    ([4], ⟨2, wrp (wrp (wrp (fun _ => 0) 2 intrusive_stack.bad) 4 2) 4 0⟩) rfl

/-! ## Rejected calls and the ends of the sequence -/

/-- C15: on a valid container, `insert(e)` of a bound element fails an assertion, and
so does `remove(e)` when the container is empty, when `e` is unbound, and when `e` is
a member of a different container. In the run that keeps the heap, each of these
calls stops at a failed assertion with the container and every link exactly as they
were at entry: nothing has been written. -/
theorem rejected_calls (lt : Nat → Nat → Bool) (s : intrusive_tree) (T : RBT) (fuel : Nat)
    (i : Int) (e : Nat) (h : Shape s T) (hrb : T.redBlack) (ho : T.ordered lt)
    (hf : T.height < fuel) (h0 : e ≠ 0) :
    (s.is_bound e = .ok true →
      Traced.insert lt s fuel e = .error (Err.assertion, s) ∧
      s.insert lt fuel e = .error Err.assertion) ∧
    ((s.empty = true ∨ Unbound s e ∨ ∃ r2 T2, Shape ⟨r2, s.mem⟩ T2 ∧ e ∈ T2.inorder ∧
        (∀ a ∈ T2.inorder, a ∉ T.inorder) ∧ T2.height ≤ fuel) →
      Traced.remove lt s fuel i e = .error (Err.assertion, s) ∧
      s.remove lt fuel i e = .error Err.assertion) := by
  have hv : s.valid lt fuel = .ok true := h.valid hrb ho hf
  constructor
  · intro hb
    have ht := @insert_bound_rejected lt s fuel e hv hb
    refine ⟨ht, ?_⟩
    rw [← insert_forget]
    exact forget_of_error ht
  · intro hc
    have key : (do check (!s.empty); check (← s.is_bound e); check (← s.is_member fuel e) :
        M Unit) = .error Err.assertion := by
      rcases hc with hc | hc | ⟨r2, T2, h2, hn2, hd, hf2⟩
      · simp only [hc, Bool.not_true, check_false, bind_error]
      · cases hE : s.empty
        · simp only [Bool.not_false, check_true, bind_ok, hc.is_bound_false h0, check_false,
            bind_error]
        · simp only [Bool.not_true, check_false, bind_error]
      · cases hE : s.empty
        · have hm : s.is_member fuel e = .ok false := h.is_member_other h2 hn2 hd hf2
          have hbd : s.is_bound e = .ok true ∨ s.is_bound e = .ok false ∨
              s.is_bound e = .error Err.assertion := by
            simp only [intrusive_tree.is_bound, bne_of_ne h0, check_true, bind_ok, Link.bound]
            cases ((s.mem e).p != 0 || ((s.mem e).l == 0 && (s.mem e).r == 0)) <;>
              cases ((s.mem e).p != 0) <;> simp
          rcases hbd with hb | hb | hb <;>
            simp only [Bool.not_false, check_true, bind_ok, hb, hm, check_false, bind_error]
        · simp only [Bool.not_true, check_false, bind_error]
    have ht := @remove_entry_rejected lt s fuel e i hv key
    refine ⟨ht, ?_⟩
    rw [← remove_forget]
    exact forget_of_error ht

theorem rejected_calls_witness :
    (Traced.insert ltKey treeA 4 10 = .error (Err.assertion, treeA) ∧
      treeA.insert ltKey 4 10 = .error Err.assertion) ∧
    (Traced.remove ltKey treeA 4 0 10 = .error (Err.assertion, treeA) ∧
      treeA.remove ltKey 4 0 10 = .error Err.assertion) :=
  ⟨(rejected_calls ltKey treeA shape3 4 0 10 shape_treeA redBlack_shape3 ordered_shape3
      (by decide) (by decide)).1 (by decide),
    (rejected_calls ltKey treeA shape3 4 0 10 shape_treeA redBlack_shape3 ordered_shape3
      (by decide) (by decide)).2
      (Or.inr (Or.inr ⟨10, shapeB, shape_treeB, by decide, by decide, by decide⟩))⟩

/-- C17: for the last member `n` of the in-order sequence, `max()` returns `n`, and
`next(n)` returns null when `n` is not the root but fails the assertion of `is_left`
when `n` is the root; symmetrically `min()` returns the first member `m`, and
`prev(m)` returns null when `m` is not the root but fails the assertion of
`is_right` when it is. -/
theorem next_max_prev_min (s : intrusive_tree) (T : RBT) (fuel n m : Nat) (xs ys : List Nat)
    (h : Shape s T) (hf : T.height ≤ fuel) (hn : T.inorder = xs ++ [n])
    (hm : T.inorder = m :: ys) :
    s.max fuel = .ok n ∧
    s.next fuel n = (if n = s.root_ then .error Err.assertion else .ok 0) ∧
    s.min fuel = .ok m ∧
    s.prev fuel m = (if m = s.root_ then .error Err.assertion else .ok 0) := by
  refine ⟨h.max_eq hn hf, ?_, h.min_eq hm hf, ?_⟩
  · rcases h.next_cases (n := n) (by rw [hn]; simp) hf with ⟨as, b, bs, e, -⟩ | ⟨as, -, e⟩
    · exfalso
      have hnd := h.nodup
      rw [hn] at e
      have e2 : xs ++ [n] = (as ++ [n]) ++ (b :: bs) := by rw [e]; simp
      have hl := congrArg List.length e2
      have : n ∈ b :: bs := by
        have hx : xs = (as ++ [n]) ++ (b :: bs).dropLast := by
          have := congrArg List.dropLast e2
          rw [List.dropLast_concat, List.dropLast_append_of_ne_nil _ (by simp)] at this
          exact this
        have e3 : (b :: bs).dropLast ++ [n] = b :: bs := by
          rw [hx] at e2
          simp only [List.append_assoc] at e2
          exact List.append_cancel_left (List.append_cancel_left e2)
        rw [← e3]; simp
      rw [hn, e2] at hnd
      exact (List.nodup_append.1 hnd).2.2 (by simp) this
    · exact e
  · rcases h.prev_cases (n := m) (by rw [hm]; simp) hf with ⟨as, b, bs, e, -⟩ | ⟨as, -, e⟩
    · exfalso
      have hnd := h.nodup
      rw [hm] at e
      cases as with
      | nil =>
        simp only [List.nil_append, List.cons.injEq] at e
        rw [hm, e.2] at hnd
        rw [e.1] at hnd
        simp at hnd
      | cons a as =>
        simp only [List.cons_append, List.cons.injEq] at e
        rw [hm, e.2] at hnd
        simp at hnd
    · exact e

theorem next_max_prev_min_witness :
    tree1.max 3 = .ok 4 ∧ tree1.next 3 4 = .error Err.assertion ∧
    tree1.min 3 = .ok 4 ∧ tree1.prev 3 4 = .error Err.assertion :=
  next_max_prev_min tree1 (.node .nil 4 true .nil) 3 4 4 [] [] shape_tree1 (by decide) rfl rfl

end Oco

namespace Oco

open RBT intrusive_tree

/-! ## The validity check, the alternation of `remove`, height and stability -/

theorem strictWeak_ltCoarse : StrictWeak ltCoarse where
  irrefl := fun a => by simp [ltCoarse]
  trans := fun a b c h1 h2 => by
    simp only [ltCoarse, decide_eq_true_eq] at h1 h2 ⊢; omega
  ntrans := fun a b c h1 h2 => by
    simp only [ltCoarse, decide_eq_false_iff_not] at h1 h2 ⊢; omega

theorem ordered_shape3_coarse : shape3.ordered ltCoarse := by
  unfold ordered; decide

theorem shape_tree4 : Shape tree4 shape4 :=
  ⟨rfl, ⟨rfl, ⟨rfl, trivial, ⟨rfl, trivial, trivial⟩⟩, ⟨rfl, trivial, trivial⟩⟩,
    by decide, by decide⟩

/-- C16 as stated fails: on the container `tree4` (keys `5` at the root, `3` and `8`
below it, `10` as right child of `3`) `valid()` returns true, although the element
with key `10` lies in the left subtree of the root with key `5`, the root is before
it, and the in-order sequence `3, 10, 5, 8` is not ordered. -/
theorem valid_not_ordered :
    tree4.valid ltKey 4 = .ok true ∧ Shape tree4 shape4 ∧
    20 ∈ (RBT.node .nil 6 true (.node .nil 20 false .nil)).inorder ∧ ltKey 10 20 = true ∧
    shape4.inorder = [6, 20, 10, 16] ∧ ¬ shape4.ordered ltKey := by
  refine ⟨by decide, shape_tree4, by decide, by decide, by decide, ?_⟩
  unfold RBT.ordered
  decide

/-- C16 (amended): if `valid()` returns true then the root is black, no red node has
a red child, the black height is equal on both sides of every node, and the
predicate holds between every node and its two children: the node is not before its
left child and its right child is not before the node. -/
theorem valid_implies_local (lt : Nat → Nat → Bool) (s : intrusive_tree) (T : RBT)
    (fuel : Nat) (h : Shape s T) (hv : s.valid lt fuel = .ok true) :
    T.isBlack = true ∧ T.noRedRed ∧ T.balanced ∧ T.localOrdered lt := by
  obtain ⟨⟨hb, nn, bb⟩, oo⟩ := h.valid_inv hv
  exact ⟨hb, nn, bb, oo⟩

theorem valid_implies_local_witness :
    shape4.isBlack = true ∧ shape4.noRedRed ∧ shape4.balanced ∧ shape4.localOrdered ltKey :=
  valid_implies_local ltKey tree4 shape4 4 shape_tree4 (by decide)

/-- C18: when `c` two-children removals have advanced the counter of `remove` from
`0`, `remove(e)` of a member with two children is the `c + 1`-th such removal: it
advances the counter once more and swaps `e` with its in-order predecessor when
`c + 1` is odd and with its in-order successor when `c + 1` is even; `remove(e)` of a
member with fewer than two children leaves the counter as it is and swaps
nothing. -/
theorem remove_alternates (lt : Nat → Nat → Bool) (s : intrusive_tree) (T : RBT)
    (e fuel c : Nat) (h : Shape s T) (hrb : T.redBlack) (ho : T.ordered lt)
    (he : e ∈ T.inorder) (hf : T.size < fuel) :
    ∃ s' i', s.remove lt fuel (Nat.iterate incr c 0) e = .ok (e, i', s') ∧
      (((s.mem e).l ≠ 0 ∧ (s.mem e).r ≠ 0) → i' = Nat.iterate incr (c + 1) 0 ∧
        ∃ bar s1, s.node_swap e bar = .ok s1 ∧ remove_tail lt s1 fuel e = .ok s' ∧
          ((c + 1) % 2 = 1 → ∃ A B, T.inorder = A ++ bar :: e :: B) ∧
          ((c + 1) % 2 = 0 → ∃ A B, T.inorder = A ++ e :: bar :: B)) ∧
      (¬((s.mem e).l ≠ 0 ∧ (s.mem e).r ≠ 0) →
        i' = Nat.iterate incr c 0 ∧ remove_tail lt s fuel e = .ok s') := by
  obtain ⟨s', i', e1, h2, h1⟩ := remove_partner (Nat.iterate incr c 0) h hrb ho he hf
  have hi : incr (Nat.iterate incr c 0) = Nat.iterate incr (c + 1) 0 :=
    (Function.iterate_succ_apply' incr c 0).symm
  have hp := iterate_incr_emod (c + 1)
  refine ⟨s', i', e1, fun hyes => ?_, h1⟩
  obtain ⟨ei, bar, s1, n1, n2, hodd, hev⟩ := h2 hyes
  rw [hi] at ei hodd hev
  push_cast at hp
  refine ⟨ei, bar, s1, n1, n2, fun hk => (hodd (by omega)).2, fun hk => (hev (by omega)).2⟩

theorem remove_alternates_witness :
    ∃ s' i', tree3.remove ltKey 4 (Nat.iterate incr 0 0) 4 = .ok (4, i', s') ∧
      (((tree3.mem 4).l ≠ 0 ∧ (tree3.mem 4).r ≠ 0) → i' = Nat.iterate incr (0 + 1) 0 ∧
        ∃ bar s1, tree3.node_swap 4 bar = .ok s1 ∧ remove_tail ltKey s1 4 4 = .ok s' ∧
          ((0 + 1) % 2 = 1 → ∃ A B, shape3.inorder = A ++ bar :: 4 :: B) ∧
          ((0 + 1) % 2 = 0 → ∃ A B, shape3.inorder = A ++ 4 :: bar :: B)) ∧
      (¬((tree3.mem 4).l ≠ 0 ∧ (tree3.mem 4).r ≠ 0) →
        i' = Nat.iterate incr 0 0 ∧ remove_tail ltKey tree3 4 4 = .ok s') :=
  remove_alternates ltKey tree3 shape3 4 4 0 shape_tree3 redBlack_shape3 ordered_shape3
    (by decide) (by decide)

/-- C19: every tree reached from the empty container by a sequence of `insert` and
`remove` calls that all succeed has `2 ^ h ≤ (n + 1) ^ 2` for its height `h` and its
number of nodes `n`, that is `h ≤ 2 * log2 (n + 1)`. Hence with any number `g` of
steps such that `(n + 1) ^ 2 ≤ 2 ^ g`, every node has at most `g` nodes on its path
to the root, the upward walk of `is_member` ends within `g` steps for every member,
`next` and `prev` do not run out of `g` steps, the descents of `min()` and `max()`
end within `g` steps, and the descent of `insert` passes at most `g` nodes. -/
theorem height_logarithmic (lt : Nat → Nat → Bool) (sw : StrictWeak lt) (ops : List TreeOp)
    (fuel : Nat) (i : Int) (hev : ∀ op ∈ ops, op.elem % 2 = 0) (hf : ops.length + 1 < fuel)
    (h : (run_ops lt fuel ops i tree0).isOk = true) :
    ∃ r T, run_ops lt fuel ops i tree0 = .ok r ∧ Shape r.2 T ∧ T.redBlack ∧
      2 ^ T.height ≤ (T.size + 1) ^ 2 ∧
      ∀ g, (T.size + 1) ^ 2 ≤ 2 ^ g →
        T.height ≤ g ∧
        (∀ l a c r' k, T = plug (node l a c r') k → k.length + 1 ≤ g) ∧
        (∀ a ∈ T.inorder, r.2.is_member g a = .ok true ∧
          r.2.next g a ≠ .error Err.fuel ∧ r.2.prev g a ≠ .error Err.fuel) ∧
        (T ≠ .nil → ∃ x y, r.2.min g = .ok x ∧ r.2.max g = .ok y) ∧
        (∀ e, (descend lt e T []).length ≤ g) := by
  cases hr : run_ops lt fuel ops i tree0 with
  | error err => rw [hr] at h; simp [Except.isOk, Except.toBool] at h
  | ok r =>
    have hf0 : RBT.nil.size + ops.length + 1 < fuel := by simp only [size]; omega
    obtain ⟨T, hS, hrb, -, -, -⟩ := run_ops_ok sw fuel ops i shape_tree0
      ⟨rfl, trivial, trivial⟩ List.Pairwise.nil (fun a _ => rfl) hev hf0 hr
    refine ⟨r, T, rfl, hS, hrb, pow_height_le T hrb, fun g hg => ?_⟩
    have hh : T.height ≤ g := height_le_of_pow hrb hg
    refine ⟨hh, fun l a c r' k hT => ?_, fun a ha => ⟨hS.is_member ha hh, ?_, ?_⟩,
      fun hne => ?_, fun e => ?_⟩
    · have := length_add_height_le_plug k (node l a c r')
      rw [← hT] at this
      simp only [height] at this
      omega
    · rcases hS.next_cases ha hh with ⟨_, m, _, -, e1⟩ | ⟨_, -, e1⟩
      · rw [e1]; simp
      · rw [e1]; split <;> simp
    · rcases hS.prev_cases ha hh with ⟨_, m, _, -, e1⟩ | ⟨_, -, e1⟩
      · rw [e1]; simp
      · rw [e1]; split <;> simp
    · cases hio : T.inorder with
      | nil => exact absurd (eq_nil_of_inorder hio) hne
      | cons x rest =>
        have hne' : T.inorder ≠ [] := by rw [hio]; simp
        refine ⟨x, T.inorder.getLast hne', hS.min_eq hio hh, ?_⟩
        exact hS.max_eq (List.dropLast_append_getLast hne').symm hh
    · have := length_descend lt e T []
      simp only [List.length_nil, Nat.add_zero] at this
      omega

theorem height_logarithmic_witness :
    ∃ r T, run_ops ltKey 6 [.insert 2, .insert 4, .insert 6, .remove 4] 0 tree0 = .ok r ∧
      Shape r.2 T ∧ T.redBlack ∧ 2 ^ T.height ≤ (T.size + 1) ^ 2 ∧
      ∀ g, (T.size + 1) ^ 2 ≤ 2 ^ g →
        T.height ≤ g ∧
        (∀ l a c r' k, T = plug (node l a c r') k → k.length + 1 ≤ g) ∧
        (∀ a ∈ T.inorder, r.2.is_member g a = .ok true ∧
          r.2.next g a ≠ .error Err.fuel ∧ r.2.prev g a ≠ .error Err.fuel) ∧
        (T ≠ .nil → ∃ x y, r.2.min g = .ok x ∧ r.2.max g = .ok y) ∧
        (∀ e, (descend ltKey e T []).length ≤ g) :=
  height_logarithmic ltKey strictWeak_ltKey [.insert 2, .insert 4, .insert 6, .remove 4] 6 0
    (by decide) (by decide) (by decide)

/-- C20: `insert(e)` into a valid container puts `e` directly after the members `x`
with `e` not before `x` and directly before the members `e` is before: the old
in-order sequence splits into `xs ++ ys` with exactly the former in `xs` and the
latter in `ys`, and the new one is `xs ++ e :: ys`, the stable insertion of `e`. So a
member that ties with `e` precedes `e`, two old members keep their relative order, a
later `remove` of any member deletes it from the sequence and leaves the relative
order of all others, and of the elements inserted one after the other by a series
of insertions, one inserted later that is not before an earlier one comes behind
it. -/
theorem insert_stable (lt : Nat → Nat → Bool) (sw : StrictWeak lt) (s : intrusive_tree)
    (T : RBT) (e fuel : Nat) (h : Shape s T) (hrb : T.redBlack) (ho : T.ordered lt)
    (he : Unbound s e) (he0 : e ≠ 0) (he2 : e % 2 = 0) (hf : T.size + 2 < fuel) :
    (∃ s' T' xs ys, s.insert lt fuel e = .ok s' ∧ Shape s' T' ∧
      T.inorder = xs ++ ys ∧ T'.inorder = xs ++ e :: ys ∧
      T'.inorder = stableInsert lt e T.inorder ∧
      (∀ x ∈ T.inorder, x ∈ xs ↔ lt e x = false) ∧
      (∀ y ∈ T.inorder, y ∈ ys ↔ lt e y = true) ∧
      (∀ x ∈ T.inorder, lt e x = false → [x, e].Sublist T'.inorder) ∧
      (∀ y ∈ T.inorder, lt e y = true → [e, y].Sublist T'.inorder) ∧
      (∀ a b, [a, b].Sublist T.inorder → [a, b].Sublist T'.inorder) ∧
      (∀ (i : Int) (d : Nat), d ∈ T'.inorder →
        ∃ s'' T'' j us vs, s'.remove lt fuel i d = .ok (d, j, s'') ∧ Shape s'' T'' ∧
          T'.inorder = us ++ d :: vs ∧ T''.inorder = us ++ vs ∧
          T''.inorder.Sublist T'.inorder)) ∧
    (∀ (es : List Nat) (g : Nat), (∀ x ∈ es, Unbound s x ∧ x ≠ 0 ∧ x % 2 = 0) → es.Nodup →
      T.size + es.length < g →
      ∃ s2 T2, insert_all lt g es s = .ok s2 ∧ Shape s2 T2 ∧
        T2.inorder = es.foldl (fun L x => stableInsert lt x L) T.inorder ∧
        (∀ a b, [a, b].Sublist T.inorder → [a, b].Sublist T2.inorder) ∧
        (∀ a b, [a, b].Sublist es → lt b a = false → [a, b].Sublist T2.inorder)) := by
  have hf1 : T.size + 1 < fuel := by omega
  obtain ⟨s', T', e1, hS', rb', ho', ⟨xs, ys, hT, hT', hxs, hys⟩, -⟩ :=
    insert_spec sw h hrb ho he he0 he2 hf1
  have hsz : T'.size = T.size + 1 := by
    rw [← length_inorder, ← length_inorder, hT, hT']
    simp only [List.length_append, List.length_cons]; omega
  have hin : ∀ x ∈ T.inorder, x ∈ xs ↔ lt e x = false := by
    intro x hx
    refine ⟨hxs x, fun hl => ?_⟩
    rw [hT] at hx
    rcases List.mem_append.1 hx with hx | hx
    · exact hx
    · rw [hys x hx] at hl; exact absurd hl (by decide)
  have hin2 : ∀ y ∈ T.inorder, y ∈ ys ↔ lt e y = true := by
    intro y hy
    refine ⟨hys y, fun hl => ?_⟩
    rw [hT] at hy
    rcases List.mem_append.1 hy with hy | hy
    · rw [hxs y hy] at hl; exact absurd hl (by decide)
    · exact hy
  refine ⟨⟨s', T', xs, ys, e1, hS', hT, hT', ?_, hin, hin2, ?_, ?_, ?_, ?_⟩, ?_⟩
  · rw [hT, hT', stableInsert_eq hxs hys]
  · intro x hx hl
    rw [hT']
    exact pair_sublist_left ((hin x hx).2 hl)
  · intro y hy hl
    rw [hT']
    exact pair_sublist_right ((hin2 y hy).2 hl)
  · intro a b hab
    rw [hT] at hab
    rw [hT']
    exact pair_sublist_insert hab
  · intro i d hd
    have hf2 : T'.size < fuel := by omega
    obtain ⟨s'', T'', j, r1, hS'', -, -, ⟨us, vs, hu, hv⟩, -, -⟩ :=
      remove_spec i hS' rb' ho' hd hf2
    refine ⟨s'', T'', j, us, vs, r1, hS'', hu, hv, ?_⟩
    rw [hu, hv]
    exact List.Sublist.append (List.Sublist.refl us) (List.sublist_cons_self d vs)
  · intro es g hes hnd hg
    obtain ⟨s2, T2, e2, hS2, -, -, hio, p1, -, p3, -⟩ :=
      insert_all_stable sw g es h hrb ho hes hnd hg
    exact ⟨s2, T2, e2, hS2, hio, p1, p3⟩

theorem insert_stable_witness :
    (∃ s' T' xs ys, tree3.insert ltCoarse 6 12 = .ok s' ∧ Shape s' T' ∧
      shape3.inorder = xs ++ ys ∧ T'.inorder = xs ++ 12 :: ys ∧
      T'.inorder = stableInsert ltCoarse 12 shape3.inorder ∧
      (∀ x ∈ shape3.inorder, x ∈ xs ↔ ltCoarse 12 x = false) ∧
      (∀ y ∈ shape3.inorder, y ∈ ys ↔ ltCoarse 12 y = true) ∧
      (∀ x ∈ shape3.inorder, ltCoarse 12 x = false → [x, 12].Sublist T'.inorder) ∧
      (∀ y ∈ shape3.inorder, ltCoarse 12 y = true → [12, y].Sublist T'.inorder) ∧
      (∀ a b, [a, b].Sublist shape3.inorder → [a, b].Sublist T'.inorder) ∧
      (∀ (i : Int) (d : Nat), d ∈ T'.inorder →
        ∃ s'' T'' j us vs, s'.remove ltCoarse 6 i d = .ok (d, j, s'') ∧ Shape s'' T'' ∧
          T'.inorder = us ++ d :: vs ∧ T''.inorder = us ++ vs ∧
          T''.inorder.Sublist T'.inorder)) ∧
    (∀ (es : List Nat) (g : Nat), (∀ x ∈ es, Unbound tree3 x ∧ x ≠ 0 ∧ x % 2 = 0) →
      es.Nodup → shape3.size + es.length < g →
      ∃ s2 T2, insert_all ltCoarse g es tree3 = .ok s2 ∧ Shape s2 T2 ∧
        T2.inorder = es.foldl (fun L x => stableInsert ltCoarse x L) shape3.inorder ∧
        (∀ a b, [a, b].Sublist shape3.inorder → [a, b].Sublist T2.inorder) ∧
        (∀ a b, [a, b].Sublist es → ltCoarse b a = false → [a, b].Sublist T2.inorder)) :=
  insert_stable ltCoarse strictWeak_ltCoarse tree3 shape3 12 6 shape_tree3 redBlack_shape3
    ordered_shape3_coarse rfl (by decide) (by decide) (by decide)

end Oco
